import Mathlib

/-!
# A shallow embedding of the `orderbook` package

The Go package keeps its orders and price limits in heap objects that point at
each other (`*order`, `*limitPrice`).  The embedding keeps that heap explicit:
an object is addressed by its index in a list of objects, a pointer is an
optional address (`none` is `nil`), and every function passes the heap along.
Dereferencing `nil` is the runtime panic of Go and is the result
`Except.error Fault.nilDeref`; loops and recursions whose length is not known
in advance take a fuel argument and give `Fault.outOfFuel` when it runs out.

Go's `uint` is `Nat` here: every subtraction of the source is guarded by a
comparison (`size <= remaining`, `matchedQty != size` with `matchedQty <= size`),
so no operation of the package wraps around.  `int` and `int8` are `Int`.
-/

namespace Orderbook

/-! ## Data model -/

/-- Pointer into one of the two object lists; `none` is Go's `nil`. -/
abbrev Ptr := Option Nat

/-- Ways in which a call does not return: a `nil` pointer is dereferenced, an
index or a length is out of range, or the model runs out of fuel. -/
inductive Fault where
  | nilDeref
  | outOfFuel
  | outOfRange
deriving DecidableEq, Repr

/-- `OrderID` of order.go. -/
abbrev OrderID := Int

/-- `Side` of order.go: a Go `bool`. -/
abbrev Side := Bool

/-- `Bid` of order.go. -/
def Bid : Side := false

/-- `Ask` of order.go. -/
def Ask : Side := true

/-- `Execution` of execution.go. -/
structure Execution where
  OrderID : OrderID
  FilledQuantity : Nat
  RemainingQuantity : Nat
deriving DecidableEq, Repr

/-- `order` of order.go. -/
structure order where
  id : OrderID
  side : Side
  price : Nat
  size : Nat
  next : Ptr
  prev : Ptr
deriving DecidableEq, Repr

/-- `orderList` of orderlist.go. -/
structure orderList where
  first : Ptr
  last : Ptr
  size : Int
deriving DecidableEq, Repr

/-- `limitPrice` of limitprice.go; `children0` and `children1` are the two
cells of the array `children`. -/
structure limitPrice where
  price : Nat
  orders : orderList
  parent : Ptr
  children0 : Ptr
  children1 : Ptr
  b : Int
deriving DecidableEq, Repr

/-- `limitPriceTree` of tree.go. -/
structure limitPriceTree where
  root : Ptr
  size : Int
deriving DecidableEq, Repr

/-- `Book` of book.go, together with the objects its pointers refer to:
`orderHeap` holds every `order` allocated so far and `limitHeap` every
`limitPrice`.  The three Go maps are association lists with unique keys. -/
structure Book where
  bidTree : limitPriceTree
  askTree : limitPriceTree
  bestBid : Ptr
  bestAsk : Ptr
  orderMap : List (OrderID × Nat)
  bidMap : List (Nat × Nat)
  askMap : List (Nat × Nat)
  orderHeap : List order
  limitHeap : List limitPrice
deriving DecidableEq, Repr

/-! ## Heap and map access -/

/-- Read the object a pointer refers to; `nil` (and an address that was never
allocated) panics. -/
def deref {α : Type} (heap : List α) (p : Ptr) : Except Fault (Nat × α) :=
  match p with
  | none => .error .nilDeref
  | some a =>
    match heap[a]? with
    | none => .error .nilDeref
    | some x => .ok (a, x)

/-- Overwrite the object at an address. -/
def store {α : Type} (heap : List α) (a : Nat) (x : α) : List α :=
  heap.set a x

/-- Map read `m[k]`. -/
def mapGet {κ : Type} [DecidableEq κ] (m : List (κ × Nat)) (k : κ) : Option Nat :=
  match m with
  | [] => none
  | (k', v) :: rest => if k' = k then some v else mapGet rest k

/-- Builtin `delete(m, k)`. -/
def mapDelete {κ : Type} [DecidableEq κ] (m : List (κ × Nat)) (k : κ) : List (κ × Nat) :=
  m.filter (fun e => decide (e.1 ≠ k))

/-- Map write `m[k] = v`. -/
def mapSet {κ : Type} [DecidableEq κ] (m : List (κ × Nat)) (k : κ) (v : Nat) :
    List (κ × Nat) :=
  (k, v) :: mapDelete m k

/-- Cell `children[a]` of a limit, `a` being 0 or 1. -/
def limitPrice.children (l : limitPrice) (a : Nat) : Ptr :=
  if a = 0 then l.children0 else l.children1

/-- Assignment `l.children[a] = p`. -/
def limitPrice.setChildren (l : limitPrice) (a : Nat) (p : Ptr) : limitPrice :=
  if a = 0 then { l with children0 := p } else { l with children1 := p }

/-- The index `(c + 1) / 2` that tree.go computes from a direction `c`, which is
`-1` or `1` at every call: Go's division truncates. -/
def dirIndex (c : Int) : Nat :=
  (Int.tdiv (c + 1) 2).toNat

/-! ## orderlist.go -/

/-- `orderList.withinRange`. -/
def orderList.withinRange (list : orderList) (index : Int) : Bool :=
  decide (index ≥ 0) && decide (index < list.size)

/-- `orderList.add` for one order: the body of the `range` loop. -/
def orderList.add (heap : List order) (list : orderList) (o : Ptr) :
    Except Fault (List order × orderList) :=
  if list.size = 0 then
    .ok (heap, { list with first := o, last := o, size := list.size + 1 })
  else do
    let (la, l) ← deref heap list.last
    let heap := store heap la { l with next := o }
    .ok (heap, { list with last := o, size := list.size + 1 })

/-- `newOrderList` called with one order, as `addLimit` does. -/
def newOrderList (heap : List order) (o : Ptr) : Except Fault (List order × orderList) :=
  orderList.add heap { first := none, last := none, size := 0 } o

/-- `orderList.Clear`. -/
def orderList.Clear (_list : orderList) : orderList :=
  { first := none, last := none, size := 0 }

/-- `orderList.Size`. -/
def orderList.Size (list : orderList) : Int :=
  list.size

/-- `orderList.Empty`. -/
def orderList.Empty (list : orderList) : Bool :=
  decide (list.size = 0)

/-- The loop `for e := 0; e != index; e, element = e+1, element.next {}` run for
`k` rounds. -/
def walkNext (heap : List order) (element : Ptr) : Nat → Except Fault Ptr
  | 0 => .ok element
  | k + 1 => do
    let (_, e) ← deref heap element
    walkNext heap e.next k

/-- The loop `for e := list.size - 1; e != index; e, element = e-1, element.prev {}`
run for `k` rounds. -/
def walkPrev (heap : List order) (element : Ptr) : Nat → Except Fault Ptr
  | 0 => .ok element
  | k + 1 => do
    let (_, e) ← deref heap element
    walkPrev heap e.prev k

/-- The statements that `remove` and `removeID` share once `element` is found:
the four pointer updates and `list.size--`. -/
def orderList.unlink (heap : List order) (list : orderList) (element : Ptr) :
    Except Fault (List order × orderList) := do
  let list ←
    (if element = list.first then do
       let (_, e) ← deref heap element
       pure { list with first := e.next }
     else pure list)
  let list ←
    (if element = list.last then do
       let (_, e) ← deref heap element
       pure { list with last := e.prev }
     else pure list)
  let (_, e) ← deref heap element
  let heap ←
    (if e.prev ≠ none then do
       let (pa, p) ← deref heap e.prev
       pure (store heap pa { p with next := e.next })
     else pure heap)
  let (_, e) ← deref heap element
  let heap ←
    (if e.next ≠ none then do
       let (na, n) ← deref heap e.next
       pure (store heap na { n with prev := e.prev })
     else pure heap)
  .ok (heap, { list with size := list.size - 1 })

/-- `orderList.remove`. -/
def orderList.remove (heap : List order) (list : orderList) (index : Int) :
    Except Fault (List order × orderList) :=
  if !list.withinRange index then .ok (heap, list)
  else if list.size = 1 then .ok (heap, list.Clear)
  else do
    let element ←
      (if list.size - index < index then
         walkPrev heap list.last (list.size - 1 - index).toNat
       else
         walkNext heap list.first index.toNat)
    orderList.unlink heap list element

/-- The search loop of `removeID`: follow `next` until the id is found. -/
def findID (heap : List order) (id : OrderID) : Nat → Ptr → Except Fault Ptr
  | 0, _ => .error .outOfFuel
  | fuel + 1, element => do
    let (_, e) ← deref heap element
    if e.id = id then .ok element else findID heap id fuel e.next

/-- `orderList.removeID`. -/
def orderList.removeID (fuel : Nat) (heap : List order) (list : orderList) (id : OrderID) :
    Except Fault (List order × orderList) := do
  let element ← findID heap id fuel list.first
  orderList.unlink heap list element

/-! ## tree.go -/

/-- `compare`. -/
def compare (a b : Nat) : Int :=
  if a > b then 1 else if a < b then -1 else 0

/-- The `**limitPrice` arguments of tree.go: the address of the root cell of
the tree, or of the cell `children[a]` of a limit. -/
inductive Slot where
  | root
  | child (q : Nat) (a : Nat)
deriving DecidableEq, Repr

/-- The state the tree functions work on: the limits allocated so far and the
`limitPriceTree` itself. -/
structure TreeState where
  limits : List limitPrice
  tree : limitPriceTree
deriving DecidableEq, Repr

/-- Read `*qp`. -/
def readSlot (st : TreeState) (qp : Slot) : Except Fault Ptr :=
  match qp with
  | .root => .ok st.tree.root
  | .child q a => do
    let (_, n) ← deref st.limits (some q)
    .ok (n.children a)

/-- Assignment `*qp = p`. -/
def writeSlot (st : TreeState) (qp : Slot) (p : Ptr) : Except Fault TreeState :=
  match qp with
  | .root => .ok { st with tree := { st.tree with root := p } }
  | .child q a => do
    let (_, n) ← deref st.limits (some q)
    .ok { st with limits := store st.limits q (n.setChildren a p) }

/-- `rotate`. -/
def rotate (limits : List limitPrice) (c : Int) (s : Ptr) :
    Except Fault (List limitPrice × Ptr) := do
  let a := dirIndex c
  let (sa, sn) ← deref limits s
  let r := sn.children a
  let (_, rn) ← deref limits r
  let limits := store limits sa (sn.setChildren a (rn.children (a ^^^ 1)))
  let (_, sn) ← deref limits s
  let limits ←
    (if sn.children a ≠ none then do
       let (ca, cn) ← deref limits (sn.children a)
       pure (store limits ca { cn with parent := s })
     else pure limits)
  let (ra, rn) ← deref limits r
  let limits := store limits ra (rn.setChildren (a ^^^ 1) s)
  let (_, sn) ← deref limits s
  let (ra, rn) ← deref limits r
  let limits := store limits ra { rn with parent := sn.parent }
  let (sa, sn) ← deref limits s
  let limits := store limits sa { sn with parent := r }
  .ok (limits, r)

/-- `singlerot`. -/
def singlerot (limits : List limitPrice) (c : Int) (s : Ptr) :
    Except Fault (List limitPrice × Ptr) := do
  let (sa, sn) ← deref limits s
  let limits := store limits sa { sn with b := 0 }
  let (limits, s) ← rotate limits c s
  let (sa, sn) ← deref limits s
  let limits := store limits sa { sn with b := 0 }
  .ok (limits, s)

/-- `doublerot`. -/
def doublerot (limits : List limitPrice) (c : Int) (s : Ptr) :
    Except Fault (List limitPrice × Ptr) := do
  let a := dirIndex c
  let (_, sn) ← deref limits s
  let r := sn.children a
  let (limits, r') ← rotate limits (-c) (sn.children a)
  let (sa, sn) ← deref limits s
  let limits := store limits sa (sn.setChildren a r')
  let (limits, p) ← rotate limits c s
  let (_, pn) ← deref limits p
  let (sb, rb) : Int × Int :=
    if pn.b = c then (-c, 0) else if pn.b = -c then (0, c) else (0, 0)
  let (sa, sn) ← deref limits s
  let limits := store limits sa { sn with b := sb }
  let (ra, rn) ← deref limits r
  let limits := store limits ra { rn with b := rb }
  let (pa, pn) ← deref limits p
  let limits := store limits pa { pn with b := 0 }
  .ok (limits, p)

/-- `putFix`. -/
def putFix (st : TreeState) (c : Int) (t : Slot) : Except Fault (TreeState × Bool) := do
  let s ← readSlot st t
  let (sa, sn) ← deref st.limits s
  if sn.b = 0 then
    .ok ({ st with limits := store st.limits sa { sn with b := c } }, true)
  else if sn.b = -c then
    .ok ({ st with limits := store st.limits sa { sn with b := 0 } }, false)
  else do
    let (_, cn) ← deref st.limits (sn.children (dirIndex c))
    let (limits, s) ←
      (if cn.b = c then singlerot st.limits c s else doublerot st.limits c s)
    let st ← writeSlot { st with limits := limits } t s
    .ok (st, false)

/-- `removeFix`. -/
def removeFix (st : TreeState) (c : Int) (t : Slot) : Except Fault (TreeState × Bool) := do
  let s ← readSlot st t
  let (sa, sn) ← deref st.limits s
  if sn.b = 0 then
    .ok ({ st with limits := store st.limits sa { sn with b := c } }, false)
  else if sn.b = -c then
    .ok ({ st with limits := store st.limits sa { sn with b := 0 } }, true)
  else do
    let a := dirIndex c
    let (_, cn) ← deref st.limits (sn.children a)
    if cn.b = 0 then do
      let (limits, s) ← rotate st.limits c s
      let (sa, sn) ← deref limits s
      let limits := store limits sa { sn with b := -c }
      let st ← writeSlot { st with limits := limits } t s
      .ok (st, false)
    else do
      let (limits, s) ←
        (if cn.b = c then singlerot st.limits c s else doublerot st.limits c s)
      let st ← writeSlot { st with limits := limits } t s
      .ok (st, true)

/-- `limitPriceTree.put`. -/
def limitPriceTree.put : Nat → TreeState → Ptr → Ptr → Slot → Except Fault (TreeState × Bool)
  | 0, _, _, _, _ => .error .outOfFuel
  | fuel + 1, st, lim, p, qp => do
    let q ← readSlot st qp
    if q = none then do
      let st := { st with tree := { st.tree with size := st.tree.size + 1 } }
      let (la, ln) ← deref st.limits lim
      let st := { st with limits := store st.limits la { ln with parent := p } }
      let st ← writeSlot st qp lim
      .ok (st, true)
    else do
      let (_, ln) ← deref st.limits lim
      let (qa, qn) ← deref st.limits q
      let c := compare ln.price qn.price
      if c = 0 then .ok (st, false)
      else do
        let c : Int := if c < 0 then -1 else 1
        let a := dirIndex c
        let (st, fix) ← limitPriceTree.put fuel st lim q (.child qa a)
        if fix then putFix st c qp else .ok (st, false)

/-- `removeMin`; `minKey` is the address of the limit whose `price` field the
pointer `minKey` refers to.  The assignment `minVal = &q.orders` rebinds a
parameter and changes no object. -/
def removeMin : Nat → TreeState → Slot → Nat → Except Fault (TreeState × Bool)
  | 0, _, _, _ => .error .outOfFuel
  | fuel + 1, st, qp, minKey => do
    let q ← readSlot st qp
    let (qa, qn) ← deref st.limits q
    if qn.children 0 = none then do
      let (ka, kn) ← deref st.limits (some minKey)
      let limits := store st.limits ka { kn with price := qn.price }
      let (_, qn) ← deref limits q
      let limits ←
        (if qn.children 1 ≠ none then do
           let (ca, cn) ← deref limits (qn.children 1)
           pure (store limits ca { cn with parent := qn.parent })
         else pure limits)
      let (_, qn) ← deref limits q
      let st ← writeSlot { st with limits := limits } qp (qn.children 1)
      .ok (st, true)
    else do
      let (st, fix) ← removeMin fuel st (.child qa 0) minKey
      if fix then removeFix st 1 qp else .ok (st, false)

/-- `limitPriceTree.remove`. -/
def limitPriceTree.remove : Nat → TreeState → Nat → Slot → Except Fault (TreeState × Bool)
  | 0, _, _, _ => .error .outOfFuel
  | fuel + 1, st, key, qp => do
    let q ← readSlot st qp
    if q = none then .ok (st, false)
    else do
      let (qa, qn) ← deref st.limits q
      let c := compare key qn.price
      if c = 0 then do
        let st := { st with tree := { st.tree with size := st.tree.size - 1 } }
        if qn.children 1 = none then do
          let limits ←
            (if qn.children 0 ≠ none then do
               let (ca, cn) ← deref st.limits (qn.children 0)
               pure (store st.limits ca { cn with parent := qn.parent })
             else pure st.limits)
          let (_, qn) ← deref limits q
          let st ← writeSlot { st with limits := limits } qp (qn.children 0)
          .ok (st, true)
        else do
          let (st, fix) ← removeMin fuel st (.child qa 1) qa
          if fix then removeFix st (-1) qp else .ok (st, false)
      else do
        let c : Int := if c < 0 then -1 else 1
        let a := dirIndex c
        let (st, fix) ← limitPriceTree.remove fuel st key (.child qa a)
        if fix then removeFix st (-c) qp else .ok (st, false)

/-- `limitPriceTree.addLimit`: allocates the new limit with the one-order list
and puts it into the tree; returns the pointer to it. -/
def limitPriceTree.addLimit (fuel : Nat) (orders : List order) (st : TreeState)
    (price : Nat) (o : Ptr) : Except Fault (List order × TreeState × Ptr) := do
  let (orders, list) ← newOrderList orders o
  let lim : Ptr := some st.limits.length
  let node : limitPrice :=
    { price := price, orders := list, parent := none, children0 := none,
      children1 := none, b := 0 }
  let st := { st with limits := st.limits ++ [node] }
  let (st, _) ← limitPriceTree.put fuel st lim none .root
  .ok (orders, st, lim)

/-- `limitPriceTree.removeLimit`. -/
def limitPriceTree.removeLimit (fuel : Nat) (st : TreeState) (price : Nat) :
    Except Fault TreeState := do
  let (st, _) ← limitPriceTree.remove fuel st price .root
  .ok st

/-- `limitPriceTree.clear`. -/
def limitPriceTree.clear (_t : limitPriceTree) : limitPriceTree :=
  { root := none, size := 0 }

/-- `limitPrice.higher`. -/
def limitPrice.higher (l : limitPrice) : Ptr := l.children 1

/-- `limitPrice.lower`. -/
def limitPrice.lower (l : limitPrice) : Ptr := l.children 0

/-! ## book.go -/

/-- `Init`. -/
def Init : Book :=
  { bidTree := { root := none, size := 0 }
    askTree := { root := none, size := 0 }
    bestBid := none
    bestAsk := none
    orderMap := []
    bidMap := []
    askMap := []
    orderHeap := []
    limitHeap := [] }

/-- The values `genID` can return: `10000000 + rand.Intn(99999999-10000000)`. -/
def genIDRange (id : OrderID) : Prop :=
  10000000 ≤ id ∧ id < 99999999

instance (id : OrderID) : Decidable (genIDRange id) := by
  unfold genIDRange; infer_instance

/-- The state of a matching loop: the book, `remaining` and `matches` (spelled
`executions`: the Go name is a reserved word here). -/
structure MatchState where
  book : Book
  remaining : Nat
  executions : List Execution
deriving DecidableEq, Repr

/-- The `for remaining != 0` loop of `matchBid`. -/
def matchBidLoop (bidPrice : Nat) : Nat → MatchState → Except Fault MatchState
  | 0, _ => .error .outOfFuel
  | fuel + 1, ms =>
    let b := ms.book
    if ms.remaining = 0 then .ok ms
    else if b.bestAsk = none then .ok ms
    else do
      let (ba, best) ← deref b.limitHeap b.bestAsk
      if bidPrice < best.price then .ok ms
      else
        let potentialmatch := best.orders.first
        if potentialmatch = none then do
          let next := best.higher
          let st ← limitPriceTree.removeLimit fuel
            { limits := b.limitHeap, tree := b.askTree } best.price
          let (_, best) ← deref st.limits b.bestAsk
          let b := { b with limitHeap := st.limits, askTree := st.tree,
                            askMap := mapDelete b.askMap best.price, bestAsk := next }
          matchBidLoop bidPrice fuel { ms with book := b }
        else do
          let (pa, pm) ← deref b.orderHeap potentialmatch
          if pm.size ≤ ms.remaining then do
            let remaining := ms.remaining - pm.size
            let orderMap := mapDelete b.orderMap pm.id
            let (orders, list) ← orderList.remove b.orderHeap best.orders 0
            let limits := store b.limitHeap ba { best with orders := list }
            let (_, pm) ← deref orders potentialmatch
            let b := { b with orderMap := orderMap, orderHeap := orders, limitHeap := limits }
            matchBidLoop bidPrice fuel
              { book := b, remaining := remaining,
                executions := ms.executions ++
                  [{ OrderID := pm.id, FilledQuantity := pm.size, RemainingQuantity := 0 }] }
          else
            let executions := ms.executions ++
              [{ OrderID := pm.id, FilledQuantity := ms.remaining,
                 RemainingQuantity := pm.size - ms.remaining }]
            let orders := store b.orderHeap pa { pm with size := pm.size - ms.remaining }
            matchBidLoop bidPrice fuel
              { book := { b with orderHeap := orders }, remaining := 0, executions := executions }

/-- `Book.matchBid`. -/
def Book.matchBid (fuel : Nat) (b : Book) (bidPrice bidSize : Nat) :
    Except Fault (Book × Nat × List Execution) := do
  let ms ← matchBidLoop bidPrice fuel { book := b, remaining := bidSize, executions := [] }
  .ok (ms.book, bidSize - ms.remaining, ms.executions)

/-- The `for remaining != 0` loop of `matchAsk`. -/
def matchAskLoop (askPrice : Nat) : Nat → MatchState → Except Fault MatchState
  | 0, _ => .error .outOfFuel
  | fuel + 1, ms =>
    let b := ms.book
    if ms.remaining = 0 then .ok ms
    else if b.bestBid = none then .ok ms
    else do
      let (ba, best) ← deref b.limitHeap b.bestBid
      if askPrice > best.price then .ok ms
      else
        let potentialmatch := best.orders.first
        if potentialmatch = none then do
          let next := best.lower
          let st ← limitPriceTree.removeLimit fuel
            { limits := b.limitHeap, tree := b.bidTree } best.price
          let (_, best) ← deref st.limits b.bestBid
          let b := { b with limitHeap := st.limits, bidTree := st.tree,
                            bidMap := mapDelete b.bidMap best.price, bestBid := next }
          matchAskLoop askPrice fuel { ms with book := b }
        else do
          let (pa, pm) ← deref b.orderHeap potentialmatch
          if pm.size ≤ ms.remaining then do
            let remaining := ms.remaining - pm.size
            let orderMap := mapDelete b.orderMap pm.id
            let (orders, list) ← orderList.remove b.orderHeap best.orders 0
            let limits := store b.limitHeap ba { best with orders := list }
            let (_, pm) ← deref orders potentialmatch
            let b := { b with orderMap := orderMap, orderHeap := orders, limitHeap := limits }
            matchAskLoop askPrice fuel
              { book := b, remaining := remaining,
                executions := ms.executions ++
                  [{ OrderID := pm.id, FilledQuantity := pm.size, RemainingQuantity := 0 }] }
          else
            let executions := ms.executions ++
              [{ OrderID := pm.id, FilledQuantity := ms.remaining,
                 RemainingQuantity := pm.size - ms.remaining }]
            let orders := store b.orderHeap pa { pm with size := pm.size - ms.remaining }
            matchAskLoop askPrice fuel
              { book := { b with orderHeap := orders }, remaining := 0, executions := executions }

/-- `Book.matchAsk`. -/
def Book.matchAsk (fuel : Nat) (b : Book) (askPrice askSize : Nat) :
    Except Fault (Book × Nat × List Execution) := do
  let ms ← matchAskLoop askPrice fuel { book := b, remaining := askSize, executions := [] }
  .ok (ms.book, askSize - ms.remaining, ms.executions)

/-- What a call of `Submit` returns, with the book it leaves: `err` is `true`
when the returned `error` is not `nil`. -/
structure SubmitResult where
  book : Book
  id : OrderID
  executions : List Execution
  err : Bool
deriving DecidableEq, Repr

/-- The block of `Submit` that rests the residual (the body of
`if matchedQty != size`). -/
def Book.rest (fuel : Nat) (b : Book) (newOrderID : OrderID) (side : Side)
    (price size matchedQty : Nat) : Except Fault Book := do
  let o : Ptr := some b.orderHeap.length
  let orders := b.orderHeap ++
    [{ id := newOrderID, side := Bid, price := price, size := size - matchedQty,
       next := none, prev := none }]
  let b := { b with orderHeap := orders, orderMap := mapSet b.orderMap newOrderID b.orderHeap.length }
  if side = Bid then do
    let (b, lim) ←
      (match mapGet b.bidMap price with
       | none => do
         let (orders, st, lim) ← limitPriceTree.addLimit fuel b.orderHeap
           { limits := b.limitHeap, tree := b.bidTree } price o
         pure ({ b with orderHeap := orders, limitHeap := st.limits, bidTree := st.tree }, lim)
       | some la => do
         let (la, l) ← deref b.limitHeap (some la)
         let (orders, list) ← orderList.add b.orderHeap l.orders o
         pure ({ b with orderHeap := orders,
                        limitHeap := store b.limitHeap la { l with orders := list } },
               (some la : Ptr)))
    if b.bestBid = none then .ok { b with bestBid := lim }
    else do
      let (_, best) ← deref b.limitHeap b.bestBid
      if price > best.price then .ok { b with bestBid := lim } else .ok b
  else do
    let (b, lim) ←
      (match mapGet b.askMap price with
       | none => do
         let (orders, st, lim) ← limitPriceTree.addLimit fuel b.orderHeap
           { limits := b.limitHeap, tree := b.askTree } price o
         pure ({ b with orderHeap := orders, limitHeap := st.limits, askTree := st.tree }, lim)
       | some la => do
         let (la, l) ← deref b.limitHeap (some la)
         let (orders, list) ← orderList.add b.orderHeap l.orders o
         pure ({ b with orderHeap := orders,
                        limitHeap := store b.limitHeap la { l with orders := list } },
               (some la : Ptr)))
    if b.bestAsk = none then .ok { b with bestAsk := lim }
    else do
      let (_, best) ← deref b.limitHeap b.bestAsk
      if price > best.price then .ok { b with bestAsk := lim } else .ok b

/-- `Book.Submit`; `newOrderID` is the value that the call of `genID` returns. -/
def Book.Submit (fuel : Nat) (b : Book) (newOrderID : OrderID) (side : Side)
    (price size : Nat) : Except Fault SubmitResult :=
  if price = 0 ∨ size = 0 then
    .ok { book := b, id := 0, executions := [], err := true }
  else do
    let (b, matchedQty, executions) ←
      (if side = Bid then b.matchBid fuel price size else b.matchAsk fuel price size)
    let executions :=
      if matchedQty ≠ 0 then
        executions ++
          [{ OrderID := newOrderID, FilledQuantity := matchedQty,
             RemainingQuantity := size - matchedQty }]
      else executions
    let b ←
      (if matchedQty ≠ size then b.rest fuel newOrderID side price size matchedQty
       else .ok b)
    .ok { book := b, id := newOrderID, executions := executions, err := false }

/-- What a call of `Cancel` returns, with the book it leaves. -/
structure CancelResult where
  book : Book
  found : Bool
  err : Bool
deriving DecidableEq, Repr

/-- `Book.Cancel`. -/
def Book.Cancel (fuel : Nat) (b : Book) (id : OrderID) : Except Fault CancelResult :=
  match mapGet b.orderMap id with
  | none => .ok { book := b, found := false, err := true }
  | some oa => do
    let (_, o) ← deref b.orderHeap (some oa)
    let p := o.price
    let s := o.side
    match (if s = Bid then mapGet b.bidMap p else mapGet b.askMap p) with
    | none => .ok { book := b, found := false, err := true }
    | some la => do
      let b := { b with orderMap := mapDelete b.orderMap id }
      let (la, l) ← deref b.limitHeap (some la)
      let (orders, list) ← orderList.removeID fuel b.orderHeap l.orders id
      let b := { b with orderHeap := orders,
                        limitHeap := store b.limitHeap la { l with orders := list } }
      if list.Size = 0 then
        if s = Bid then do
          let (_, best) ← deref b.limitHeap b.bestBid
          let b ←
            (if best.price = p then pure { b with bestBid := best.lower } else pure b)
          let b := { b with bidMap := mapDelete b.bidMap p }
          let st ← limitPriceTree.removeLimit fuel
            { limits := b.limitHeap, tree := b.bidTree } p
          .ok { book := { b with limitHeap := st.limits, bidTree := st.tree },
                found := true, err := false }
        else do
          let (_, best) ← deref b.limitHeap b.bestAsk
          let b ←
            (if best.price = p then pure { b with bestAsk := best.higher } else pure b)
          let b := { b with askMap := mapDelete b.askMap p }
          let st ← limitPriceTree.removeLimit fuel
            { limits := b.limitHeap, tree := b.askTree } p
          .ok { book := { b with limitHeap := st.limits, askTree := st.tree },
                found := true, err := false }
      else .ok { book := b, found := true, err := false }

/-- `Book.Top`: panics when a best pointer is `nil`. -/
def Book.Top (b : Book) : Except Fault (Nat × Nat) := do
  let (_, bid) ← deref b.limitHeap b.bestBid
  let (_, ask) ← deref b.limitHeap b.bestAsk
  .ok (bid.price, ask.price)

/-- Books the package can produce: `Init`, and what a returning `Submit` or
`Cancel` leaves, the order id being one that `genID` can return. -/
inductive Reachable : Book → Prop where
  | init : Reachable Init
  | submit {b : Book} {r : SubmitResult} (fuel : Nat) (newOrderID : OrderID) (side : Side)
      (price size : Nat) : Reachable b → genIDRange newOrderID →
      b.Submit fuel newOrderID side price size = .ok r → Reachable r.book
  | cancel {b : Book} {r : CancelResult} (fuel : Nat) (id : OrderID) : Reachable b →
      b.Cancel fuel id = .ok r → Reachable r.book

/-! ## Notions used in the statements -/

/-- Sum of `FilledQuantity` over a list of executions. -/
def filledSum (es : List Execution) : Nat :=
  (es.map (fun e => e.FilledQuantity)).sum

/-- The fields of an order other than its links. -/
def orderData (o : order) : OrderID × Side × Nat × Nat :=
  (o.id, o.side, o.price, o.size)

/-- Two order heaps that differ in `next` and `prev` fields only. -/
def SameData (h h' : List order) : Prop :=
  h.map orderData = h'.map orderData

/-- Every allocated order has a positive size. -/
def OrdersPositive (heap : List order) : Prop :=
  ∀ o ∈ heap, 0 < o.size

/-- The property the matching loops keep, relative to their start state `ms0`:
the executions grow by a list `extra` of fills that add up to what `remaining`
lost; when every order has a positive size, each fill is positive and so is
every order afterwards. -/
def FillInv (ms0 ms : MatchState) : Prop :=
  ∃ extra, ms.executions = ms0.executions ++ extra ∧
    filledSum extra + ms.remaining = ms0.remaining ∧
    (OrdersPositive ms0.book.orderHeap →
      OrdersPositive ms.book.orderHeap ∧ ∀ e ∈ extra, 0 < e.FilledQuantity)

/-- A `Submit` call: the id that `genID` returns, and the three arguments. -/
structure SubmitCall where
  id : OrderID
  side : Side
  price : Nat
  size : Nat
deriving DecidableEq, Repr

/-- Run `Submit` calls one after the other and give the book they leave. -/
def runSubmits (fuel : Nat) : Book → List SubmitCall → Except Fault Book
  | b, [] => .ok b
  | b, c :: rest => do
    let r ← b.Submit fuel c.id c.side c.price c.size
    runSubmits fuel r.book rest

/-! ## Books of the scenarios

Orders are written `⟨id, side, price, size, next, prev⟩` and limits
`⟨price, ⟨first, last, size⟩, parent, children0, children1, b⟩`. -/

/-- Scenario A: the empty book after `Submit(Sell, 100, 10)` with id 10000001. -/
def bookA : Book :=
  { bidTree := ⟨none, 0⟩
    askTree := ⟨some 0, 1⟩
    bestBid := none
    bestAsk := some 0
    orderMap := [(10000001, 0)]
    bidMap := []
    askMap := []
    orderHeap :=
      [⟨10000001, false, 100, 10, none, none⟩]
    limitHeap :=
      [⟨100, ⟨some 0, some 0, 1⟩, none, none, none, 0⟩] }

/-- Scenario B: `bookA` after `Submit(Buy, 100, 6)` with id 10000002. -/
def bookB : Book :=
  { bidTree := ⟨none, 0⟩
    askTree := ⟨some 0, 1⟩
    bestBid := none
    bestAsk := some 0
    orderMap := [(10000001, 0)]
    bidMap := []
    askMap := []
    orderHeap :=
      [⟨10000001, false, 100, 4, none, none⟩]
    limitHeap :=
      [⟨100, ⟨some 0, some 0, 1⟩, none, none, none, 0⟩] }

/-! ## Reading the trees and the queues -/

/-- Addresses of the limits reached from `p` through `children`, in order: left
subtree, node, right subtree.  The walk goes `fuel` levels deep. -/
def treeNodes (limits : List limitPrice) : Nat → Ptr → List Nat
  | 0, _ => []
  | _ + 1, none => []
  | fuel + 1, some a =>
    match limits[a]? with
    | none => []
    | some n => treeNodes limits fuel n.children0 ++ [a] ++ treeNodes limits fuel n.children1

/-- Prices of the limits of a tree, in order. -/
def treePrices (limits : List limitPrice) (fuel : Nat) (p : Ptr) : List Nat :=
  (treeNodes limits fuel p).filterMap (fun a => (limits[a]?).map (fun n => n.price))

/-- Addresses of the orders reached from `p` by following `next`, at most `fuel`
of them: what the loop of `orderList.Values` visits when called with `first`. -/
def chain (heap : List order) : Nat → Ptr → List Nat
  | 0, _ => []
  | _ + 1, none => []
  | fuel + 1, some a =>
    match heap[a]? with
    | none => []
    | some o => a :: chain heap fuel o.next

/-- Addresses of the orders in the queue of the limit at address `l`. -/
def queueOf (b : Book) (fuel : Nat) (l : Nat) : List Nat :=
  match b.limitHeap[l]? with
  | none => []
  | some n => chain b.orderHeap fuel n.orders.first

/-- The empty book after `Submit(Sell, 100, 1)` with id 10000001 and
`Submit(Sell, 101, 1)` with id 10000002. -/
def bookTwoAsks : Book :=
  { bidTree := ⟨none, 0⟩
    askTree := ⟨some 0, 2⟩
    bestBid := none
    bestAsk := some 1
    orderMap := [(10000002, 1), (10000001, 0)]
    bidMap := []
    askMap := []
    orderHeap :=
      [⟨10000001, false, 100, 1, none, none⟩,
       ⟨10000002, false, 101, 1, none, none⟩]
    limitHeap :=
      [⟨100, ⟨some 0, some 0, 1⟩, none, none, some 1, 1⟩,
       ⟨101, ⟨some 1, some 1, 1⟩, some 0, none, none, 0⟩] }

/-- The book `bookTwoAsks` after `Submit(Buy, 100, 1)` with id 10000003. -/
def bookCrossed : Book :=
  { bidTree := ⟨some 2, 1⟩
    askTree := ⟨some 0, 2⟩
    bestBid := some 2
    bestAsk := some 1
    orderMap := [(10000003, 2), (10000002, 1), (10000001, 0)]
    bidMap := []
    askMap := []
    orderHeap :=
      [⟨10000001, false, 100, 1, none, none⟩,
       ⟨10000002, false, 101, 1, none, none⟩,
       ⟨10000003, false, 100, 1, none, none⟩]
    limitHeap :=
      [⟨100, ⟨some 0, some 0, 1⟩, none, none, some 1, 1⟩,
       ⟨101, ⟨some 1, some 1, 1⟩, some 0, none, none, 0⟩,
       ⟨100, ⟨some 2, some 2, 1⟩, none, none, none, 0⟩] }

/-- Scenario C before the buy: the empty book after `Submit(Sell, 100, 5)`,
`Submit(Sell, 101, 5)` and `Submit(Sell, 102, 20)` with ids 10000001 to
10000003. -/
def bookC0 : Book :=
  { bidTree := ⟨none, 0⟩
    askTree := ⟨some 1, 3⟩
    bestBid := none
    bestAsk := some 2
    orderMap := [(10000003, 2), (10000002, 1), (10000001, 0)]
    bidMap := []
    askMap := []
    orderHeap :=
      [⟨10000001, false, 100, 5, none, none⟩,
       ⟨10000002, false, 101, 5, none, none⟩,
       ⟨10000003, false, 102, 20, none, none⟩]
    limitHeap :=
      [⟨100, ⟨some 0, some 0, 1⟩, some 1, none, none, 0⟩,
       ⟨101, ⟨some 1, some 1, 1⟩, none, some 0, some 2, 0⟩,
       ⟨102, ⟨some 2, some 2, 1⟩, some 1, none, none, 0⟩] }

/-- Scenario C: `bookC0` after `Submit(Buy, 103, 25)` with id 10000004. -/
def bookC : Book :=
  { bidTree := ⟨some 3, 1⟩
    askTree := ⟨some 1, 2⟩
    bestBid := some 3
    bestAsk := none
    orderMap := [(10000004, 3), (10000002, 1), (10000001, 0)]
    bidMap := []
    askMap := []
    orderHeap :=
      [⟨10000001, false, 100, 5, none, none⟩,
       ⟨10000002, false, 101, 5, none, none⟩,
       ⟨10000003, false, 102, 20, none, none⟩,
       ⟨10000004, false, 103, 5, none, none⟩]
    limitHeap :=
      [⟨100, ⟨some 0, some 0, 1⟩, some 1, none, none, 0⟩,
       ⟨101, ⟨some 1, some 1, 1⟩, none, some 0, none, (-1)⟩,
       ⟨102, ⟨none, none, 0⟩, some 1, none, none, 0⟩,
       ⟨103, ⟨some 3, some 3, 1⟩, none, none, none, 0⟩] }

/-- The empty book after `Submit(Sell, 100, 5)` with id 10000001 and
`Submit(Sell, 100, 7)` with id 10000002: two sells at one price. -/
def bookSame : Book :=
  { bidTree := ⟨none, 0⟩
    askTree := ⟨some 0, 1⟩
    bestBid := none
    bestAsk := some 0
    orderMap := [(10000002, 1), (10000001, 0)]
    bidMap := []
    askMap := []
    orderHeap :=
      [⟨10000001, false, 100, 5, none, none⟩,
       ⟨10000002, false, 100, 7, none, none⟩]
    limitHeap :=
      [⟨100, ⟨some 0, some 0, 1⟩, none, none, none, 0⟩,
       ⟨100, ⟨some 1, some 1, 1⟩, none, none, none, 0⟩] }

/-- The book `bookSame` after `Submit(Buy, 100, 12)` with id 10000003. -/
def bookSameBought : Book :=
  { bidTree := ⟨some 2, 1⟩
    askTree := ⟨none, 0⟩
    bestBid := some 2
    bestAsk := none
    orderMap := [(10000003, 2), (10000002, 1)]
    bidMap := []
    askMap := []
    orderHeap :=
      [⟨10000001, false, 100, 5, none, none⟩,
       ⟨10000002, false, 100, 7, none, none⟩,
       ⟨10000003, false, 100, 7, none, none⟩]
    limitHeap :=
      [⟨100, ⟨none, none, 0⟩, none, none, none, 0⟩,
       ⟨100, ⟨some 1, some 1, 1⟩, none, none, none, 0⟩,
       ⟨100, ⟨some 2, some 2, 1⟩, none, none, none, 0⟩] }

/-! ## The shape of the trees in the heap

The trees are read through the three fields of a limit that decide their shape
and order: `price` and the two `children` cells.  `parent`, `b` and `orders`
play no part in it. -/

/-- The fields of a limit that the shape and the order of a tree depend on. -/
structure Core where
  price : Nat
  c0 : Ptr
  c1 : Ptr
deriving DecidableEq, Repr

/-- The shape-relevant fields of a limit. -/
def limitPrice.core (n : limitPrice) : Core :=
  { price := n.price, c0 := n.children0, c1 := n.children1 }

/-- The limits of a heap, seen through `limitPrice.core`. -/
def coreHeap (limits : List limitPrice) : Nat → Option Core :=
  fun x => (limits[x]?).map limitPrice.core

/-- Cell `children[a]` of a core. -/
def Core.child (c : Core) (a : Nat) : Ptr :=
  if a = 0 then c.c0 else c.c1

/-- A core with cell `children[a]` replaced. -/
def Core.setChild (c : Core) (a : Nat) (p : Ptr) : Core :=
  if a = 0 then { c with c0 := p } else { c with c1 := p }

/-- Price of the limit at an address (0 where nothing is allocated). -/
def priceIn (H : Nat → Option Core) (x : Nat) : Nat :=
  match H x with
  | some c => c.price
  | none => 0

/-- A binary tree of addresses. -/
inductive PTree where
  | leaf
  | node (l : PTree) (a : Nat) (r : PTree)
deriving DecidableEq, Repr

/-- The addresses of a tree, in order: left subtree, node, right subtree. -/
def PTree.addrs : PTree → List Nat
  | .leaf => []
  | .node l a r => l.addrs ++ a :: r.addrs

/-- The pointer `p` is the root of the tree `t` in the heap `H`: following
`children` from `p` visits exactly the nodes of `t`. -/
def IsTree (H : Nat → Option Core) : PTree → Ptr → Prop
  | .leaf, p => p = none
  | .node l a r, p =>
    p = some a ∧ ∃ c, H a = some c ∧ IsTree H l c.c0 ∧ IsTree H r c.c1

/-- The prices of a tree increase strictly along its in-order walk: the search
tree ordering. -/
def Ordered (H : Nat → Option Core) (t : PTree) : Prop :=
  (t.addrs.map (priceIn H)).Pairwise (fun x y => x < y)

/-- The pointer held by a slot. -/
def slotPtr (H : Nat → Option Core) (root : Ptr) : Slot → Option Ptr
  | .root => some root
  | .child q a => (H q).map (fun c => c.child a)

/-- The heap after `*Q = p`. -/
def slotSet (H : Nat → Option Core) (Q : Slot) (p : Ptr) : Nat → Option Core :=
  match Q with
  | .root => H
  | .child q a => Function.update H q ((H q).map (fun c => c.setChild a p))

/-- The root after `*Q = p`. -/
def slotRoot (root : Ptr) (Q : Slot) (p : Ptr) : Ptr :=
  match Q with
  | .root => p
  | .child _ _ => root

/-- The limit that owns the cell a slot refers to. -/
def Slot.owner : Slot → Option Nat
  | .root => none
  | .child q _ => some q

/-- A heap with the price of one limit replaced. -/
def setPrice (H : Nat → Option Core) (k : Nat) (v : Nat) : Nat → Option Core :=
  Function.update H k ((H k).map (fun c => { c with price := v }))

/-- Two heaps agree outside a set of addresses. -/
def OutsideEq (F : List Nat) (H H' : Nat → Option Core) : Prop :=
  ∀ x, x ∉ F → H' x = H x

/-- The heap `H'` holds at `p'` a tree with the in-order walk of `t`, and
differs from `H` inside `t` only, and there in no price: what a rotation at the
root of `t` leaves. -/
def SameWalk (H H' : Nat → Option Core) (t : PTree) (p' : Ptr) : Prop :=
  ∃ t', IsTree H' t' p' ∧ t'.addrs = t.addrs ∧ OutsideEq t.addrs H H' ∧
    ∀ x, priceIn H' x = priceIn H x

/-- What `putFix` and `removeFix` are shown to do: the tree `t` held by the
slot is replaced by a tree with the same in-order walk; apart from the slot
itself nothing outside `t` changes, and no price changes. -/
def FixSpec (f : TreeState → Int → Slot → Except Fault (TreeState × Bool)) : Prop :=
  ∀ (σ st' : TreeState) (c : Int) (Q : Slot) (p : Ptr) (t : PTree) (fix : Bool),
    (c = 1 ∨ c = -1) →
    slotPtr (coreHeap σ.limits) σ.tree.root Q = some p →
    IsTree (coreHeap σ.limits) t p → t.addrs.Nodup →
    (∀ q, Q.owner = some q → q ∉ t.addrs) →
    f σ c Q = .ok (st', fix) →
    ∃ p' t', IsTree (coreHeap st'.limits) t' p' ∧ t'.addrs = t.addrs ∧
      OutsideEq t.addrs (slotSet (coreHeap σ.limits) Q p') (coreHeap st'.limits) ∧
      st'.tree.root = slotRoot σ.tree.root Q p' ∧
      ∀ x, priceIn (coreHeap st'.limits) x = priceIn (coreHeap σ.limits) x

/-- What `put` is shown to do on the tree `t` held by a slot, for the new limit
at address `la` with the given price: the slot then holds a tree `t'` that is
either `t` (the price was there already, and the new limit is untouched) or `t`
with `la` inserted at its place in the order; outside `t` and `la` only the
slot changes, and no price changes. -/
def PutPost (H H' : Nat → Option Core) (root root' : Ptr) (Q : Slot) (t : PTree)
    (la price : Nat) : Prop :=
  ∃ p' t', IsTree H' t' p' ∧ OutsideEq (la :: t.addrs) (slotSet H Q p') H' ∧
    root' = slotRoot root Q p' ∧ (∀ x, priceIn H' x = priceIn H x) ∧
    ((t'.addrs = t.addrs ∧ H' la = H la) ∨
     (∃ pre post, t.addrs = pre ++ post ∧ t'.addrs = pre ++ la :: post ∧
        (∀ x ∈ pre, priceIn H x < price) ∧ (∀ x ∈ post, price < priceIn H x)))

/-- What `removeMin` is shown to do on the tree `t` held by a slot: the first
limit `u` of the in-order walk is unlinked, its price is written into the limit
`minKey`, and the slot then holds a tree with the rest of the walk; apart from
that price and the slot nothing outside the rest of the walk changes. -/
def RemMinPost (H H' : Nat → Option Core) (root root' : Ptr) (Q : Slot) (t : PTree)
    (minKey : Nat) : Prop :=
  ∃ p' t' u rest, t.addrs = u :: rest ∧ t'.addrs = rest ∧ IsTree H' t' p' ∧
    OutsideEq rest (slotSet (setPrice H minKey (priceIn H u)) Q p') H' ∧
    root' = slotRoot root Q p' ∧ (∀ x, x ≠ minKey → priceIn H' x = priceIn H x)

/-- What `remove` is shown to do on the tree `t` held by a slot.  Either the
walk of the tree and all prices are as before (the key is not in the tree), or
one limit `u` is unlinked and the limit `m` that held the key gets the price of
`u`: `m` is `u` itself, or the limit just before `u` in the walk. -/
def RemovePost (H H' : Nat → Option Core) (root root' : Ptr) (Q : Slot) (t : PTree)
    (key : Nat) : Prop :=
  ∃ p' t', IsTree H' t' p' ∧ root' = slotRoot root Q p' ∧
    ((t'.addrs = t.addrs ∧ OutsideEq t.addrs (slotSet H Q p') H' ∧
        ∀ x, priceIn H' x = priceIn H x) ∨
     (∃ pre u post m, t.addrs = pre ++ u :: post ∧ t'.addrs = pre ++ post ∧
        OutsideEq (pre ++ post) (slotSet (setPrice H m (priceIn H u)) Q p') H' ∧
        priceIn H m = key ∧ (m = u ∨ ∃ pre', pre = pre' ++ [m]) ∧
        (∀ x, x ≠ m → priceIn H' x = priceIn H x) ∧
        (m ≠ u → priceIn H' m = priceIn H u)))

/-! ## The invariant behind the best pointers -/

/-- The invariant of a book, over the cores `H` of its limits, its two roots
and its two best pointers.  `S` is the set of the limits allocated for the bid
side, `tb` and `ta` are the two trees. -/
structure InvWith (H : Nat → Option Core) (bidRoot askRoot bestBid bestAsk : Ptr)
    (S : Nat → Prop) (tb ta : PTree) : Prop where
  bidTree : IsTree H tb bidRoot
  bidNodup : tb.addrs.Nodup
  bidOrdered : Ordered H tb
  bidOwned : ∀ x ∈ tb.addrs, S x
  askTree : IsTree H ta askRoot
  askNodup : ta.addrs.Nodup
  askOrdered : Ordered H ta
  askOwned : ∀ x ∈ ta.addrs, ¬ S x
  allocated : ∀ x, S x → ∃ c, H x = some c
  bestBidOk : ∀ a, bestBid = some a → S a ∧ ∃ c, H a = some c ∧ (a ∈ tb.addrs ∨ c.c0 = none)
  bestAskOk : ∀ a, bestAsk = some a → ¬ S a ∧ ∃ c, H a = some c
  higherOk : ∀ a c y, ¬ S a → H a = some c → c.c1 = some y →
    ¬ S y ∧ c.price < priceIn H y ∧ ∃ cy, H y = some cy
  notCrossed : ∀ a a', bestBid = some a → bestAsk = some a' → priceIn H a < priceIn H a'

/-- The invariant of a book: the two trees are search trees on disjoint sets of
limits, the best pointers are not crossed, and the two price maps are empty. -/
def BookInv (b : Book) : Prop :=
  (∃ S tb ta, InvWith (coreHeap b.limitHeap) b.bidTree.root b.askTree.root b.bestBid b.bestAsk
    S tb ta) ∧ b.bidMap = [] ∧ b.askMap = []

/-- How the loop of `matchBid` can end: nothing remains, or there is no best
ask, or the best ask is above the limit price. -/
def ExitBid (p : Nat) (ms : MatchState) : Prop :=
  ms.remaining = 0 ∨ ms.book.bestAsk = none ∨
    ∃ ba best, deref ms.book.limitHeap ms.book.bestAsk = .ok (ba, best) ∧ p < best.price

/-- How the loop of `matchAsk` can end: nothing remains, or there is no best
bid, or the best bid is below the limit price. -/
def ExitAsk (p : Nat) (ms : MatchState) : Prop :=
  ms.remaining = 0 ∨ ms.book.bestBid = none ∨
    ∃ ba best, deref ms.book.limitHeap ms.book.bestBid = .ok (ba, best) ∧ p > best.price

/-! ## Trees built by `addLimit` and `removeLimit` -/

/-- The empty tree: a `limitPriceTree{}` and no limit allocated. -/
def emptyTree : TreeState :=
  { limits := [], tree := { root := none, size := 0 } }

/-- Trees that calls of `addLimit` and `removeLimit` build from the empty
tree. -/
inductive TreeBuilt : TreeState → Prop where
  | empty : TreeBuilt emptyTree
  | add {st st' : TreeState} {orders orders' : List order} {lim : Ptr} (fuel price : Nat)
      (o : Ptr) : TreeBuilt st →
      limitPriceTree.addLimit fuel orders st price o = .ok (orders', st', lim) → TreeBuilt st'
  | remove {st st' : TreeState} (fuel price : Nat) : TreeBuilt st →
      limitPriceTree.removeLimit fuel st price = .ok st' → TreeBuilt st'

/-- A call of `addLimit(price, o)` or of `removeLimit(price)`. -/
inductive TreeCall where
  | add (price : Nat) (o : Ptr)
  | remove (price : Nat)
deriving DecidableEq, Repr

/-- Run calls of `addLimit` and `removeLimit` one after the other. -/
def runTreeCalls (fuel : Nat) :
    List order → TreeState → List TreeCall → Except Fault (List order × TreeState)
  | orders, st, [] => .ok (orders, st)
  | orders, st, .add price o :: rest => do
    let (orders, st, _) ← limitPriceTree.addLimit fuel orders st price o
    runTreeCalls fuel orders st rest
  | orders, st, .remove price :: rest => do
    let st ← limitPriceTree.removeLimit fuel st price
    runTreeCalls fuel orders st rest

/-- Price and queue of the limits of a tree, in order. -/
def treeLevels (limits : List limitPrice) (fuel : Nat) (p : Ptr) : List (Nat × orderList) :=
  (treeNodes limits fuel p).filterMap (fun a => (limits[a]?).map (fun n => (n.price, n.orders)))

/-! ## More books and trees of the scenarios -/

/-- Scenario E: the empty book after `Submit(Buy, 100, 1)` with id 10000001 and
`Submit(Buy, 99, 1)` with id 10000002. -/
def bookE : Book :=
  { bidTree := ⟨some 0, 2⟩
    askTree := ⟨none, 0⟩
    bestBid := some 0
    bestAsk := none
    orderMap := [(10000002, 1), (10000001, 0)]
    bidMap := []
    askMap := []
    orderHeap :=
      [⟨10000001, false, 100, 1, none, none⟩,
       ⟨10000002, false, 99, 1, none, none⟩]
    limitHeap :=
      [⟨100, ⟨some 0, some 0, 1⟩, none, some 1, none, (-1)⟩,
       ⟨99, ⟨some 1, some 1, 1⟩, some 0, none, none, 0⟩] }

/-- Two orders, at the prices 100 and 101. -/
def ordersAB : List order :=
  [⟨1, false, 100, 5, none, none⟩,
   ⟨2, false, 101, 7, none, none⟩]

/-- The empty tree after `addLimit(100, A)` and `addLimit(101, B)`, `A` and `B`
being the orders at the addresses 0 and 1 of `ordersAB`. -/
def treeAB : TreeState :=
  { tree := ⟨some 0, 2⟩
    limits :=
      [⟨100, ⟨some 0, some 0, 1⟩, none, none, some 1, 1⟩,
       ⟨101, ⟨some 1, some 1, 1⟩, some 0, none, none, 0⟩] }

/-- The tree `treeAB` after `removeLimit(100)`. -/
def treeABremoved : TreeState :=
  { tree := ⟨some 0, 1⟩
    limits :=
      [⟨101, ⟨some 0, some 0, 1⟩, none, none, none, 0⟩,
       ⟨101, ⟨some 1, some 1, 1⟩, some 0, none, none, 0⟩] }

/-- Four orders, at the prices 100, 50, 150 and 120. -/
def ordersFour : List order :=
  [⟨1, false, 100, 1, none, none⟩,
   ⟨2, false, 50, 1, none, none⟩,
   ⟨3, false, 150, 1, none, none⟩,
   ⟨4, false, 120, 1, none, none⟩]

/-- The empty tree after `addLimit` at the prices 100, 50, 150 and 120, with
the orders of `ordersFour`. -/
def treeFour : TreeState :=
  { tree := ⟨some 0, 4⟩
    limits :=
      [⟨100, ⟨some 0, some 0, 1⟩, none, some 1, some 2, 1⟩,
       ⟨50, ⟨some 1, some 1, 1⟩, some 0, none, none, 0⟩,
       ⟨150, ⟨some 2, some 2, 1⟩, some 0, some 3, none, (-1)⟩,
       ⟨120, ⟨some 3, some 3, 1⟩, some 2, none, none, 0⟩] }

/-- Three fresh orders with the ids 1, 2 and 3. -/
def ordersABC : List order :=
  [⟨1, false, 100, 5, none, none⟩,
   ⟨2, false, 100, 7, none, none⟩,
   ⟨3, false, 100, 9, none, none⟩]

/-- The orders of `ordersABC` after `add` has appended them, in this order, to
an empty list. -/
def ordersLinked : List order :=
  [⟨1, false, 100, 5, some 1, none⟩,
   ⟨2, false, 100, 7, some 2, none⟩,
   ⟨3, false, 100, 9, none, none⟩]

/-- Calls of `add`, one after the other, on a list. -/
def addAll : List order → orderList → List Ptr → Except Fault (List order × orderList)
  | heap, list, [] => .ok (heap, list)
  | heap, list, o :: rest => do
    let (heap, list) ← orderList.add heap list o
    addAll heap list rest

/-! ## Height, balance and ordering of a tree in the heap -/

/-- The balance indicator `b` of the limit at an address (0 where nothing is
allocated). -/
def bIn (limits : List limitPrice) (x : Nat) : Int :=
  match limits[x]? with
  | some n => n.b
  | none => 0

/-- Height of a tree: the number of nodes on its longest path from the root. -/
def PTree.height : PTree → Nat
  | .leaf => 0
  | .node l _ r => max l.height r.height + 1

/-- The balance indicator at the root of a tree (0 for the empty tree). -/
def rootB (B : Nat → Int) : PTree → Int
  | .leaf => 0
  | .node _ a _ => B a

/-- The balance invariant, `B` giving the stored indicator of each node: at
every node the heights of the two subtrees differ by at most one, and the
indicator is the height of the right subtree minus the height of the left one,
hence one of -1, 0, 1. -/
def Balanced (B : Nat → Int) : PTree → Prop
  | .leaf => True
  | .node l a r =>
    Balanced B l ∧ Balanced B r ∧
    l.height ≤ r.height + 1 ∧ r.height ≤ l.height + 1 ∧
    B a = (r.height : Int) - (l.height : Int) ∧ -1 ≤ B a ∧ B a ≤ 1

/-- The ordering of a search tree, node by node: every price of the left
subtree is below the price of the node, every price of the right subtree is
above it. -/
def SearchTree (H : Nat → Option Core) : PTree → Prop
  | .leaf => True
  | .node l a r =>
    (∀ x ∈ l.addrs, priceIn H x < priceIn H a) ∧
    (∀ x ∈ r.addrs, priceIn H a < priceIn H x) ∧
    SearchTree H l ∧ SearchTree H r

/-- The prices of a tree, in the order of its walk. -/
def pricesOf (H : Nat → Option Core) (t : PTree) : List Nat :=
  t.addrs.map (priceIn H)

/-- What holds of a tree built by `addLimit` and `removeLimit`: `t` is the tree
under the root, no limit occurs twice in it, its prices increase along its
walk, it is balanced, and the `size` field counts its nodes. -/
structure TreeInv (st : TreeState) (t : PTree) : Prop where
  tree : IsTree (coreHeap st.limits) t st.tree.root
  nodup : t.addrs.Nodup
  ordered : Ordered (coreHeap st.limits) t
  balanced : Balanced (bIn st.limits) t
  size : st.tree.size = (t.addrs.length : Int)

/-! ## What the tree functions do to the balance -/

/-- What `put` is shown to do to the balance of the tree `t` held by a slot:
the slot then holds a balanced tree `t'`; outside `t` and the new limit `la` no
indicator changes; the `size` field grows by the number of limits the tree
gains; `put` returns `true` exactly when the tree is one level higher than
before, and then its root leans to one side unless it is the only node; and the
new limit is in the tree when its price was not there before. -/
def PutBal (σ st' : TreeState) (Q : Slot) (t : PTree) (la price : Nat) (fix : Bool) : Prop :=
  ∃ p' t', slotPtr (coreHeap st'.limits) st'.tree.root Q = some p' ∧
    IsTree (coreHeap st'.limits) t' p' ∧ Balanced (bIn st'.limits) t' ∧
    (∀ x, x ∉ la :: t.addrs → bIn st'.limits x = bIn σ.limits x) ∧
    st'.tree.size + (t.addrs.length : Int) = σ.tree.size + (t'.addrs.length : Int) ∧
    (fix = true → t'.height = t.height + 1 ∧
      (t'.height = 1 ∨ rootB (bIn st'.limits) t' ≠ 0)) ∧
    (fix = false → t'.height = t.height) ∧
    ((∀ x ∈ t.addrs, priceIn (coreHeap σ.limits) x ≠ price) → la ∈ t'.addrs)

/-- What `removeMin` is shown to do to the balance of the tree `t` held by a
slot: the slot then holds a balanced tree `t'` with one limit less; outside `t`
no indicator changes; the `size` field is as before; `removeMin` returns `true`
exactly when the tree is one level lower than before. -/
def RemMinBal (σ st' : TreeState) (Q : Slot) (t : PTree) (fix : Bool) : Prop :=
  ∃ p' t', slotPtr (coreHeap st'.limits) st'.tree.root Q = some p' ∧
    IsTree (coreHeap st'.limits) t' p' ∧ Balanced (bIn st'.limits) t' ∧
    (∀ x, x ∉ t.addrs → bIn st'.limits x = bIn σ.limits x) ∧
    st'.tree.size = σ.tree.size ∧ t'.addrs.length + 1 = t.addrs.length ∧
    (fix = true → t'.height + 1 = t.height) ∧
    (fix = false → t'.height = t.height)

/-- What `remove` is shown to do to the balance of the tree `t` held by a slot:
the slot then holds a balanced tree `t'`; outside `t` no indicator changes; the
`size` field drops by the number of limits the tree loses; `remove` returns
`true` exactly when the tree is one level lower than before; and the tree loses
a limit when the key was the price of one of its limits. -/
def RemoveBal (σ st' : TreeState) (Q : Slot) (t : PTree) (key : Nat) (fix : Bool) : Prop :=
  ∃ p' t', slotPtr (coreHeap st'.limits) st'.tree.root Q = some p' ∧
    IsTree (coreHeap st'.limits) t' p' ∧ Balanced (bIn st'.limits) t' ∧
    (∀ x, x ∉ t.addrs → bIn st'.limits x = bIn σ.limits x) ∧
    st'.tree.size + (t.addrs.length : Int) = σ.tree.size + (t'.addrs.length : Int) ∧
    (fix = true → t'.height + 1 = t.height) ∧
    (fix = false → t'.height = t.height) ∧
    ((∃ x ∈ t.addrs, priceIn (coreHeap σ.limits) x = key) →
      t'.addrs.length + 1 = t.addrs.length)

/-! ## Calls that return -/

/-- The call returns: it neither panics nor runs out of fuel. -/
def Returns {α : Type} (x : Except Fault α) : Prop :=
  ∃ a, x = .ok a

/-! ## The queue as a sequence -/

/-- The loop of `orderList.Values`: `values[e] = element` along `next`, from
the index `e` on; an index outside of `values` panics. -/
def valuesLoop (heap : List order) : Nat → List Ptr → Nat → Ptr → Except Fault (List Ptr)
  | 0, _, _, _ => .error .outOfFuel
  | fuel + 1, values, e, element =>
    if element = none then .ok values
    else if e < values.length then do
      let (_, x) ← deref heap element
      valuesLoop heap fuel (values.set e element) (e + 1) x.next
    else .error .outOfRange

/-- `orderList.Values`: a slice of `size` pointers, filled along `next` from
`first`; `make` panics on a negative length. -/
def orderList.Values (fuel : Nat) (heap : List order) (list : orderList) :
    Except Fault (List Ptr) :=
  if list.size < 0 then .error .outOfRange
  else valuesLoop heap fuel (List.replicate list.size.toNat none) 0 list.first

/-- Calls of `remove(0)`, one after the other. -/
def removeFront : Nat → List order → orderList → Except Fault (List order × orderList)
  | 0, heap, list => .ok (heap, list)
  | k + 1, heap, list => do
    let (heap, list) ← orderList.remove heap list 0
    removeFront k heap list

/-- The addresses `os` are those of distinct fresh orders: `next` and `prev` of
each are `nil`. -/
def FreshOrders (heap : List order) (os : List Nat) : Prop :=
  os.Nodup ∧ ∀ a ∈ os, (heap[a]?).map (fun x => (x.next, x.prev)) = some (none, none)

instance (heap : List order) (os : List Nat) : Decidable (FreshOrders heap os) := by
  unfold FreshOrders
  infer_instance

/-- The `orderList` of a queue that holds the orders at the addresses `c`, in
this order. -/
def queueList (c : List Nat) : orderList :=
  { first := c.head?, last := c.getLast?, size := c.length }

/-- The orders at the addresses `c` are linked by `next` in this order, the
last one has no `next`, and none has a `prev`. -/
def Linked (heap : List order) : List Nat → Prop
  | [] => True
  | [a] => ∃ x, heap[a]? = some x ∧ x.next = none ∧ x.prev = none
  | a :: b :: rest =>
    (∃ x, heap[a]? = some x ∧ x.next = some b ∧ x.prev = none) ∧ Linked heap (b :: rest)

/-! ## The book after a sell was bought in full -/

/-- The book of Scenario A after `Submit(Buy, 100, 10)` with id 10000002. -/
def bookFilled : Book :=
  { bidTree := ⟨none, 0⟩
    askTree := ⟨some 0, 1⟩
    bestBid := none
    bestAsk := some 0
    orderMap := []
    bidMap := []
    askMap := []
    orderHeap :=
      [⟨10000001, false, 100, 10, none, none⟩]
    limitHeap :=
      [⟨100, ⟨none, none, 0⟩, none, none, none, 0⟩] }

/-- The book `bookFilled` after `Submit(Buy, 100, 5)` with id 10000003. -/
def bookFilledBought : Book :=
  { bidTree := ⟨some 1, 1⟩
    askTree := ⟨none, 0⟩
    bestBid := some 1
    bestAsk := none
    orderMap := [(10000003, 1)]
    bidMap := []
    askMap := []
    orderHeap :=
      [⟨10000001, false, 100, 10, none, none⟩,
       ⟨10000003, false, 100, 5, none, none⟩]
    limitHeap :=
      [⟨100, ⟨none, none, 0⟩, none, none, none, 0⟩,
       ⟨100, ⟨some 1, some 1, 1⟩, none, none, none, 0⟩] }

/-! # Theorems -/

/-! ## Basic facts about the heap -/

theorem bind_ok {α β : Type} {x : Except Fault α} {f : α → Except Fault β} {b : β}
    (h : (x >>= f) = .ok b) : ∃ a, x = .ok a ∧ f a = .ok b := by
  cases x with
  | error e => cases h
  | ok a => exact ⟨a, rfl, h⟩

theorem deref_ok {α : Type} {heap : List α} {p : Ptr} {a : Nat} {x : α}
    (h : deref heap p = .ok (a, x)) : p = some a ∧ heap[a]? = some x := by
  unfold deref at h
  split at h
  · cases h
  · split at h
    · cases h
    · cases h; exact ⟨rfl, by assumption⟩

theorem deref_some {α : Type} {heap : List α} {a : Nat} {x : α} (h : heap[a]? = some x) :
    deref heap (some a) = .ok (a, x) := by
  simp [deref, h]

theorem sameData_refl (h : List order) : SameData h h := rfl

theorem sameData_trans {h1 h2 h3 : List order} (a : SameData h1 h2) (b : SameData h2 h3) :
    SameData h1 h3 := Eq.trans a b

theorem sameData_store {h : List order} {a : Nat} {x y : order} (hx : h[a]? = some x)
    (hy : orderData y = orderData x) : SameData h (store h a y) := by
  unfold SameData Orderbook.store
  rw [List.map_set, hy]
  apply List.ext_getElem?
  intro i
  rw [List.getElem?_set]
  split
  · rename_i hi
    subst hi
    obtain ⟨hlt, hget⟩ := List.getElem?_eq_some_iff.mp hx
    simp [List.getElem?_map, hlt, hget]
  · rfl

theorem sameData_getElem {h h' : List order} (s : SameData h h') (a : Nat) :
    (h[a]?).map orderData = (h'[a]?).map orderData := by
  have := congrArg (fun l => l[a]?) s
  simpa [List.getElem?_map] using this

theorem sameData_deref {h h' : List order} (s : SameData h h') {p : Ptr} {a a' : Nat}
    {x x' : order} (hx : deref h p = .ok (a, x)) (hx' : deref h' p = .ok (a', x')) :
    a' = a ∧ orderData x' = orderData x := by
  obtain ⟨rfl, h1⟩ := deref_ok hx
  obtain ⟨h0, h2⟩ := deref_ok hx'
  cases h0
  have := sameData_getElem s a
  rw [h1, h2] at this
  simp at this
  exact ⟨rfl, this.symm⟩

theorem sameData_positive {h h' : List order} (s : SameData h h') (hp : OrdersPositive h) :
    OrdersPositive h' := by
  intro o ho
  obtain ⟨i, hi, rfl⟩ := List.getElem_of_mem ho
  have := sameData_getElem s i
  rw [List.getElem?_eq_getElem hi] at this
  cases hx : h[i]? with
  | none => rw [hx] at this; simp at this
  | some x =>
    rw [hx] at this
    simp [orderData] at this
    have hm : x ∈ h := List.getElem?_mem hx
    have := hp x hm
    omega

theorem unlink_sameData {heap heap' : List order} {list list' : orderList} {element : Ptr}
    (h : orderList.unlink heap list element = .ok (heap', list')) : SameData heap heap' := by
  unfold orderList.unlink at h
  obtain ⟨l1, -, h⟩ := bind_ok h
  obtain ⟨l2, -, h⟩ := bind_ok h
  obtain ⟨⟨ea, e⟩, he, h⟩ := bind_ok h
  obtain ⟨heap1, h1, h⟩ := bind_ok h
  obtain ⟨⟨ea2, e2⟩, he2, h⟩ := bind_ok h
  obtain ⟨heap2, h2, h⟩ := bind_ok h
  have hh : heap2 = heap' := by cases h; rfl
  subst hh
  have s1 : SameData heap heap1 := by
    dsimp only at h1
    split at h1
    · obtain ⟨⟨pa, p⟩, hp, h1⟩ := bind_ok h1
      cases h1
      exact sameData_store (deref_ok hp).2 rfl
    · cases h1; exact sameData_refl _
  have s2 : SameData heap1 heap2 := by
    dsimp only at h2
    split at h2
    · obtain ⟨⟨pa, p⟩, hp, h2⟩ := bind_ok h2
      cases h2
      exact sameData_store (deref_ok hp).2 rfl
    · cases h2; exact sameData_refl _
  exact sameData_trans s1 s2

theorem remove_sameData {heap heap' : List order} {list list' : orderList} {index : Int}
    (h : orderList.remove heap list index = .ok (heap', list')) : SameData heap heap' := by
  unfold orderList.remove at h
  split at h
  · cases h; exact sameData_refl _
  · split at h
    · cases h; exact sameData_refl _
    · obtain ⟨el, -, h⟩ := bind_ok h
      exact unlink_sameData h

theorem removeID_sameData {fuel : Nat} {heap heap' : List order} {list list' : orderList}
    {id : OrderID} (h : orderList.removeID fuel heap list id = .ok (heap', list')) :
    SameData heap heap' := by
  unfold orderList.removeID at h
  obtain ⟨el, -, h⟩ := bind_ok h
  exact unlink_sameData h

theorem add_sameData {heap heap' : List order} {list list' : orderList} {o : Ptr}
    (h : orderList.add heap list o = .ok (heap', list')) : SameData heap heap' := by
  unfold orderList.add at h
  split at h
  · cases h; exact sameData_refl _
  · obtain ⟨⟨la, l⟩, hl, h⟩ := bind_ok h
    cases h
    exact sameData_store (deref_ok hl).2 rfl

theorem Submit_invalid (fuel : Nat) (b : Book) (id : OrderID) (side : Side) (price size : Nat)
    (h : price = 0 ∨ size = 0) :
    b.Submit fuel id side price size = .ok { book := b, id := 0, executions := [], err := true } := by
  simp [Book.Submit, h]

/-- What a returning `Submit` with a valid price and size went through. -/
theorem Submit_ok_inv {fuel : Nat} {b : Book} {id : OrderID} {side : Side} {price size : Nat}
    {r : SubmitResult} (h : ¬ (price = 0 ∨ size = 0))
    (hr : b.Submit fuel id side price size = .ok r) :
    ∃ b1 m ex b2,
      (if side = Bid then b.matchBid fuel price size else b.matchAsk fuel price size)
        = .ok (b1, m, ex) ∧
      (if m ≠ size then b1.rest fuel id side price size m else .ok b1) = .ok b2 ∧
      r = { book := b2, id := id,
            executions :=
              if m ≠ 0 then
                ex ++ [{ OrderID := id, FilledQuantity := m, RemainingQuantity := size - m }]
              else ex,
            err := false } := by
  unfold Book.Submit at hr
  rw [if_neg h] at hr
  generalize hm : (if side = Bid then b.matchBid fuel price size
    else b.matchAsk fuel price size) = res at hr
  cases res with
  | error e => cases hr
  | ok v =>
    obtain ⟨b1, m, ex⟩ := v
    simp only [bind, Except.bind, pure, Except.pure] at hr
    generalize hrest : (if m ≠ size then b1.rest fuel id side price size m
      else Except.ok b1) = res2 at hr
    cases res2 with
    | error e => cases hr
    | ok b2 =>
      simp only at hr
      cases hr
      exact ⟨b1, m, ex, b2, rfl, hrest, rfl⟩

/-- C1: for every book, side, price and size, `Submit` returns its error exactly
when `price = 0` or `size = 0`; and when it returns the error, the book it
leaves is the book it was given (trees, best pointers, registry, price maps),
the returned order id is 0 and no executions are returned. -/
theorem Submit_error_iff (fuel : Nat) (b : Book) (newOrderID : OrderID) (side : Side)
    (price size : Nat) :
    ((∃ r, b.Submit fuel newOrderID side price size = .ok r ∧ r.err = true) ↔
      (price = 0 ∨ size = 0)) ∧
    (∀ r, b.Submit fuel newOrderID side price size = .ok r → r.err = true →
      r.book = b ∧ r.id = 0 ∧ r.executions = []) := by
  by_cases h : price = 0 ∨ size = 0
  · rw [Submit_invalid fuel b newOrderID side price size h]
    refine ⟨⟨fun _ => h, fun _ => ⟨_, rfl, rfl⟩⟩, ?_⟩
    intro r hr _
    cases hr
    exact ⟨rfl, rfl, rfl⟩
  · refine ⟨⟨?_, fun h' => absurd h' h⟩, ?_⟩
    · rintro ⟨r, hr, he⟩
      obtain ⟨_, _, _, _, _, _, rfl⟩ := Submit_ok_inv h hr
      cases he
    · intro r hr he
      obtain ⟨_, _, _, _, _, _, rfl⟩ := Submit_ok_inv h hr
      cases he

/-- Invariant rule for the loop of `matchBid`: a property kept by each of the
three kinds of round holds when the loop returns. -/
theorem matchBidLoop_inv (p : Nat) (P : MatchState → Prop)
    (hadv : ∀ (ms : MatchState) (n ba : Nat) (best : limitPrice) (st : TreeState)
      (ba' : Nat) (best' : limitPrice), P ms → ms.remaining ≠ 0 →
      deref ms.book.limitHeap ms.book.bestAsk = .ok (ba, best) → ¬ p < best.price →
      best.orders.first = none →
      limitPriceTree.removeLimit n { limits := ms.book.limitHeap, tree := ms.book.askTree }
        best.price = .ok st →
      deref st.limits ms.book.bestAsk = .ok (ba', best') →
      P { ms with book := { ms.book with limitHeap := st.limits, askTree := st.tree,
                                         askMap := mapDelete ms.book.askMap best'.price,
                                         bestAsk := best.higher } })
    (hfill : ∀ (ms : MatchState) (ba : Nat) (best : limitPrice) (pa : Nat) (pm : order)
      (orders : List order) (list : orderList) (pa' : Nat) (pm' : order), P ms →
      ms.remaining ≠ 0 →
      deref ms.book.limitHeap ms.book.bestAsk = .ok (ba, best) → ¬ p < best.price →
      deref ms.book.orderHeap best.orders.first = .ok (pa, pm) → pm.size ≤ ms.remaining →
      orderList.remove ms.book.orderHeap best.orders 0 = .ok (orders, list) →
      deref orders best.orders.first = .ok (pa', pm') →
      P { book := { ms.book with orderMap := mapDelete ms.book.orderMap pm.id,
                                 orderHeap := orders,
                                 limitHeap := store ms.book.limitHeap ba
                                   { best with orders := list } },
          remaining := ms.remaining - pm.size,
          executions := ms.executions ++
            [{ OrderID := pm'.id, FilledQuantity := pm'.size, RemainingQuantity := 0 }] })
    (hpart : ∀ (ms : MatchState) (ba : Nat) (best : limitPrice) (pa : Nat) (pm : order),
      P ms → ms.remaining ≠ 0 →
      deref ms.book.limitHeap ms.book.bestAsk = .ok (ba, best) → ¬ p < best.price →
      deref ms.book.orderHeap best.orders.first = .ok (pa, pm) → ¬ pm.size ≤ ms.remaining →
      P { book := { ms.book with orderHeap := store ms.book.orderHeap pa
                                   { pm with size := pm.size - ms.remaining } },
          remaining := 0,
          executions := ms.executions ++
            [{ OrderID := pm.id, FilledQuantity := ms.remaining,
               RemainingQuantity := pm.size - ms.remaining }] }) :
    ∀ (fuel : Nat) (ms ms' : MatchState), matchBidLoop p fuel ms = .ok ms' → P ms → P ms' := by
  intro fuel
  induction fuel with
  | zero => intro ms ms' h; simp [matchBidLoop] at h
  | succ n ih =>
    intro ms ms' h hP
    unfold matchBidLoop at h
    simp only [bind, Except.bind] at h
    split at h
    · cases h; exact hP
    · split at h
      · cases h; exact hP
      · split at h
        · cases h
        · rename_i hrem _ _ v hbest
          obtain ⟨ba, best⟩ := v
          simp only at h
          split at h
          · cases h; exact hP
          · rename_i hprice
            split at h
            · rename_i hfirst
              split at h
              · cases h
              · rename_i _ st hst
                split at h
                · cases h
                · rename_i _ v' hbest'
                  obtain ⟨ba', best'⟩ := v'
                  exact ih _ _ h (hadv ms n ba best st ba' best' hP hrem hbest hprice hfirst hst hbest')
            · split at h
              · cases h
              · rename_i _ v hpm
                obtain ⟨pa, pm⟩ := v
                simp only at h
                split at h
                · rename_i hle
                  split at h
                  · cases h
                  · rename_i _ v hremove
                    obtain ⟨orders, list⟩ := v
                    split at h
                    · cases h
                    · rename_i _ v hpm'
                      obtain ⟨pa', pm'⟩ := v
                      exact ih _ _ h (hfill ms ba best pa pm orders list pa' pm' hP hrem hbest hprice hpm hle hremove hpm')
                · rename_i hle
                  exact ih _ _ h (hpart ms ba best pa pm hP hrem hbest hprice hpm hle)

/-- Invariant rule for the loop of `matchAsk`: a property kept by each of the
three kinds of round holds when the loop returns. -/
theorem matchAskLoop_inv (p : Nat) (P : MatchState → Prop)
    (hadv : ∀ (ms : MatchState) (n ba : Nat) (best : limitPrice) (st : TreeState)
      (ba' : Nat) (best' : limitPrice), P ms → ms.remaining ≠ 0 →
      deref ms.book.limitHeap ms.book.bestBid = .ok (ba, best) → ¬ p > best.price →
      best.orders.first = none →
      limitPriceTree.removeLimit n { limits := ms.book.limitHeap, tree := ms.book.bidTree }
        best.price = .ok st →
      deref st.limits ms.book.bestBid = .ok (ba', best') →
      P { ms with book := { ms.book with limitHeap := st.limits, bidTree := st.tree,
                                         bidMap := mapDelete ms.book.bidMap best'.price,
                                         bestBid := best.lower } })
    (hfill : ∀ (ms : MatchState) (ba : Nat) (best : limitPrice) (pa : Nat) (pm : order)
      (orders : List order) (list : orderList) (pa' : Nat) (pm' : order), P ms →
      ms.remaining ≠ 0 →
      deref ms.book.limitHeap ms.book.bestBid = .ok (ba, best) → ¬ p > best.price →
      deref ms.book.orderHeap best.orders.first = .ok (pa, pm) → pm.size ≤ ms.remaining →
      orderList.remove ms.book.orderHeap best.orders 0 = .ok (orders, list) →
      deref orders best.orders.first = .ok (pa', pm') →
      P { book := { ms.book with orderMap := mapDelete ms.book.orderMap pm.id,
                                 orderHeap := orders,
                                 limitHeap := store ms.book.limitHeap ba
                                   { best with orders := list } },
          remaining := ms.remaining - pm.size,
          executions := ms.executions ++
            [{ OrderID := pm'.id, FilledQuantity := pm'.size, RemainingQuantity := 0 }] })
    (hpart : ∀ (ms : MatchState) (ba : Nat) (best : limitPrice) (pa : Nat) (pm : order),
      P ms → ms.remaining ≠ 0 →
      deref ms.book.limitHeap ms.book.bestBid = .ok (ba, best) → ¬ p > best.price →
      deref ms.book.orderHeap best.orders.first = .ok (pa, pm) → ¬ pm.size ≤ ms.remaining →
      P { book := { ms.book with orderHeap := store ms.book.orderHeap pa
                                   { pm with size := pm.size - ms.remaining } },
          remaining := 0,
          executions := ms.executions ++
            [{ OrderID := pm.id, FilledQuantity := ms.remaining,
               RemainingQuantity := pm.size - ms.remaining }] }) :
    ∀ (fuel : Nat) (ms ms' : MatchState), matchAskLoop p fuel ms = .ok ms' → P ms → P ms' := by
  intro fuel
  induction fuel with
  | zero => intro ms ms' h; simp [matchAskLoop] at h
  | succ n ih =>
    intro ms ms' h hP
    unfold matchAskLoop at h
    simp only [bind, Except.bind] at h
    split at h
    · cases h; exact hP
    · split at h
      · cases h; exact hP
      · split at h
        · cases h
        · rename_i hrem _ _ v hbest
          obtain ⟨ba, best⟩ := v
          simp only at h
          split at h
          · cases h; exact hP
          · rename_i hprice
            split at h
            · rename_i hfirst
              split at h
              · cases h
              · rename_i _ st hst
                split at h
                · cases h
                · rename_i _ v' hbest'
                  obtain ⟨ba', best'⟩ := v'
                  exact ih _ _ h (hadv ms n ba best st ba' best' hP hrem hbest hprice hfirst hst hbest')
            · split at h
              · cases h
              · rename_i _ v hpm
                obtain ⟨pa, pm⟩ := v
                simp only at h
                split at h
                · rename_i hle
                  split at h
                  · cases h
                  · rename_i _ v hremove
                    obtain ⟨orders, list⟩ := v
                    split at h
                    · cases h
                    · rename_i _ v hpm'
                      obtain ⟨pa', pm'⟩ := v
                      exact ih _ _ h (hfill ms ba best pa pm orders list pa' pm' hP hrem hbest hprice hpm hle hremove hpm')
                · rename_i hle
                  exact ih _ _ h (hpart ms ba best pa pm hP hrem hbest hprice hpm hle)

theorem filledSum_append (xs ys : List Execution) :
    filledSum (xs ++ ys) = filledSum xs + filledSum ys := by
  simp [filledSum]

theorem filledSum_single (e : Execution) : filledSum [e] = e.FilledQuantity := by
  simp [filledSum]

theorem fillInv_refl (ms : MatchState) : FillInv ms ms :=
  ⟨[], by simp, by simp [filledSum], fun h => ⟨h, by simp⟩⟩

theorem ordersPositive_store {h : List order} {a : Nat} {y : order}
    (hp : OrdersPositive h) (hy : 0 < y.size) : OrdersPositive (store h a y) := by
  intro o ho
  rcases List.mem_or_eq_of_mem_set ho with h1 | h1
  · exact hp o h1
  · rw [h1]; exact hy

theorem fillInv_fill {ms0 ms : MatchState} {bk : Book} {pm pm' : order} (hi : FillInv ms0 ms)
    (hle : pm.size ≤ ms.remaining) (hsz : pm'.size = pm.size)
    (hmem : OrdersPositive ms.book.orderHeap → 0 < pm.size)
    (hsame : SameData ms.book.orderHeap bk.orderHeap) :
    FillInv ms0 { book := bk, remaining := ms.remaining - pm.size,
                  executions := ms.executions ++
                    [{ OrderID := pm'.id, FilledQuantity := pm'.size,
                       RemainingQuantity := 0 }] } := by
  obtain ⟨extra, h1, h2, h3⟩ := hi
  refine ⟨extra ++ [{ OrderID := pm'.id, FilledQuantity := pm'.size,
                      RemainingQuantity := 0 }], ?_, ?_, ?_⟩
  · simp [h1]
  · simp only [filledSum_append, filledSum_single, hsz]; omega
  · intro hp
    obtain ⟨hp1, hp2⟩ := h3 hp
    refine ⟨sameData_positive hsame hp1, ?_⟩
    intro e he
    rcases List.mem_append.mp he with h | h
    · exact hp2 e h
    · simp at h; subst h; simp only [hsz]; exact hmem hp1

theorem fillInv_part {ms0 ms : MatchState} {bk : Book} {pm : order} {pa : Nat}
    (hi : FillInv ms0 ms) (hrem : ms.remaining ≠ 0) (hle : ¬ pm.size ≤ ms.remaining)
    (hbk : bk.orderHeap = store ms.book.orderHeap pa
      { pm with size := pm.size - ms.remaining }) :
    FillInv ms0 { book := bk, remaining := 0,
                  executions := ms.executions ++
                    [{ OrderID := pm.id, FilledQuantity := ms.remaining,
                       RemainingQuantity := pm.size - ms.remaining }] } := by
  obtain ⟨extra, h1, h2, h3⟩ := hi
  refine ⟨extra ++ [{ OrderID := pm.id, FilledQuantity := ms.remaining,
                      RemainingQuantity := pm.size - ms.remaining }], ?_, ?_, ?_⟩
  · simp [h1]
  · simp only [filledSum_append, filledSum_single]; omega
  · intro hp
    obtain ⟨hp1, hp2⟩ := h3 hp
    refine ⟨?_, ?_⟩
    · rw [hbk]; exact ordersPositive_store hp1 (by simp only; omega)
    · intro e he
      rcases List.mem_append.mp he with h | h
      · exact hp2 e h
      · simp at h; subst h; simp only; omega

theorem fillInv_frame {ms0 ms : MatchState} {bk : Book} (hi : FillInv ms0 ms)
    (hbk : bk.orderHeap = ms.book.orderHeap) :
    FillInv ms0 { ms with book := bk } := by
  obtain ⟨extra, h1, h2, h3⟩ := hi
  exact ⟨extra, h1, h2, fun hp => by rw [hbk]; exact h3 hp⟩

theorem matchBidLoop_fill {p fuel : Nat} {ms ms' : MatchState}
    (h : matchBidLoop p fuel ms = .ok ms') : FillInv ms ms' := by
  refine matchBidLoop_inv p (FillInv ms) ?_ ?_ ?_ fuel ms ms' h (fillInv_refl ms)
  · intro ms1 n ba best st ba' best' hP _ _ _ _ _ _
    exact fillInv_frame hP rfl
  · intro ms1 ba best pa pm orders list pa' pm' hP _ _ _ hpm hle hrm hpm'
    have hs := remove_sameData hrm
    have hd := (sameData_deref hs hpm hpm').2
    refine fillInv_fill hP hle ?_ ?_ hs
    · simp [orderData] at hd; exact hd.2.2.2
    · intro hp; exact hp pm (List.getElem?_mem (deref_ok hpm).2)
  · intro ms1 ba best pa pm hP hrem _ _ _ hle
    exact fillInv_part hP hrem hle rfl

theorem matchAskLoop_fill {p fuel : Nat} {ms ms' : MatchState}
    (h : matchAskLoop p fuel ms = .ok ms') : FillInv ms ms' := by
  refine matchAskLoop_inv p (FillInv ms) ?_ ?_ ?_ fuel ms ms' h (fillInv_refl ms)
  · intro ms1 n ba best st ba' best' hP _ _ _ _ _ _
    exact fillInv_frame hP rfl
  · intro ms1 ba best pa pm orders list pa' pm' hP _ _ _ hpm hle hrm hpm'
    have hs := remove_sameData hrm
    have hd := (sameData_deref hs hpm hpm').2
    refine fillInv_fill hP hle ?_ ?_ hs
    · simp [orderData] at hd; exact hd.2.2.2
    · intro hp; exact hp pm (List.getElem?_mem (deref_ok hpm).2)
  · intro ms1 ba best pa pm hP hrem _ _ _ hle
    exact fillInv_part hP hrem hle rfl

theorem matchBid_spec {fuel : Nat} {b b1 : Book} {p s m : Nat} {ex : List Execution}
    (h : b.matchBid fuel p s = .ok (b1, m, ex)) :
    filledSum ex = m ∧ m ≤ s ∧
    (OrdersPositive b.orderHeap →
      OrdersPositive b1.orderHeap ∧ ∀ e ∈ ex, 0 < e.FilledQuantity) := by
  unfold Book.matchBid at h
  obtain ⟨ms, hms, h⟩ := bind_ok h
  cases h
  obtain ⟨extra, h1, h2, h3⟩ := matchBidLoop_fill hms
  simp only [List.nil_append] at h1 h2 h3
  subst h1
  exact ⟨by omega, by omega, h3⟩

theorem matchAsk_spec {fuel : Nat} {b b1 : Book} {p s m : Nat} {ex : List Execution}
    (h : b.matchAsk fuel p s = .ok (b1, m, ex)) :
    filledSum ex = m ∧ m ≤ s ∧
    (OrdersPositive b.orderHeap →
      OrdersPositive b1.orderHeap ∧ ∀ e ∈ ex, 0 < e.FilledQuantity) := by
  unfold Book.matchAsk at h
  obtain ⟨ms, hms, h⟩ := bind_ok h
  cases h
  obtain ⟨extra, h1, h2, h3⟩ := matchAskLoop_fill hms
  simp only [List.nil_append] at h1 h2 h3
  subst h1
  exact ⟨by omega, by omega, h3⟩

theorem match_spec {fuel : Nat} {b b1 : Book} {side : Side} {p s m : Nat}
    {ex : List Execution}
    (h : (if side = Bid then b.matchBid fuel p s else b.matchAsk fuel p s) = .ok (b1, m, ex)) :
    filledSum ex = m ∧ m ≤ s ∧
    (OrdersPositive b.orderHeap →
      OrdersPositive b1.orderHeap ∧ ∀ e ∈ ex, 0 < e.FilledQuantity) := by
  split at h
  · exact matchBid_spec h
  · exact matchAsk_spec h

theorem filledSum_eq_zero {ex : List Execution} (hpos : ∀ e ∈ ex, 0 < e.FilledQuantity)
    (h : filledSum ex = 0) : ex = [] := by
  cases ex with
  | nil => rfl
  | cons e rest =>
    have := hpos e (by simp)
    simp [filledSum] at h
    omega

theorem addLimit_orders {fuel : Nat} {orders orders' : List order} {st st' : TreeState}
    {price : Nat} {o lim : Ptr}
    (h : limitPriceTree.addLimit fuel orders st price o = .ok (orders', st', lim)) :
    orders' = orders := by
  unfold limitPriceTree.addLimit at h
  obtain ⟨⟨os, l⟩, h1, h⟩ := bind_ok h
  obtain ⟨⟨st1, f⟩, h2, h⟩ := bind_ok h
  cases h
  simp [newOrderList, orderList.add] at h1
  exact h1.1.symm

theorem rest_sameData {fuel : Nat} {b b2 : Book} {id : OrderID} {side : Side}
    {price size m : Nat} (h : b.rest fuel id side price size m = .ok b2) :
    SameData (b.orderHeap ++ [{ id := id, side := Bid, price := price, size := size - m,
                                next := none, prev := none }]) b2.orderHeap := by
  unfold Book.rest at h
  simp only at h
  split at h
  · obtain ⟨⟨b1, lim⟩, h1, h⟩ := bind_ok h
    have hs : SameData
        (b.orderHeap ++
          [{ id := id, side := Bid, price := price, size := size - m, next := none,
             prev := none }])
        b1.orderHeap := by
      split at h1
      · obtain ⟨⟨os, st, l⟩, h2, h1⟩ := bind_ok h1
        cases h1
        rw [addLimit_orders h2]
        exact sameData_refl _
      · obtain ⟨⟨la, l⟩, h2, h1⟩ := bind_ok h1
        obtain ⟨⟨os, list⟩, h3, h1⟩ := bind_ok h1
        cases h1
        exact add_sameData h3
    have hb : b2.orderHeap = b1.orderHeap := by
      simp only at h
      split at h
      · cases h; rfl
      · obtain ⟨⟨ba, best⟩, h2, h⟩ := bind_ok h
        simp only at h
        split at h <;> cases h <;> rfl
    rw [hb]; exact hs
  · obtain ⟨⟨b1, lim⟩, h1, h⟩ := bind_ok h
    have hs : SameData
        (b.orderHeap ++
          [{ id := id, side := Bid, price := price, size := size - m, next := none,
             prev := none }])
        b1.orderHeap := by
      split at h1
      · obtain ⟨⟨os, st, l⟩, h2, h1⟩ := bind_ok h1
        cases h1
        rw [addLimit_orders h2]
        exact sameData_refl _
      · obtain ⟨⟨la, l⟩, h2, h1⟩ := bind_ok h1
        obtain ⟨⟨os, list⟩, h3, h1⟩ := bind_ok h1
        cases h1
        exact add_sameData h3
    have hb : b2.orderHeap = b1.orderHeap := by
      simp only at h
      split at h
      · cases h; rfl
      · obtain ⟨⟨ba, best⟩, h2, h⟩ := bind_ok h
        simp only at h
        split at h <;> cases h <;> rfl
    rw [hb]; exact hs

theorem ordersPositive_append {h : List order} {o : order} (hp : OrdersPositive h)
    (ho : 0 < o.size) : OrdersPositive (h ++ [o]) := by
  intro x hx
  rcases List.mem_append.mp hx with h1 | h1
  · exact hp x h1
  · simp at h1; subst h1; exact ho

theorem Submit_positive {fuel : Nat} {b : Book} {id : OrderID} {side : Side} {price size : Nat}
    {r : SubmitResult} (hp : OrdersPositive b.orderHeap)
    (hr : b.Submit fuel id side price size = .ok r) : OrdersPositive r.book.orderHeap := by
  by_cases h : price = 0 ∨ size = 0
  · rw [Submit_invalid fuel b id side price size h] at hr
    cases hr; exact hp
  · obtain ⟨b1, m, ex, b2, hm, hrest, rfl⟩ := Submit_ok_inv h hr
    obtain ⟨_, hle, hpos⟩ := match_spec hm
    obtain ⟨hp1, _⟩ := hpos hp
    simp only
    split at hrest
    · rename_i hne
      exact sameData_positive (rest_sameData hrest) (ordersPositive_append hp1 (by simp only; omega))
    · cases hrest; exact hp1

theorem Cancel_sameData {fuel : Nat} {b : Book} {id : OrderID} {r : CancelResult}
    (hr : b.Cancel fuel id = .ok r) : SameData b.orderHeap r.book.orderHeap := by
  unfold Book.Cancel at hr
  split at hr
  · cases hr; exact sameData_refl _
  · obtain ⟨⟨oa, o⟩, ho, hr⟩ := bind_ok hr
    simp only at hr
    split at hr
    · cases hr; exact sameData_refl _
    · obtain ⟨⟨la, l⟩, hl, hr⟩ := bind_ok hr
      obtain ⟨⟨orders, list⟩, hrm, hr⟩ := bind_ok hr
      have hs := removeID_sameData hrm
      simp only at hr hs
      split at hr
      · split at hr
        · obtain ⟨⟨ba, best⟩, hb, hr⟩ := bind_ok hr
          obtain ⟨b3, hb3, hr⟩ := bind_ok hr
          obtain ⟨st, hst, hr⟩ := bind_ok hr
          cases hr
          simp only at hb3 ⊢
          split at hb3 <;> cases hb3 <;> exact hs
        · obtain ⟨⟨ba, best⟩, hb, hr⟩ := bind_ok hr
          obtain ⟨b3, hb3, hr⟩ := bind_ok hr
          obtain ⟨st, hst, hr⟩ := bind_ok hr
          cases hr
          simp only at hb3 ⊢
          split at hb3 <;> cases hb3 <;> exact hs
      · cases hr; exact hs

theorem reachable_positive {b : Book} (h : Reachable b) : OrdersPositive b.orderHeap := by
  induction h with
  | init => intro o ho; simp [Init] at ho
  | submit fuel id side price size _ _ hr ih => exact Submit_positive ih hr
  | cancel fuel id _ hr ih => exact sameData_positive (Cancel_sameData hr) ih

theorem runSubmits_reachable {fuel : Nat} : ∀ {calls : List SubmitCall} {b b' : Book},
    Reachable b → (∀ c ∈ calls, genIDRange c.id) → runSubmits fuel b calls = .ok b' →
    Reachable b' := by
  intro calls
  induction calls with
  | nil => intro b b' hb _ h; cases h; exact hb
  | cons c rest ih =>
    intro b b' hb hids h
    unfold runSubmits at h
    obtain ⟨r, hr, h⟩ := bind_ok h
    exact ih (Reachable.submit fuel c.id c.side c.price c.size hb (hids c (by simp)) hr)
      (fun c' hc' => hids c' (by simp [hc'])) h

theorem bookA_submit :
    Init.Submit 5 10000001 Ask 100 10 =
      .ok { book := bookA, id := 10000001, executions := [], err := false } := by
  rfl

theorem bookA_reachable : Reachable bookA :=
  Reachable.submit 5 10000001 Ask 100 10 Reachable.init (by decide) bookA_submit

theorem bookB_submit :
    bookA.Submit 5 10000002 Bid 100 6 =
      .ok { book := bookB, id := 10000002,
            executions := [⟨10000001, 6, 4⟩, ⟨10000002, 6, 0⟩], err := false } := by
  rfl

/-- C2, as stated, fails: after `Submit(Sell, 100, 10)` on the empty book,
`Submit(Buy, 100, 6)` returns one execution for the resting sell with
`FilledQuantity = 6` and the buyer's own execution with `FilledQuantity = 6`;
the sum over the counter-orders plus the submitter's own fill is 12, which
exceeds the submitted size 6. -/
theorem Submit_fills_exceed_size :
    Reachable bookA ∧
    bookA.Submit 5 10000002 Bid 100 6 =
      .ok { book := bookB, id := 10000002,
            executions := [⟨10000001, 6, 4⟩, ⟨10000002, 6, 0⟩], err := false } ∧
    ¬ (filledSum [⟨10000001, 6, 4⟩] + (⟨10000002, 6, 0⟩ : Execution).FilledQuantity ≤ 6) :=
  ⟨bookA_reachable, bookB_submit, by decide⟩

/-- C2 (amended): for every book and every `Submit` with a nonzero price and
size that returns, the returned executions are those of the counter-orders
followed by the submitter's own (present when something was filled); the sum of
`FilledQuantity` over the counter-orders is at most the submitted size, and the
submitter's own `FilledQuantity` is that same sum, hence at most the submitted
size as well. -/
theorem Submit_filled_le_size (fuel : Nat) (b : Book) (newOrderID : OrderID) (side : Side)
    (price size : Nat) (r : SubmitResult) (hp : price ≠ 0) (hs : size ≠ 0)
    (hr : b.Submit fuel newOrderID side price size = .ok r) :
    ∃ counter own, r.executions = counter ++ own ∧
      filledSum counter ≤ size ∧
      own = (if filledSum counter ≠ 0 then
              [{ OrderID := newOrderID, FilledQuantity := filledSum counter,
                 RemainingQuantity := size - filledSum counter }]
             else []) ∧
      ∀ e ∈ own, e.FilledQuantity = filledSum counter ∧ e.FilledQuantity ≤ size := by
  have h : ¬ (price = 0 ∨ size = 0) := by omega
  obtain ⟨b1, m, ex, b2, hm, hrest, rfl⟩ := Submit_ok_inv h hr
  obtain ⟨hsum, hle, _⟩ := match_spec hm
  subst hsum
  refine ⟨ex, _, ?_, hle, rfl, ?_⟩
  · simp only
    split <;> simp
  · intro e he
    split at he
    · simp at he; subst he; exact ⟨rfl, hle⟩
    · simp at he

theorem Submit_filled_le_size_witness :
    (100 ≠ 0 ∧ 6 ≠ 0 ∧
      bookA.Submit 5 10000002 Bid 100 6 =
        .ok { book := bookB, id := 10000002,
              executions := [⟨10000001, 6, 4⟩, ⟨10000002, 6, 0⟩], err := false }) ∧
    ∃ counter own, [⟨10000001, 6, 4⟩, ⟨10000002, 6, 0⟩] = counter ++ own ∧
      filledSum counter ≤ 6 ∧
      own = (if filledSum counter ≠ 0 then
              [{ OrderID := 10000002, FilledQuantity := filledSum counter,
                 RemainingQuantity := 6 - filledSum counter }]
             else []) ∧
      ∀ e ∈ own, e.FilledQuantity = filledSum counter ∧ e.FilledQuantity ≤ 6 :=
  ⟨⟨by decide, by decide, bookB_submit⟩,
    Submit_filled_le_size 5 bookA 10000002 Bid 100 6 _ (by decide) (by decide) bookB_submit⟩

/-- C3: for every book whose orders have positive sizes (every reachable book
is one, `reachable_positive`) and every `Submit` with a nonzero price and size
that returns, with `m` the quantity the matching function reports as matched and
`counter` the executions it emitted for the counter-orders: `m` is the sum of
their fills and at most `size`; the returned list is empty exactly when
`m = 0`; otherwise it is `counter` followed by one last execution that carries
the returned order id, whose `FilledQuantity` is the sum of the fills before it
and whose `RemainingQuantity` is `size` minus that sum, so that its filled and
remaining quantities add up to `size`. -/
theorem Submit_executions_shape (fuel : Nat) (b : Book) (newOrderID : OrderID) (side : Side)
    (price size : Nat) (r : SubmitResult) (hb : OrdersPositive b.orderHeap)
    (hp : price ≠ 0) (hs : size ≠ 0)
    (hr : b.Submit fuel newOrderID side price size = .ok r) :
    ∃ b1 m counter,
      (if side = Bid then b.matchBid fuel price size else b.matchAsk fuel price size)
        = .ok (b1, m, counter) ∧
      filledSum counter = m ∧ m ≤ size ∧ r.id = newOrderID ∧
      (r.executions = [] ↔ m = 0) ∧
      (m ≠ 0 → ∃ last, r.executions = counter ++ [last] ∧
        last.OrderID = r.id ∧
        last.FilledQuantity = filledSum counter ∧
        last.RemainingQuantity = size - filledSum counter ∧
        last.FilledQuantity + last.RemainingQuantity = size) := by
  have h : ¬ (price = 0 ∨ size = 0) := by omega
  obtain ⟨b1, m, ex, b2, hm, hrest, rfl⟩ := Submit_ok_inv h hr
  obtain ⟨hsum, hle, hpos⟩ := match_spec hm
  obtain ⟨_, hfill⟩ := hpos hb
  refine ⟨b1, m, ex, hm, hsum, hle, rfl, ?_, ?_⟩
  · simp only
    constructor
    · intro he
      by_contra hne
      rw [if_pos hne] at he
      simp at he
    · intro h0
      rw [h0] at hsum
      simp [h0, filledSum_eq_zero hfill hsum]
  · intro hne
    refine ⟨{ OrderID := newOrderID, FilledQuantity := m, RemainingQuantity := size - m },
      by simp only [if_pos hne], rfl, hsum.symm, by rw [hsum], ?_⟩
    simp only
    omega

theorem Submit_executions_shape_witness :
    (OrdersPositive bookA.orderHeap ∧ 100 ≠ 0 ∧ 6 ≠ 0 ∧
      bookA.Submit 5 10000002 Bid 100 6 =
        .ok { book := bookB, id := 10000002,
              executions := [⟨10000001, 6, 4⟩, ⟨10000002, 6, 0⟩], err := false }) ∧
    ∃ b1 m counter,
      (if Bid = Bid then bookA.matchBid 5 100 6 else bookA.matchAsk 5 100 6)
        = .ok (b1, m, counter) ∧
      filledSum counter = m ∧ m ≤ 6 ∧ (10000002 : OrderID) = 10000002 ∧
      (([⟨10000001, 6, 4⟩, ⟨10000002, 6, 0⟩] : List Execution) = [] ↔ m = 0) ∧
      (m ≠ 0 → ∃ last, [⟨10000001, 6, 4⟩, ⟨10000002, 6, 0⟩] = counter ++ [last] ∧
        last.OrderID = 10000002 ∧
        last.FilledQuantity = filledSum counter ∧
        last.RemainingQuantity = 6 - filledSum counter ∧
        last.FilledQuantity + last.RemainingQuantity = 6) :=
  ⟨⟨reachable_positive bookA_reachable, by decide, by decide, bookB_submit⟩,
    Submit_executions_shape 5 bookA 10000002 Bid 100 6 _ (reachable_positive bookA_reachable)
      (by decide) (by decide) bookB_submit⟩

theorem deref_store_self {α : Type} {heap : List α} {p : Ptr} {a : Nat} {x y : α}
    (h : deref heap p = .ok (a, x)) : deref (store heap a y) p = .ok (a, y) := by
  obtain ⟨rfl, hx⟩ := deref_ok h
  have hlt : a < heap.length := (List.getElem?_eq_some_iff.mp hx).1
  simp [deref, store, List.getElem?_set, hlt]

theorem matchBid_part {fuel : Nat} {b : Book} {p s ba pa : Nat} {best : limitPrice}
    {pm : order} (hbest : deref b.limitHeap b.bestAsk = .ok (ba, best))
    (hprice : best.price ≤ p) (hfront : deref b.orderHeap best.orders.first = .ok (pa, pm))
    (hs : 0 < s) (hq : s < pm.size) :
    b.matchBid (fuel + 2) p s =
      .ok ({ b with orderHeap := store b.orderHeap pa { pm with size := pm.size - s } }, s,
           [⟨pm.id, s, pm.size - s⟩]) := by
  have h1 : b.bestAsk ≠ none := by
    intro hn; rw [hn] at hbest; simp [deref] at hbest
  have h2 : best.orders.first ≠ none := by
    intro hn; rw [hn] at hfront; simp [deref] at hfront
  have h3 : ¬ p < best.price := by omega
  have h4 : ¬ pm.size ≤ s := by omega
  have h5 : s ≠ 0 := by omega
  simp [Book.matchBid, matchBidLoop, bind, Except.bind, hbest, hfront, h1, h2, h3, h4, h5]

theorem matchAsk_part {fuel : Nat} {b : Book} {p s ba pa : Nat} {best : limitPrice}
    {pm : order} (hbest : deref b.limitHeap b.bestBid = .ok (ba, best))
    (hprice : p ≤ best.price) (hfront : deref b.orderHeap best.orders.first = .ok (pa, pm))
    (hs : 0 < s) (hq : s < pm.size) :
    b.matchAsk (fuel + 2) p s =
      .ok ({ b with orderHeap := store b.orderHeap pa { pm with size := pm.size - s } }, s,
           [⟨pm.id, s, pm.size - s⟩]) := by
  have h1 : b.bestBid ≠ none := by
    intro hn; rw [hn] at hbest; simp [deref] at hbest
  have h2 : best.orders.first ≠ none := by
    intro hn; rw [hn] at hfront; simp [deref] at hfront
  have h3 : ¬ p > best.price := by omega
  have h4 : ¬ pm.size ≤ s := by omega
  have h5 : s ≠ 0 := by omega
  simp [Book.matchAsk, matchAskLoop, bind, Except.bind, hbest, hfront, h1, h2, h3, h4, h5]

/-- C8: whenever the best level of the opposite side (the limit `bestAsk`
points to for a buy, `bestBid` for a sell) has a price within the limit `p` and
the front order of its queue, with id `pm.id`, has a size `pm.size > s > 0`,
`Submit(side, p, s)` returns, with exactly the two executions
`(pm.id, s, pm.size - s)` and `(newOrderID, s, 0)`; the book it leaves is the
old book with the size of that one order lowered to `pm.size - s`: the limits
(so the queue and its front), the registry, both trees, both maps and both best
pointers are as before, and no order is added. -/
theorem Submit_partial_fill (fuel : Nat) (b : Book) (newOrderID : OrderID) (side : Side)
    (p s ba pa : Nat) (best : limitPrice) (pm : order)
    (hbest : deref b.limitHeap (if side = Bid then b.bestAsk else b.bestBid) = .ok (ba, best))
    (hprice : if side = Bid then best.price ≤ p else p ≤ best.price)
    (hfront : deref b.orderHeap best.orders.first = .ok (pa, pm))
    (hp : p ≠ 0) (hs : 0 < s) (hq : s < pm.size) :
    b.Submit (fuel + 2) newOrderID side p s =
      .ok { book := { b with orderHeap :=
                        store b.orderHeap pa { pm with size := pm.size - s } },
            id := newOrderID,
            executions := [⟨pm.id, s, pm.size - s⟩, ⟨newOrderID, s, 0⟩],
            err := false } ∧
    deref (store b.orderHeap pa { pm with size := pm.size - s }) best.orders.first =
      .ok (pa, { pm with size := pm.size - s }) := by
  refine ⟨?_, deref_store_self hfront⟩
  have hv : ¬ (p = 0 ∨ s = 0) := by omega
  have hs0 : s ≠ 0 := by omega
  unfold Book.Submit
  rw [if_neg hv]
  by_cases hside : side = Bid
  · rw [if_pos hside] at hbest hprice
    rw [if_pos hside, matchBid_part hbest hprice hfront hs hq]
    simp [bind, Except.bind, hs0]
  · rw [if_neg hside] at hbest hprice
    rw [if_neg hside, matchAsk_part hbest hprice hfront hs hq]
    simp [bind, Except.bind, hs0]

theorem Submit_partial_fill_witness :
    (deref bookA.limitHeap (if Bid = Bid then bookA.bestAsk else bookA.bestBid) =
        .ok (0, ⟨100, ⟨some 0, some 0, 1⟩, none, none, none, 0⟩) ∧
      (if Bid = Bid then (100 : Nat) ≤ 100 else (100 : Nat) ≤ 100) ∧
      deref bookA.orderHeap (some 0) = .ok (0, ⟨10000001, false, 100, 10, none, none⟩) ∧
      100 ≠ 0 ∧ 0 < 6 ∧ 6 < 10) ∧
    bookA.Submit 2 10000002 Bid 100 6 =
      .ok { book := bookB, id := 10000002,
            executions := [⟨10000001, 6, 4⟩, ⟨10000002, 6, 0⟩], err := false } ∧
    deref bookB.orderHeap (some 0) = .ok (0, ⟨10000001, false, 100, 4, none, none⟩) :=
  ⟨⟨rfl, by decide, rfl, by decide, by decide, by decide⟩,
    Submit_partial_fill 0 bookA 10000002 Bid 100 6 0 0
      ⟨100, ⟨some 0, some 0, 1⟩, none, none, none, 0⟩ ⟨10000001, false, 100, 10, none, none⟩
      rfl (by decide) rfl (by decide) (by decide) (by decide)⟩

theorem bookTwoAsks_run :
    runSubmits 5 Init [⟨10000001, Ask, 100, 1⟩, ⟨10000002, Ask, 101, 1⟩] = .ok bookTwoAsks := by
  rfl

theorem bookTwoAsks_reachable : Reachable bookTwoAsks :=
  runSubmits_reachable Reachable.init (by decide) bookTwoAsks_run

theorem bookC0_run :
    runSubmits 5 Init
      [⟨10000001, Ask, 100, 5⟩, ⟨10000002, Ask, 101, 5⟩, ⟨10000003, Ask, 102, 20⟩]
      = .ok bookC0 := by
  rfl

theorem bookC0_reachable : Reachable bookC0 :=
  runSubmits_reachable Reachable.init (by decide) bookC0_run

theorem bookC_submit :
    bookC0.Submit 5 10000004 Bid 103 25 =
      .ok { book := bookC, id := 10000004,
            executions := [⟨10000003, 20, 0⟩, ⟨10000004, 20, 5⟩], err := false } := by
  rfl

theorem bookC_reachable : Reachable bookC :=
  Reachable.submit 5 10000004 Bid 103 25 bookC0_reachable (by decide) bookC_submit

theorem bookSame_run :
    runSubmits 5 Init [⟨10000001, Ask, 100, 5⟩, ⟨10000002, Ask, 100, 7⟩] = .ok bookSame := by
  rfl

theorem bookSame_reachable : Reachable bookSame :=
  runSubmits_reachable Reachable.init (by decide) bookSame_run

/-- C5 fails on the code: after `Submit(Sell, 100, 1)` and `Submit(Sell, 101, 1)`
on the empty book the ask tree holds the prices 100 and 101 and `bestAsk`
points to the limit at 101, not at the minimum 100; and after Scenario C
`bestAsk` is `nil` although the ask tree still holds the prices 100 and 101. -/
theorem bestAsk_not_minimum :
    (Reachable bookTwoAsks ∧
      treePrices bookTwoAsks.limitHeap 5 bookTwoAsks.askTree.root = [100, 101] ∧
      deref bookTwoAsks.limitHeap bookTwoAsks.bestAsk =
        .ok (1, ⟨101, ⟨some 1, some 1, 1⟩, some 0, none, none, 0⟩)) ∧
    (Reachable bookC ∧ bookC.bestAsk = none ∧
      treePrices bookC.limitHeap 5 bookC.askTree.root = [100, 101]) :=
  ⟨⟨bookTwoAsks_reachable, by decide, rfl⟩, bookC_reachable, rfl, by decide⟩

/-- C6 fails on the code (Scenario C): with asks resting at 100 (size 5),
101 (size 5) and 102 (size 20), `Submit(Buy, 103, 25)` fills the ask at 102
first and only that one: it returns `(ask@102, 20, 0)` and `(buyer, 20, 5)`,
and the asks at 100 and 101, both cheaper than the one filled, stay in the
tree. -/
theorem scenarioC_fills_highest_ask :
    Reachable bookC0 ∧
    bookC0.Submit 5 10000004 Bid 103 25 =
      .ok { book := bookC, id := 10000004,
            executions := [⟨10000003, 20, 0⟩, ⟨10000004, 20, 5⟩], err := false } ∧
    treePrices bookC.limitHeap 5 bookC.askTree.root = [100, 101] ∧
    queueOf bookC 5 0 = [0] ∧ queueOf bookC 5 1 = [1] :=
  ⟨bookC0_reachable, bookC_submit, by decide, by decide, by decide⟩

/-- C7 fails on the code: with asks resting at 100 and 101,
`Submit(Buy, 100, 1)` matches nothing and rests its whole size as a bid at 100,
while the ask at 100 (order 10000001, size 1, price within the limit) is still
in the ask tree and in the registry. -/
theorem residual_rests_beside_matching_ask :
    Reachable bookTwoAsks ∧
    bookTwoAsks.Submit 5 10000003 Bid 100 1 =
      .ok { book := bookCrossed, id := 10000003, executions := [], err := false } ∧
    mapGet bookCrossed.orderMap 10000003 = some 2 ∧
    bookCrossed.orderHeap[2]? = some ⟨10000003, false, 100, 1, none, none⟩ ∧
    treeNodes bookCrossed.limitHeap 5 bookCrossed.askTree.root = [0, 1] ∧
    bookCrossed.limitHeap[0]? = some ⟨100, ⟨some 0, some 0, 1⟩, none, none, some 1, 1⟩ ∧
    queueOf bookCrossed 5 0 = [0] ∧
    mapGet bookCrossed.orderMap 10000001 = some 0 ∧
    bookCrossed.orderHeap[0]? = some ⟨10000001, false, 100, 1, none, none⟩ :=
  ⟨bookTwoAsks_reachable, by rfl, by decide, by decide, by decide, by decide, by decide,
    by decide, by decide⟩

/-- C9 fails on the code: after `Submit(Sell, 100, 5)` (id 10000001) and
`Submit(Sell, 100, 7)` (id 10000002) on the empty book, `Submit(Buy, 100, 12)`
returns `(10000001, 5, 0)` and `(buyer, 5, 7)`: the second sell is not
matched.  It was not appended to the queue of the level at 100 (that queue is
`[0]`) but put in a limit of its own that is in no tree. -/
theorem second_order_at_price_not_matched :
    Reachable bookSame ∧
    bookSame.Submit 5 10000003 Bid 100 12 =
      .ok { book := bookSameBought, id := 10000003,
            executions := [⟨10000001, 5, 0⟩, ⟨10000003, 5, 7⟩], err := false } ∧
    treeNodes bookSame.limitHeap 5 bookSame.askTree.root = [0] ∧
    queueOf bookSame 5 0 = [0] :=
  ⟨bookSame_reachable, by rfl, by decide, by decide⟩

/-- C10 fails on the code: after two sells at the price 100 the registry maps
the id 10000002 to the order at address 1, and that order is in the queue of
the limit at address 1 only, which is in neither tree: the ask tree consists of
the limit at address 0, whose queue is `[0]`, and the bid tree is empty. -/
theorem registered_order_outside_trees :
    Reachable bookSame ∧
    mapGet bookSame.orderMap 10000002 = some 1 ∧
    treeNodes bookSame.limitHeap 5 bookSame.bidTree.root = [] ∧
    treeNodes bookSame.limitHeap 5 bookSame.askTree.root = [0] ∧
    queueOf bookSame 5 0 = [0] ∧
    queueOf bookSame 5 1 = [1] :=
  ⟨bookSame_reachable, by decide, by decide, by decide, by decide, by decide⟩

/-! ## The two trees are search trees and the best pointers are not crossed -/

/-! ## The heap seen through cores -/

theorem coreHeap_store {limits : List limitPrice} {a : Nat} {n y : limitPrice}
    (h : limits[a]? = some n) :
    coreHeap (store limits a y) = Function.update (coreHeap limits) a (some y.core) := by
  funext x
  obtain ⟨hlt, _⟩ := List.getElem?_eq_some_iff.mp h
  unfold coreHeap store
  rw [List.getElem?_set]
  by_cases hx : a = x
  · subst hx; simp [hlt]
  · simp [hx, Function.update, Ne.symm hx]

theorem coreHeap_store_same {limits : List limitPrice} {a : Nat} {n y : limitPrice}
    (h : limits[a]? = some n) (hc : y.core = n.core) :
    coreHeap (store limits a y) = coreHeap limits := by
  rw [coreHeap_store h]
  funext x
  by_cases hx : x = a
  · subst hx; simp [coreHeap, h, hc]
  · simp [Function.update, hx]

theorem deref_core {limits : List limitPrice} {p : Ptr} {a : Nat} {n : limitPrice}
    (h : deref limits p = .ok (a, n)) :
    p = some a ∧ limits[a]? = some n ∧ coreHeap limits a = some n.core := by
  obtain ⟨h1, h2⟩ := deref_ok h
  exact ⟨h1, h2, by simp [coreHeap, h2]⟩

theorem children_core (n : limitPrice) (a : Nat) : n.children a = n.core.child a := by
  unfold limitPrice.children Core.child limitPrice.core
  split <;> rfl

theorem setChildren_core (n : limitPrice) (a : Nat) (p : Ptr) :
    (n.setChildren a p).core = n.core.setChild a p := by
  unfold limitPrice.setChildren Core.setChild limitPrice.core
  split <;> rfl

theorem dirIndex_pos : dirIndex 1 = 1 := by decide

theorem dirIndex_neg : dirIndex (-1) = 0 := by decide

theorem isTree_congr {H H' : Nat → Option Core} : ∀ {t : PTree} {p : Ptr},
    (∀ x ∈ t.addrs, H' x = H x) → IsTree H t p → IsTree H' t p := by
  intro t
  induction t with
  | leaf => intro p _ h; exact h
  | node l a r ihl ihr =>
    intro p hx h
    obtain ⟨hp, c, hc, hl, hr⟩ := h
    refine ⟨hp, c, ?_, ihl ?_ hl, ihr ?_ hr⟩
    · rw [hx a (by simp [PTree.addrs])]; exact hc
    · intro x hxl; exact hx x (by simp [PTree.addrs, hxl])
    · intro x hxr; exact hx x (by simp [PTree.addrs, hxr])

theorem isTree_none {H : Nat → Option Core} {t : PTree} (h : IsTree H t none) : t = .leaf := by
  cases t with
  | leaf => rfl
  | node l a r => obtain ⟨hp, _⟩ := h; cases hp

theorem isTree_some {H : Nat → Option Core} {t : PTree} {a : Nat} (h : IsTree H t (some a)) :
    ∃ l r c, t = .node l a r ∧ H a = some c ∧ IsTree H l c.c0 ∧ IsTree H r c.c1 := by
  cases t with
  | leaf => cases h
  | node l b r =>
    obtain ⟨hp, c, hc, hl, hr⟩ := h
    cases hp
    exact ⟨l, r, c, rfl, hc, hl, hr⟩

/-- A pointer is the root of at most one tree. -/
theorem isTree_unique {H : Nat → Option Core} : ∀ {t t' : PTree} {p : Ptr},
    IsTree H t p → IsTree H t' p → t = t' := by
  intro t
  induction t with
  | leaf =>
    intro t' p h h'
    cases h
    exact (isTree_none h').symm
  | node l a r ihl ihr =>
    intro t' p h h'
    obtain ⟨hp, c, hc, hl, hr⟩ := h
    subst hp
    obtain ⟨l', r', c', rfl, hc', hl', hr'⟩ := isTree_some h'
    rw [hc] at hc'
    cases hc'
    rw [ihl hl hl', ihr hr hr']

/-- The nodes of a tree are allocated. -/
theorem isTree_mem {H : Nat → Option Core} : ∀ {t : PTree} {p : Ptr},
    IsTree H t p → ∀ x ∈ t.addrs, ∃ c, H x = some c := by
  intro t
  induction t with
  | leaf => intro p _ x hx; simp [PTree.addrs] at hx
  | node l a r ihl ihr =>
    intro p h x hx
    obtain ⟨_, c, hc, hl, hr⟩ := h
    simp only [PTree.addrs, List.mem_append, List.mem_cons] at hx
    rcases hx with hx | hx | hx
    · exact ihl hl x hx
    · subst hx; exact ⟨c, hc⟩
    · exact ihr hr x hx

/-! ## What the rotations do to the cores -/

theorem store_parent_core {limits : List limitPrice} {p : Ptr} {a : Nat} {n : limitPrice}
    {q : Ptr} (h : deref limits p = .ok (a, n)) :
    coreHeap (store limits a { n with parent := q }) = coreHeap limits :=
  coreHeap_store_same (deref_core h).2.1 rfl

theorem store_b_core {limits : List limitPrice} {p : Ptr} {a : Nat} {n : limitPrice}
    {v : Int} (h : deref limits p = .ok (a, n)) :
    coreHeap (store limits a { n with b := v }) = coreHeap limits :=
  coreHeap_store_same (deref_core h).2.1 rfl

/-- `rotate` on cores: the node `s` gives up its child `r` in direction `a` for
the inner grandchild, and becomes the child of `r` in the other direction. -/
theorem rotate_core {limits limits' : List limitPrice} {c : Int} {s r' : Ptr}
    (h : rotate limits c s = .ok (limits', r')) :
    ∃ sa cs ra cr, s = some sa ∧ r' = some ra ∧ coreHeap limits sa = some cs ∧
      cs.child (dirIndex c) = some ra ∧ coreHeap limits ra = some cr ∧
      (sa ≠ ra → coreHeap limits' =
        Function.update
          (Function.update (coreHeap limits) sa
            (some (cs.setChild (dirIndex c) (cr.child (dirIndex c ^^^ 1)))))
          ra (some (cr.setChild (dirIndex c ^^^ 1) (some sa)))) := by
  unfold rotate at h
  simp only at h
  obtain ⟨⟨sa, sn⟩, hs, h⟩ := bind_ok h
  obtain ⟨⟨ra, rn⟩, hr, h⟩ := bind_ok h
  simp only at h
  obtain ⟨⟨sa1, sn1⟩, hs1, h⟩ := bind_ok h
  obtain ⟨limits2, h2, h⟩ := bind_ok h
  obtain ⟨⟨ra2, rn2⟩, hr2, h⟩ := bind_ok h
  simp only at h
  obtain ⟨⟨sa3, sn3⟩, hs3, h⟩ := bind_ok h
  obtain ⟨⟨ra3, rn3⟩, hr3, h⟩ := bind_ok h
  simp only at h
  obtain ⟨⟨sa4, sn4⟩, hs4, h⟩ := bind_ok h
  simp only at h
  have hlim : limits' = store (store (store limits2 ra2 (rn2.setChildren (dirIndex c ^^^ 1) s))
      ra3 { rn3 with parent := sn3.parent }) sa4 { sn4 with parent := sn.children (dirIndex c) } := by
    cases h; rfl
  have hr'eq : r' = sn.children (dirIndex c) := by cases h; rfl
  obtain ⟨hsp, hsl, hsc⟩ := deref_core hs
  obtain ⟨hrp, hrl, hrc⟩ := deref_core hr
  refine ⟨sa, sn.core, ra, rn.core, hsp, ?_, hsc, ?_, hrc, ?_⟩
  · rw [hr'eq]; exact hrp
  · rw [← children_core]; exact hrp
  · intro hne
    -- heap after the first store
    have e1 : coreHeap (store limits sa (sn.setChildren (dirIndex c)
        (rn.children (dirIndex c ^^^ 1)))) =
        Function.update (coreHeap limits) sa
          (some (sn.core.setChild (dirIndex c) (rn.core.child (dirIndex c ^^^ 1)))) := by
      rw [coreHeap_store hsl, setChildren_core, children_core]
    -- the parent update of the moved grandchild
    have e2 : coreHeap limits2 = coreHeap (store limits sa (sn.setChildren (dirIndex c)
        (rn.children (dirIndex c ^^^ 1)))) := by
      simp only at h2
      split at h2
      · obtain ⟨⟨ca, cn⟩, hc, h2⟩ := bind_ok h2
        cases h2
        exact store_parent_core hc
      · cases h2; rfl
    obtain ⟨hr2p, hr2l, hr2c⟩ := deref_core hr2
    rw [hrp] at hr2p
    cases hr2p
    have hrn2 : rn2.core = rn.core := by
      rw [e2, e1] at hr2c
      simp [Function.update, Ne.symm hne] at hr2c
      rw [hrc] at hr2c
      simp at hr2c
      exact hr2c.symm
    have e3 : coreHeap (store limits2 ra (rn2.setChildren (dirIndex c ^^^ 1) s)) =
        Function.update (coreHeap limits2) ra
          (some (rn.core.setChild (dirIndex c ^^^ 1) (some sa))) := by
      rw [coreHeap_store hr2l, setChildren_core, hrn2, hsp]
    have hr3p := (deref_core hr3).1
    rw [hrp] at hr3p
    cases hr3p
    have e4 := store_parent_core (q := sn3.parent) hr3
    have hs4p := (deref_core hs4).1
    rw [hsp] at hs4p
    cases hs4p
    have e5 := store_parent_core (q := sn.children (dirIndex c)) hs4
    rw [hlim, e5, e4, e3, e2, e1]

theorem priceIn_update_same {H : Nat → Option Core} {a : Nat} {c c' : Core}
    (hc : H a = some c) (hp : c'.price = c.price) (x : Nat) :
    priceIn (Function.update H a (some c')) x = priceIn H x := by
  unfold priceIn
  by_cases hx : x = a
  · subst hx; simp [hc, hp]
  · simp [Function.update, hx]

theorem setChild_price (c : Core) (a : Nat) (p : Ptr) : (c.setChild a p).price = c.price := by
  unfold Core.setChild; split <;> rfl

theorem setChild_c0_one (c : Core) (p : Ptr) : (c.setChild 1 p).c0 = c.c0 := rfl

theorem setChild_c1_one (c : Core) (p : Ptr) : (c.setChild 1 p).c1 = p := rfl

theorem setChild_c0_zero (c : Core) (p : Ptr) : (c.setChild 0 p).c0 = p := rfl

theorem setChild_c1_zero (c : Core) (p : Ptr) : (c.setChild 0 p).c1 = c.c1 := rfl

theorem nodup_mid {l1 l2 : List Nat} {a : Nat} (h : (l1 ++ a :: l2).Nodup) :
    l1.Nodup ∧ l2.Nodup ∧ a ∉ l1 ∧ a ∉ l2 ∧ ∀ x, x ∈ l1 → x ∈ l2 → False := by
  rw [List.nodup_append] at h
  obtain ⟨h1, h2, h3⟩ := h
  rw [List.nodup_cons] at h2
  refine ⟨h1, h2.2, ?_, h2.1, ?_⟩
  · intro ha; exact h3 ha (by simp)
  · intro x hx1 hx2; exact h3 hx1 (by simp [hx2])

/-- A rotation keeps the in-order walk of the tree it is applied to and touches
no core outside of it. -/
theorem rotate_tree {limits limits' : List limitPrice} {c : Int} {s r' : Ptr} {t : PTree}
    (hc : c = 1 ∨ c = -1) (ht : IsTree (coreHeap limits) t s) (hnd : t.addrs.Nodup)
    (h : rotate limits c s = .ok (limits', r')) :
    SameWalk (coreHeap limits) (coreHeap limits') t r' := by
  obtain ⟨sa, cs, ra, cr, rfl, rfl, hcs, hchild, hcr, hH⟩ := rotate_core h
  obtain ⟨l, tr, cs', rfl, hcs', hl, htr⟩ := isTree_some ht
  rw [hcs] at hcs'
  cases hcs'
  rcases hc with rfl | rfl
  · -- the right child goes up
    rw [dirIndex_pos] at hchild hH
    have hc1 : cs.c1 = some ra := hchild
    rw [hc1] at htr
    obtain ⟨m, rr, cr', rfl, hcr', hm, hrr⟩ := isTree_some htr
    rw [hcr] at hcr'
    cases hcr'
    simp only [PTree.addrs] at hnd
    obtain ⟨-, hndtr, hsl, hstr, hdl⟩ := nodup_mid hnd
    obtain ⟨-, -, hrm, hrrr, hdm⟩ := nodup_mid hndtr
    have hne : sa ≠ ra := fun e => hstr (by simp [e])
    have hH' := hH hne
    have hout : ∀ x, x ≠ sa → x ≠ ra → coreHeap limits' x = coreHeap limits x := by
      intro x h1 h2
      rw [hH']; simp [Function.update, h1, h2]
    have hsa' : coreHeap limits' sa = some (cs.setChild 1 (cr.child (1 ^^^ 1))) := by
      rw [hH']; simp [Function.update, hne]
    have hra' : coreHeap limits' ra = some (cr.setChild (1 ^^^ 1) (some sa)) := by
      rw [hH']; simp [Function.update]
    refine ⟨.node (.node l sa m) ra rr, ?_, ?_, ?_, ?_⟩
    · refine ⟨rfl, _, hra', ⟨rfl, _, hsa', ?_, ?_⟩, ?_⟩
      · refine isTree_congr ?_ hl
        intro x hx
        refine hout x ?_ ?_
        · rintro rfl; exact hsl hx
        · rintro rfl; exact hdl x hx (by simp)
      · refine isTree_congr ?_ hm
        intro x hx
        refine hout x ?_ ?_
        · rintro rfl; exact hstr (by simp [hx])
        · rintro rfl; exact hrm hx
      · refine isTree_congr ?_ hrr
        intro x hx
        refine hout x ?_ ?_
        · rintro rfl; exact hstr (by simp [hx])
        · rintro rfl; exact hrrr hx
    · simp [PTree.addrs]
    · intro x hx
      simp only [PTree.addrs, List.mem_append, List.mem_cons, not_or] at hx
      exact hout x hx.2.1 hx.2.2.2.1
    · intro x
      rw [hH']
      rw [priceIn_update_same (c := cr) ?_ (setChild_price _ _ _)]
      · exact priceIn_update_same hcs (setChild_price _ _ _) x
      · simp [Function.update, Ne.symm hne, hcr]
  · -- the left child goes up
    rw [dirIndex_neg] at hchild hH
    have hc0 : cs.c0 = some ra := hchild
    rw [hc0] at hl
    obtain ⟨ll, m, cr', rfl, hcr', hll, hm⟩ := isTree_some hl
    rw [hcr] at hcr'
    cases hcr'
    simp only [PTree.addrs] at hnd
    obtain ⟨hndl, -, hsl, hstr, hd⟩ := nodup_mid hnd
    obtain ⟨-, -, hrll, hrm, hdll⟩ := nodup_mid hndl
    have hne : sa ≠ ra := fun e => hsl (by simp [e])
    have hH' := hH hne
    have hout : ∀ x, x ≠ sa → x ≠ ra → coreHeap limits' x = coreHeap limits x := by
      intro x h1 h2
      rw [hH']; simp [Function.update, h1, h2]
    have hsa' : coreHeap limits' sa = some (cs.setChild 0 (cr.child (0 ^^^ 1))) := by
      rw [hH']; simp [Function.update, hne]
    have hra' : coreHeap limits' ra = some (cr.setChild (0 ^^^ 1) (some sa)) := by
      rw [hH']; simp [Function.update]
    refine ⟨.node ll ra (.node m sa tr), ?_, ?_, ?_, ?_⟩
    · refine ⟨rfl, _, hra', ?_, ⟨rfl, _, hsa', ?_, ?_⟩⟩
      · refine isTree_congr ?_ hll
        intro x hx
        refine hout x ?_ ?_
        · rintro rfl; exact hsl (by simp [hx])
        · rintro rfl; exact hrll hx
      · refine isTree_congr ?_ hm
        intro x hx
        refine hout x ?_ ?_
        · rintro rfl; exact hsl (by simp [hx])
        · rintro rfl; exact hrm hx
      · refine isTree_congr ?_ htr
        intro x hx
        refine hout x ?_ ?_
        · rintro rfl; exact hstr hx
        · rintro rfl; exact hd x (by simp) hx
    · simp [PTree.addrs]
    · intro x hx
      simp only [PTree.addrs, List.mem_append, List.mem_cons, not_or] at hx
      exact hout x hx.2.1 hx.1.2.1
    · intro x
      rw [hH']
      rw [priceIn_update_same (c := cr) ?_ (setChild_price _ _ _)]
      · exact priceIn_update_same hcs (setChild_price _ _ _) x
      · simp [Function.update, Ne.symm hne, hcr]

theorem singlerot_tree {limits limits' : List limitPrice} {c : Int} {s r' : Ptr} {t : PTree}
    (hc : c = 1 ∨ c = -1) (ht : IsTree (coreHeap limits) t s) (hnd : t.addrs.Nodup)
    (h : singlerot limits c s = .ok (limits', r')) :
    SameWalk (coreHeap limits) (coreHeap limits') t r' := by
  unfold singlerot at h
  obtain ⟨⟨sa, sn⟩, hs, h⟩ := bind_ok h
  obtain ⟨⟨limits1, s1⟩, hrot, h⟩ := bind_ok h
  obtain ⟨⟨sa1, sn1⟩, hs1, h⟩ := bind_ok h
  simp only at h hrot hs1
  have e0 := store_b_core (v := 0) hs
  rw [← e0] at ht
  have h1 := rotate_tree hc ht hnd hrot
  have e1 := store_b_core (v := 0) hs1
  have hl : limits' = store limits1 sa1 { sn1 with b := 0 } := by cases h; rfl
  have hr : r' = s1 := by cases h; rfl
  rw [hl, hr, e1, ← e0]
  exact h1

theorem sameWalk_trans {H H1 H2 : Nat → Option Core} {t T : PTree} {P p2 : Ptr}
    (h1 : IsTree H1 T P ∧ T.addrs = t.addrs ∧ OutsideEq t.addrs H H1 ∧
      ∀ x, priceIn H1 x = priceIn H x)
    (h2 : SameWalk H1 H2 T p2) : SameWalk H H2 t p2 := by
  obtain ⟨_, e1, o1, q1⟩ := h1
  obtain ⟨t2, i2, e2, o2, q2⟩ := h2
  refine ⟨t2, i2, by rw [e2, e1], ?_, ?_⟩
  · intro x hx
    rw [o2 x (by rw [e1]; exact hx), o1 x hx]
  · intro x; rw [q2, q1]

theorem doublerot_tree {limits limits' : List limitPrice} {c : Int} {s r' : Ptr} {t : PTree}
    (hc : c = 1 ∨ c = -1) (ht : IsTree (coreHeap limits) t s) (hnd : t.addrs.Nodup)
    (h : doublerot limits c s = .ok (limits', r')) :
    SameWalk (coreHeap limits) (coreHeap limits') t r' := by
  unfold doublerot at h
  simp only at h
  obtain ⟨⟨sa, sn⟩, hs, h⟩ := bind_ok h
  obtain ⟨⟨limits1, r1⟩, hrot1, h⟩ := bind_ok h
  obtain ⟨⟨sa1, sn1⟩, hs1, h⟩ := bind_ok h
  obtain ⟨⟨limits3, p⟩, hrot2, h⟩ := bind_ok h
  obtain ⟨⟨pa, pn⟩, hp, h⟩ := bind_ok h
  obtain ⟨⟨sa4, sn4⟩, hs4, h⟩ := bind_ok h
  obtain ⟨⟨ra5, rn5⟩, hr5, h⟩ := bind_ok h
  obtain ⟨⟨pa6, pn6⟩, hp6, h⟩ := bind_ok h
  simp only at h hrot1 hs1 hrot2 hp hs4 hr5 hp6
  -- the three closing stores change `b` only
  have e4 := store_b_core (v := (if pn.b = c then ((-c, 0) : Int × Int)
    else if pn.b = -c then (0, c) else (0, 0)).1) hs4
  have e5 := store_b_core (v := (if pn.b = c then ((-c, 0) : Int × Int)
    else if pn.b = -c then (0, c) else (0, 0)).2) hr5
  have e6 := store_b_core (v := 0) hp6
  have hr : r' = p := by cases h; rfl
  have hl : coreHeap limits' = coreHeap limits3 := by
    cases h
    rw [e6, e5, e4]
  rw [hl, hr]
  clear e4 e5 e6 hl hr h hp6 hr5 hs4 hp
  obtain ⟨hsp, hsl, hsc⟩ := deref_core hs
  subst hsp
  obtain ⟨l, tr, cs, rfl, hcs, hl, htr⟩ := isTree_some ht
  rw [hsc] at hcs
  cases hcs
  simp only [PTree.addrs] at hnd
  obtain ⟨hndl, hndtr, hsl', hstr, hd⟩ := nodup_mid hnd
  obtain ⟨hs1p, hs1l, hs1c⟩ := deref_core hs1
  cases hs1p
  have e2 : coreHeap (store limits1 sa (sn1.setChildren (dirIndex c) r1)) =
      Function.update (coreHeap limits1) sa (some (sn1.core.setChild (dirIndex c) r1)) := by
    rw [coreHeap_store hs1l, setChildren_core]
  rcases hc with rfl | rfl
  · -- inner rotation on the right subtree
    rw [dirIndex_pos] at hrot1 hrot2 e2
    rw [children_core] at hrot1
    have hrt : IsTree (coreHeap limits) tr (sn.core.child 1) := htr
    obtain ⟨tr', itr', etr', otr', qtr'⟩ := rotate_tree (Or.inr rfl) hrt hndtr hrot1
    have hsn1 : sn1.core = sn.core := by
      have := otr' sa hstr
      rw [hs1c, hsc] at this
      simpa using this
    have htree : IsTree (Function.update (coreHeap limits1) sa
        (some (sn1.core.setChild 1 r1))) (.node l sa tr') (some sa) := by
      refine ⟨rfl, sn1.core.setChild 1 r1, by simp [Function.update], ?_, ?_⟩
      · rw [hsn1]
        refine isTree_congr ?_ hl
        intro x hx
        have : x ≠ sa := by rintro rfl; exact hsl' hx
        simp only [Function.update, this, dite_false]
        exact otr' x (fun hx' => hd x hx hx')
      · refine isTree_congr ?_ itr'
        intro x hx
        rw [etr'] at hx
        have : x ≠ sa := by rintro rfl; exact hstr hx
        simp [Function.update, this]
    refine sameWalk_trans (T := .node l sa tr') (P := some sa) ⟨?_, ?_, ?_, ?_⟩
      (rotate_tree (Or.inl rfl) ?_ ?_ hrot2)
    · rw [e2]; exact htree
    · simp [PTree.addrs, etr']
    · intro x hx
      simp only [PTree.addrs, List.mem_append, List.mem_cons, not_or] at hx
      rw [e2]
      simp only [Function.update, hx.2.1, dite_false]
      exact otr' x hx.2.2
    · intro x
      rw [e2, priceIn_update_same hs1c (by rw [setChild_price]), qtr']
    · rw [e2]; exact htree
    · simp only [PTree.addrs, etr']; exact hnd
  · -- inner rotation on the left subtree
    rw [dirIndex_neg] at hrot1 hrot2 e2
    rw [children_core] at hrot1
    have hlt : IsTree (coreHeap limits) l (sn.core.child 0) := hl
    have hneg : (- (-1 : Int)) = 1 := by decide
    rw [hneg] at hrot1
    obtain ⟨l', il', el', ol', ql'⟩ := rotate_tree (Or.inl rfl) hlt hndl hrot1
    have hsn1 : sn1.core = sn.core := by
      have := ol' sa hsl'
      rw [hs1c, hsc] at this
      simpa using this
    have htree : IsTree (Function.update (coreHeap limits1) sa
        (some (sn1.core.setChild 0 r1))) (.node l' sa tr) (some sa) := by
      refine ⟨rfl, sn1.core.setChild 0 r1, by simp [Function.update], ?_, ?_⟩
      · refine isTree_congr ?_ il'
        intro x hx
        rw [el'] at hx
        have : x ≠ sa := by rintro rfl; exact hsl' hx
        simp [Function.update, this]
      · rw [hsn1]
        refine isTree_congr ?_ htr
        intro x hx
        have : x ≠ sa := by rintro rfl; exact hstr hx
        simp only [Function.update, this, dite_false]
        exact ol' x (fun hx' => hd x hx' hx)
    refine sameWalk_trans (T := .node l' sa tr) (P := some sa) ⟨?_, ?_, ?_, ?_⟩
      (rotate_tree (Or.inr rfl) ?_ ?_ hrot2)
    · rw [e2]; exact htree
    · simp [PTree.addrs, el']
    · intro x hx
      simp only [PTree.addrs, List.mem_append, List.mem_cons, not_or] at hx
      rw [e2]
      simp only [Function.update, hx.2.1, dite_false]
      exact ol' x hx.1
    · intro x
      rw [e2, priceIn_update_same hs1c (by rw [setChild_price]), ql']
    · rw [e2]; exact htree
    · simp only [PTree.addrs, el']; exact hnd

/-! ## Slots -/

theorem readSlot_core {σ : TreeState} {Q : Slot} {p : Ptr} (h : readSlot σ Q = .ok p) :
    slotPtr (coreHeap σ.limits) σ.tree.root Q = some p := by
  cases Q with
  | root => simp [readSlot] at h; simp [slotPtr, h]
  | child q a =>
    unfold readSlot at h
    obtain ⟨⟨qa, n⟩, hq, h⟩ := bind_ok h
    obtain ⟨hqp, _, hqc⟩ := deref_core hq
    cases hqp
    cases h
    simp [slotPtr, hqc, children_core]

theorem writeSlot_core {σ st' : TreeState} {Q : Slot} {p : Ptr}
    (h : writeSlot σ Q p = .ok st') :
    coreHeap st'.limits = slotSet (coreHeap σ.limits) Q p ∧
    st'.tree.root = slotRoot σ.tree.root Q p := by
  cases Q with
  | root => simp [writeSlot] at h; subst h; simp [slotSet, slotRoot]
  | child q a =>
    unfold writeSlot at h
    obtain ⟨⟨qa, n⟩, hq, h⟩ := bind_ok h
    obtain ⟨hqp, hql, hqc⟩ := deref_core hq
    cases hqp
    cases h
    simp only [slotSet, slotRoot, coreHeap_store hql, setChildren_core, hqc, Option.map_some',
      and_true]

theorem slotSet_self {H : Nat → Option Core} {root : Ptr} {Q : Slot} {p : Ptr}
    (h : slotPtr H root Q = some p) : slotSet H Q p = H := by
  cases Q with
  | root => rfl
  | child q a =>
    funext x
    simp only [slotSet, Function.update]
    split
    · rename_i hx
      subst hx
      simp only [slotPtr] at h
      cases hq : H x with
      | none => simp
      | some c =>
        rw [hq] at h
        simp only [Option.map_some', Option.some.injEq] at h ⊢
        subst h
        unfold Core.setChild Core.child
        split <;> rfl
    · rfl

theorem slotRoot_self {H : Nat → Option Core} {root : Ptr} {Q : Slot} {p : Ptr}
    (h : slotPtr H root Q = some p) : slotRoot root Q p = root := by
  cases Q with
  | root => simp only [slotPtr, Option.some.injEq] at h; exact h.symm
  | child q a => rfl

theorem priceIn_slotSet (H : Nat → Option Core) (Q : Slot) (p : Ptr) (x : Nat) :
    priceIn (slotSet H Q p) x = priceIn H x := by
  cases Q with
  | root => rfl
  | child q a =>
    unfold slotSet priceIn
    by_cases hx : x = q
    · subst hx
      cases hq : H x with
      | none => simp [hq]
      | some c => simp [hq, setChild_price]
    · simp [Function.update, hx]

theorem slotSet_other (H : Nat → Option Core) (Q : Slot) (p : Ptr) {x : Nat}
    (hx : Q.owner ≠ some x) : slotSet H Q p x = H x := by
  cases Q with
  | root => rfl
  | child q a =>
    have : x ≠ q := by rintro rfl; exact hx rfl
    simp [slotSet, Function.update, this]

/-- Writing in a slot whose owner is outside a tree leaves the tree in place. -/
theorem isTree_slotSet {H : Nat → Option Core} {Q : Slot} {p p' : Ptr} {t : PTree}
    (hown : ∀ q, Q.owner = some q → q ∉ t.addrs) (ht : IsTree H t p) :
    IsTree (slotSet H Q p') t p := by
  refine isTree_congr ?_ ht
  intro x hx
  exact slotSet_other H Q p' (fun e => hown x e hx)

/-- The outcome of the two fix functions: the tree in the slot is replaced by
one with the same in-order walk; outside of it only the slot changes, and no
price changes. -/
theorem fix_rotation {σ st' : TreeState} {limits1 : List limitPrice} {Q : Slot}
    {s1 : Ptr} {t : PTree}
    (hown : ∀ q, Q.owner = some q → q ∉ t.addrs)
    (hw : SameWalk (coreHeap σ.limits) (coreHeap limits1) t s1)
    (h : writeSlot { σ with limits := limits1 } Q s1 = .ok st') :
    ∃ p' t', IsTree (coreHeap st'.limits) t' p' ∧ t'.addrs = t.addrs ∧
      OutsideEq t.addrs (slotSet (coreHeap σ.limits) Q p') (coreHeap st'.limits) ∧
      st'.tree.root = slotRoot σ.tree.root Q p' ∧
      ∀ x, priceIn (coreHeap st'.limits) x = priceIn (coreHeap σ.limits) x := by
  obtain ⟨T, i1, e1, o1, q1⟩ := hw
  obtain ⟨hH, hroot⟩ := writeSlot_core h
  simp only at hH hroot
  refine ⟨s1, T, ?_, e1, ?_, hroot, ?_⟩
  · rw [hH]
    exact isTree_slotSet (by rw [e1]; exact hown) i1
  · intro x hx
    rw [hH]
    cases Q with
    | root => exact o1 x hx
    | child q a =>
      simp only [slotSet, Function.update]
      split
      · rename_i hxq; subst hxq; rw [o1 x hx]
      · exact o1 x hx
  · intro x
    rw [hH, priceIn_slotSet, q1]

theorem fix_b_only {σ : TreeState} {Q : Slot} {p : Ptr} {t : PTree} {sa : Nat}
    {sn : limitPrice} {v : Int}
    (hp : slotPtr (coreHeap σ.limits) σ.tree.root Q = some p)
    (ht : IsTree (coreHeap σ.limits) t p) (hs : deref σ.limits p = .ok (sa, sn)) :
    ∃ p' t', IsTree (coreHeap (store σ.limits sa { sn with b := v })) t' p' ∧
      t'.addrs = t.addrs ∧
      OutsideEq t.addrs (slotSet (coreHeap σ.limits) Q p')
        (coreHeap (store σ.limits sa { sn with b := v })) ∧
      σ.tree.root = slotRoot σ.tree.root Q p' ∧
      ∀ x, priceIn (coreHeap (store σ.limits sa { sn with b := v })) x =
        priceIn (coreHeap σ.limits) x := by
  rw [store_b_core hs]
  refine ⟨p, t, ht, rfl, ?_, (slotRoot_self hp).symm, fun _ => rfl⟩
  rw [slotSet_self hp]
  intro x _; rfl

theorem putFix_tree : FixSpec putFix := by
  intro σ st' c Q p t fix hc hp ht hnd hown h
  unfold putFix at h
  obtain ⟨s, hs, h⟩ := bind_ok h
  have hps := readSlot_core hs
  rw [hp] at hps
  cases hps
  obtain ⟨⟨sa, sn⟩, hsn, h⟩ := bind_ok h
  simp only at h
  split at h
  · cases h; exact fix_b_only hp ht hsn
  · split at h
    · cases h; exact fix_b_only hp ht hsn
    · obtain ⟨⟨ca, cn⟩, hcn, h⟩ := bind_ok h
      obtain ⟨⟨limits1, s1⟩, hrot, h⟩ := bind_ok h
      obtain ⟨st1, hw, h⟩ := bind_ok h
      cases h
      simp only at hrot hw
      refine fix_rotation hown ?_ hw
      split at hrot
      · exact singlerot_tree hc ht hnd hrot
      · exact doublerot_tree hc ht hnd hrot

theorem removeFix_tree : FixSpec removeFix := by
  intro σ st' c Q p t fix hc hp ht hnd hown h
  unfold removeFix at h
  obtain ⟨s, hs, h⟩ := bind_ok h
  have hps := readSlot_core hs
  rw [hp] at hps
  cases hps
  obtain ⟨⟨sa, sn⟩, hsn, h⟩ := bind_ok h
  simp only at h
  split at h
  · cases h; exact fix_b_only hp ht hsn
  · split at h
    · cases h; exact fix_b_only hp ht hsn
    · obtain ⟨⟨ca, cn⟩, hcn, h⟩ := bind_ok h
      simp only at h
      split at h
      · obtain ⟨⟨limits1, s1⟩, hrot, h⟩ := bind_ok h
        obtain ⟨⟨sa1, sn1⟩, hs1, h⟩ := bind_ok h
        obtain ⟨st1, hw, h⟩ := bind_ok h
        cases h
        simp only at hrot hw hs1
        refine fix_rotation hown ?_ hw
        rw [store_b_core hs1]
        exact rotate_tree hc ht hnd hrot
      · obtain ⟨⟨limits1, s1⟩, hrot, h⟩ := bind_ok h
        obtain ⟨st1, hw, h⟩ := bind_ok h
        cases h
        simp only at hrot hw
        refine fix_rotation hown ?_ hw
        split at hrot
        · exact singlerot_tree hc ht hnd hrot
        · exact doublerot_tree hc ht hnd hrot

/-! ## Assembling a node from a rewritten subtree -/

/-- The closing step of `put`, `remove` and `removeMin`: after the subtree was
rewritten, the node is either fixed (by `f`) or left as it is. -/
theorem finish_fix {f : TreeState → Int → Slot → Except Fault (TreeState × Bool)}
    (hf : FixSpec f) {F : List Nat} {Hb : Nat → Option Core} {root0 : Ptr}
    {st1 st' : TreeState} {c : Int} {Q : Slot} {p : Ptr} {M : PTree} {b fix' : Bool}
    (hc : c = 1 ∨ c = -1)
    (hmid : IsTree (coreHeap st1.limits) M p) (hnd : M.addrs.Nodup)
    (hsub : ∀ x ∈ M.addrs, x ∈ F) (hown : ∀ q, Q.owner = some q → q ∉ F)
    (hout : OutsideEq F Hb (coreHeap st1.limits)) (hroot : st1.tree.root = root0)
    (hslot0 : slotPtr Hb root0 Q = some p)
    (h : (if b = true then f st1 c Q else .ok (st1, false)) = .ok (st', fix')) :
    ∃ p' t', IsTree (coreHeap st'.limits) t' p' ∧ t'.addrs = M.addrs ∧
      OutsideEq F (slotSet Hb Q p') (coreHeap st'.limits) ∧
      st'.tree.root = slotRoot root0 Q p' ∧
      ∀ x, priceIn (coreHeap st'.limits) x = priceIn (coreHeap st1.limits) x := by
  have hslot1 : slotPtr (coreHeap st1.limits) st1.tree.root Q = some p := by
    rw [hroot, ← hslot0]
    cases Q with
    | root => rfl
    | child q a => simp only [slotPtr]; rw [hout q (hown q rfl)]
  split at h
  · obtain ⟨p', t', i', e', o', r', q'⟩ :=
      hf st1 st' c Q p M fix' hc hslot1 hmid hnd (fun q hq hx => hown q hq (hsub q hx)) h
    refine ⟨p', t', i', e', ?_, by rw [r', hroot], q'⟩
    intro x hx
    rw [o' x (fun hx' => hx (hsub x hx'))]
    cases Q with
    | root => exact hout x hx
    | child q a =>
      simp only [slotSet, Function.update]
      split
      · rename_i hxq; subst hxq; rw [hout x hx]
      · exact hout x hx
  · cases h
    refine ⟨p, M, hmid, rfl, ?_, ?_, fun _ => rfl⟩
    · rw [slotSet_self hslot0]; exact hout
    · rw [slotRoot_self hslot0]; exact hroot

theorem assemble_left {Hb H1 : Nat → Option Core} {l' r : PTree} {qa : Nat} {cq : Core}
    {P : Ptr} {G : List Nat} (hq : Hb qa = some cq) (hr : IsTree Hb r cq.c1)
    (hl' : IsTree H1 l' P)
    (hout : OutsideEq G (slotSet Hb (.child qa 0) P) H1)
    (hqa : qa ∉ G) (hdisj : ∀ x ∈ r.addrs, x ∉ G) (hqr : qa ∉ r.addrs) :
    IsTree H1 (.node l' qa r) (some qa) ∧ OutsideEq (qa :: G) Hb H1 := by
  have hq1 : H1 qa = some (cq.setChild 0 P) := by
    rw [hout qa hqa]; simp [slotSet, hq]
  have hoth : ∀ x, x ≠ qa → x ∉ G → H1 x = Hb x := by
    intro x h1 h2
    rw [hout x h2]; simp [slotSet, Function.update, h1]
  refine ⟨⟨rfl, _, hq1, hl', ?_⟩, ?_⟩
  · refine isTree_congr ?_ hr
    intro x hx
    exact hoth x (by rintro rfl; exact hqr hx) (hdisj x hx)
  · intro x hx
    simp only [List.mem_cons, not_or] at hx
    exact hoth x hx.1 hx.2

theorem assemble_right {Hb H1 : Nat → Option Core} {l r' : PTree} {qa : Nat} {cq : Core}
    {P : Ptr} {G : List Nat} (hq : Hb qa = some cq) (hl : IsTree Hb l cq.c0)
    (hr' : IsTree H1 r' P)
    (hout : OutsideEq G (slotSet Hb (.child qa 1) P) H1)
    (hqa : qa ∉ G) (hdisj : ∀ x ∈ l.addrs, x ∉ G) (hql : qa ∉ l.addrs) :
    IsTree H1 (.node l qa r') (some qa) ∧ OutsideEq (qa :: G) Hb H1 := by
  have hq1 : H1 qa = some (cq.setChild 1 P) := by
    rw [hout qa hqa]; simp [slotSet, hq]
  have hoth : ∀ x, x ≠ qa → x ∉ G → H1 x = Hb x := by
    intro x h1 h2
    rw [hout x h2]; simp [slotSet, Function.update, h1]
  refine ⟨⟨rfl, _, hq1, ?_, hr'⟩, ?_⟩
  · refine isTree_congr ?_ hl
    intro x hx
    exact hoth x (by rintro rfl; exact hql hx) (hdisj x hx)
  · intro x hx
    simp only [List.mem_cons, not_or] at hx
    exact hoth x hx.1 hx.2

theorem slotRoot_child (root : Ptr) (q a : Nat) (p : Ptr) :
    slotRoot root (.child q a) p = root := rfl

theorem compare_eq_zero {a b : Nat} : compare a b = 0 ↔ a = b := by
  unfold compare
  split
  · constructor
    · intro h; cases h
    · intro h; omega
  · split
    · constructor
      · intro h; cases h
      · intro h; omega
    · constructor
      · intro _; omega
      · intro _; rfl

theorem compare_neg {a b : Nat} : compare a b < 0 ↔ a < b := by
  unfold compare
  split
  · constructor
    · intro h; omega
    · intro h; omega
  · split
    · constructor
      · intro _; assumption
      · intro _; decide
    · constructor
      · intro h; omega
      · intro h; omega

theorem ordered_node {H : Nat → Option Core} {l r : PTree} {a : Nat}
    (h : Ordered H (.node l a r)) :
    Ordered H l ∧ Ordered H r ∧ (∀ x ∈ l.addrs, priceIn H x < priceIn H a) ∧
    (∀ x ∈ r.addrs, priceIn H a < priceIn H x) ∧
    (∀ x ∈ l.addrs, ∀ y ∈ r.addrs, priceIn H x < priceIn H y) := by
  unfold Ordered at h ⊢
  simp only [PTree.addrs, List.map_append, List.map_cons, List.pairwise_append,
    List.pairwise_cons, List.mem_map, List.mem_cons, forall_exists_index, and_imp,
    forall_apply_eq_imp_iff₂] at h
  obtain ⟨h1, ⟨h2, h3⟩, h4⟩ := h
  refine ⟨h1, h3, ?_, ?_, ?_⟩
  · intro x hx; exact h4 x hx _ (Or.inl rfl)
  · intro x hx; exact h2 x hx
  · intro x hx y hy; exact h4 x hx _ (Or.inr ⟨y, hy, rfl⟩)

/-! ## `put` -/

theorem priceIn_of_some {H : Nat → Option Core} {x : Nat} {c : Core} (h : H x = some c) :
    priceIn H x = c.price := by
  simp [priceIn, h]

/-- The closing step of `put` at a node, once the subtree was dealt with. -/
theorem put_finish {σ st1 st' : TreeState} {Q : Slot} {p : Ptr} {t M : PTree}
    {la price : Nat} {c : Int} {fix1 fix : Bool} (hc : c = 1 ∨ c = -1)
    (hp : slotPtr (coreHeap σ.limits) σ.tree.root Q = some p)
    (hnd : t.addrs.Nodup) (hlat : la ∉ t.addrs)
    (hown : ∀ q, Q.owner = some q → q ∉ t.addrs ∧ q ≠ la)
    (hmid : IsTree (coreHeap st1.limits) M p) (hroot1 : st1.tree.root = σ.tree.root)
    (hprice1 : ∀ x, priceIn (coreHeap st1.limits) x = priceIn (coreHeap σ.limits) x)
    (hcase : (M.addrs = t.addrs ∧ OutsideEq t.addrs (coreHeap σ.limits) (coreHeap st1.limits)) ∨
      (∃ pre post, t.addrs = pre ++ post ∧ M.addrs = pre ++ la :: post ∧
        (∀ x ∈ pre, priceIn (coreHeap σ.limits) x < price) ∧
        (∀ x ∈ post, price < priceIn (coreHeap σ.limits) x) ∧
        OutsideEq (la :: t.addrs) (coreHeap σ.limits) (coreHeap st1.limits)))
    (h : (if fix1 = true then putFix st1 c Q else .ok (st1, false)) = .ok (st', fix)) :
    PutPost (coreHeap σ.limits) (coreHeap st'.limits) σ.tree.root st'.tree.root Q t la
      price := by
  rcases hcase with ⟨e, hout⟩ | ⟨pre, post, e1, e2, hpre, hpost, hout⟩
  · obtain ⟨p', t', i', e', o', r', q'⟩ :=
      finish_fix putFix_tree (F := t.addrs) hc hmid (by rw [e]; exact hnd)
        (fun x hx => by rw [e] at hx; exact hx) (fun q hq => (hown q hq).1) hout hroot1 hp h
    refine ⟨p', t', i', ?_, r', fun x => by rw [q', hprice1], Or.inl ⟨by rw [e', e], ?_⟩⟩
    · intro x hx
      exact o' x (fun hx' => hx (List.mem_cons_of_mem _ hx'))
    · rw [o' la hlat]
      exact slotSet_other _ _ _ (fun e => (hown la e).2 rfl)
  · have hperm : M.addrs.Perm (la :: t.addrs) := by
      rw [e1, e2]; exact List.perm_middle
    obtain ⟨p', t', i', e', o', r', q'⟩ :=
      finish_fix putFix_tree (F := la :: t.addrs) hc hmid
        (hperm.nodup_iff.mpr (List.nodup_cons.mpr ⟨hlat, hnd⟩))
        (fun x hx => hperm.subset hx)
        (fun q hq hx => by
          obtain ⟨h1, h2⟩ := hown q hq
          rcases List.mem_cons.mp hx with e | e
          · exact h2 e
          · exact h1 e) hout hroot1 hp h
    exact ⟨p', t', i', o', r', fun x => by rw [q', hprice1],
      Or.inr ⟨pre, post, e1, by rw [e', e2], hpre, hpost⟩⟩

theorem put_tree : ∀ (fuel : Nat) {σ st' : TreeState} {la : Nat} {K : Core} {p0 : Ptr}
    {Q : Slot} {p : Ptr} {t : PTree} {fix : Bool},
    coreHeap σ.limits la = some K → K.c0 = none → K.c1 = none →
    slotPtr (coreHeap σ.limits) σ.tree.root Q = some p →
    IsTree (coreHeap σ.limits) t p → t.addrs.Nodup → Ordered (coreHeap σ.limits) t →
    la ∉ t.addrs → (∀ q, Q.owner = some q → q ∉ t.addrs ∧ q ≠ la) →
    limitPriceTree.put fuel σ (some la) p0 Q = .ok (st', fix) →
    PutPost (coreHeap σ.limits) (coreHeap st'.limits) σ.tree.root st'.tree.root Q t la
      K.price := by
  intro fuel
  induction fuel with
  | zero => intro σ st' la K p0 Q p t fix _ _ _ _ _ _ _ _ _ h; simp [limitPriceTree.put] at h
  | succ n ih =>
    intro σ st' la K p0 Q p t fix hla hc0 hc1 hp ht hnd hord hlat hown h
    unfold limitPriceTree.put at h
    obtain ⟨q, hq, h⟩ := bind_ok h
    have hqs := readSlot_core hq
    rw [hp] at hqs
    cases hqs
    split at h
    · -- empty slot: link the new limit
      rename_i hnone
      subst hnone
      have htl := isTree_none ht
      subst htl
      obtain ⟨⟨la', ln⟩, hln, h⟩ := bind_ok h
      obtain ⟨st2, hw, h⟩ := bind_ok h
      cases h
      simp only at hln hw
      obtain ⟨hH, hroot⟩ := writeSlot_core hw
      simp only at hH hroot
      rw [store_parent_core hln] at hH
      have hlown : Q.owner ≠ some la := fun e => (hown la e).2 rfl
      refine ⟨some la, .node .leaf la .leaf, ?_, ?_, hroot, ?_, Or.inr ⟨[], [], rfl, rfl, ?_, ?_⟩⟩
      · refine ⟨rfl, K, ?_, ?_, ?_⟩
        · rw [hH, slotSet_other _ _ _ hlown]; exact hla
        · rw [hc0]; rfl
        · rw [hc1]; rfl
      · intro x _; rw [hH]
      · intro x; rw [hH, priceIn_slotSet]
      · intro x hx; simp at hx
      · intro x hx; simp at hx
    · rename_i hsome
      obtain ⟨⟨la', ln⟩, hln, h⟩ := bind_ok h
      obtain ⟨hlp, hll, hlc⟩ := deref_core hln
      cases hlp
      obtain ⟨⟨qa, qn⟩, hqn, h⟩ := bind_ok h
      obtain ⟨hqp, hql, hqc⟩ := deref_core hqn
      subst hqp
      simp only at h
      rw [hla] at hlc
      have hlcore : ln.core = K := by simpa using hlc.symm
      have hlprice : ln.price = K.price := by rw [← hlcore]; rfl
      obtain ⟨l, r, cq, rfl, hcq, hl, hr⟩ := isTree_some ht
      rw [hqc] at hcq
      have hqcore : qn.core = cq := by simpa using hcq
      have hqprice : priceIn (coreHeap σ.limits) qa = qn.price := by
        rw [priceIn_of_some hqc]; rfl
      have hnd0 := hnd
      have hlat0 := hlat
      simp only [PTree.addrs] at hnd hlat
      obtain ⟨hndl, hndr, hql', hqr, hd⟩ := nodup_mid hnd
      obtain ⟨hordl, hordr, hlq, hrq, hlr⟩ := ordered_node hord
      split at h
      · -- the price is in the tree already
        cases h
        refine ⟨some qa, .node l qa r, ht, ?_, (slotRoot_self hp).symm, fun _ => rfl,
          Or.inl ⟨rfl, rfl⟩⟩
        rw [slotSet_self hp]
        intro x _; rfl
      · rename_i hcmp
        obtain ⟨⟨st1, fix1⟩, hrec, h⟩ := bind_ok h
        simp only at hrec h
        have hqla : qa ≠ la := fun e => hlat (by simp [e])
        have hownfoot : ∀ q, Q.owner = some q → q ∉ la :: (l.addrs ++ qa :: r.addrs) := by
          intro q hq hx
          obtain ⟨h1, h2⟩ := hown q hq
          rcases List.mem_cons.mp hx with e | e
          · exact h2 e
          · exact h1 e
        by_cases hlt : compare ln.price qn.price < 0
        · -- go left
          rw [if_pos hlt, dirIndex_neg] at hrec
          rw [if_pos hlt] at h
          have hlt' : K.price < qn.price := by rw [← hlprice]; exact compare_neg.mp hlt
          have hslot : slotPtr (coreHeap σ.limits) σ.tree.root (.child qa 0) = some cq.c0 := by
            simp [slotPtr, hqc, hqcore, Core.child]
          obtain ⟨P, l', il', ol', rl', ql', dl'⟩ :=
            ih hla hc0 hc1 hslot hl hndl hordl (fun hx => hlat (by simp [hx]))
              (fun q hq => by
                simp only [Slot.owner, Option.some.injEq] at hq
                subst hq
                exact ⟨hql', hqla⟩) hrec
          rw [slotRoot_child] at rl'
          obtain ⟨imid, omid⟩ := assemble_left (G := la :: l.addrs) (hqcore ▸ hqc)
            (hqcore ▸ hr) il' ol'
            (by simp only [List.mem_cons, not_or]; exact ⟨hqla, hql'⟩)
            (by
              intro x hx
              simp only [List.mem_cons, not_or]
              exact ⟨fun e => hlat (by simp [← e, hx]), fun hx' => hd x hx' hx⟩)
            hqr
          refine put_finish (M := .node l' qa r) (Or.inr rfl) hp hnd hlat hown imid rl' ql' ?_ h
          rcases dl' with ⟨e, hlasame⟩ | ⟨pre, post, e1, e2, hpre, hpost⟩
          · left
            refine ⟨by simp only [PTree.addrs, e], ?_⟩
            intro x hx
            by_cases hxla : x = la
            · subst hxla
              rw [hlasame]
            · exact omid x (by
                simp only [PTree.addrs, List.mem_cons, List.mem_append, not_or] at hx ⊢
                tauto)
          · right
            refine ⟨pre, post ++ qa :: r.addrs, ?_, ?_, hpre, ?_, ?_⟩
            · simp only [PTree.addrs, e1, List.append_assoc]
            · simp only [PTree.addrs, e2, List.append_assoc, List.cons_append]
            · intro x hx
              simp only [List.mem_append, List.mem_cons] at hx
              rcases hx with hx | rfl | hx
              · exact hpost x hx
              · rw [hqprice]; exact hlt'
              · have := hrq x hx
                rw [hqprice] at this
                omega
            · intro x hx
              exact omid x (by
                simp only [PTree.addrs, List.mem_cons, List.mem_append, not_or] at hx ⊢
                tauto)
        · -- go right
          rw [if_neg hlt, dirIndex_pos] at hrec
          rw [if_neg hlt] at h
          have hgt' : qn.price < K.price := by
            rw [← hlprice]
            have h1 : ¬ ln.price < qn.price := fun e => hlt (compare_neg.mpr e)
            have h2 : ln.price ≠ qn.price := fun e => hcmp (compare_eq_zero.mpr e)
            omega
          have hslot : slotPtr (coreHeap σ.limits) σ.tree.root (.child qa 1) = some cq.c1 := by
            simp [slotPtr, hqc, hqcore, Core.child]
          obtain ⟨P, r', ir', or', rr', qr', dr'⟩ :=
            ih hla hc0 hc1 hslot hr hndr hordr (fun hx => hlat (by simp [hx]))
              (fun q hq => by
                simp only [Slot.owner, Option.some.injEq] at hq
                subst hq
                exact ⟨hqr, hqla⟩) hrec
          rw [slotRoot_child] at rr'
          obtain ⟨imid, omid⟩ := assemble_right (G := la :: r.addrs) (hqcore ▸ hqc)
            (hqcore ▸ hl) ir' or'
            (by simp only [List.mem_cons, not_or]; exact ⟨hqla, hqr⟩)
            (by
              intro x hx
              simp only [List.mem_cons, not_or]
              exact ⟨fun e => hlat (by simp [← e, hx]), fun hx' => hd x hx hx'⟩)
            hql'
          refine put_finish (M := .node l qa r') (Or.inl rfl) hp hnd hlat hown imid rr' qr' ?_ h
          rcases dr' with ⟨e, hlasame⟩ | ⟨pre, post, e1, e2, hpre, hpost⟩
          · left
            refine ⟨by simp only [PTree.addrs, e], ?_⟩
            intro x hx
            by_cases hxla : x = la
            · subst hxla
              rw [hlasame]
            · exact omid x (by
                simp only [PTree.addrs, List.mem_cons, List.mem_append, not_or] at hx ⊢
                tauto)
          · right
            refine ⟨l.addrs ++ qa :: pre, post, ?_, ?_, ?_, hpost, ?_⟩
            · simp only [PTree.addrs, e1, List.append_assoc, List.cons_append]
            · simp only [PTree.addrs, e2, List.append_assoc, List.cons_append]
            · intro x hx
              simp only [List.mem_append, List.mem_cons] at hx
              rcases hx with hx | rfl | hx
              · have := hlq x hx
                rw [hqprice] at this
                omega
              · rw [hqprice]; exact hgt'
              · exact hpre x hx
            · intro x hx
              exact omid x (by
                simp only [PTree.addrs, List.mem_cons, List.mem_append, not_or] at hx ⊢
                tauto)

/-! ## `removeMin` -/

theorem coreHeap_store_price {limits : List limitPrice} {a : Nat} {n : limitPrice} {v : Nat}
    (h : limits[a]? = some n) :
    coreHeap (store limits a { n with price := v }) = setPrice (coreHeap limits) a v := by
  rw [coreHeap_store h]
  unfold setPrice
  have : coreHeap limits a = some n.core := by simp [coreHeap, h]
  rw [this]
  rfl

theorem slotPtr_setPrice (H : Nat → Option Core) (k v : Nat) (root : Ptr) (Q : Slot) :
    slotPtr (setPrice H k v) root Q = slotPtr H root Q := by
  cases Q with
  | root => rfl
  | child q a =>
    simp only [slotPtr, setPrice, Function.update]
    split
    · rename_i hq
      subst hq
      cases H q <;> rfl
    · rfl

theorem setPrice_other (H : Nat → Option Core) {k x : Nat} (v : Nat) (h : x ≠ k) :
    setPrice H k v x = H x := by
  simp [setPrice, Function.update, h]

theorem setPrice_self_core (H : Nat → Option Core) (k v : Nat) :
    setPrice H k v k = (H k).map (fun c => { c with price := v }) := by
  simp [setPrice, Function.update]

theorem isTree_setPrice {H : Nat → Option Core} (k v : Nat) : ∀ {t : PTree} {p : Ptr},
    IsTree H t p → IsTree (setPrice H k v) t p := by
  intro t
  induction t with
  | leaf => intro p h; exact h
  | node l a r ihl ihr =>
    intro p h
    obtain ⟨hp, c, hc, hl, hr⟩ := h
    by_cases ha : a = k
    · subst ha
      exact ⟨hp, { c with price := v }, by rw [setPrice_self_core, hc]; rfl, ihl hl, ihr hr⟩
    · exact ⟨hp, c, by rw [setPrice_other H v ha]; exact hc, ihl hl, ihr hr⟩

theorem priceIn_setPrice_other (H : Nat → Option Core) {k x : Nat} (v : Nat) (h : x ≠ k) :
    priceIn (setPrice H k v) x = priceIn H x := by
  unfold priceIn
  rw [setPrice_other H v h]

theorem removeMin_tree : ∀ (fuel : Nat) {σ st' : TreeState} {Q : Slot} {p : Ptr}
    {t : PTree} {minKey : Nat} {fix : Bool},
    slotPtr (coreHeap σ.limits) σ.tree.root Q = some p →
    IsTree (coreHeap σ.limits) t p → t.addrs.Nodup → minKey ∉ t.addrs →
    (∀ q, Q.owner = some q → q ∉ t.addrs) →
    removeMin fuel σ Q minKey = .ok (st', fix) →
    RemMinPost (coreHeap σ.limits) (coreHeap st'.limits) σ.tree.root st'.tree.root Q t
      minKey := by
  intro fuel
  induction fuel with
  | zero => intro σ st' Q p t minKey fix _ _ _ _ _ h; simp [removeMin] at h
  | succ n ih =>
    intro σ st' Q p t minKey fix hp ht hnd hmk hown h
    unfold removeMin at h
    obtain ⟨q, hq, h⟩ := bind_ok h
    have hqs := readSlot_core hq
    rw [hp] at hqs
    cases hqs
    obtain ⟨⟨qa, qn⟩, hqn, h⟩ := bind_ok h
    obtain ⟨hqp, hql, hqc⟩ := deref_core hqn
    subst hqp
    simp only at h
    obtain ⟨l, r, cq, rfl, hcq, hl, hr⟩ := isTree_some ht
    rw [hqc] at hcq
    have hqcore : qn.core = cq := by simpa using hcq
    subst hqcore
    simp only [PTree.addrs] at hnd hmk
    obtain ⟨hndl, hndr, hql', hqr, hd⟩ := nodup_mid hnd
    have hqmk : qa ≠ minKey := fun e => hmk (by simp [e])
    have hqprice : priceIn (coreHeap σ.limits) qa = qn.price := by
      rw [priceIn_of_some hqc]; rfl
    split at h
    · -- no left child: this is the minimum
      rename_i hnol
      rw [children_core] at hnol
      have hc0 : qn.core.c0 = none := hnol
      rw [hc0] at hl
      have hleaf := isTree_none hl
      subst hleaf
      obtain ⟨⟨ka, kn⟩, hkn, h⟩ := bind_ok h
      obtain ⟨hkp, hkl, hkc⟩ := deref_core hkn
      cases hkp
      obtain ⟨⟨qa1, qn1⟩, hqn1, h⟩ := bind_ok h
      obtain ⟨hq1p, hq1l, hq1c⟩ := deref_core hqn1
      cases hq1p
      obtain ⟨limits2, h2, h⟩ := bind_ok h
      obtain ⟨⟨qa2, qn2⟩, hqn2, h⟩ := bind_ok h
      obtain ⟨hq2p, hq2l, hq2c⟩ := deref_core hqn2
      cases hq2p
      obtain ⟨st2, hw, h⟩ := bind_ok h
      cases h
      simp only at hqn1 hq1l hq1c h2 hqn2 hq2l hq2c hw
      have e1 := coreHeap_store_price (v := qn.price) hkl
      have e2 : coreHeap limits2 = setPrice (coreHeap σ.limits) minKey qn.price := by
        rw [← e1]
        split at h2
        · obtain ⟨⟨ca, cn⟩, hc, h2⟩ := bind_ok h2
          cases h2
          exact store_parent_core hc
        · cases h2; rfl
      have hqn2core : qn2.core = qn.core := by
        rw [e2, setPrice_other _ _ hqmk, hqc] at hq2c
        simpa using hq2c.symm
      obtain ⟨hH, hroot⟩ := writeSlot_core hw
      simp only at hH hroot
      rw [e2, children_core, hqn2core] at hH
      rw [children_core, hqn2core] at hroot
      refine ⟨qn.core.child 1, r, qa, r.addrs, by simp [PTree.addrs], rfl, ?_, ?_, hroot, ?_⟩
      · rw [hH]
        refine isTree_slotSet (fun q hq hx => hown q hq (by simp [PTree.addrs, hx])) ?_
        exact isTree_setPrice _ _ hr
      · intro x _
        rw [hH, hqprice]
      · intro x hx
        rw [hH, priceIn_slotSet, priceIn_setPrice_other _ _ hx]
    · -- descend to the left
      obtain ⟨⟨st1, fix1⟩, hrec, h⟩ := bind_ok h
      simp only at hrec h
      have hslot : slotPtr (coreHeap σ.limits) σ.tree.root (.child qa 0) = some qn.core.c0 := by
        simp [slotPtr, hqc, Core.child]
      obtain ⟨P, l', u, rest, el, el', il', ol', rl', ql'⟩ :=
        ih hslot hl hndl (fun hx => hmk (by simp [hx]))
          (fun q hq => by
            simp only [Slot.owner, Option.some.injEq] at hq
            subst hq
            exact hql') hrec
      rw [slotRoot_child] at rl'
      rw [el] at hndl hd hql'
      have hul : u ∈ l.addrs := by rw [el]; simp
      have hrestl : ∀ x ∈ rest, x ∈ l.addrs := by intro x hx; rw [el]; simp [hx]
      have hHbq : setPrice (coreHeap σ.limits) minKey (priceIn (coreHeap σ.limits) u) qa =
          some qn.core := by
        rw [setPrice_other _ _ hqmk]; exact hqc
      obtain ⟨imid, omid⟩ := assemble_left (G := rest) hHbq (isTree_setPrice _ _ hr) il' ol'
        (fun hx => hql' (by simp [hx]))
        (fun x hx hx' => hd x (by simp [hx']) hx) hqr
      have hndmid : (PTree.node l' qa r).addrs.Nodup := by
        simp only [PTree.addrs, el']
        have := hnd
        rw [el] at this
        simp only [List.cons_append, List.nodup_cons] at this
        exact this.2
      obtain ⟨p', t', i', e', o', r', q'⟩ :=
        finish_fix removeFix_tree (F := rest ++ qa :: r.addrs) (Or.inl rfl) imid hndmid
          (fun x hx => by simpa [PTree.addrs, el'] using hx)
          (fun q hq hx => hown q hq (by
            simp only [PTree.addrs, List.mem_append, List.mem_cons] at hx ⊢
            rcases hx with hx | hx | hx
            · exact Or.inl (hrestl q hx)
            · exact Or.inr (Or.inl hx)
            · exact Or.inr (Or.inr hx)))
          (fun x hx => omid x (by
            simp only [List.mem_cons, List.mem_append, not_or] at hx ⊢
            tauto)) rl'
          (by rw [slotPtr_setPrice]; exact hp) h
      refine ⟨p', t', u, rest ++ qa :: r.addrs, by simp [PTree.addrs, el], ?_, i', o', r', ?_⟩
      · rw [e']; simp [PTree.addrs, el']
      · intro x hx
        rw [q', ql' x hx]

/-! ## `remove` -/

/-- The closing step of `remove` at a node, once the subtree was dealt with. -/
theorem remove_finish {σ st1 st' : TreeState} {Q : Slot} {p : Ptr} {t M : PTree}
    {key : Nat} {c : Int} {fix1 fix : Bool} (hc : c = 1 ∨ c = -1)
    (hp : slotPtr (coreHeap σ.limits) σ.tree.root Q = some p)
    (hnd : t.addrs.Nodup) (hown : ∀ q, Q.owner = some q → q ∉ t.addrs)
    (hmid : IsTree (coreHeap st1.limits) M p) (hroot1 : st1.tree.root = σ.tree.root)
    (hcase : (M.addrs = t.addrs ∧
        OutsideEq t.addrs (coreHeap σ.limits) (coreHeap st1.limits) ∧
        ∀ x, priceIn (coreHeap st1.limits) x = priceIn (coreHeap σ.limits) x) ∨
      (∃ pre u post m, t.addrs = pre ++ u :: post ∧ M.addrs = pre ++ post ∧
        OutsideEq (pre ++ post)
          (setPrice (coreHeap σ.limits) m (priceIn (coreHeap σ.limits) u))
          (coreHeap st1.limits) ∧
        priceIn (coreHeap σ.limits) m = key ∧ (m = u ∨ ∃ pre', pre = pre' ++ [m]) ∧
        (∀ x, x ≠ m → priceIn (coreHeap st1.limits) x = priceIn (coreHeap σ.limits) x) ∧
        (m ≠ u → priceIn (coreHeap st1.limits) m = priceIn (coreHeap σ.limits) u)))
    (h : (if fix1 = true then removeFix st1 c Q else .ok (st1, false)) = .ok (st', fix)) :
    RemovePost (coreHeap σ.limits) (coreHeap st'.limits) σ.tree.root st'.tree.root Q t
      key := by
  rcases hcase with ⟨e, hout, hpr⟩ | ⟨pre, u, post, m, e1, e2, hout, hkey, hm, hpr, hpm⟩
  · obtain ⟨p', t', i', e', o', r', q'⟩ :=
      finish_fix removeFix_tree (F := t.addrs) hc hmid (by rw [e]; exact hnd)
        (fun x hx => by rw [e] at hx; exact hx) hown hout hroot1 hp h
    exact ⟨p', t', i', r', Or.inl ⟨by rw [e', e], o', fun x => by rw [q', hpr]⟩⟩
  · have hsubl : ∀ x ∈ pre ++ post, x ∈ t.addrs := by
      intro x hx
      rw [e1]
      simp only [List.mem_append, List.mem_cons] at hx ⊢
      tauto
    have hndmid : M.addrs.Nodup := by
      rw [e2]
      rw [e1] at hnd
      exact (nodup_mid hnd).1.append (nodup_mid hnd).2.1
        (fun x h1 h2 => (nodup_mid hnd).2.2.2.2 x h1 h2)
    obtain ⟨p', t', i', e', o', r', q'⟩ :=
      finish_fix removeFix_tree (F := pre ++ post) hc hmid hndmid
        (fun x hx => by rw [e2] at hx; exact hx)
        (fun q hq hx => hown q hq (hsubl q hx)) hout hroot1
        (by rw [slotPtr_setPrice]; exact hp) h
    exact ⟨p', t', i', r', Or.inr ⟨pre, u, post, m, e1, by rw [e', e2], o', hkey, hm,
      fun x hx => by rw [q', hpr x hx], fun hx => by rw [q', hpm hx]⟩⟩

theorem setPrice_same {H : Nat → Option Core} {k : Nat} {c : Core} (h : H k = some c) :
    setPrice H k c.price = H := by
  funext x
  by_cases hx : x = k
  · subst hx; rw [setPrice_self_core, h]; rfl
  · exact setPrice_other H _ hx

theorem priceIn_setPrice_self {H : Nat → Option Core} {k : Nat} {c : Core} (v : Nat)
    (h : H k = some c) : priceIn (setPrice H k v) k = v := by
  unfold priceIn
  rw [setPrice_self_core, h]
  rfl

theorem neg_neg_one : (-(-1 : Int)) = 1 := by decide

theorem remove_tree : ∀ (fuel : Nat) {σ st' : TreeState} {Q : Slot} {p : Ptr}
    {t : PTree} {key : Nat} {fix : Bool},
    slotPtr (coreHeap σ.limits) σ.tree.root Q = some p →
    IsTree (coreHeap σ.limits) t p → t.addrs.Nodup →
    (∀ q, Q.owner = some q → q ∉ t.addrs) →
    limitPriceTree.remove fuel σ key Q = .ok (st', fix) →
    RemovePost (coreHeap σ.limits) (coreHeap st'.limits) σ.tree.root st'.tree.root Q t
      key := by
  intro fuel
  induction fuel with
  | zero => intro σ st' Q p t key fix _ _ _ _ h; simp [limitPriceTree.remove] at h
  | succ n ih =>
    intro σ st' Q p t key fix hp ht hnd hown h
    unfold limitPriceTree.remove at h
    obtain ⟨q, hq, h⟩ := bind_ok h
    have hqs := readSlot_core hq
    rw [hp] at hqs
    cases hqs
    split at h
    · -- empty slot
      rename_i hnone
      subst hnone
      cases h
      have htl := isTree_none ht
      subst htl
      refine ⟨none, .leaf, ht, (slotRoot_self hp).symm, Or.inl ⟨rfl, ?_, fun _ => rfl⟩⟩
      rw [slotSet_self hp]
      intro x _; rfl
    · obtain ⟨⟨qa, qn⟩, hqn, h⟩ := bind_ok h
      obtain ⟨hqp, hql, hqc⟩ := deref_core hqn
      subst hqp
      simp only at h
      obtain ⟨l, r, cq, rfl, hcq, hl, hr⟩ := isTree_some ht
      rw [hqc] at hcq
      have hqcore : qn.core = cq := by simpa using hcq
      subst hqcore
      have hnd0 := hnd
      simp only [PTree.addrs] at hnd
      obtain ⟨hndl, hndr, hql', hqr, hd⟩ := nodup_mid hnd
      have hqprice : priceIn (coreHeap σ.limits) qa = qn.price := by
        rw [priceIn_of_some hqc]; rfl
      split at h
      · -- the key is here
        rename_i hcmp
        have hkey : priceIn (coreHeap σ.limits) qa = key := by
          rw [hqprice]; exact (compare_eq_zero.mp hcmp).symm
        split at h
        · -- no right child: the left child takes the place
          rename_i hnor
          rw [children_core] at hnor
          have hc1 : qn.core.c1 = none := hnor
          rw [hc1] at hr
          have hleaf := isTree_none hr
          subst hleaf
          obtain ⟨limits1, h1, h⟩ := bind_ok h
          obtain ⟨⟨qa1, qn1⟩, hqn1, h⟩ := bind_ok h
          obtain ⟨hq1p, hq1l, hq1c⟩ := deref_core hqn1
          cases hq1p
          obtain ⟨st2, hw, h⟩ := bind_ok h
          cases h
          simp only at h1 hqn1 hq1l hq1c hw
          have e1 : coreHeap limits1 = coreHeap σ.limits := by
            split at h1
            · obtain ⟨⟨ca, cn⟩, hc, h1⟩ := bind_ok h1
              cases h1
              exact store_parent_core hc
            · cases h1; rfl
          have hqn1core : qn1.core = qn.core := by
            rw [e1, hqc] at hq1c
            simpa using hq1c.symm
          obtain ⟨hH, hroot⟩ := writeSlot_core hw
          simp only at hH hroot
          rw [e1, children_core, hqn1core] at hH
          rw [children_core, hqn1core] at hroot
          refine ⟨qn.core.child 0, l, ?_, hroot, Or.inr ⟨l.addrs, qa, [], qa, ?_, ?_, ?_, hkey,
            Or.inl rfl, ?_, fun hx => absurd rfl hx⟩⟩
          · rw [hH]
            exact isTree_slotSet (fun q hq hx => hown q hq (by simp [PTree.addrs, hx])) hl
          · simp [PTree.addrs]
          · simp
          · intro x _
            rw [hH, hqprice]
            have := setPrice_same hqc
            rw [show qn.core.price = qn.price from rfl] at this
            rw [this]
          · intro x _
            rw [hH, priceIn_slotSet]
        · -- a right child: its minimum is moved here
          obtain ⟨⟨st1, fix1⟩, hrec, h⟩ := bind_ok h
          simp only at hrec h
          have hslot : slotPtr (coreHeap σ.limits) σ.tree.root (.child qa 1) =
              some qn.core.c1 := by
            simp [slotPtr, hqc, Core.child]
          obtain ⟨P, r', u, rest, er, er', ir', or', rr', qr'⟩ :=
            removeMin_tree n (σ := { σ with tree := { σ.tree with size := σ.tree.size - 1 } })
              hslot hr hndr hqr
              (fun q hq => by
                simp only [Slot.owner, Option.some.injEq] at hq
                subst hq
                exact hqr) hrec
          simp only at ir' or' rr' qr'
          rw [slotRoot_child] at rr'
          rw [er] at hndr hd hqr
          have hHbq : setPrice (coreHeap σ.limits) qa (priceIn (coreHeap σ.limits) u) qa =
              some { qn.core with price := priceIn (coreHeap σ.limits) u } := by
            rw [setPrice_self_core, hqc]; rfl
          have hqrest : qa ∉ rest := fun hx => hqr (by simp [hx])
          obtain ⟨imid, omid⟩ := assemble_right (G := rest) hHbq
            (isTree_setPrice _ _ hl) ir' or' hqrest
            (fun x hx hx' => hd x hx (by simp [hx'])) hql'
          refine remove_finish (M := .node l qa r') (Or.inr rfl) hp hnd0 hown imid rr'
            (Or.inr ⟨l.addrs ++ [qa], u, rest, qa, ?_, ?_, ?_, hkey, Or.inr ⟨l.addrs, rfl⟩, qr',
              ?_⟩) h
          · simp [PTree.addrs, er]
          · simp [PTree.addrs, er']
          · intro x hx
            exact omid x (by
              simp only [List.mem_cons, List.mem_append, not_or, List.mem_singleton] at hx ⊢
              tauto)
          · intro _
            have hq1 : coreHeap st1.limits qa =
                some (Core.setChild { qn.core with price := priceIn (coreHeap σ.limits) u }
                  1 P) := by
              rw [or' qa hqrest]
              simp [slotSet, hHbq]
            rw [priceIn_of_some hq1, setChild_price]
      · -- the key is in a subtree
        rename_i hcmp
        obtain ⟨⟨st1, fix1⟩, hrec, h⟩ := bind_ok h
        simp only at hrec h
        by_cases hlt : compare key qn.price < 0
        · -- left
          rw [if_pos hlt, dirIndex_neg] at hrec
          rw [if_pos hlt, neg_neg_one] at h
          have hslot : slotPtr (coreHeap σ.limits) σ.tree.root (.child qa 0) =
              some qn.core.c0 := by
            simp [slotPtr, hqc, Core.child]
          obtain ⟨P, l', il', rl', dl'⟩ :=
            ih hslot hl hndl
              (fun q hq => by
                simp only [Slot.owner, Option.some.injEq] at hq
                subst hq
                exact hql') hrec
          rw [slotRoot_child] at rl'
          rcases dl' with ⟨e, ol', ql'⟩ | ⟨pre, u, post, m, e1, e2, ol', hk, hm, ql', qm'⟩
          · obtain ⟨imid, omid⟩ := assemble_left (G := l.addrs) hqc hr il' ol' hql'
              (fun x hx hx' => hd x hx' hx) hqr
            refine remove_finish (M := .node l' qa r) (Or.inl rfl) hp hnd0 hown imid rl'
              (Or.inl ⟨by simp [PTree.addrs, e], ?_, ql'⟩) h
            intro x hx
            exact omid x (by
              simp only [PTree.addrs, List.mem_cons, List.mem_append, not_or] at hx ⊢
              tauto)
          · have hml : m ∈ l.addrs := by
              rw [e1]
              rcases hm with rfl | ⟨pre', rfl⟩
              · simp
              · simp
            have hqm : qa ≠ m := fun e => hql' (e ▸ hml)
            have hsubl : ∀ x ∈ pre ++ post, x ∈ l.addrs := by
              intro x hx
              rw [e1]
              simp only [List.mem_append, List.mem_cons] at hx ⊢
              tauto
            have hHbq : setPrice (coreHeap σ.limits) m (priceIn (coreHeap σ.limits) u) qa =
                some qn.core := by
              rw [setPrice_other _ _ hqm]; exact hqc
            obtain ⟨imid, omid⟩ := assemble_left (G := pre ++ post) hHbq
              (isTree_setPrice _ _ hr) il' ol' (fun hx => hql' (hsubl qa hx))
              (fun x hx hx' => hd x (hsubl x hx') hx) hqr
            refine remove_finish (M := .node l' qa r) (Or.inl rfl) hp hnd0 hown imid rl'
              (Or.inr ⟨pre, u, post ++ qa :: r.addrs, m, ?_, ?_, ?_, hk, hm, ql', qm'⟩) h
            · simp [PTree.addrs, e1]
            · simp [PTree.addrs, e2]
            · intro x hx
              exact omid x (by
                simp only [List.mem_cons, List.mem_append, not_or] at hx ⊢
                tauto)
        · -- right
          rw [if_neg hlt, dirIndex_pos] at hrec
          rw [if_neg hlt] at h
          have hslot : slotPtr (coreHeap σ.limits) σ.tree.root (.child qa 1) =
              some qn.core.c1 := by
            simp [slotPtr, hqc, Core.child]
          obtain ⟨P, r', ir', rr', dr'⟩ :=
            ih hslot hr hndr
              (fun q hq => by
                simp only [Slot.owner, Option.some.injEq] at hq
                subst hq
                exact hqr) hrec
          rw [slotRoot_child] at rr'
          rcases dr' with ⟨e, or', qr'⟩ | ⟨pre, u, post, m, e1, e2, or', hk, hm, qr', qm'⟩
          · obtain ⟨imid, omid⟩ := assemble_right (G := r.addrs) hqc hl ir' or' hqr
              (fun x hx hx' => hd x hx hx') hql'
            refine remove_finish (M := .node l qa r') (Or.inr rfl) hp hnd0 hown imid rr'
              (Or.inl ⟨by simp [PTree.addrs, e], ?_, qr'⟩) h
            intro x hx
            exact omid x (by
              simp only [PTree.addrs, List.mem_cons, List.mem_append, not_or] at hx ⊢
              tauto)
          · have hmr : m ∈ r.addrs := by
              rw [e1]
              rcases hm with rfl | ⟨pre', rfl⟩
              · simp
              · simp
            have hqm : qa ≠ m := fun e => hqr (e ▸ hmr)
            have hsubr : ∀ x ∈ pre ++ post, x ∈ r.addrs := by
              intro x hx
              rw [e1]
              simp only [List.mem_append, List.mem_cons] at hx ⊢
              tauto
            have hHbq : setPrice (coreHeap σ.limits) m (priceIn (coreHeap σ.limits) u) qa =
                some qn.core := by
              rw [setPrice_other _ _ hqm]; exact hqc
            obtain ⟨imid, omid⟩ := assemble_right (G := pre ++ post) hHbq
              (isTree_setPrice _ _ hl) ir' or' (fun hx => hqr (hsubr qa hx))
              (fun x hx hx' => hd x hx (hsubr x hx')) hql'
            refine remove_finish (M := .node l qa r') (Or.inr rfl) hp hnd0 hown imid rr'
              (Or.inr ⟨l.addrs ++ qa :: pre, u, post, m, ?_, ?_, ?_, hk, ?_, qr', qm'⟩) h
            · simp [PTree.addrs, e1]
            · simp [PTree.addrs, e2]
            · intro x hx
              exact omid x (by
                simp only [List.mem_cons, List.mem_append, not_or] at hx ⊢
                tauto)
            · rcases hm with rfl | ⟨pre', rfl⟩
              · exact Or.inl rfl
              · exact Or.inr ⟨l.addrs ++ qa :: pre', by simp⟩

/-! ## `addLimit` and `removeLimit` on a whole tree -/

theorem ordered_congr {H H' : Nat → Option Core} {t : PTree}
    (h : ∀ x ∈ t.addrs, priceIn H' x = priceIn H x) (ho : Ordered H t) : Ordered H' t := by
  unfold Ordered at ho ⊢
  have : t.addrs.map (priceIn H') = t.addrs.map (priceIn H) :=
    List.map_congr_left h
  rw [this]; exact ho

/-- In a search tree the right child of a node is in the tree and has a higher
price. -/
theorem isTree_child1 {H : Nat → Option Core} : ∀ {t : PTree} {p : Ptr} {a y : Nat} {c : Core},
    IsTree H t p → Ordered H t → a ∈ t.addrs → H a = some c → c.c1 = some y →
    y ∈ t.addrs ∧ priceIn H a < priceIn H y := by
  intro t
  induction t with
  | leaf => intro p a y c _ _ ha; simp [PTree.addrs] at ha
  | node l x r ihl ihr =>
    intro p a y c ht ho ha hc hy
    obtain ⟨_, cx, hcx, hl, hr⟩ := ht
    obtain ⟨hol, hor, hlx, hxr, hlr⟩ := ordered_node ho
    simp only [PTree.addrs, List.mem_append, List.mem_cons] at ha ⊢
    rcases ha with ha | ha | ha
    · obtain ⟨h1, h2⟩ := ihl hl hol ha hc hy
      exact ⟨Or.inl h1, h2⟩
    · subst ha
      rw [hc] at hcx
      cases hcx
      rw [hy] at hr
      obtain ⟨l', r', c', rfl, _, _, _⟩ := isTree_some hr
      have hyr : y ∈ (PTree.node l' y r').addrs := by simp [PTree.addrs]
      exact ⟨Or.inr (Or.inr hyr), hxr y hyr⟩
    · obtain ⟨h1, h2⟩ := ihr hr hor ha hc hy
      exact ⟨Or.inr (Or.inr h1), h2⟩

/-- In a search tree the left child of a node is in the tree and has a lower
price. -/
theorem isTree_child0 {H : Nat → Option Core} : ∀ {t : PTree} {p : Ptr} {a y : Nat} {c : Core},
    IsTree H t p → Ordered H t → a ∈ t.addrs → H a = some c → c.c0 = some y →
    y ∈ t.addrs ∧ priceIn H y < priceIn H a := by
  intro t
  induction t with
  | leaf => intro p a y c _ _ ha; simp [PTree.addrs] at ha
  | node l x r ihl ihr =>
    intro p a y c ht ho ha hc hy
    obtain ⟨_, cx, hcx, hl, hr⟩ := ht
    obtain ⟨hol, hor, hlx, hxr, hlr⟩ := ordered_node ho
    simp only [PTree.addrs, List.mem_append, List.mem_cons] at ha ⊢
    rcases ha with ha | ha | ha
    · obtain ⟨h1, h2⟩ := ihl hl hol ha hc hy
      exact ⟨Or.inl h1, h2⟩
    · subst ha
      rw [hc] at hcx
      cases hcx
      rw [hy] at hl
      obtain ⟨l', r', c', rfl, _, _, _⟩ := isTree_some hl
      have hyl : y ∈ (PTree.node l' y r').addrs := by simp [PTree.addrs]
      exact ⟨Or.inl hyl, hlx y hyl⟩
    · obtain ⟨h1, h2⟩ := ihr hr hor ha hc hy
      exact ⟨Or.inr (Or.inr h1), h2⟩

theorem removeLimit_spec {fuel : Nat} {σ st' : TreeState} {t : PTree} {key : Nat}
    (ht : IsTree (coreHeap σ.limits) t σ.tree.root) (hnd : t.addrs.Nodup)
    (hord : Ordered (coreHeap σ.limits) t)
    (h : limitPriceTree.removeLimit fuel σ key = .ok st') :
    ∃ t', IsTree (coreHeap st'.limits) t' st'.tree.root ∧ t'.addrs.Nodup ∧
      Ordered (coreHeap st'.limits) t' ∧ (∀ x ∈ t'.addrs, x ∈ t.addrs) ∧
      (∀ x, x ∉ t'.addrs → coreHeap st'.limits x = coreHeap σ.limits x) ∧
      (∀ x, priceIn (coreHeap σ.limits) x ≤ priceIn (coreHeap st'.limits) x) ∧
      (∀ x, priceIn (coreHeap σ.limits) x ≠ key →
        priceIn (coreHeap st'.limits) x = priceIn (coreHeap σ.limits) x) ∧
      (∀ x ∈ t.addrs, priceIn (coreHeap σ.limits) x < key → x ∈ t'.addrs) := by
  unfold limitPriceTree.removeLimit at h
  obtain ⟨⟨st1, fix⟩, hrem, h⟩ := bind_ok h
  cases h
  obtain ⟨p', t', i', r', hcase⟩ :=
    remove_tree fuel (Q := .root) (p := σ.tree.root) rfl ht hnd
      (fun q hq => by simp [Slot.owner] at hq) hrem
  simp only [slotRoot] at r'
  rw [← r'] at i'
  rcases hcase with ⟨e, o, q⟩ | ⟨pre, u, post, m, e1, e2, o, hk, hm, q, qm⟩
  · simp only [slotSet] at o
    refine ⟨t', i', by rw [e]; exact hnd, ?_, fun x hx => by rw [e] at hx; exact hx,
      fun x hx => o x (by rw [← e]; exact hx), fun x => by rw [q], fun x _ => q x,
      fun x hx _ => by rw [e]; exact hx⟩
    exact ordered_congr (fun x _ => q x) (by unfold Ordered at hord ⊢; rw [e]; exact hord)
  · simp only [slotSet] at o
    rw [e1] at hnd
    obtain ⟨hndpre, hndupost, hupre, hupost', hdis⟩ := nodup_mid hnd
    have hupost : u ∉ post := hupost'
    have hndpost : post.Nodup := hndupost
    have hmt : m ∈ t.addrs := by
      rw [e1]
      rcases hm with rfl | ⟨pre', rfl⟩
      · simp
      · simp
    obtain ⟨cu, hcu⟩ := isTree_mem ht u (by rw [e1]; simp)
    -- the prices in order, before
    have hord' := hord
    unfold Ordered at hord'
    rw [e1] at hord'
    -- price of u against the key
    have hukey : key ≤ priceIn (coreHeap σ.limits) u := by
      rcases hm with rfl | ⟨pre', rfl⟩
      · omega
      · simp only [List.map_append, List.map_cons, List.map_nil, List.append_assoc,
          List.cons_append, List.nil_append, List.pairwise_append, List.pairwise_cons,
          List.mem_cons, List.mem_map, forall_eq_or_imp] at hord'
        have := hord'.2.1.1.1
        omega
    have hHu : coreHeap st'.limits u = coreHeap σ.limits u := by
      rw [o u (by simp only [List.mem_append, not_or]; exact ⟨hupre, hupost⟩)]
      by_cases hmu : u = m
      · subst hmu
        rw [priceIn_of_some hcu, setPrice_same hcu]
      · exact setPrice_other _ _ hmu
    have hmono : ∀ x, priceIn (coreHeap σ.limits) x ≤ priceIn (coreHeap st'.limits) x := by
      intro x
      by_cases hx : x = m
      · subst hx
        by_cases hmu : x = u
        · subst hmu
          unfold priceIn
          rw [hHu]
        · rw [qm hmu]; omega
      · rw [q x hx]
    refine ⟨t', i', ?_, ?_, ?_, ?_, hmono, ?_, ?_⟩
    · rw [e2]
      exact hndpre.append hndpost (fun x h1 h2 => hdis x h1 (by simp [h2]))
    · unfold Ordered
      rw [e2]
      rcases hm with rfl | ⟨pre', rfl⟩
      · have hsame : (pre ++ post).map (priceIn (coreHeap st'.limits)) =
            (pre ++ post).map (priceIn (coreHeap σ.limits)) := by
          refine List.map_congr_left ?_
          intro x hx
          refine q x ?_
          rintro rfl
          simp only [List.mem_append] at hx
          rcases hx with hx | hx
          · exact hupre hx
          · exact hupost hx
        rw [hsame]
        refine List.Pairwise.sublist ?_ hord'
        simp only [List.map_append, List.map_cons]
        exact List.Sublist.append_left (List.sublist_cons_self _ _) _
      · have hmpre' : m ∉ pre' := by
          intro hx
          have := hndpre
          rw [List.nodup_append] at this
          exact this.2.2 hx (by simp)
        have hmpost : m ∉ post := fun hx => hdis m (by simp) (by simp [hx])
        have hmu : m ≠ u := fun e => hupre (by simp [← e])
        have hnew : (pre' ++ [m] ++ post).map (priceIn (coreHeap st'.limits)) =
            pre'.map (priceIn (coreHeap σ.limits)) ++
              priceIn (coreHeap σ.limits) u :: post.map (priceIn (coreHeap σ.limits)) := by
          simp only [List.map_append, List.map_cons, List.map_nil, List.append_assoc,
            List.cons_append, List.nil_append, qm hmu]
          congr 1
          · exact List.map_congr_left (fun x hx => q x (by rintro rfl; exact hmpre' hx))
          · congr 1
            exact List.map_congr_left (fun x hx => q x (by rintro rfl; exact hmpost hx))
        rw [hnew]
        refine List.Pairwise.sublist ?_ hord'
        simp only [List.map_append, List.map_cons, List.map_nil, List.append_assoc,
          List.cons_append, List.nil_append]
        exact List.Sublist.append_left (List.sublist_cons_self _ _) _
    · intro x hx
      rw [e2] at hx
      rw [e1]
      simp only [List.mem_append, List.mem_cons] at hx ⊢
      tauto
    · intro x hx
      rw [e2] at hx
      by_cases hxu : x = u
      · subst hxu; exact hHu
      · rw [o x hx]
        refine setPrice_other _ _ ?_
        rintro rfl
        rw [e1] at hmt
        simp only [List.mem_append, List.mem_cons, not_or] at hx hmt
        tauto
    · intro x hx
      refine q x ?_
      rintro rfl
      exact hx hk
    · intro x hx hlt
      rw [e1] at hx
      rw [e2]
      simp only [List.mem_append, List.mem_cons] at hx ⊢
      rcases hx with hx | rfl | hx
      · exact Or.inl hx
      · omega
      · exact Or.inr hx

theorem coreHeap_append (limits : List limitPrice) (node : limitPrice) (x : Nat) :
    coreHeap (limits ++ [node]) x =
      if x = limits.length then some node.core else coreHeap limits x := by
  unfold coreHeap
  by_cases hx : x = limits.length
  · subst hx; simp
  · rw [if_neg hx]
    by_cases hlt : x < limits.length
    · rw [List.getElem?_append_left hlt]
    · have hgt : limits.length < x := by omega
      have h1 : (limits ++ [node])[x]? = none := by
        apply List.getElem?_eq_none
        simp; omega
      have h2 : limits[x]? = none := by
        apply List.getElem?_eq_none
        omega
      rw [h1, h2]

theorem coreHeap_length (limits : List limitPrice) : coreHeap limits limits.length = none := by
  simp [coreHeap]

theorem addLimit_spec {fuel : Nat} {orders orders' : List order} {σ st' : TreeState}
    {t : PTree} {price : Nat} {o lim : Ptr}
    (ht : IsTree (coreHeap σ.limits) t σ.tree.root) (hnd : t.addrs.Nodup)
    (hord : Ordered (coreHeap σ.limits) t)
    (h : limitPriceTree.addLimit fuel orders σ price o = .ok (orders', st', lim)) :
    lim = some σ.limits.length ∧
    ∃ t', IsTree (coreHeap st'.limits) t' st'.tree.root ∧ t'.addrs.Nodup ∧
      Ordered (coreHeap st'.limits) t' ∧ (∀ x ∈ t.addrs, x ∈ t'.addrs) ∧
      (∀ x ∈ t'.addrs, x ∈ t.addrs ∨ x = σ.limits.length) ∧
      (∀ x, x ∉ t'.addrs → x ≠ σ.limits.length →
        coreHeap st'.limits x = coreHeap σ.limits x) ∧
      (∀ x, x ≠ σ.limits.length →
        priceIn (coreHeap st'.limits) x = priceIn (coreHeap σ.limits) x) ∧
      priceIn (coreHeap st'.limits) σ.limits.length = price ∧
      (∃ c, coreHeap st'.limits σ.limits.length = some c ∧
        (σ.limits.length ∈ t'.addrs ∨ (c.c0 = none ∧ c.c1 = none))) := by
  unfold limitPriceTree.addLimit at h
  obtain ⟨⟨os, list⟩, _, h⟩ := bind_ok h
  obtain ⟨⟨st1, fix⟩, hput, h⟩ := bind_ok h
  cases h
  refine ⟨rfl, ?_⟩
  generalize hnode : (limitPrice.mk price list none none none 0) = node at hput
  have hncore : node.core = { price := price, c0 := none, c1 := none } := by
    rw [← hnode]; rfl
  have hH1 : ∀ x, x ≠ σ.limits.length →
      coreHeap (σ.limits ++ [node]) x = coreHeap σ.limits x := by
    intro x hx; rw [coreHeap_append, if_neg hx]
  have hH1la : coreHeap (σ.limits ++ [node]) σ.limits.length =
      some { price := price, c0 := none, c1 := none } := by
    rw [coreHeap_append, if_pos rfl, hncore]
  have hlat : σ.limits.length ∉ t.addrs := by
    intro hx
    obtain ⟨c, hc⟩ := isTree_mem ht _ hx
    rw [coreHeap_length] at hc
    cases hc
  have hne : ∀ x ∈ t.addrs, x ≠ σ.limits.length := fun x hx e => hlat (e ▸ hx)
  have hp1 : ∀ x, x ≠ σ.limits.length →
      priceIn (coreHeap (σ.limits ++ [node])) x = priceIn (coreHeap σ.limits) x := by
    intro x hx; unfold priceIn; rw [hH1 x hx]
  have ht1 : IsTree (coreHeap (σ.limits ++ [node])) t σ.tree.root :=
    isTree_congr (fun x hx => hH1 x (hne x hx)) ht
  have hord1 : Ordered (coreHeap (σ.limits ++ [node])) t :=
    ordered_congr (fun x hx => hp1 x (hne x hx)) hord
  obtain ⟨p', t', i', o', r', q', hcase⟩ :=
    put_tree fuel (σ := { σ with limits := σ.limits ++ [node] }) (Q := .root)
      (p := σ.tree.root) (K := { price := price, c0 := none, c1 := none })
      hH1la rfl rfl rfl ht1 hnd hord1 hlat (fun q hq => by simp [Slot.owner] at hq) hput
  simp only [slotRoot, slotSet] at r' o' q' i'
  rw [← r'] at i'
  have hpla : priceIn (coreHeap st'.limits) σ.limits.length = price := by
    rw [q', priceIn_of_some hH1la]
  rcases hcase with ⟨e, hla⟩ | ⟨pre, post, e1, e2, hpre, hpost⟩
  · simp only at hla
    refine ⟨t', i', by rw [e]; exact hnd, ?_, fun x hx => by rw [e]; exact hx,
      fun x hx => Or.inl (by rw [← e]; exact hx), ?_, fun x hx => by rw [q', hp1 x hx], hpla,
      ⟨_, by rw [hla]; exact hH1la, Or.inr ⟨rfl, rfl⟩⟩⟩
    · refine ordered_congr (fun x hx => ?_) (by unfold Ordered at hord ⊢; rw [e]; exact hord)
      rw [e] at hx
      rw [q', hp1 x (hne x hx)]
    · intro x hx hxla
      rw [o' x (by
        simp only [List.mem_cons, not_or]
        exact ⟨hxla, by rw [← e]; exact hx⟩)]
      exact hH1 x hxla
  · have hperm : t'.addrs.Perm (σ.limits.length :: t.addrs) := by
      rw [e1, e2]; exact List.perm_middle
    obtain ⟨c, hc⟩ := isTree_mem i' σ.limits.length (by rw [e2]; simp)
    refine ⟨t', i', hperm.nodup_iff.mpr (List.nodup_cons.mpr ⟨hlat, hnd⟩), ?_,
      fun x hx => hperm.symm.subset (List.mem_cons_of_mem _ hx), ?_, ?_,
      fun x hx => by rw [q', hp1 x hx], hpla, ⟨c, hc, Or.inl (by rw [e2]; simp)⟩⟩
    · unfold Ordered
      have hq1 : ∀ x, priceIn (coreHeap st'.limits) x =
          priceIn (coreHeap (σ.limits ++ [node])) x := q'
      unfold Ordered at hord1
      rw [e1] at hord1
      rw [e2]
      have hmap : ∀ l : List Nat, l.map (priceIn (coreHeap st'.limits)) =
          l.map (priceIn (coreHeap (σ.limits ++ [node]))) :=
        fun l => List.map_congr_left (fun x _ => hq1 x)
      rw [hmap]
      simp only [List.map_append, List.map_cons, List.pairwise_append, List.pairwise_cons,
        List.mem_map, List.mem_cons, forall_exists_index, and_imp,
        forall_apply_eq_imp_iff₂] at hord1 ⊢
      obtain ⟨h1, h2, h3⟩ := hord1
      refine ⟨h1, ⟨?_, h2⟩, ?_⟩
      · intro x hx
        rw [priceIn_of_some hH1la]
        exact hpost x hx
      · intro x hx y hy
        rcases hy with rfl | ⟨z, hz, rfl⟩
        · rw [priceIn_of_some hH1la]
          exact hpre x hx
        · exact h3 x hx z hz
    · intro x hx
      have := hperm.subset hx
      simp only [List.mem_cons] at this
      tauto
    · intro x hx hxla
      rw [o' x (by
        simp only [List.mem_cons, not_or]
        exact ⟨hxla, fun hx' => hx (hperm.symm.subset (List.mem_cons_of_mem _ hx'))⟩)]
      exact hH1 x hxla

/-! ## The invariant under the tree operations of the book -/

theorem inv_ask_remove {fuel : Nat} {σ st' : TreeState} {bidRoot bb : Ptr} {a : Nat}
    {c : Core} {S : Nat → Prop} {tb ta : PTree}
    (hinv : InvWith (coreHeap σ.limits) bidRoot σ.tree.root bb (some a) S tb ta)
    (hc : coreHeap σ.limits a = some c)
    (h : limitPriceTree.removeLimit fuel σ c.price = .ok st') :
    ∃ ta', InvWith (coreHeap st'.limits) bidRoot st'.tree.root bb c.c1 S tb ta' := by
  obtain ⟨ta', i', nd', ord', hsub, hout, hmono, hsame, _⟩ :=
    removeLimit_spec hinv.askTree hinv.askNodup hinv.askOrdered h
  have hbid : ∀ x, S x → coreHeap st'.limits x = coreHeap σ.limits x :=
    fun x hx => hout x (fun hx' => hinv.askOwned x (hsub x hx') hx)
  have hbidp : ∀ x, S x → priceIn (coreHeap st'.limits) x = priceIn (coreHeap σ.limits) x := by
    intro x hx; unfold priceIn; rw [hbid x hx]
  have halloc : ∀ x cx, coreHeap σ.limits x = some cx → ∃ c', coreHeap st'.limits x = some c' := by
    intro x cx hx
    by_cases hxt : x ∈ ta'.addrs
    · exact isTree_mem i' x hxt
    · exact ⟨cx, by rw [hout x hxt]; exact hx⟩
  have hhigher : ∀ a c y, ¬ S a → coreHeap st'.limits a = some c → c.c1 = some y →
      ¬ S y ∧ c.price < priceIn (coreHeap st'.limits) y ∧ ∃ cy, coreHeap st'.limits y = some cy := by
    intro x cx y hxS hcx hy
    by_cases hxt : x ∈ ta'.addrs
    · obtain ⟨h1, h2⟩ := isTree_child1 i' ord' hxt hcx hy
      rw [priceIn_of_some hcx] at h2
      exact ⟨fun hs => hinv.askOwned y (hsub y h1) hs, h2, isTree_mem i' y h1⟩
    · rw [hout x hxt] at hcx
      obtain ⟨h1, h2, cy, h3⟩ := hinv.higherOk x cx y hxS hcx hy
      exact ⟨h1, lt_of_lt_of_le h2 (hmono y), halloc y cy h3⟩
  obtain ⟨haS, _⟩ := hinv.bestAskOk a rfl
  refine ⟨ta', ?_⟩
  refine
    { bidTree := isTree_congr (fun x hx => hbid x (hinv.bidOwned x hx)) hinv.bidTree
      bidNodup := hinv.bidNodup
      bidOrdered := ordered_congr (fun x hx => hbidp x (hinv.bidOwned x hx)) hinv.bidOrdered
      bidOwned := hinv.bidOwned
      askTree := i'
      askNodup := nd'
      askOrdered := ord'
      askOwned := fun x hx => hinv.askOwned x (hsub x hx)
      allocated := fun x hx => by rw [hbid x hx]; exact hinv.allocated x hx
      bestBidOk := ?_
      bestAskOk := ?_
      higherOk := hhigher
      notCrossed := ?_ }
  · intro x hx
    obtain ⟨h1, cx, h2, h3⟩ := hinv.bestBidOk x hx
    exact ⟨h1, cx, by rw [hbid x h1]; exact h2, h3⟩
  · intro y hy
    obtain ⟨h1, _, cy, h3⟩ := hinv.higherOk a c y haS hc hy
    exact ⟨h1, halloc y cy h3⟩
  · intro x y hx hy
    obtain ⟨hxS, _⟩ := hinv.bestBidOk x hx
    obtain ⟨_, h2, _⟩ := hinv.higherOk a c y haS hc hy
    have h4 := hinv.notCrossed x a hx rfl
    rw [priceIn_of_some hc] at h4
    rw [hbidp x hxS]
    exact lt_of_lt_of_le (lt_trans h4 h2) (hmono y)

theorem inv_bid_remove {fuel : Nat} {σ st' : TreeState} {askRoot ba : Ptr} {a : Nat}
    {c : Core} {S : Nat → Prop} {tb ta : PTree}
    (hinv : InvWith (coreHeap σ.limits) σ.tree.root askRoot (some a) ba S tb ta)
    (hc : coreHeap σ.limits a = some c)
    (h : limitPriceTree.removeLimit fuel σ c.price = .ok st') :
    ∃ tb', InvWith (coreHeap st'.limits) st'.tree.root askRoot c.c0 ba S tb' ta := by
  obtain ⟨tb', i', nd', ord', hsub, hout, hmono, hsame, hkeep⟩ :=
    removeLimit_spec hinv.bidTree hinv.bidNodup hinv.bidOrdered h
  have hask : ∀ x, ¬ S x → coreHeap st'.limits x = coreHeap σ.limits x :=
    fun x hx => hout x (fun hx' => hx (hinv.bidOwned x (hsub x hx')))
  have haskp : ∀ x, ¬ S x → priceIn (coreHeap st'.limits) x = priceIn (coreHeap σ.limits) x := by
    intro x hx; unfold priceIn; rw [hask x hx]
  have halloc : ∀ x cx, coreHeap σ.limits x = some cx → ∃ c', coreHeap st'.limits x = some c' := by
    intro x cx hx
    by_cases hxt : x ∈ tb'.addrs
    · exact isTree_mem i' x hxt
    · exact ⟨cx, by rw [hout x hxt]; exact hx⟩
  obtain ⟨haS, ca, hca, hatree⟩ := hinv.bestBidOk a rfl
  rw [hc] at hca
  cases hca
  -- the new best bid, when there is one, is the left child of a tree node
  have hnext : ∀ y, c.c0 = some y →
      y ∈ tb.addrs ∧ y ∈ tb'.addrs ∧
        priceIn (coreHeap st'.limits) y = priceIn (coreHeap σ.limits) y ∧
        priceIn (coreHeap σ.limits) y < c.price := by
    intro y hy
    rcases hatree with hat | hnone
    · obtain ⟨h1, h2⟩ := isTree_child0 hinv.bidTree hinv.bidOrdered hat hc hy
      rw [priceIn_of_some hc] at h2
      exact ⟨h1, hkeep y h1 h2, hsame y (by omega), h2⟩
    · rw [hnone] at hy; cases hy
  refine ⟨tb', ?_⟩
  refine
    { bidTree := i'
      bidNodup := nd'
      bidOrdered := ord'
      bidOwned := fun x hx => hinv.bidOwned x (hsub x hx)
      askTree := isTree_congr (fun x hx => hask x (hinv.askOwned x hx)) hinv.askTree
      askNodup := hinv.askNodup
      askOrdered := ordered_congr (fun x hx => haskp x (hinv.askOwned x hx)) hinv.askOrdered
      askOwned := hinv.askOwned
      allocated := fun x hx => by
        obtain ⟨cx, h1⟩ := hinv.allocated x hx
        exact halloc x cx h1
      bestBidOk := ?_
      bestAskOk := ?_
      higherOk := ?_
      notCrossed := ?_ }
  · intro y hy
    obtain ⟨h1, h2, _, _⟩ := hnext y hy
    obtain ⟨cy, hcy⟩ := isTree_mem i' y h2
    exact ⟨hinv.bidOwned y h1, cy, hcy, Or.inl h2⟩
  · intro x hx
    obtain ⟨h1, cx, h2⟩ := hinv.bestAskOk x hx
    exact ⟨h1, cx, by rw [hask x h1]; exact h2⟩
  · intro x cx y hxS hcx hy
    rw [hask x hxS] at hcx
    obtain ⟨h1, h2, cy, h3⟩ := hinv.higherOk x cx y hxS hcx hy
    exact ⟨h1, by rw [haskp y h1]; exact h2, cy, by rw [hask y h1]; exact h3⟩
  · intro y x hy hx
    obtain ⟨_, _, h3, h4⟩ := hnext y hy
    obtain ⟨hxS, _⟩ := hinv.bestAskOk x hx
    have h5 := hinv.notCrossed a x rfl hx
    rw [priceIn_of_some hc] at h5
    rw [h3, haskp x hxS]
    omega

theorem inv_bid_add {fuel : Nat} {orders orders' : List order} {σ st' : TreeState}
    {askRoot bb ba : Ptr} {S : Nat → Prop} {tb ta : PTree} {price : Nat} {o lim : Ptr}
    (hinv : InvWith (coreHeap σ.limits) σ.tree.root askRoot bb ba S tb ta)
    (h : limitPriceTree.addLimit fuel orders σ price o = .ok (orders', st', lim)) :
    ∃ S' tb', InvWith (coreHeap st'.limits) st'.tree.root askRoot bb ba S' tb' ta ∧
      ((∀ a', ba = some a' → price < priceIn (coreHeap σ.limits) a') →
        InvWith (coreHeap st'.limits) st'.tree.root askRoot lim ba S' tb' ta) := by
  obtain ⟨hlim, tb', i', nd', ord', hsub, hsup, hout, hprice, hpla, cla, hcla, hla⟩ :=
    addLimit_spec hinv.bidTree hinv.bidNodup hinv.bidOrdered h
  subst hlim
  have hfresh : ∀ x cx, coreHeap σ.limits x = some cx → x ≠ σ.limits.length := by
    intro x cx hx e
    rw [e, coreHeap_length] at hx
    cases hx
  have hnS : ¬ S σ.limits.length := by
    intro hs
    obtain ⟨c, hc⟩ := hinv.allocated _ hs
    exact hfresh _ c hc rfl
  have hask : ∀ x, ¬ S x → x ≠ σ.limits.length →
      coreHeap st'.limits x = coreHeap σ.limits x := by
    intro x hx hne
    refine hout x (fun hx' => ?_) hne
    rcases hsup x hx' with h1 | h1
    · exact hx (hinv.bidOwned x h1)
    · exact hne h1
  have halloc : ∀ x cx, coreHeap σ.limits x = some cx →
      ∃ c', coreHeap st'.limits x = some c' := by
    intro x cx hx
    by_cases hxt : x ∈ tb'.addrs
    · exact isTree_mem i' x hxt
    · exact ⟨cx, by rw [hout x hxt (hfresh x cx hx)]; exact hx⟩
  have base : InvWith (coreHeap st'.limits) st'.tree.root askRoot bb ba
      (fun x => S x ∨ x = σ.limits.length) tb' ta := by
    refine
      { bidTree := i'
        bidNodup := nd'
        bidOrdered := ord'
        bidOwned := fun x hx => (hsup x hx).imp (hinv.bidOwned x) id
        askTree := isTree_congr (fun x hx => by
          obtain ⟨cx, hcx⟩ := isTree_mem hinv.askTree x hx
          exact hask x (hinv.askOwned x hx) (hfresh x cx hcx)) hinv.askTree
        askNodup := hinv.askNodup
        askOrdered := ordered_congr (fun x hx => by
          obtain ⟨cx, hcx⟩ := isTree_mem hinv.askTree x hx
          exact hprice x (hfresh x cx hcx)) hinv.askOrdered
        askOwned := fun x hx hs => by
          obtain ⟨cx, hcx⟩ := isTree_mem hinv.askTree x hx
          rcases hs with hs | hs
          · exact hinv.askOwned x hx hs
          · exact hfresh x cx hcx hs
        allocated := fun x hs => by
          rcases hs with hs | hs
          · obtain ⟨cx, hcx⟩ := hinv.allocated x hs
            exact halloc x cx hcx
          · subst hs; exact ⟨cla, hcla⟩
        bestBidOk := ?_
        bestAskOk := ?_
        higherOk := ?_
        notCrossed := ?_ }
    · intro a ha
      obtain ⟨h1, c, h2, h3⟩ := hinv.bestBidOk a ha
      by_cases hat : a ∈ tb'.addrs
      · obtain ⟨c', hc'⟩ := isTree_mem i' a hat
        exact ⟨Or.inl h1, c', hc', Or.inl hat⟩
      · refine ⟨Or.inl h1, c, by rw [hout a hat (hfresh a c h2)]; exact h2, ?_⟩
        rcases h3 with h3 | h3
        · exact absurd (hsub a h3) hat
        · exact Or.inr h3
    · intro a ha
      obtain ⟨h1, c, h2⟩ := hinv.bestAskOk a ha
      refine ⟨fun hs => ?_, c, by rw [hask a h1 (hfresh a c h2)]; exact h2⟩
      rcases hs with hs | hs
      · exact h1 hs
      · exact hfresh a c h2 hs
    · intro x cx y hxS hcx hy
      have hxS' : ¬ S x := fun hs => hxS (Or.inl hs)
      have hxne : x ≠ σ.limits.length := fun e => hxS (Or.inr e)
      rw [hask x hxS' hxne] at hcx
      obtain ⟨h1, h2, cy, h3⟩ := hinv.higherOk x cx y hxS' hcx hy
      have hyne := hfresh y cy h3
      refine ⟨fun hs => ?_, by rw [hprice y hyne]; exact h2, cy,
        by rw [hask y h1 hyne]; exact h3⟩
      rcases hs with hs | hs
      · exact h1 hs
      · exact hyne hs
    · intro a a' ha ha'
      obtain ⟨_, c, h2, _⟩ := hinv.bestBidOk a ha
      obtain ⟨_, c', h2'⟩ := hinv.bestAskOk a' ha'
      rw [hprice a (hfresh a c h2), hprice a' (hfresh a' c' h2')]
      exact hinv.notCrossed a a' ha ha'
  refine ⟨_, tb', base, fun hexit => ?_⟩
  refine { base with bestBidOk := ?_, notCrossed := ?_ }
  · intro a ha
    cases ha
    refine ⟨Or.inr rfl, cla, hcla, ?_⟩
    rcases hla with h1 | h1
    · exact Or.inl h1
    · exact Or.inr h1.1
  · intro a a' ha ha'
    cases ha
    obtain ⟨_, c', h2'⟩ := hinv.bestAskOk a' ha'
    rw [hpla, hprice a' (hfresh a' c' h2')]
    exact hexit a' ha'

theorem inv_ask_add {fuel : Nat} {orders orders' : List order} {σ st' : TreeState}
    {bidRoot bb ba : Ptr} {S : Nat → Prop} {tb ta : PTree} {price : Nat} {o lim : Ptr}
    (hinv : InvWith (coreHeap σ.limits) bidRoot σ.tree.root bb ba S tb ta)
    (h : limitPriceTree.addLimit fuel orders σ price o = .ok (orders', st', lim)) :
    ∃ ta', InvWith (coreHeap st'.limits) bidRoot st'.tree.root bb ba S tb ta' ∧
      ((∀ a, bb = some a → priceIn (coreHeap σ.limits) a < price) →
        InvWith (coreHeap st'.limits) bidRoot st'.tree.root bb lim S tb ta') := by
  obtain ⟨hlim, ta', i', nd', ord', hsub, hsup, hout, hprice, hpla, cla, hcla, hla⟩ :=
    addLimit_spec hinv.askTree hinv.askNodup hinv.askOrdered h
  subst hlim
  have hfresh : ∀ x cx, coreHeap σ.limits x = some cx → x ≠ σ.limits.length := by
    intro x cx hx e
    rw [e, coreHeap_length] at hx
    cases hx
  have hnS : ¬ S σ.limits.length := by
    intro hs
    obtain ⟨c, hc⟩ := hinv.allocated _ hs
    exact hfresh _ c hc rfl
  have hbid : ∀ x, S x → coreHeap st'.limits x = coreHeap σ.limits x := by
    intro x hx
    obtain ⟨cx, hcx⟩ := hinv.allocated x hx
    refine hout x (fun hx' => ?_) (hfresh x cx hcx)
    rcases hsup x hx' with h1 | h1
    · exact hinv.askOwned x h1 hx
    · exact hfresh x cx hcx h1
  have halloc : ∀ x cx, coreHeap σ.limits x = some cx →
      ∃ c', coreHeap st'.limits x = some c' := by
    intro x cx hx
    by_cases hxt : x ∈ ta'.addrs
    · exact isTree_mem i' x hxt
    · exact ⟨cx, by rw [hout x hxt (hfresh x cx hx)]; exact hx⟩
  have hownedNew : ∀ x ∈ ta'.addrs, ¬ S x := by
    intro x hx
    rcases hsup x hx with h1 | h1
    · exact hinv.askOwned x h1
    · rw [h1]; exact hnS
  have base : InvWith (coreHeap st'.limits) bidRoot st'.tree.root bb ba S tb ta' := by
    refine
      { bidTree := isTree_congr (fun x hx => hbid x (hinv.bidOwned x hx)) hinv.bidTree
        bidNodup := hinv.bidNodup
        bidOrdered := ordered_congr (fun x hx => by
          obtain ⟨cx, hcx⟩ := isTree_mem hinv.bidTree x hx
          exact hprice x (hfresh x cx hcx)) hinv.bidOrdered
        bidOwned := hinv.bidOwned
        askTree := i'
        askNodup := nd'
        askOrdered := ord'
        askOwned := hownedNew
        allocated := fun x hs => by rw [hbid x hs]; exact hinv.allocated x hs
        bestBidOk := ?_
        bestAskOk := ?_
        higherOk := ?_
        notCrossed := ?_ }
    · intro a ha
      obtain ⟨h1, c, h2, h3⟩ := hinv.bestBidOk a ha
      exact ⟨h1, c, by rw [hbid a h1]; exact h2, h3⟩
    · intro a ha
      obtain ⟨h1, c, h2⟩ := hinv.bestAskOk a ha
      exact ⟨h1, halloc a c h2⟩
    · intro x cx y hxS hcx hy
      by_cases hxt : x ∈ ta'.addrs
      · obtain ⟨h1, h2⟩ := isTree_child1 i' ord' hxt hcx hy
        rw [priceIn_of_some hcx] at h2
        exact ⟨hownedNew y h1, h2, isTree_mem i' y h1⟩
      · by_cases hxla : x = σ.limits.length
        · subst hxla
          rw [hcla] at hcx
          cases hcx
          rcases hla with h1 | h1
          · exact absurd h1 hxt
          · rw [h1.2] at hy; cases hy
        · rw [hout x hxt hxla] at hcx
          obtain ⟨h1, h2, cy, h3⟩ := hinv.higherOk x cx y hxS hcx hy
          exact ⟨h1, by rw [hprice y (hfresh y cy h3)]; exact h2, halloc y cy h3⟩
    · intro a a' ha ha'
      obtain ⟨_, c, h2, _⟩ := hinv.bestBidOk a ha
      obtain ⟨_, c', h2'⟩ := hinv.bestAskOk a' ha'
      rw [hprice a (hfresh a c h2), hprice a' (hfresh a' c' h2')]
      exact hinv.notCrossed a a' ha ha'
  refine ⟨ta', base, fun hexit => ?_⟩
  refine { base with bestAskOk := ?_, notCrossed := ?_ }
  · intro a ha
    cases ha
    exact ⟨hnS, cla, hcla⟩
  · intro a a' ha ha'
    cases ha'
    obtain ⟨_, c, h2, _⟩ := hinv.bestBidOk a ha
    rw [hpla, hprice a (hfresh a c h2)]
    exact hexit a ha

/-! ## The invariant along `Submit` and `Cancel` -/

theorem higher_core (l : limitPrice) : l.higher = l.core.c1 := rfl

theorem lower_core (l : limitPrice) : l.lower = l.core.c0 := rfl

theorem mapDelete_nil {κ : Type} [DecidableEq κ] (k : κ) :
    mapDelete ([] : List (κ × Nat)) k = [] := rfl

theorem bookInv_init : BookInv Init := by
  refine ⟨⟨fun _ => False, .leaf, .leaf, ?_⟩, rfl, rfl⟩
  refine
    { bidTree := rfl
      bidNodup := List.nodup_nil
      bidOrdered := List.Pairwise.nil
      bidOwned := fun x hx => by simp [PTree.addrs] at hx
      askTree := rfl
      askNodup := List.nodup_nil
      askOrdered := List.Pairwise.nil
      askOwned := fun x hx => by simp [PTree.addrs] at hx
      allocated := fun x hx => hx.elim
      bestBidOk := fun a ha => by simp [Init] at ha
      bestAskOk := fun a ha => by simp [Init] at ha
      higherOk := fun a c y _ hc => by simp [coreHeap, Init] at hc
      notCrossed := fun a a' ha => by simp [Init] at ha }

theorem matchBidLoop_bookInv {p fuel : Nat} {ms ms' : MatchState}
    (h : matchBidLoop p fuel ms = .ok ms') (hinv : BookInv ms.book) : BookInv ms'.book := by
  refine matchBidLoop_inv p (fun s => BookInv s.book) ?_ ?_ ?_ fuel ms ms' h hinv
  · intro ms1 n ba best σ ba' best' hP _ hbest _ _ hrm _
    obtain ⟨⟨S, tb, ta, hI⟩, hb, ha⟩ := hP
    obtain ⟨hbp, _, hbc⟩ := deref_core hbest
    rw [hbp] at hI
    obtain ⟨ta', hI'⟩ := inv_ask_remove
      (σ := { limits := ms1.book.limitHeap, tree := ms1.book.askTree }) hI hbc hrm
    exact ⟨⟨S, tb, ta', hI'⟩, hb, by simp only [ha]; rfl⟩
  · intro ms1 ba best pa pm orders list pa' pm' hP _ hbest _ _ _ _ _
    obtain ⟨⟨S, tb, ta, hI⟩, hb, ha⟩ := hP
    refine ⟨⟨S, tb, ta, ?_⟩, hb, ha⟩
    simp only
    rw [coreHeap_store_same (y := { best with orders := list }) (deref_core hbest).2.1 rfl]
    exact hI
  · intro ms1 ba best pa pm hP _ _ _ _ _
    exact hP

theorem matchAskLoop_bookInv {p fuel : Nat} {ms ms' : MatchState}
    (h : matchAskLoop p fuel ms = .ok ms') (hinv : BookInv ms.book) : BookInv ms'.book := by
  refine matchAskLoop_inv p (fun s => BookInv s.book) ?_ ?_ ?_ fuel ms ms' h hinv
  · intro ms1 n ba best σ ba' best' hP _ hbest _ _ hrm _
    obtain ⟨⟨S, tb, ta, hI⟩, hb, ha⟩ := hP
    obtain ⟨hbp, _, hbc⟩ := deref_core hbest
    rw [hbp] at hI
    obtain ⟨tb', hI'⟩ := inv_bid_remove
      (σ := { limits := ms1.book.limitHeap, tree := ms1.book.bidTree }) hI hbc hrm
    exact ⟨⟨S, tb', ta, hI'⟩, by simp only [hb]; rfl, ha⟩
  · intro ms1 ba best pa pm orders list pa' pm' hP _ hbest _ _ _ _ _
    obtain ⟨⟨S, tb, ta, hI⟩, hb, ha⟩ := hP
    refine ⟨⟨S, tb, ta, ?_⟩, hb, ha⟩
    simp only
    rw [coreHeap_store_same (y := { best with orders := list }) (deref_core hbest).2.1 rfl]
    exact hI
  · intro ms1 ba best pa pm hP _ _ _ _ _
    exact hP

theorem matchBidLoop_exit (p : Nat) : ∀ (fuel : Nat) (ms ms' : MatchState),
    matchBidLoop p fuel ms = .ok ms' → ExitBid p ms' := by
  intro fuel
  induction fuel with
  | zero => intro ms ms' h; simp [matchBidLoop] at h
  | succ n ih =>
    intro ms ms' h
    unfold matchBidLoop at h
    simp only [bind, Except.bind] at h
    split at h
    · rename_i hrem; cases h; exact Or.inl hrem
    · split at h
      · rename_i hnone; cases h; exact Or.inr (Or.inl hnone)
      · split at h
        · cases h
        · rename_i _ _ _ v hbest
          obtain ⟨ba, best⟩ := v
          simp only at h
          split at h
          · rename_i hlt; cases h; exact Or.inr (Or.inr ⟨ba, best, hbest, hlt⟩)
          · split at h
            · split at h
              · cases h
              · split at h
                · cases h
                · exact ih _ _ h
            · split at h
              · cases h
              · rename_i _ v hpm
                obtain ⟨pa, pm⟩ := v
                simp only at h
                split at h
                · split at h
                  · cases h
                  · split at h
                    · cases h
                    · exact ih _ _ h
                · exact ih _ _ h

theorem matchAskLoop_exit (p : Nat) : ∀ (fuel : Nat) (ms ms' : MatchState),
    matchAskLoop p fuel ms = .ok ms' → ExitAsk p ms' := by
  intro fuel
  induction fuel with
  | zero => intro ms ms' h; simp [matchAskLoop] at h
  | succ n ih =>
    intro ms ms' h
    unfold matchAskLoop at h
    simp only [bind, Except.bind] at h
    split at h
    · rename_i hrem; cases h; exact Or.inl hrem
    · split at h
      · rename_i hnone; cases h; exact Or.inr (Or.inl hnone)
      · split at h
        · cases h
        · rename_i _ _ _ v hbest
          obtain ⟨ba, best⟩ := v
          simp only at h
          split at h
          · rename_i hlt; cases h; exact Or.inr (Or.inr ⟨ba, best, hbest, hlt⟩)
          · split at h
            · split at h
              · cases h
              · split at h
                · cases h
                · exact ih _ _ h
            · split at h
              · cases h
              · rename_i _ v hpm
                obtain ⟨pa, pm⟩ := v
                simp only at h
                split at h
                · split at h
                  · cases h
                  · split at h
                    · cases h
                    · exact ih _ _ h
                · exact ih _ _ h

theorem matchBid_bookInv {fuel : Nat} {b b1 : Book} {p s m : Nat} {ex : List Execution}
    (h : b.matchBid fuel p s = .ok (b1, m, ex)) (hinv : BookInv b) :
    BookInv b1 ∧
    (m ≠ s → ∀ a', b1.bestAsk = some a' → p < priceIn (coreHeap b1.limitHeap) a') := by
  unfold Book.matchBid at h
  obtain ⟨ms, hms, h⟩ := bind_ok h
  cases h
  refine ⟨matchBidLoop_bookInv hms hinv, ?_⟩
  intro hne a' ha'
  rcases matchBidLoop_exit p fuel _ _ hms with h0 | hnone | ⟨ba, best, hbest, hlt⟩
  · rw [h0] at hne; exact absurd rfl hne
  · rw [hnone] at ha'; cases ha'
  · obtain ⟨hp, _, hc⟩ := deref_core hbest
    rw [ha'] at hp
    cases hp
    rw [priceIn_of_some hc]
    exact hlt

theorem matchAsk_bookInv {fuel : Nat} {b b1 : Book} {p s m : Nat} {ex : List Execution}
    (h : b.matchAsk fuel p s = .ok (b1, m, ex)) (hinv : BookInv b) :
    BookInv b1 ∧
    (m ≠ s → ∀ a, b1.bestBid = some a → priceIn (coreHeap b1.limitHeap) a < p) := by
  unfold Book.matchAsk at h
  obtain ⟨ms, hms, h⟩ := bind_ok h
  cases h
  refine ⟨matchAskLoop_bookInv hms hinv, ?_⟩
  intro hne a ha
  rcases matchAskLoop_exit p fuel _ _ hms with h0 | hnone | ⟨ba, best, hbest, hlt⟩
  · rw [h0] at hne; exact absurd rfl hne
  · rw [hnone] at ha; cases ha
  · obtain ⟨hp, _, hc⟩ := deref_core hbest
    rw [ha] at hp
    cases hp
    rw [priceIn_of_some hc]
    exact hlt

theorem rest_bookInv {fuel : Nat} {b b2 : Book} {id : OrderID} {side : Side}
    {price size m : Nat} (hinv : BookInv b)
    (hbid : side = Bid → ∀ a', b.bestAsk = some a' →
      price < priceIn (coreHeap b.limitHeap) a')
    (hask : ¬ side = Bid → ∀ a, b.bestBid = some a →
      priceIn (coreHeap b.limitHeap) a < price)
    (h : b.rest fuel id side price size m = .ok b2) : BookInv b2 := by
  obtain ⟨⟨S, tb, ta, hI⟩, hb, ha⟩ := hinv
  unfold Book.rest at h
  simp only at h
  split at h
  · rename_i hside
    obtain ⟨⟨b1, lim⟩, h1, h⟩ := bind_ok h
    simp only [hb, mapGet] at h1
    obtain ⟨⟨os, σ, l⟩, hadd, h1⟩ := bind_ok h1
    cases h1
    obtain ⟨S', tb', hI1, hI2⟩ := inv_bid_add
      (σ := { limits := b.limitHeap, tree := b.bidTree }) hI hadd
    simp only at h
    split at h
    · cases h
      exact ⟨⟨S', tb', ta, hI2 (hbid hside)⟩, rfl, ha⟩
    · obtain ⟨⟨ba, best⟩, _, h⟩ := bind_ok h
      simp only at h
      split at h
      · cases h
        exact ⟨⟨S', tb', ta, hI2 (hbid hside)⟩, rfl, ha⟩
      · cases h
        exact ⟨⟨S', tb', ta, hI1⟩, rfl, ha⟩
  · rename_i hside
    obtain ⟨⟨b1, lim⟩, h1, h⟩ := bind_ok h
    simp only [ha, mapGet] at h1
    obtain ⟨⟨os, σ, l⟩, hadd, h1⟩ := bind_ok h1
    cases h1
    obtain ⟨ta', hI1, hI2⟩ := inv_ask_add
      (σ := { limits := b.limitHeap, tree := b.askTree }) hI hadd
    simp only at h
    split at h
    · cases h
      exact ⟨⟨S, tb, ta', hI2 (hask hside)⟩, hb, rfl⟩
    · obtain ⟨⟨ba, best⟩, _, h⟩ := bind_ok h
      simp only at h
      split at h
      · cases h
        exact ⟨⟨S, tb, ta', hI2 (hask hside)⟩, hb, rfl⟩
      · cases h
        exact ⟨⟨S, tb, ta', hI1⟩, hb, rfl⟩

theorem Submit_bookInv {fuel : Nat} {b : Book} {id : OrderID} {side : Side}
    {price size : Nat} {r : SubmitResult} (hinv : BookInv b)
    (hr : b.Submit fuel id side price size = .ok r) : BookInv r.book := by
  by_cases h : price = 0 ∨ size = 0
  · rw [Submit_invalid fuel b id side price size h] at hr
    cases hr; exact hinv
  · obtain ⟨b1, m, ex, b2, hm, hrest, rfl⟩ := Submit_ok_inv h hr
    simp only
    by_cases hside : side = Bid
    · rw [if_pos hside] at hm
      obtain ⟨hinv1, hexit⟩ := matchBid_bookInv hm hinv
      split at hrest
      · rename_i hne
        exact rest_bookInv hinv1 (fun _ => hexit hne) (fun hn => absurd hside hn) hrest
      · cases hrest; exact hinv1
    · rw [if_neg hside] at hm
      obtain ⟨hinv1, hexit⟩ := matchAsk_bookInv hm hinv
      split at hrest
      · rename_i hne
        exact rest_bookInv hinv1 (fun hs => absurd hs hside) (fun _ => hexit hne) hrest
      · cases hrest; exact hinv1

/-- With both price maps empty `Cancel` changes nothing. -/
theorem Cancel_noop {fuel : Nat} {b : Book} {id : OrderID} {r : CancelResult}
    (hb : b.bidMap = []) (ha : b.askMap = []) (hr : b.Cancel fuel id = .ok r) :
    r.book = b := by
  unfold Book.Cancel at hr
  split at hr
  · cases hr; rfl
  · obtain ⟨⟨oa, o⟩, ho, hr⟩ := bind_ok hr
    simp only [hb, ha, mapGet, ite_self] at hr
    cases hr; rfl

theorem reachable_bookInv {b : Book} (h : Reachable b) : BookInv b := by
  induction h with
  | init => exact bookInv_init
  | submit fuel id side price size _ _ hr ih => exact Submit_bookInv ih hr
  | cancel fuel id _ hr ih =>
    rw [Cancel_noop ih.2.1 ih.2.2 hr]; exact ih

theorem bookCrossed_reachable : Reachable bookCrossed :=
  Reachable.submit 5 10000003 Bid 100 1 bookTwoAsks_reachable (by decide)
    (by rfl : bookTwoAsks.Submit 5 10000003 Bid 100 1 =
      .ok { book := bookCrossed, id := 10000003, executions := [], err := false })

/-- C4: on every book reached from `Init` by `Submit` and `Cancel` calls, if
both best pointers are present (`bestBid` and `bestAsk` are not `nil`), then
both point to limits of the book, `Top` returns their two prices, and the best
bid price is strictly below the best ask price. -/
theorem Top_not_crossed (b : Book) (ba aa : Nat) (hb : Reachable b)
    (hbid : b.bestBid = some ba) (hask : b.bestAsk = some aa) :
    ∃ lb la, b.limitHeap[ba]? = some lb ∧ b.limitHeap[aa]? = some la ∧
      b.Top = .ok (lb.price, la.price) ∧ lb.price < la.price := by
  obtain ⟨⟨S, tb, ta, hI⟩, _, _⟩ := reachable_bookInv hb
  obtain ⟨_, cb, hcb, _⟩ := hI.bestBidOk ba hbid
  obtain ⟨_, ca, hca⟩ := hI.bestAskOk aa hask
  have hlt := hI.notCrossed ba aa hbid hask
  rw [priceIn_of_some hcb, priceIn_of_some hca] at hlt
  unfold coreHeap at hcb hca
  obtain ⟨lb, hlb, rfl⟩ := Option.map_eq_some'.mp hcb
  obtain ⟨la, hla, rfl⟩ := Option.map_eq_some'.mp hca
  refine ⟨lb, la, hlb, hla, ?_, hlt⟩
  simp only [Book.Top, deref, hbid, hask, hlb, hla]
  rfl

/-- C4 on the book left by `Submit(Sell, 100, 1)`, `Submit(Sell, 101, 1)` and
`Submit(Buy, 100, 1)`: the best bid is the limit at address 2 (price 100), the
best ask the limit at address 1 (price 101). -/
theorem Top_not_crossed_witness :
    Reachable bookCrossed ∧ bookCrossed.bestBid = some 2 ∧ bookCrossed.bestAsk = some 1 ∧
    ∃ lb la, bookCrossed.limitHeap[2]? = some lb ∧ bookCrossed.limitHeap[1]? = some la ∧
      bookCrossed.Top = .ok (lb.price, la.price) ∧ lb.price < la.price :=
  ⟨bookCrossed_reachable, rfl, rfl,
    Top_not_crossed bookCrossed 2 1 bookCrossed_reachable rfl rfl⟩

/-! ## `Submit`, `Cancel` and `Top` on the scenarios -/

/-- C11 fails on the code: `Submit(Sell, 100, 10)` on the empty book matches
nothing and rests its whole size; the registry maps the returned id 10000001 to
the order at address 0, which has the submitted price 100 and the size 10, but
whose `side` is `Bid` and not the submitted `Ask`: `Submit` builds the resting
order without its `side`. -/
theorem resting_sell_has_side_bid :
    Init.Submit 5 10000001 Ask 100 10 =
      .ok { book := bookA, id := 10000001, executions := [], err := false } ∧
    mapGet bookA.orderMap 10000001 = some 0 ∧
    bookA.orderHeap[0]? = some ⟨10000001, Bid, 100, 10, none, none⟩ ∧
    Bid ≠ Ask :=
  ⟨by rfl, by decide, by decide, by decide⟩

theorem mapGet_eq_none {κ : Type} [DecidableEq κ] {m : List (κ × Nat)} {k : κ}
    (h : k ∉ m.map Prod.fst) : mapGet m k = none := by
  induction m with
  | nil => rfl
  | cons e rest ih =>
    obtain ⟨k', v⟩ := e
    simp only [List.map_cons, List.mem_cons, not_or] at h
    unfold mapGet
    rw [if_neg (fun e => h.1 e.symm)]
    exact ih h.2

/-- C12: for every book and every order id that is not a key of the registry,
`Cancel(id)` returns `found = false` together with an error, and the book it
leaves is the book it was given. -/
theorem Cancel_unknown_id (fuel : Nat) (b : Book) (id : OrderID)
    (h : id ∉ b.orderMap.map Prod.fst) :
    b.Cancel fuel id = .ok { book := b, found := false, err := true } := by
  unfold Book.Cancel
  rw [mapGet_eq_none h]

/-- C12 on Scenario D: `Cancel(999999)` on the book of Scenario A, where the
only id issued is 10000001. -/
theorem Cancel_unknown_id_witness :
    (999999 : OrderID) ∉ bookA.orderMap.map Prod.fst ∧
    bookA.Cancel 5 999999 = .ok { book := bookA, found := false, err := true } :=
  ⟨by decide, Cancel_unknown_id 5 bookA 999999 (by decide)⟩

theorem bookE_run :
    runSubmits 5 Init [⟨10000001, Bid, 100, 1⟩, ⟨10000002, Bid, 99, 1⟩] = .ok bookE := by
  rfl

theorem bookE_reachable : Reachable bookE :=
  runSubmits_reachable Reachable.init (by decide) bookE_run

/-- On a book reached from `Init`, a `Cancel` that returns has found nothing,
reports an error and leaves the book as it was. -/
theorem Cancel_reachable {fuel : Nat} {b : Book} {id : OrderID} {r : CancelResult}
    (hb : Reachable b) (hr : b.Cancel fuel id = .ok r) :
    r = { book := b, found := false, err := true } := by
  obtain ⟨_, hbm, ham⟩ := reachable_bookInv hb
  unfold Book.Cancel at hr
  split at hr
  · cases hr; rfl
  · obtain ⟨⟨oa, o⟩, ho, hr⟩ := bind_ok hr
    simp only [hbm, ham, mapGet, ite_self] at hr
    cases hr; rfl

/-- C13 fails on the code (Scenario E): with bids resting at 100 (id 10000001,
the best bid) and 99, `Cancel(10000001)` returns `found = false` with an error
and changes nothing: the order is still in the registry and in the queue of the
limit at 100, that limit is still in the bid tree and is still the best bid. -/
theorem cancel_resting_order_not_found :
    Reachable bookE ∧
    mapGet bookE.orderMap 10000001 = some 0 ∧
    bookE.orderHeap[0]? = some ⟨10000001, Bid, 100, 1, none, none⟩ ∧
    bookE.Cancel 5 10000001 = .ok { book := bookE, found := false, err := true } ∧
    treePrices bookE.limitHeap 5 bookE.bidTree.root = [99, 100] ∧
    bookE.bestBid = some 0 ∧ queueOf bookE 5 0 = [0] :=
  ⟨bookE_reachable, by decide, by decide, by rfl, by decide, rfl, by decide⟩

/-- C14 fails on the code: on the freshly initialised book, and on the book of
Scenario A (one resting sell at 100, no bid), `Top` dereferences the `nil`
pointer `bestBid` and panics instead of reporting an absent bid. -/
theorem Top_faults_on_empty_side :
    Reachable Init ∧ Init.Top = .error .nilDeref ∧
    Reachable bookA ∧ bookA.bestBid = none ∧ bookA.Top = .error .nilDeref :=
  ⟨Reachable.init, rfl, bookA_reachable, rfl, rfl⟩

/-! ## The trees and the queue of the scenarios -/

theorem runTreeCalls_built {fuel : Nat} : ∀ {calls : List TreeCall} {orders orders' : List order}
    {st st' : TreeState}, TreeBuilt st →
    runTreeCalls fuel orders st calls = .ok (orders', st') → TreeBuilt st' := by
  intro calls
  induction calls with
  | nil =>
    intro orders orders' st st' hb h
    simp only [runTreeCalls] at h
    cases h; exact hb
  | cons c rest ih =>
    intro orders orders' st st' hb h
    cases c with
    | add price o =>
      simp only [runTreeCalls] at h
      obtain ⟨⟨os, st1, lim⟩, hadd, h⟩ := bind_ok h
      exact ih (TreeBuilt.add fuel price o hb hadd) h
    | remove price =>
      simp only [runTreeCalls] at h
      obtain ⟨st1, hrem, h⟩ := bind_ok h
      exact ih (TreeBuilt.remove fuel price hb hrem) h

theorem treeAB_run :
    runTreeCalls 5 ordersAB emptyTree [.add 100 (some 0), .add 101 (some 1)] =
      .ok (ordersAB, treeAB) := by
  rfl

theorem treeAB_built : TreeBuilt treeAB :=
  runTreeCalls_built TreeBuilt.empty treeAB_run

theorem treeFour_run :
    runTreeCalls 5 ordersFour emptyTree
      [.add 100 (some 0), .add 50 (some 1), .add 150 (some 2), .add 120 (some 3)] =
      .ok (ordersFour, treeFour) := by
  rfl

theorem treeFour_built : TreeBuilt treeFour :=
  runTreeCalls_built TreeBuilt.empty treeFour_run

/-- C16 fails on the code: `higher` and `lower` return the right and the left
child.  In the tree built by `addLimit` at 100, 50, 150 and 120 (prices in
order: 50, 100, 120, 150) `higher` of the limit at 100 is the limit at 150,
although 120 lies between them, and `lower` of the limit at 120 is `nil`,
although 100 and 50 are lower prices of the tree. -/
theorem higher_lower_are_children :
    TreeBuilt treeFour ∧
    treePrices treeFour.limits 5 treeFour.tree.root = [50, 100, 120, 150] ∧
    treeNodes treeFour.limits 5 treeFour.tree.root = [1, 0, 3, 2] ∧
    (∃ n, treeFour.limits[0]? = some n ∧ n.price = 100 ∧ n.higher = some 2) ∧
    (∃ n, treeFour.limits[2]? = some n ∧ n.price = 150) ∧
    (∃ n, treeFour.limits[3]? = some n ∧ n.price = 120 ∧ n.lower = none) :=
  ⟨treeFour_built, by decide, by decide, ⟨_, rfl, rfl, rfl⟩, ⟨_, rfl, rfl⟩, ⟨_, rfl, rfl, rfl⟩⟩

/-- C17 fails on the code: in the tree with the prices 100 (queue of the order
`A`, address 0) and 101 (queue of the order `B`, address 1), `removeLimit(100)`
finds a right subtree under the limit at 100; `removeMin` copies the key 101
into that limit but not the queue, so the one level left has the price 101
with the queue of `A`, the queue of the removed price. -/
theorem removeLimit_keeps_queue_of_removed_price :
    TreeBuilt treeAB ∧
    treeLevels treeAB.limits 5 treeAB.tree.root =
      [(100, ⟨some 0, some 0, 1⟩), (101, ⟨some 1, some 1, 1⟩)] ∧
    limitPriceTree.removeLimit 5 treeAB 100 = .ok treeABremoved ∧
    treeLevels treeABremoved.limits 5 treeABremoved.tree.root =
      [(101, ⟨some 0, some 0, 1⟩)] :=
  ⟨treeAB_built, by decide, by rfl, by decide⟩

/-- C20 fails on the code: `add` never sets `prev`, so `removeID` cannot relink
the predecessor.  After `add` of three fresh orders with the ids 1, 2, 3 to an
empty list, `removeID(2)` leaves every `next` as it was: the orders reached
from `first` are still all three, the one with the id 2 among them, while
`Size()` is 2; and `removeID(3)` sets `last` to `nil` while the orders reached
from `first` are still all three. -/
theorem removeID_leaves_order_linked :
    addAll ordersABC ⟨none, none, 0⟩ [some 0, some 1, some 2] =
      .ok (ordersLinked, ⟨some 0, some 2, 3⟩) ∧
    chain ordersLinked 5 (some 0) = [0, 1, 2] ∧
    orderList.removeID 5 ordersLinked ⟨some 0, some 2, 3⟩ 2 =
      .ok (ordersLinked, ⟨some 0, some 2, 2⟩) ∧
    orderList.Size ⟨some 0, some 2, 2⟩ = 2 ∧
    orderList.removeID 5 ordersLinked ⟨some 0, some 2, 3⟩ 3 =
      .ok (ordersLinked, ⟨some 0, none, 2⟩) :=
  ⟨by rfl, by decide, by rfl, by decide, by rfl⟩

/-! ## The balance indicators in the heap -/

theorem bIn_store {limits : List limitPrice} {a : Nat} {n y : limitPrice}
    (h : limits[a]? = some n) :
    bIn (store limits a y) = Function.update (bIn limits) a y.b := by
  funext x
  obtain ⟨hlt, _⟩ := List.getElem?_eq_some_iff.mp h
  unfold bIn store
  rw [List.getElem?_set]
  by_cases hx : a = x
  · subst hx; simp [hlt]
  · simp [hx, Function.update, Ne.symm hx]

theorem bIn_store_same {limits : List limitPrice} {a : Nat} {n y : limitPrice}
    (h : limits[a]? = some n) (hb : y.b = n.b) :
    bIn (store limits a y) = bIn limits := by
  rw [bIn_store h]
  funext x
  by_cases hx : x = a
  · subst hx; simp [bIn, h, hb]
  · simp [Function.update, hx]

theorem bIn_of_getElem {limits : List limitPrice} {a : Nat} {n : limitPrice}
    (h : limits[a]? = some n) : bIn limits a = n.b := by
  simp [bIn, h]

theorem setChildren_b (n : limitPrice) (a : Nat) (p : Ptr) : (n.setChildren a p).b = n.b := by
  unfold limitPrice.setChildren; split <;> rfl

theorem store_parent_bIn {limits : List limitPrice} {p : Ptr} {a : Nat} {n : limitPrice}
    {q : Ptr} (h : deref limits p = .ok (a, n)) :
    bIn (store limits a { n with parent := q }) = bIn limits :=
  bIn_store_same (deref_core h).2.1 rfl

theorem store_children_bIn {limits : List limitPrice} {p : Ptr} {a k : Nat} {n : limitPrice}
    {q : Ptr} (h : deref limits p = .ok (a, n)) :
    bIn (store limits a (n.setChildren k q)) = bIn limits :=
  bIn_store_same (deref_core h).2.1 (setChildren_b _ _ _)

theorem store_price_bIn {limits : List limitPrice} {p : Ptr} {a : Nat} {n : limitPrice}
    {v : Nat} (h : deref limits p = .ok (a, n)) :
    bIn (store limits a { n with price := v }) = bIn limits :=
  bIn_store_same (deref_core h).2.1 rfl

theorem store_b_bIn {limits : List limitPrice} {p : Ptr} {a : Nat} {n : limitPrice}
    {v : Int} (h : deref limits p = .ok (a, n)) :
    bIn (store limits a { n with b := v }) = Function.update (bIn limits) a v :=
  bIn_store (deref_core h).2.1

/-- A rotation changes no balance indicator. -/
theorem rotate_bIn {limits limits' : List limitPrice} {c : Int} {s r' : Ptr}
    (h : rotate limits c s = .ok (limits', r')) : bIn limits' = bIn limits := by
  unfold rotate at h
  simp only at h
  obtain ⟨⟨sa, sn⟩, hs, h⟩ := bind_ok h
  obtain ⟨⟨ra, rn⟩, hr, h⟩ := bind_ok h
  simp only at h
  obtain ⟨⟨sa1, sn1⟩, hs1, h⟩ := bind_ok h
  obtain ⟨limits2, h2, h⟩ := bind_ok h
  obtain ⟨⟨ra2, rn2⟩, hr2, h⟩ := bind_ok h
  simp only at h
  obtain ⟨⟨sa3, sn3⟩, hs3, h⟩ := bind_ok h
  obtain ⟨⟨ra3, rn3⟩, hr3, h⟩ := bind_ok h
  simp only at h
  obtain ⟨⟨sa4, sn4⟩, hs4, h⟩ := bind_ok h
  simp only at h
  have hlim : limits' = store (store (store limits2 ra2 (rn2.setChildren (dirIndex c ^^^ 1) s))
      ra3 { rn3 with parent := sn3.parent }) sa4 { sn4 with parent := sn.children (dirIndex c) } := by
    cases h; rfl
  have e1 := store_children_bIn (k := dirIndex c) (q := rn.children (dirIndex c ^^^ 1)) hs
  have e2 : bIn limits2 = bIn (store limits sa (sn.setChildren (dirIndex c)
      (rn.children (dirIndex c ^^^ 1)))) := by
    simp only at h2
    split at h2
    · obtain ⟨⟨ca, cn⟩, hc, h2⟩ := bind_ok h2
      cases h2
      exact store_parent_bIn hc
    · cases h2; rfl
  have e3 := store_children_bIn (k := dirIndex c ^^^ 1) (q := s) hr2
  have e4 := store_parent_bIn (q := sn3.parent) hr3
  have e5 := store_parent_bIn (q := sn.children (dirIndex c)) hs4
  rw [hlim, e5, e4, e3, e2, e1]

/-! ## Balance of a tree whose indicators did not change -/

theorem balanced_congr {B B' : Nat → Int} : ∀ {t : PTree},
    (∀ x ∈ t.addrs, B' x = B x) → Balanced B t → Balanced B' t := by
  intro t
  induction t with
  | leaf => intro _ _; trivial
  | node l a r ihl ihr =>
    intro hx h
    obtain ⟨hl, hr, h1, h2, h3, h4, h5⟩ := h
    have ha : B' a = B a := hx a (by simp [PTree.addrs])
    refine ⟨ihl ?_ hl, ihr ?_ hr, h1, h2, ?_, ?_, ?_⟩
    · intro x hxl; exact hx x (by simp [PTree.addrs, hxl])
    · intro x hxr; exact hx x (by simp [PTree.addrs, hxr])
    · rw [ha]; exact h3
    · rw [ha]; exact h4
    · rw [ha]; exact h5

theorem height_leaf : PTree.leaf.height = 0 := rfl

theorem height_node (l r : PTree) (a : Nat) :
    (PTree.node l a r).height = max l.height r.height + 1 := rfl

theorem height_eq_zero {t : PTree} (h : t.height = 0) : t = .leaf := by
  cases t with
  | leaf => rfl
  | node l a r => simp [PTree.height] at h

/-! ## Reading a slot back -/

theorem writeSlot_size {σ st' : TreeState} {Q : Slot} {p : Ptr}
    (h : writeSlot σ Q p = .ok st') : st'.tree.size = σ.tree.size := by
  cases Q with
  | root => simp [writeSlot] at h; subst h; rfl
  | child q a =>
    unfold writeSlot at h
    obtain ⟨⟨qa, n⟩, hq, h⟩ := bind_ok h
    cases h; rfl

theorem writeSlot_bIn {σ st' : TreeState} {Q : Slot} {p : Ptr}
    (h : writeSlot σ Q p = .ok st') : bIn st'.limits = bIn σ.limits := by
  cases Q with
  | root => simp [writeSlot] at h; subst h; rfl
  | child q a =>
    unfold writeSlot at h
    obtain ⟨⟨qa, n⟩, hq, h⟩ := bind_ok h
    obtain ⟨hqp, _, _⟩ := deref_core hq
    cases hqp
    cases h
    exact store_children_bIn hq

/-- After `*qp = p` the slot holds `p`. -/
theorem slotPtr_slotSet {H : Nat → Option Core} {root : Ptr} {Q : Slot} {p0 p : Ptr}
    (h : slotPtr H root Q = some p0) :
    slotPtr (slotSet H Q p) (slotRoot root Q p) Q = some p := by
  cases Q with
  | root => rfl
  | child q a =>
    simp only [slotPtr, slotSet, Function.update_same] at h ⊢
    cases hq : H q with
    | none => rw [hq] at h; simp at h
    | some c =>
      simp only [Option.map_some', Option.some.injEq]
      unfold Core.setChild Core.child
      split <;> simp_all

/-- The slot of a heap that agrees, outside a set that the owner of the slot is
not in, with a heap in which the slot was written. -/
theorem slot_readback {H H' : Nat → Option Core} {F : List Nat} {root root' : Ptr} {Q : Slot}
    {p0 p : Ptr} (h : slotPtr H root Q = some p0)
    (hown : ∀ q, Q.owner = some q → q ∉ F)
    (hout : OutsideEq F (slotSet H Q p) H') (hroot : root' = slotRoot root Q p) :
    slotPtr H' root' Q = some p := by
  rw [hroot, ← slotPtr_slotSet (p := p) h]
  cases Q with
  | root => rfl
  | child q a =>
    simp only [slotPtr]
    rw [hout q (hown q rfl)]

/-- The slot of a heap that agrees with another one at the owner of the slot. -/
theorem slotPtr_congr {H H' : Nat → Option Core} {root : Ptr} {Q : Slot}
    (h : ∀ q, Q.owner = some q → H' q = H q) :
    slotPtr H' root Q = slotPtr H root Q := by
  cases Q with
  | root => rfl
  | child q a => simp only [slotPtr]; rw [h q rfl]

/-! ## The shape of a tree after a rotation -/

/-- `rotate(1, s)`: the right child `ra` of `sa` goes up; `sa` becomes its left
child and takes over its former left subtree `m`. -/
theorem rotate_shape_pos {limits limits' : List limitPrice} {s r' : Ptr} {t : PTree}
    (ht : IsTree (coreHeap limits) t s) (hnd : t.addrs.Nodup)
    (h : rotate limits 1 s = .ok (limits', r')) :
    ∃ l sa m ra rr, t = .node l sa (.node m ra rr) ∧ s = some sa ∧ r' = some ra ∧
      IsTree (coreHeap limits') (.node (.node l sa m) ra rr) (some ra) ∧
      ∀ x, x ≠ sa → x ≠ ra → coreHeap limits' x = coreHeap limits x := by
  obtain ⟨sa, cs, ra, cr, rfl, rfl, hcs, hchild, hcr, hH⟩ := rotate_core h
  obtain ⟨l, tr, cs', rfl, hcs', hl, htr⟩ := isTree_some ht
  rw [hcs] at hcs'
  cases hcs'
  rw [dirIndex_pos] at hchild hH
  have hc1 : cs.c1 = some ra := hchild
  rw [hc1] at htr
  obtain ⟨m, rr, cr', rfl, hcr', hm, hrr⟩ := isTree_some htr
  rw [hcr] at hcr'
  cases hcr'
  simp only [PTree.addrs] at hnd
  obtain ⟨-, hndtr, hsl, hstr, hdl⟩ := nodup_mid hnd
  obtain ⟨-, -, hrm, hrrr, hdm⟩ := nodup_mid hndtr
  have hne : sa ≠ ra := fun e => hstr (by simp [e])
  have hH' := hH hne
  have hout : ∀ x, x ≠ sa → x ≠ ra → coreHeap limits' x = coreHeap limits x := by
    intro x h1 h2
    rw [hH']; simp [Function.update, h1, h2]
  have hsa' : coreHeap limits' sa = some (cs.setChild 1 (cr.child (1 ^^^ 1))) := by
    rw [hH']; simp [Function.update, hne]
  have hra' : coreHeap limits' ra = some (cr.setChild (1 ^^^ 1) (some sa)) := by
    rw [hH']; simp [Function.update]
  refine ⟨l, sa, m, ra, rr, rfl, rfl, rfl, ?_, hout⟩
  refine ⟨rfl, _, hra', ⟨rfl, _, hsa', ?_, ?_⟩, ?_⟩
  · refine isTree_congr ?_ hl
    intro x hx
    refine hout x ?_ ?_
    · rintro rfl; exact hsl hx
    · rintro rfl; exact hdl x hx (by simp)
  · refine isTree_congr ?_ hm
    intro x hx
    refine hout x ?_ ?_
    · rintro rfl; exact hstr (by simp [hx])
    · rintro rfl; exact hrm hx
  · refine isTree_congr ?_ hrr
    intro x hx
    refine hout x ?_ ?_
    · rintro rfl; exact hstr (by simp [hx])
    · rintro rfl; exact hrrr hx

/-- `rotate(-1, s)`: the left child `ra` of `sa` goes up; `sa` becomes its right
child and takes over its former right subtree `m`. -/
theorem rotate_shape_neg {limits limits' : List limitPrice} {s r' : Ptr} {t : PTree}
    (ht : IsTree (coreHeap limits) t s) (hnd : t.addrs.Nodup)
    (h : rotate limits (-1) s = .ok (limits', r')) :
    ∃ ll ra m sa tr, t = .node (.node ll ra m) sa tr ∧ s = some sa ∧ r' = some ra ∧
      IsTree (coreHeap limits') (.node ll ra (.node m sa tr)) (some ra) ∧
      ∀ x, x ≠ sa → x ≠ ra → coreHeap limits' x = coreHeap limits x := by
  obtain ⟨sa, cs, ra, cr, rfl, rfl, hcs, hchild, hcr, hH⟩ := rotate_core h
  obtain ⟨l, tr, cs', rfl, hcs', hl, htr⟩ := isTree_some ht
  rw [hcs] at hcs'
  cases hcs'
  rw [dirIndex_neg] at hchild hH
  have hc0 : cs.c0 = some ra := hchild
  rw [hc0] at hl
  obtain ⟨ll, m, cr', rfl, hcr', hll, hm⟩ := isTree_some hl
  rw [hcr] at hcr'
  cases hcr'
  simp only [PTree.addrs] at hnd
  obtain ⟨hndl, -, hsl, hstr, hd⟩ := nodup_mid hnd
  obtain ⟨-, -, hrll, hrm, hdll⟩ := nodup_mid hndl
  have hne : sa ≠ ra := fun e => hsl (by simp [e])
  have hH' := hH hne
  have hout : ∀ x, x ≠ sa → x ≠ ra → coreHeap limits' x = coreHeap limits x := by
    intro x h1 h2
    rw [hH']; simp [Function.update, h1, h2]
  have hsa' : coreHeap limits' sa = some (cs.setChild 0 (cr.child (0 ^^^ 1))) := by
    rw [hH']; simp [Function.update, hne]
  have hra' : coreHeap limits' ra = some (cr.setChild (0 ^^^ 1) (some sa)) := by
    rw [hH']; simp [Function.update]
  refine ⟨ll, ra, m, sa, tr, rfl, rfl, rfl, ?_, hout⟩
  refine ⟨rfl, _, hra', ?_, ⟨rfl, _, hsa', ?_, ?_⟩⟩
  · refine isTree_congr ?_ hll
    intro x hx
    refine hout x ?_ ?_
    · rintro rfl; exact hsl (by simp [hx])
    · rintro rfl; exact hrll hx
  · refine isTree_congr ?_ hm
    intro x hx
    refine hout x ?_ ?_
    · rintro rfl; exact hsl (by simp [hx])
    · rintro rfl; exact hrm hx
  · refine isTree_congr ?_ htr
    intro x hx
    refine hout x ?_ ?_
    · rintro rfl; exact hstr hx
    · rintro rfl; exact hd x (by simp) hx

/-- `singlerot(1, s)`: the rotation, with the indicators of the two nodes it
moves set to 0. -/
theorem singlerot_shape_pos {limits limits' : List limitPrice} {s r' : Ptr} {t : PTree}
    (ht : IsTree (coreHeap limits) t s) (hnd : t.addrs.Nodup)
    (h : singlerot limits 1 s = .ok (limits', r')) :
    ∃ l sa m ra rr, t = .node l sa (.node m ra rr) ∧ r' = some ra ∧
      IsTree (coreHeap limits') (.node (.node l sa m) ra rr) (some ra) ∧
      bIn limits' = Function.update (Function.update (bIn limits) sa 0) ra 0 := by
  unfold singlerot at h
  obtain ⟨⟨sa, sn⟩, hs, h⟩ := bind_ok h
  obtain ⟨⟨limits1, s1⟩, hrot, h⟩ := bind_ok h
  obtain ⟨⟨sa1, sn1⟩, hs1, h⟩ := bind_ok h
  simp only at h hrot hs1
  have e0 := store_b_core (v := 0) hs
  have b0 := store_b_bIn (v := 0) hs
  rw [← e0] at ht
  obtain ⟨l, sa', m, ra, rr, rfl, hsp, rfl, itree, -⟩ := rotate_shape_pos ht hnd hrot
  have hsa := (deref_core hs).1
  rw [hsp] at hsa
  cases hsa
  have b1 := rotate_bIn hrot
  have e1 := store_b_core (v := 0) hs1
  have b2 := store_b_bIn (v := 0) hs1
  have hra := (deref_core hs1).1
  cases hra
  have hl : limits' = store limits1 sa1 { sn1 with b := 0 } := by cases h; rfl
  have hr : r' = some sa1 := by cases h; rfl
  refine ⟨l, _, m, _, rr, rfl, hr, ?_, ?_⟩
  · rw [hl, e1]; exact itree
  · rw [hl, b2, b1, b0]

/-- `singlerot(-1, s)`: the rotation, with the indicators of the two nodes it
moves set to 0. -/
theorem singlerot_shape_neg {limits limits' : List limitPrice} {s r' : Ptr} {t : PTree}
    (ht : IsTree (coreHeap limits) t s) (hnd : t.addrs.Nodup)
    (h : singlerot limits (-1) s = .ok (limits', r')) :
    ∃ ll ra m sa tr, t = .node (.node ll ra m) sa tr ∧ r' = some ra ∧
      IsTree (coreHeap limits') (.node ll ra (.node m sa tr)) (some ra) ∧
      bIn limits' = Function.update (Function.update (bIn limits) sa 0) ra 0 := by
  unfold singlerot at h
  obtain ⟨⟨sa, sn⟩, hs, h⟩ := bind_ok h
  obtain ⟨⟨limits1, s1⟩, hrot, h⟩ := bind_ok h
  obtain ⟨⟨sa1, sn1⟩, hs1, h⟩ := bind_ok h
  simp only at h hrot hs1
  have e0 := store_b_core (v := 0) hs
  have b0 := store_b_bIn (v := 0) hs
  rw [← e0] at ht
  obtain ⟨ll, ra, m, sa', tr, rfl, hsp, rfl, itree, -⟩ := rotate_shape_neg ht hnd hrot
  have hsa := (deref_core hs).1
  rw [hsp] at hsa
  cases hsa
  have b1 := rotate_bIn hrot
  have e1 := store_b_core (v := 0) hs1
  have b2 := store_b_bIn (v := 0) hs1
  have hra := (deref_core hs1).1
  cases hra
  have hl : limits' = store limits1 sa1 { sn1 with b := 0 } := by cases h; rfl
  have hr : r' = some sa1 := by cases h; rfl
  refine ⟨ll, _, m, _, tr, rfl, hr, ?_, ?_⟩
  · rw [hl, e1]; exact itree
  · rw [hl, b2, b1, b0]

/-- `doublerot(1, s)`: the left child `pa` of the right child `ra` of `sa` goes
up twice and becomes the root, with `sa` to its left and `ra` to its right; the
indicators of `sa` and `ra` are set from the former indicator of `pa`. -/
theorem doublerot_shape_pos {limits limits' : List limitPrice} {s r' : Ptr} {t : PTree}
    (ht : IsTree (coreHeap limits) t s) (hnd : t.addrs.Nodup)
    (h : doublerot limits 1 s = .ok (limits', r')) :
    ∃ l sa m1 pa m2 ra rr, t = .node l sa (.node (.node m1 pa m2) ra rr) ∧ r' = some pa ∧
      IsTree (coreHeap limits') (.node (.node l sa m1) pa (.node m2 ra rr)) (some pa) ∧
      bIn limits' = Function.update (Function.update (Function.update (bIn limits) sa
        (if bIn limits pa = 1 then ((-1, 0) : Int × Int)
          else if bIn limits pa = -1 then (0, 1) else (0, 0)).1) ra
        (if bIn limits pa = 1 then ((-1, 0) : Int × Int)
          else if bIn limits pa = -1 then (0, 1) else (0, 0)).2) pa 0 := by
  unfold doublerot at h
  simp only [dirIndex_pos] at h
  obtain ⟨⟨sa, sn⟩, hs, h⟩ := bind_ok h
  obtain ⟨⟨limits1, r1⟩, hrot1, h⟩ := bind_ok h
  obtain ⟨⟨sa1, sn1⟩, hs1, h⟩ := bind_ok h
  obtain ⟨⟨limits3, p⟩, hrot2, h⟩ := bind_ok h
  obtain ⟨⟨pa, pn⟩, hp, h⟩ := bind_ok h
  obtain ⟨⟨sa4, sn4⟩, hs4, h⟩ := bind_ok h
  obtain ⟨⟨ra5, rn5⟩, hr5, h⟩ := bind_ok h
  obtain ⟨⟨pa6, pn6⟩, hp6, h⟩ := bind_ok h
  simp only at h hrot1 hs1 hrot2 hp hs4 hr5 hp6
  have e4 := store_b_core (v := (if pn.b = 1 then ((-1, 0) : Int × Int)
    else if pn.b = -1 then (0, 1) else (0, 0)).1) hs4
  have e5 := store_b_core (v := (if pn.b = 1 then ((-1, 0) : Int × Int)
    else if pn.b = -1 then (0, 1) else (0, 0)).2) hr5
  have e6 := store_b_core (v := 0) hp6
  have b4 := store_b_bIn (v := (if pn.b = 1 then ((-1, 0) : Int × Int)
    else if pn.b = -1 then (0, 1) else (0, 0)).1) hs4
  have b5 := store_b_bIn (v := (if pn.b = 1 then ((-1, 0) : Int × Int)
    else if pn.b = -1 then (0, 1) else (0, 0)).2) hr5
  have b6 := store_b_bIn (v := 0) hp6
  have hr : r' = p := by cases h; rfl
  have hl : coreHeap limits' = coreHeap limits3 := by
    cases h
    rw [e6, e5, e4]
  have hb : bIn limits' = Function.update (Function.update (Function.update (bIn limits3) sa4
      (if pn.b = 1 then ((-1, 0) : Int × Int) else if pn.b = -1 then (0, 1) else (0, 0)).1) ra5
      (if pn.b = 1 then ((-1, 0) : Int × Int) else if pn.b = -1 then (0, 1) else (0, 0)).2)
      pa6 0 := by
    cases h
    rw [b6, b5, b4]
  have hb3 : bIn limits3 = bIn limits := by
    rw [rotate_bIn hrot2, store_children_bIn hs1, rotate_bIn hrot1]
  have hpb : pn.b = bIn limits pa := by
    rw [← hb3, bIn_of_getElem (deref_core hp).2.1]
  have hs4p := (deref_core hs4).1
  have hr5p := (deref_core hr5).1
  have hp6p := (deref_core hp6).1
  rw [hb3, hpb] at hb
  rw [hl, hr, hb]
  clear e4 e5 e6 b4 b5 b6 hl hr hb h hp6 hr5 hs4 hb3 hpb
  obtain ⟨hsp, hsl, hsc⟩ := deref_core hs
  subst hsp
  cases hs4p
  obtain ⟨l, tr, cs, rfl, hcs, hl, htr⟩ := isTree_some ht
  rw [hsc] at hcs
  cases hcs
  have hnd0 := hnd
  simp only [PTree.addrs] at hnd
  obtain ⟨hndl, hndtr, hsl', hstr, hd⟩ := nodup_mid hnd
  obtain ⟨hs1p, hs1l, hs1c⟩ := deref_core hs1
  cases hs1p
  have e2 : coreHeap (store limits1 sa (sn1.setChildren 1 r1)) =
      Function.update (coreHeap limits1) sa (some (sn1.core.setChild 1 r1)) := by
    rw [coreHeap_store hs1l, setChildren_core]
  rw [children_core] at hrot1 hr5p
  have hrt : IsTree (coreHeap limits) tr (sn.core.child 1) := htr
  obtain ⟨m1, pa', m2, ra, rr, rfl, hrap, rfl, itr', otr'⟩ :=
    rotate_shape_neg hrt hndtr hrot1
  rw [hrap] at hr5p
  have hra5 := Option.some.inj hr5p
  subst hra5
  have hsra : sa ≠ ra := fun e => hstr (by simp [PTree.addrs, e])
  have hspa : sa ≠ pa' := fun e => hstr (by simp [PTree.addrs, e])
  have hsn1 : sn1.core = sn.core := by
    have := otr' sa hsra hspa
    rw [hs1c, hsc] at this
    simpa using this
  have htree : IsTree (Function.update (coreHeap limits1) sa
      (some (sn1.core.setChild 1 (some pa')))) (.node l sa (.node m1 pa' (.node m2 ra rr)))
      (some sa) := by
    refine ⟨rfl, sn1.core.setChild 1 (some pa'), by simp [Function.update], ?_, ?_⟩
    · rw [hsn1]
      refine isTree_congr ?_ hl
      intro x hx
      have : x ≠ sa := by rintro rfl; exact hsl' hx
      simp only [Function.update, this, dite_false]
      refine otr' x ?_ ?_
      · rintro rfl; exact hd x hx (by simp [PTree.addrs])
      · rintro rfl; exact hd x hx (by simp [PTree.addrs])
    · refine isTree_congr ?_ itr'
      intro x hx
      have : x ≠ sa := by
        rintro rfl
        exact hstr (by simp only [PTree.addrs, List.mem_append, List.mem_cons] at hx ⊢; tauto)
      simp [Function.update, this]
  rw [← e2] at htree
  have hnd2 : (PTree.node l sa (.node m1 pa' (.node m2 ra rr))).addrs.Nodup := by
    simp only [PTree.addrs, List.append_assoc, List.cons_append] at hnd0 ⊢
    exact hnd0
  obtain ⟨l0, sa0, m0, ra0, rr0, heq, -, hpp, itree2, -⟩ := rotate_shape_pos htree hnd2 hrot2
  cases heq
  rw [hpp] at hp6p
  cases hp6p
  have hpa := (deref_core hp).1
  rw [hpp] at hpa
  cases hpa
  exact ⟨l, _, m1, _, m2, _, rr, rfl, hpp, itree2, rfl⟩

/-- `doublerot(-1, s)`: the right child `pa` of the left child `ra` of `sa` goes
up twice and becomes the root, with `ra` to its left and `sa` to its right; the
indicators of `sa` and `ra` are set from the former indicator of `pa`. -/
theorem doublerot_shape_neg {limits limits' : List limitPrice} {s r' : Ptr} {t : PTree}
    (ht : IsTree (coreHeap limits) t s) (hnd : t.addrs.Nodup)
    (h : doublerot limits (-1) s = .ok (limits', r')) :
    ∃ ll ra m1 pa m2 sa tr, t = .node (.node ll ra (.node m1 pa m2)) sa tr ∧ r' = some pa ∧
      IsTree (coreHeap limits') (.node (.node ll ra m1) pa (.node m2 sa tr)) (some pa) ∧
      bIn limits' = Function.update (Function.update (Function.update (bIn limits) sa
        (if bIn limits pa = -1 then ((1, 0) : Int × Int)
          else if bIn limits pa = 1 then (0, -1) else (0, 0)).1) ra
        (if bIn limits pa = -1 then ((1, 0) : Int × Int)
          else if bIn limits pa = 1 then (0, -1) else (0, 0)).2) pa 0 := by
  unfold doublerot at h
  simp only [dirIndex_neg, neg_neg_one] at h
  obtain ⟨⟨sa, sn⟩, hs, h⟩ := bind_ok h
  obtain ⟨⟨limits1, r1⟩, hrot1, h⟩ := bind_ok h
  obtain ⟨⟨sa1, sn1⟩, hs1, h⟩ := bind_ok h
  obtain ⟨⟨limits3, p⟩, hrot2, h⟩ := bind_ok h
  obtain ⟨⟨pa, pn⟩, hp, h⟩ := bind_ok h
  obtain ⟨⟨sa4, sn4⟩, hs4, h⟩ := bind_ok h
  obtain ⟨⟨ra5, rn5⟩, hr5, h⟩ := bind_ok h
  obtain ⟨⟨pa6, pn6⟩, hp6, h⟩ := bind_ok h
  simp only at h hrot1 hs1 hrot2 hp hs4 hr5 hp6
  have e4 := store_b_core (v := (if pn.b = -1 then ((1, 0) : Int × Int)
    else if pn.b = 1 then (0, -1) else (0, 0)).1) hs4
  have e5 := store_b_core (v := (if pn.b = -1 then ((1, 0) : Int × Int)
    else if pn.b = 1 then (0, -1) else (0, 0)).2) hr5
  have e6 := store_b_core (v := 0) hp6
  have b4 := store_b_bIn (v := (if pn.b = -1 then ((1, 0) : Int × Int)
    else if pn.b = 1 then (0, -1) else (0, 0)).1) hs4
  have b5 := store_b_bIn (v := (if pn.b = -1 then ((1, 0) : Int × Int)
    else if pn.b = 1 then (0, -1) else (0, 0)).2) hr5
  have b6 := store_b_bIn (v := 0) hp6
  have hr : r' = p := by cases h; rfl
  have hl : coreHeap limits' = coreHeap limits3 := by
    cases h
    rw [e6, e5, e4]
  have hb : bIn limits' = Function.update (Function.update (Function.update (bIn limits3) sa4
      (if pn.b = -1 then ((1, 0) : Int × Int) else if pn.b = 1 then (0, -1) else (0, 0)).1) ra5
      (if pn.b = -1 then ((1, 0) : Int × Int) else if pn.b = 1 then (0, -1) else (0, 0)).2)
      pa6 0 := by
    cases h
    rw [b6, b5, b4]
  have hb3 : bIn limits3 = bIn limits := by
    rw [rotate_bIn hrot2, store_children_bIn hs1, rotate_bIn hrot1]
  have hpb : pn.b = bIn limits pa := by
    rw [← hb3, bIn_of_getElem (deref_core hp).2.1]
  have hs4p := (deref_core hs4).1
  have hr5p := (deref_core hr5).1
  have hp6p := (deref_core hp6).1
  rw [hb3, hpb] at hb
  rw [hl, hr, hb]
  clear e4 e5 e6 b4 b5 b6 hl hr hb h hp6 hr5 hs4 hb3 hpb
  obtain ⟨hsp, hsl, hsc⟩ := deref_core hs
  subst hsp
  cases hs4p
  obtain ⟨l, tr, cs, rfl, hcs, hl, htr⟩ := isTree_some ht
  rw [hsc] at hcs
  cases hcs
  have hnd0 := hnd
  simp only [PTree.addrs] at hnd
  obtain ⟨hndl, hndtr, hsl', hstr, hd⟩ := nodup_mid hnd
  obtain ⟨hs1p, hs1l, hs1c⟩ := deref_core hs1
  cases hs1p
  have e2 : coreHeap (store limits1 sa (sn1.setChildren 0 r1)) =
      Function.update (coreHeap limits1) sa (some (sn1.core.setChild 0 r1)) := by
    rw [coreHeap_store hs1l, setChildren_core]
  rw [children_core] at hrot1 hr5p
  have hlt : IsTree (coreHeap limits) l (sn.core.child 0) := hl
  obtain ⟨ll, ra, m1, pa', m2, rfl, hrap, rfl, il', ol'⟩ :=
    rotate_shape_pos hlt hndl hrot1
  rw [hrap] at hr5p
  have hra5 := Option.some.inj hr5p
  subst hra5
  have hsra : sa ≠ ra := fun e => hsl' (by simp [PTree.addrs, e])
  have hspa : sa ≠ pa' := fun e => hsl' (by simp [PTree.addrs, e])
  have hsn1 : sn1.core = sn.core := by
    have := ol' sa hsra hspa
    rw [hs1c, hsc] at this
    simpa using this
  have htree : IsTree (Function.update (coreHeap limits1) sa
      (some (sn1.core.setChild 0 (some pa')))) (.node (.node (.node ll ra m1) pa' m2) sa tr)
      (some sa) := by
    refine ⟨rfl, sn1.core.setChild 0 (some pa'), by simp [Function.update], ?_, ?_⟩
    · refine isTree_congr ?_ il'
      intro x hx
      have : x ≠ sa := by
        rintro rfl
        exact hsl' (by simp only [PTree.addrs, List.mem_append, List.mem_cons] at hx ⊢; tauto)
      simp [Function.update, this]
    · rw [hsn1]
      refine isTree_congr ?_ htr
      intro x hx
      have : x ≠ sa := by rintro rfl; exact hstr hx
      simp only [Function.update, this, dite_false]
      refine ol' x ?_ ?_
      · rintro rfl; exact hd x (by simp [PTree.addrs]) hx
      · rintro rfl; exact hd x (by simp [PTree.addrs]) hx
  rw [← e2] at htree
  have hnd2 : (PTree.node (.node (.node ll ra m1) pa' m2) sa tr).addrs.Nodup := by
    simp only [PTree.addrs, List.append_assoc, List.cons_append] at hnd0 ⊢
    exact hnd0
  obtain ⟨ll0, ra0, m0, sa0, tr0, heq, -, hpp, itree2, -⟩ := rotate_shape_neg htree hnd2 hrot2
  cases heq
  rw [hpp] at hp6p
  cases hp6p
  have hpa := (deref_core hp).1
  rw [hpp] at hpa
  cases hpa
  exact ⟨ll, _, m1, _, m2, _, tr, rfl, hpp, itree2, rfl⟩

/-! ## Balance of the rotated trees -/

theorem balanced_node {B : Nat → Int} {l r : PTree} {a : Nat}
    (hl : Balanced B l) (hr : Balanced B r)
    (h : B a = (r.height : Int) - (l.height : Int)) (h1 : -1 ≤ B a) (h2 : B a ≤ 1) :
    Balanced B (.node l a r) :=
  ⟨hl, hr, by omega, by omega, h, h1, h2⟩

/-- After `singlerot(1, s)` on a node `sa` whose right subtree is two levels
higher than its left one and leans to the right. -/
theorem balanced_srot_pos {B B' : Nat → Int} {l m rr : PTree} {sa ra : Nat}
    (hbl : Balanced B' l) (hbm : Balanced B' m) (hbrr : Balanced B' rr)
    (hsa : B sa = 1)
    (hbsa : B sa = ((PTree.node m ra rr).height : Int) - 1 - (l.height : Int))
    (hra : B ra = (rr.height : Int) - (m.height : Int)) (hra1 : B ra = 1)
    (hBsa : B' sa = 0) (hBra : B' ra = 0) :
    Balanced B' (.node (.node l sa m) ra rr) ∧
    (PTree.node (.node l sa m) ra rr).height =
      max l.height ((PTree.node m ra rr).height - 1) + 1 ∧
    (PTree.node (.node l sa m) ra rr).height + 1 =
      max (l.height + 1) (PTree.node m ra rr).height + 1 := by
  simp only [PTree.height] at hbsa ⊢
  have e1 : m.height = l.height := by omega
  have e2 : rr.height = l.height + 1 := by omega
  refine ⟨balanced_node (balanced_node hbl hbm ?_ ?_ ?_) hbrr ?_ ?_ ?_, ?_, ?_⟩ <;>
    (try simp only [PTree.height]) <;> omega

/-- After `singlerot(-1, s)` on a node `sa` whose left subtree is two levels
higher than its right one and leans to the left. -/
theorem balanced_srot_neg {B B' : Nat → Int} {ll m tr : PTree} {sa ra : Nat}
    (hbll : Balanced B' ll) (hbm : Balanced B' m) (hbtr : Balanced B' tr)
    (hsa : B sa = -1)
    (hbsa : B sa = (tr.height : Int) - (((PTree.node ll ra m).height : Int) - 1))
    (hra : B ra = (m.height : Int) - (ll.height : Int)) (hra1 : B ra = -1)
    (hBsa : B' sa = 0) (hBra : B' ra = 0) :
    Balanced B' (.node ll ra (.node m sa tr)) ∧
    (PTree.node ll ra (.node m sa tr)).height =
      max ((PTree.node ll ra m).height - 1) tr.height + 1 ∧
    (PTree.node ll ra (.node m sa tr)).height + 1 =
      max (PTree.node ll ra m).height (tr.height + 1) + 1 := by
  simp only [PTree.height] at hbsa ⊢
  have e1 : m.height = tr.height := by omega
  have e2 : ll.height = tr.height + 1 := by omega
  refine ⟨balanced_node hbll (balanced_node hbm hbtr ?_ ?_ ?_) ?_ ?_ ?_, ?_, ?_⟩ <;>
    (try simp only [PTree.height]) <;> omega

/-- After `doublerot(1, s)` on a node `sa` whose right subtree is two levels
higher than its left one and leans to the left. -/
theorem balanced_drot_pos {B B' : Nat → Int} {l m1 m2 rr : PTree} {sa pa ra : Nat}
    {v1 v2 : Int}
    (hbl : Balanced B' l) (hbm1 : Balanced B' m1) (hbm2 : Balanced B' m2)
    (hbrr : Balanced B' rr)
    (hsa : B sa = 1)
    (hbsa : B sa = ((PTree.node (.node m1 pa m2) ra rr).height : Int) - 1 - (l.height : Int))
    (hra : B ra = (rr.height : Int) - ((PTree.node m1 pa m2).height : Int))
    (hra1 : B ra ≠ 1) (hra0 : B ra ≠ 0) (hra2 : -1 ≤ B ra) (hra3 : B ra ≤ 1)
    (hpa : B pa = (m2.height : Int) - (m1.height : Int)) (hpa1 : -1 ≤ B pa) (hpa2 : B pa ≤ 1)
    (hvals : (B pa = 1 ∧ v1 = -1 ∧ v2 = 0) ∨ (B pa = -1 ∧ v1 = 0 ∧ v2 = 1) ∨
      (B pa ≠ 1 ∧ B pa ≠ -1 ∧ v1 = 0 ∧ v2 = 0))
    (hBsa : B' sa = v1) (hBra : B' ra = v2) (hBpa : B' pa = 0) :
    Balanced B' (.node (.node l sa m1) pa (.node m2 ra rr)) ∧
    (PTree.node (.node l sa m1) pa (.node m2 ra rr)).height =
      max l.height ((PTree.node (.node m1 pa m2) ra rr).height - 1) + 1 ∧
    (PTree.node (.node l sa m1) pa (.node m2 ra rr)).height + 1 =
      max (l.height + 1) (PTree.node (.node m1 pa m2) ra rr).height + 1 := by
  simp only [PTree.height] at hbsa hra ⊢
  have hram : B ra = -1 := by omega
  clear hra1 hra0 hra2 hra3
  rcases hvals with ⟨h1, rfl, rfl⟩ | ⟨h1, rfl, rfl⟩ | ⟨h1, h2, rfl, rfl⟩
  · have e1 : m2.height = l.height := by omega
    have e2 : m1.height + 1 = l.height := by omega
    have e3 : rr.height = l.height := by omega
    refine ⟨balanced_node (balanced_node hbl hbm1 ?_ ?_ ?_) (balanced_node hbm2 hbrr ?_ ?_ ?_)
      ?_ ?_ ?_, ?_, ?_⟩ <;> (try simp only [PTree.height]) <;> omega
  · have e1 : m1.height = l.height := by omega
    have e2 : m2.height + 1 = l.height := by omega
    have e3 : rr.height = l.height := by omega
    refine ⟨balanced_node (balanced_node hbl hbm1 ?_ ?_ ?_) (balanced_node hbm2 hbrr ?_ ?_ ?_)
      ?_ ?_ ?_, ?_, ?_⟩ <;> (try simp only [PTree.height]) <;> omega
  · have e0 : B pa = 0 := by omega
    have e1 : m1.height = l.height := by omega
    have e2 : m2.height = l.height := by omega
    have e3 : rr.height = l.height := by omega
    refine ⟨balanced_node (balanced_node hbl hbm1 ?_ ?_ ?_) (balanced_node hbm2 hbrr ?_ ?_ ?_)
      ?_ ?_ ?_, ?_, ?_⟩ <;> (try simp only [PTree.height]) <;> omega

/-- After `doublerot(-1, s)` on a node `sa` whose left subtree is two levels
higher than its right one and leans to the right. -/
theorem balanced_drot_neg {B B' : Nat → Int} {ll m1 m2 tr : PTree} {sa pa ra : Nat}
    {v1 v2 : Int}
    (hbll : Balanced B' ll) (hbm1 : Balanced B' m1) (hbm2 : Balanced B' m2)
    (hbtr : Balanced B' tr)
    (hsa : B sa = -1)
    (hbsa : B sa = (tr.height : Int) -
      (((PTree.node ll ra (.node m1 pa m2)).height : Int) - 1))
    (hra : B ra = ((PTree.node m1 pa m2).height : Int) - (ll.height : Int))
    (hra1 : B ra ≠ -1) (hra0 : B ra ≠ 0) (hra2 : -1 ≤ B ra) (hra3 : B ra ≤ 1)
    (hpa : B pa = (m2.height : Int) - (m1.height : Int)) (hpa1 : -1 ≤ B pa) (hpa2 : B pa ≤ 1)
    (hvals : (B pa = -1 ∧ v1 = 1 ∧ v2 = 0) ∨ (B pa = 1 ∧ v1 = 0 ∧ v2 = -1) ∨
      (B pa ≠ 1 ∧ B pa ≠ -1 ∧ v1 = 0 ∧ v2 = 0))
    (hBsa : B' sa = v1) (hBra : B' ra = v2) (hBpa : B' pa = 0) :
    Balanced B' (.node (.node ll ra m1) pa (.node m2 sa tr)) ∧
    (PTree.node (.node ll ra m1) pa (.node m2 sa tr)).height =
      max ((PTree.node ll ra (.node m1 pa m2)).height - 1) tr.height + 1 ∧
    (PTree.node (.node ll ra m1) pa (.node m2 sa tr)).height + 1 =
      max (PTree.node ll ra (.node m1 pa m2)).height (tr.height + 1) + 1 := by
  simp only [PTree.height] at hbsa hra ⊢
  have hram : B ra = 1 := by omega
  clear hra1 hra0 hra2 hra3
  rcases hvals with ⟨h1, rfl, rfl⟩ | ⟨h1, rfl, rfl⟩ | ⟨h1, h2, rfl, rfl⟩
  · have e1 : m1.height = tr.height := by omega
    have e2 : m2.height + 1 = tr.height := by omega
    have e3 : ll.height = tr.height := by omega
    refine ⟨balanced_node (balanced_node hbll hbm1 ?_ ?_ ?_) (balanced_node hbm2 hbtr ?_ ?_ ?_)
      ?_ ?_ ?_, ?_, ?_⟩ <;> (try simp only [PTree.height]) <;> omega
  · have e1 : m2.height = tr.height := by omega
    have e2 : m1.height + 1 = tr.height := by omega
    have e3 : ll.height = tr.height := by omega
    refine ⟨balanced_node (balanced_node hbll hbm1 ?_ ?_ ?_) (balanced_node hbm2 hbtr ?_ ?_ ?_)
      ?_ ?_ ?_, ?_, ?_⟩ <;> (try simp only [PTree.height]) <;> omega
  · have e0 : B pa = 0 := by omega
    have e1 : m1.height = tr.height := by omega
    have e2 : m2.height = tr.height := by omega
    have e3 : ll.height = tr.height := by omega
    refine ⟨balanced_node (balanced_node hbll hbm1 ?_ ?_ ?_) (balanced_node hbm2 hbtr ?_ ?_ ?_)
      ?_ ?_ ?_, ?_, ?_⟩ <;> (try simp only [PTree.height]) <;> omega

/-- After `rotate(1, s)` in `removeFix` on a node `sa` whose right subtree is
two levels higher than its left one and is even. -/
theorem balanced_rot_pos {B B' : Nat → Int} {l m rr : PTree} {sa ra : Nat}
    (hbl : Balanced B' l) (hbm : Balanced B' m) (hbrr : Balanced B' rr)
    (hsa : B sa = 1)
    (hbsa : B sa = ((PTree.node m ra rr).height : Int) - ((l.height : Int) + 1))
    (hra : B ra = (rr.height : Int) - (m.height : Int)) (hra1 : B ra = 0)
    (hBsa : B' sa = 1) (hBra : B' ra = -1) :
    Balanced B' (.node (.node l sa m) ra rr) ∧
    (PTree.node (.node l sa m) ra rr).height =
      max (l.height + 1) (PTree.node m ra rr).height + 1 := by
  simp only [PTree.height] at hbsa ⊢
  have e1 : m.height = l.height + 1 := by omega
  have e2 : rr.height = l.height + 1 := by omega
  refine ⟨balanced_node (balanced_node hbl hbm ?_ ?_ ?_) hbrr ?_ ?_ ?_, ?_⟩ <;>
    (try simp only [PTree.height]) <;> omega

/-- After `rotate(-1, s)` in `removeFix` on a node `sa` whose left subtree is
two levels higher than its right one and is even. -/
theorem balanced_rot_neg {B B' : Nat → Int} {ll m tr : PTree} {sa ra : Nat}
    (hbll : Balanced B' ll) (hbm : Balanced B' m) (hbtr : Balanced B' tr)
    (hsa : B sa = -1)
    (hbsa : B sa = ((tr.height : Int) + 1) - ((PTree.node ll ra m).height : Int))
    (hra : B ra = (m.height : Int) - (ll.height : Int)) (hra1 : B ra = 0)
    (hBsa : B' sa = -1) (hBra : B' ra = 1) :
    Balanced B' (.node ll ra (.node m sa tr)) ∧
    (PTree.node ll ra (.node m sa tr)).height =
      max (PTree.node ll ra m).height (tr.height + 1) + 1 := by
  simp only [PTree.height] at hbsa ⊢
  have e1 : m.height = tr.height + 1 := by omega
  have e2 : ll.height = tr.height + 1 := by omega
  refine ⟨balanced_node hbll (balanced_node hbm hbtr ?_ ?_ ?_) ?_ ?_ ?_, ?_⟩ <;>
    (try simp only [PTree.height]) <;> omega

/-! ## Balance after a fix -/

theorem upd_ne {B : Nat → Int} {a x : Nat} {v : Int} (h : x ≠ a) :
    Function.update B a v x = B x := by
  simp [Function.update, h]

theorem upd_eq {B : Nat → Int} {a : Nat} {v : Int} : Function.update B a v a = v := by
  simp [Function.update]

theorem balanced_upd {B : Nat → Int} {t : PTree} {a : Nat} {v : Int} (ha : a ∉ t.addrs)
    (h : Balanced B t) : Balanced (Function.update B a v) t :=
  balanced_congr (fun _ hx => upd_ne (fun e => ha (e ▸ hx))) h

/-- Storing an indicator at the root of the tree in a slot leaves the tree and
the slot in place. -/
theorem fix_b_bal {σ : TreeState} {Q : Slot} {p : Ptr} {t : PTree} {sa : Nat}
    {sn : limitPrice} {v : Int}
    (hp : slotPtr (coreHeap σ.limits) σ.tree.root Q = some p)
    (ht : IsTree (coreHeap σ.limits) t p) (hs : deref σ.limits p = .ok (sa, sn)) :
    slotPtr (coreHeap (store σ.limits sa { sn with b := v })) σ.tree.root Q = some p ∧
    IsTree (coreHeap (store σ.limits sa { sn with b := v })) t p ∧
    bIn (store σ.limits sa { sn with b := v }) = Function.update (bIn σ.limits) sa v := by
  rw [store_b_core hs]
  exact ⟨hp, ht, store_b_bIn hs⟩

/-- Writing the root of a rotated tree into the slot it came from. -/
theorem fix_rotation_bal {σ st' : TreeState} {limits1 : List limitPrice} {Q : Slot}
    {s1 p : Ptr} {t t2 : PTree}
    (hp : slotPtr (coreHeap σ.limits) σ.tree.root Q = some p)
    (hown : ∀ q, Q.owner = some q → q ∉ t.addrs)
    (hw : SameWalk (coreHeap σ.limits) (coreHeap limits1) t s1)
    (ht2 : IsTree (coreHeap limits1) t2 s1)
    (h : writeSlot { σ with limits := limits1 } Q s1 = .ok st') :
    slotPtr (coreHeap st'.limits) st'.tree.root Q = some s1 ∧
    IsTree (coreHeap st'.limits) t2 s1 ∧ bIn st'.limits = bIn limits1 ∧
    st'.tree.size = σ.tree.size := by
  obtain ⟨T, i1, e1, o1, q1⟩ := hw
  have hT := isTree_unique i1 ht2
  subst hT
  obtain ⟨hH, hroot⟩ := writeSlot_core h
  simp only at hH hroot
  have hp1 : slotPtr (coreHeap limits1) σ.tree.root Q = some p := by
    rw [← hp]
    exact slotPtr_congr (fun q hq => o1 q (hown q hq))
  have hsz := writeSlot_size h
  have hbw := writeSlot_bIn h
  refine ⟨?_, ?_, hbw, hsz⟩
  · rw [hH, hroot]; exact slotPtr_slotSet hp1
  · rw [hH]
    exact isTree_slotSet (by rw [e1]; exact hown) i1

theorem ne_of_mem_of_not_mem {x a : Nat} {L : List Nat} (hx : x ∈ L) (ha : a ∉ L) : x ≠ a :=
  fun e => ha (e ▸ hx)

/-- The indicators `doublerot(1, s)` gives to `s` and to its former right child,
by cases on the former indicator `p` of the node that goes up. -/
theorem drot_vals_pos (p : Int) : ∃ v1 v2 : Int,
    (if p = 1 then ((-1, 0) : Int × Int) else if p = -1 then (0, 1) else (0, 0)) = (v1, v2) ∧
    ((p = 1 ∧ v1 = -1 ∧ v2 = 0) ∨ (p = -1 ∧ v1 = 0 ∧ v2 = 1) ∨
      (p ≠ 1 ∧ p ≠ -1 ∧ v1 = 0 ∧ v2 = 0)) := by
  by_cases h1 : p = 1
  · exact ⟨-1, 0, by simp [h1], Or.inl ⟨h1, rfl, rfl⟩⟩
  · by_cases h2 : p = -1
    · exact ⟨0, 1, by simp [h2], Or.inr (Or.inl ⟨h2, rfl, rfl⟩)⟩
    · exact ⟨0, 0, by simp [h1, h2], Or.inr (Or.inr ⟨h1, h2, rfl, rfl⟩)⟩

/-- The indicators `doublerot(-1, s)` gives to `s` and to its former left child,
by cases on the former indicator `p` of the node that goes up. -/
theorem drot_vals_neg (p : Int) : ∃ v1 v2 : Int,
    (if p = -1 then ((1, 0) : Int × Int) else if p = 1 then (0, -1) else (0, 0)) = (v1, v2) ∧
    ((p = -1 ∧ v1 = 1 ∧ v2 = 0) ∨ (p = 1 ∧ v1 = 0 ∧ v2 = -1) ∨
      (p ≠ 1 ∧ p ≠ -1 ∧ v1 = 0 ∧ v2 = 0)) := by
  by_cases h1 : p = -1
  · exact ⟨1, 0, by simp [h1], Or.inl ⟨h1, rfl, rfl⟩⟩
  · by_cases h2 : p = 1
    · exact ⟨0, -1, by simp [h2], Or.inr (Or.inl ⟨h2, rfl, rfl⟩)⟩
    · exact ⟨0, 0, by simp [h1, h2], Or.inr (Or.inr ⟨h2, h1, rfl, rfl⟩)⟩

/-- `putFix(1, qp)` after the right subtree of the node in the slot has grown by
one level: the slot then holds a balanced tree; its height is one more than
the height the node had before exactly when `putFix` returns `true`, and then
the indicator at its root is not 0. -/
theorem putFix_bal_pos {σ st' : TreeState} {Q : Slot} {p : Ptr} {l r : PTree} {sa : Nat}
    {fix : Bool}
    (hp : slotPtr (coreHeap σ.limits) σ.tree.root Q = some p)
    (ht : IsTree (coreHeap σ.limits) (.node l sa r) p)
    (hnd : (PTree.node l sa r).addrs.Nodup)
    (hown : ∀ q, Q.owner = some q → q ∉ (PTree.node l sa r).addrs)
    (hbl : Balanced (bIn σ.limits) l) (hbr : Balanced (bIn σ.limits) r)
    (hb : bIn σ.limits sa = (r.height : Int) - 1 - (l.height : Int))
    (hb1 : -1 ≤ bIn σ.limits sa) (hb2 : bIn σ.limits sa ≤ 1)
    (hr1 : 1 ≤ r.height)
    (hrb : r.height = 1 ∨ rootB (bIn σ.limits) r ≠ 0)
    (h : putFix σ 1 Q = .ok (st', fix)) :
    ∃ p' t', slotPtr (coreHeap st'.limits) st'.tree.root Q = some p' ∧
      IsTree (coreHeap st'.limits) t' p' ∧ Balanced (bIn st'.limits) t' ∧
      (∀ x, x ∉ (PTree.node l sa r).addrs → bIn st'.limits x = bIn σ.limits x) ∧
      st'.tree.size = σ.tree.size ∧
      (fix = true → t'.height = max l.height (r.height - 1) + 2 ∧
        rootB (bIn st'.limits) t' ≠ 0) ∧
      (fix = false → t'.height = max l.height (r.height - 1) + 1) := by
  unfold putFix at h
  simp only [dirIndex_pos] at h
  obtain ⟨s, hs, h⟩ := bind_ok h
  have hps := readSlot_core hs
  rw [hp] at hps
  cases hps
  obtain ⟨⟨sa0, sn⟩, hsn, h⟩ := bind_ok h
  simp only at h
  have hnd0 := hnd
  have ht0 := ht
  obtain ⟨hpp, cs, hcs, hl, hr⟩ := ht
  subst hpp
  obtain ⟨hsp, hsl, hsc⟩ := deref_core hsn
  cases hsp
  rw [hcs] at hsc
  have hcsn : cs = sn.core := by simpa using hsc
  have hsb : sn.b = bIn σ.limits sa := (bIn_of_getElem hsl).symm
  simp only [PTree.addrs] at hnd
  obtain ⟨hndl, hndr, hsal, hsar, hd⟩ := nodup_mid hnd
  have hframe1 : ∀ (v : Int) (x : Nat), x ∉ (PTree.node l sa r).addrs →
      Function.update (bIn σ.limits) sa v x = bIn σ.limits x := by
    intro v x hx
    exact upd_ne (fun e => hx (by simp [PTree.addrs, e]))
  split at h
  · -- the node was even: it now leans to the right
    rename_i hz
    rw [hsb] at hz
    obtain ⟨rb, it, hb'⟩ := fix_b_bal (v := 1) hp ht0 hsn
    have hst : st' = { σ with limits := store σ.limits sa { sn with b := 1 } } := by
      cases h; rfl
    have hfix : fix = true := by cases h; rfl
    subst hst hfix
    have hBsa : Function.update (bIn σ.limits) sa 1 sa = 1 := upd_eq
    refine ⟨_, _, rb, it, ?_, ?_, rfl, ?_, ?_⟩
    · show Balanced (bIn (store σ.limits sa { sn with b := 1 })) _
      rw [hb']
      exact balanced_node (balanced_upd hsal hbl) (balanced_upd hsar hbr)
        (by rw [hBsa]; omega) (by rw [hBsa]; omega) (by rw [hBsa])
    · intro x hx
      show bIn (store σ.limits sa { sn with b := 1 }) x = _
      rw [hb']; exact hframe1 _ x hx
    · intro _
      refine ⟨?_, ?_⟩
      · simp only [PTree.height]; omega
      · show rootB (bIn (store σ.limits sa { sn with b := 1 })) _ ≠ 0
        rw [hb']; simp only [rootB, upd_eq]; decide
    · intro hf; cases hf
  · split at h
    · -- the node leaned to the left: it is now even
      rename_i hnz hm
      rw [hsb] at hm
      obtain ⟨rb, it, hb'⟩ := fix_b_bal (v := 0) hp ht0 hsn
      have hst : st' = { σ with limits := store σ.limits sa { sn with b := 0 } } := by
        cases h; rfl
      have hfix : fix = false := by cases h; rfl
      subst hst hfix
      have hBsa : Function.update (bIn σ.limits) sa 0 sa = 0 := upd_eq
      refine ⟨_, _, rb, it, ?_, ?_, rfl, ?_, ?_⟩
      · show Balanced (bIn (store σ.limits sa { sn with b := 0 })) _
        rw [hb']
        exact balanced_node (balanced_upd hsal hbl) (balanced_upd hsar hbr)
          (by rw [hBsa]; omega) (by rw [hBsa]; omega) (by rw [hBsa]; omega)
      · intro x hx
        show bIn (store σ.limits sa { sn with b := 0 }) x = _
        rw [hb']; exact hframe1 _ x hx
      · intro hf; cases hf
      · intro _
        simp only [PTree.height]; omega
    · -- the node leaned to the right already: rotate
      rename_i hnz hnm
      rw [hsb] at hnz hnm
      have hone : bIn σ.limits sa = 1 := by omega
      clear hnz hnm
      obtain ⟨⟨ca, cn⟩, hcn, h⟩ := bind_ok h
      obtain ⟨⟨limits1, s1⟩, hrot, h⟩ := bind_ok h
      obtain ⟨st1, hw, h⟩ := bind_ok h
      have hst : st' = st1 := by cases h; rfl
      have hfix : fix = false := by cases h; rfl
      subst hst hfix
      simp only at hrot hw hcn
      rw [children_core, ← hcsn] at hcn
      obtain ⟨hcp, hcl, -⟩ := deref_core hcn
      have hcb : cn.b = bIn σ.limits ca := (bIn_of_getElem hcl).symm
      split at hrot
      · -- the right child leans to the right: one rotation
        rename_i hc1
        rw [hcb] at hc1
        have hw0 := singlerot_tree (Or.inl rfl) ht0 hnd0 hrot
        obtain ⟨l', sa', m, ra, rr, heq, rfl, it2, hb'⟩ := singlerot_shape_pos ht0 hnd0 hrot
        cases heq
        obtain ⟨rb, it, hbw, hsz⟩ := fix_rotation_bal hp hown hw0 it2 hw
        obtain ⟨hrp, -⟩ := hr
        have hrp' : cs.child 1 = some ra := hrp
        rw [hrp'] at hcp
        have hca := Option.some.inj hcp
        subst hca
        obtain ⟨hbm, hbrr, hr3, hr4, hr5, hr6, hr7⟩ := hbr
        simp only [PTree.addrs] at hndr hsar hd
        obtain ⟨-, -, hram, harr, -⟩ := nodup_mid hndr
        have hsam : sa ∉ m.addrs := fun e => hsar (by simp [e])
        have hsarr : sa ∉ rr.addrs := fun e => hsar (by simp [e])
        have hral : ra ∉ l.addrs := fun e => hd ra e (by simp)
        have hB : ∀ x, bIn st'.limits x =
            Function.update (Function.update (bIn σ.limits) sa 0) ra 0 x :=
          fun x => by rw [hbw, hb']
        have hBsa : bIn st'.limits sa = 0 := by
          rw [hB, upd_ne (fun e => hsar (by simp [e])), upd_eq]
        have hBra : bIn st'.limits ra = 0 := by rw [hB, upd_eq]
        have hBo : ∀ x, x ≠ sa → x ≠ ra → bIn st'.limits x = bIn σ.limits x :=
          fun x h1 h2 => by rw [hB, upd_ne h2, upd_ne h1]
        have fr : ∀ {t : PTree}, sa ∉ t.addrs → ra ∉ t.addrs → Balanced (bIn σ.limits) t →
            Balanced (bIn st'.limits) t := fun h1 h2 hbt =>
          balanced_congr (fun x hx =>
            hBo x (ne_of_mem_of_not_mem hx h1) (ne_of_mem_of_not_mem hx h2)) hbt
        obtain ⟨hbal, hht, -⟩ := balanced_srot_pos (fr hsal hral hbl) (fr hsam hram hbm)
          (fr hsarr harr hbrr) hone hb hr5 hc1 hBsa hBra
        refine ⟨_, _, rb, it, hbal, ?_, hsz, ?_, ?_⟩
        · intro x hx
          simp only [PTree.addrs, List.mem_append, List.mem_cons, not_or] at hx
          exact hBo x hx.2.1 hx.2.2.2.1
        · intro hf; cases hf
        · intro _; exact hht
      · -- the right child leans to the left: two rotations
        rename_i hc1
        rw [hcb] at hc1
        have hw0 := doublerot_tree (Or.inl rfl) ht0 hnd0 hrot
        obtain ⟨l', sa', m1, pa, m2, ra, rr, heq, rfl, it2, hb'⟩ :=
          doublerot_shape_pos ht0 hnd0 hrot
        cases heq
        obtain ⟨rb, it, hbw, hsz⟩ := fix_rotation_bal hp hown hw0 it2 hw
        obtain ⟨hrp, -⟩ := hr
        have hrp' : cs.child 1 = some ra := hrp
        rw [hrp'] at hcp
        have hca := Option.some.inj hcp
        subst hca
        have hra0 : bIn σ.limits ra ≠ 0 := by
          rcases hrb with h1 | h1
          · omega
          · exact h1
        obtain ⟨hbml, hbrr, hr3, hr4, hr5, hr6, hr7⟩ := hbr
        obtain ⟨hbm1, hbm2, hp3, hp4, hp5, hp6, hp7⟩ := hbml
        simp only [PTree.addrs] at hndr hsar hd
        obtain ⟨hndml, -, hraml, harr, hdr⟩ := nodup_mid hndr
        obtain ⟨-, -, hpam1, hpam2, -⟩ := nodup_mid hndml
        have hsam1 : sa ∉ m1.addrs := fun e => hsar (by simp [e])
        have hsam2 : sa ∉ m2.addrs := fun e => hsar (by simp [e])
        have hsarr : sa ∉ rr.addrs := fun e => hsar (by simp [e])
        have hral : ra ∉ l.addrs := fun e => hd ra e (by simp)
        have hpal : pa ∉ l.addrs := fun e => hd pa e (by simp)
        have hram1 : ra ∉ m1.addrs := fun e => hraml (by simp [e])
        have hram2 : ra ∉ m2.addrs := fun e => hraml (by simp [e])
        have hparr : pa ∉ rr.addrs := fun e => hdr pa (by simp) e
        obtain ⟨v1, v2, hX, hvals⟩ := drot_vals_pos (bIn σ.limits pa)
        rw [hX] at hb'
        simp only at hb'
        have hB : ∀ x, bIn st'.limits x =
            Function.update (Function.update (Function.update (bIn σ.limits) sa v1) ra v2)
              pa 0 x :=
          fun x => by rw [hbw, hb']
        have hBsa : bIn st'.limits sa = v1 := by
          rw [hB, upd_ne (fun e => hsar (by simp [e])), upd_ne (fun e => hsar (by simp [e])),
            upd_eq]
        have hBra : bIn st'.limits ra = v2 := by
          rw [hB, upd_ne (fun e => hraml (by simp [e])), upd_eq]
        have hBpa : bIn st'.limits pa = 0 := by rw [hB, upd_eq]
        have hBo : ∀ x, x ≠ sa → x ≠ ra → x ≠ pa → bIn st'.limits x = bIn σ.limits x :=
          fun x h1 h2 h3 => by rw [hB, upd_ne h3, upd_ne h2, upd_ne h1]
        have fr : ∀ {t : PTree}, sa ∉ t.addrs → ra ∉ t.addrs → pa ∉ t.addrs →
            Balanced (bIn σ.limits) t → Balanced (bIn st'.limits) t := fun h1 h2 h3 hbt =>
          balanced_congr (fun x hx =>
            hBo x (ne_of_mem_of_not_mem hx h1) (ne_of_mem_of_not_mem hx h2)
              (ne_of_mem_of_not_mem hx h3)) hbt
        obtain ⟨hbal, hht, -⟩ := balanced_drot_pos (fr hsal hral hpal hbl)
          (fr hsam1 hram1 hpam1 hbm1) (fr hsam2 hram2 hpam2 hbm2) (fr hsarr harr hparr hbrr)
          hone hb hr5 hc1 hra0 hr6 hr7 hp5 hp6 hp7 hvals hBsa hBra hBpa
        refine ⟨_, _, rb, it, hbal, ?_, hsz, ?_, ?_⟩
        · intro x hx
          simp only [PTree.addrs, List.mem_append, List.mem_cons, not_or] at hx
          exact hBo x hx.2.1 hx.2.2.2.1 hx.2.2.1.2.1
        · intro hf; cases hf
        · intro _; exact hht

/-- `putFix(-1, qp)` after the left subtree of the node in the slot has grown by
one level: the slot then holds a balanced tree; its height is one more than
the height the node had before exactly when `putFix` returns `true`, and then
the indicator at its root is not 0. -/
theorem putFix_bal_neg {σ st' : TreeState} {Q : Slot} {p : Ptr} {l r : PTree} {sa : Nat}
    {fix : Bool}
    (hp : slotPtr (coreHeap σ.limits) σ.tree.root Q = some p)
    (ht : IsTree (coreHeap σ.limits) (.node l sa r) p)
    (hnd : (PTree.node l sa r).addrs.Nodup)
    (hown : ∀ q, Q.owner = some q → q ∉ (PTree.node l sa r).addrs)
    (hbl : Balanced (bIn σ.limits) l) (hbr : Balanced (bIn σ.limits) r)
    (hb : bIn σ.limits sa = (r.height : Int) - ((l.height : Int) - 1))
    (hb1 : -1 ≤ bIn σ.limits sa) (hb2 : bIn σ.limits sa ≤ 1)
    (hl1 : 1 ≤ l.height)
    (hlb : l.height = 1 ∨ rootB (bIn σ.limits) l ≠ 0)
    (h : putFix σ (-1) Q = .ok (st', fix)) :
    ∃ p' t', slotPtr (coreHeap st'.limits) st'.tree.root Q = some p' ∧
      IsTree (coreHeap st'.limits) t' p' ∧ Balanced (bIn st'.limits) t' ∧
      (∀ x, x ∉ (PTree.node l sa r).addrs → bIn st'.limits x = bIn σ.limits x) ∧
      st'.tree.size = σ.tree.size ∧
      (fix = true → t'.height = max (l.height - 1) r.height + 2 ∧
        rootB (bIn st'.limits) t' ≠ 0) ∧
      (fix = false → t'.height = max (l.height - 1) r.height + 1) := by
  unfold putFix at h
  simp only [dirIndex_neg, neg_neg_one] at h
  obtain ⟨s, hs, h⟩ := bind_ok h
  have hps := readSlot_core hs
  rw [hp] at hps
  cases hps
  obtain ⟨⟨sa0, sn⟩, hsn, h⟩ := bind_ok h
  simp only at h
  have hnd0 := hnd
  have ht0 := ht
  obtain ⟨hpp, cs, hcs, hl, hr⟩ := ht
  subst hpp
  obtain ⟨hsp, hsl, hsc⟩ := deref_core hsn
  cases hsp
  rw [hcs] at hsc
  have hcsn : cs = sn.core := by simpa using hsc
  have hsb : sn.b = bIn σ.limits sa := (bIn_of_getElem hsl).symm
  simp only [PTree.addrs] at hnd
  obtain ⟨hndl, hndr, hsal, hsar, hd⟩ := nodup_mid hnd
  have hframe1 : ∀ (v : Int) (x : Nat), x ∉ (PTree.node l sa r).addrs →
      Function.update (bIn σ.limits) sa v x = bIn σ.limits x := by
    intro v x hx
    exact upd_ne (fun e => hx (by simp [PTree.addrs, e]))
  split at h
  · -- the node was even: it now leans to the left
    rename_i hz
    rw [hsb] at hz
    obtain ⟨rb, it, hb'⟩ := fix_b_bal (v := -1) hp ht0 hsn
    have hst : st' = { σ with limits := store σ.limits sa { sn with b := -1 } } := by
      cases h; rfl
    have hfix : fix = true := by cases h; rfl
    subst hst hfix
    have hBsa : Function.update (bIn σ.limits) sa (-1) sa = -1 := upd_eq
    refine ⟨_, _, rb, it, ?_, ?_, rfl, ?_, ?_⟩
    · show Balanced (bIn (store σ.limits sa { sn with b := -1 })) _
      rw [hb']
      exact balanced_node (balanced_upd hsal hbl) (balanced_upd hsar hbr)
        (by rw [hBsa]; omega) (by rw [hBsa]) (by rw [hBsa]; omega)
    · intro x hx
      show bIn (store σ.limits sa { sn with b := -1 }) x = _
      rw [hb']; exact hframe1 _ x hx
    · intro _
      refine ⟨?_, ?_⟩
      · simp only [PTree.height]; omega
      · show rootB (bIn (store σ.limits sa { sn with b := -1 })) _ ≠ 0
        rw [hb']; simp only [rootB, upd_eq]; decide
    · intro hf; cases hf
  · split at h
    · -- the node leaned to the right: it is now even
      rename_i hnz hm
      rw [hsb] at hm
      obtain ⟨rb, it, hb'⟩ := fix_b_bal (v := 0) hp ht0 hsn
      have hst : st' = { σ with limits := store σ.limits sa { sn with b := 0 } } := by
        cases h; rfl
      have hfix : fix = false := by cases h; rfl
      subst hst hfix
      have hBsa : Function.update (bIn σ.limits) sa 0 sa = 0 := upd_eq
      refine ⟨_, _, rb, it, ?_, ?_, rfl, ?_, ?_⟩
      · show Balanced (bIn (store σ.limits sa { sn with b := 0 })) _
        rw [hb']
        exact balanced_node (balanced_upd hsal hbl) (balanced_upd hsar hbr)
          (by rw [hBsa]; omega) (by rw [hBsa]; omega) (by rw [hBsa]; omega)
      · intro x hx
        show bIn (store σ.limits sa { sn with b := 0 }) x = _
        rw [hb']; exact hframe1 _ x hx
      · intro hf; cases hf
      · intro _
        simp only [PTree.height]; omega
    · -- the node leaned to the left already: rotate
      rename_i hnz hnm
      rw [hsb] at hnz hnm
      have hone : bIn σ.limits sa = -1 := by omega
      clear hnz hnm
      obtain ⟨⟨ca, cn⟩, hcn, h⟩ := bind_ok h
      obtain ⟨⟨limits1, s1⟩, hrot, h⟩ := bind_ok h
      obtain ⟨st1, hw, h⟩ := bind_ok h
      have hst : st' = st1 := by cases h; rfl
      have hfix : fix = false := by cases h; rfl
      subst hst hfix
      simp only at hrot hw hcn
      rw [children_core, ← hcsn] at hcn
      obtain ⟨hcp, hcl, -⟩ := deref_core hcn
      have hcb : cn.b = bIn σ.limits ca := (bIn_of_getElem hcl).symm
      split at hrot
      · -- the left child leans to the left: one rotation
        rename_i hc1
        rw [hcb] at hc1
        have hw0 := singlerot_tree (Or.inr rfl) ht0 hnd0 hrot
        obtain ⟨ll, ra, m, sa', tr, heq, rfl, it2, hb'⟩ := singlerot_shape_neg ht0 hnd0 hrot
        cases heq
        obtain ⟨rb, it, hbw, hsz⟩ := fix_rotation_bal hp hown hw0 it2 hw
        obtain ⟨hlp, -⟩ := hl
        have hlp' : cs.child 0 = some ra := hlp
        rw [hlp'] at hcp
        have hca := Option.some.inj hcp
        subst hca
        obtain ⟨hbll, hbm, hr3, hr4, hr5, hr6, hr7⟩ := hbl
        simp only [PTree.addrs] at hndl hsal hd
        obtain ⟨-, -, hrall, hram, -⟩ := nodup_mid hndl
        have hsall : sa ∉ ll.addrs := fun e => hsal (by simp [e])
        have hsam : sa ∉ m.addrs := fun e => hsal (by simp [e])
        have hratr : ra ∉ r.addrs := fun e => hd ra (by simp) e
        have hB : ∀ x, bIn st'.limits x =
            Function.update (Function.update (bIn σ.limits) sa 0) ra 0 x :=
          fun x => by rw [hbw, hb']
        have hBsa : bIn st'.limits sa = 0 := by
          rw [hB, upd_ne (fun e => hsal (by simp [e])), upd_eq]
        have hBra : bIn st'.limits ra = 0 := by rw [hB, upd_eq]
        have hBo : ∀ x, x ≠ sa → x ≠ ra → bIn st'.limits x = bIn σ.limits x :=
          fun x h1 h2 => by rw [hB, upd_ne h2, upd_ne h1]
        have fr : ∀ {t : PTree}, sa ∉ t.addrs → ra ∉ t.addrs → Balanced (bIn σ.limits) t →
            Balanced (bIn st'.limits) t := fun h1 h2 hbt =>
          balanced_congr (fun x hx =>
            hBo x (ne_of_mem_of_not_mem hx h1) (ne_of_mem_of_not_mem hx h2)) hbt
        obtain ⟨hbal, hht, -⟩ := balanced_srot_neg (fr hsall hrall hbll) (fr hsam hram hbm)
          (fr hsar hratr hbr) hone hb hr5 hc1 hBsa hBra
        refine ⟨_, _, rb, it, hbal, ?_, hsz, ?_, ?_⟩
        · intro x hx
          simp only [PTree.addrs, List.mem_append, List.mem_cons, not_or] at hx
          exact hBo x hx.2.1 hx.1.2.1
        · intro hf; cases hf
        · intro _; exact hht
      · -- the left child leans to the right: two rotations
        rename_i hc1
        rw [hcb] at hc1
        have hw0 := doublerot_tree (Or.inr rfl) ht0 hnd0 hrot
        obtain ⟨ll, ra, m1, pa, m2, sa', tr, heq, rfl, it2, hb'⟩ :=
          doublerot_shape_neg ht0 hnd0 hrot
        cases heq
        obtain ⟨rb, it, hbw, hsz⟩ := fix_rotation_bal hp hown hw0 it2 hw
        obtain ⟨hlp, -⟩ := hl
        have hlp' : cs.child 0 = some ra := hlp
        rw [hlp'] at hcp
        have hca := Option.some.inj hcp
        subst hca
        have hra0 : bIn σ.limits ra ≠ 0 := by
          rcases hlb with h1 | h1
          · omega
          · exact h1
        obtain ⟨hbll, hbmr, hr3, hr4, hr5, hr6, hr7⟩ := hbl
        obtain ⟨hbm1, hbm2, hp3, hp4, hp5, hp6, hp7⟩ := hbmr
        simp only [PTree.addrs] at hndl hsal hd
        obtain ⟨-, hndmr, hrall, hramr, hdl⟩ := nodup_mid hndl
        obtain ⟨-, -, hpam1, hpam2, -⟩ := nodup_mid hndmr
        have hsall : sa ∉ ll.addrs := fun e => hsal (by simp [e])
        have hsam1 : sa ∉ m1.addrs := fun e => hsal (by simp [e])
        have hsam2 : sa ∉ m2.addrs := fun e => hsal (by simp [e])
        have hratr : ra ∉ r.addrs := fun e => hd ra (by simp) e
        have hpatr : pa ∉ r.addrs := fun e => hd pa (by simp) e
        have hram1 : ra ∉ m1.addrs := fun e => hramr (by simp [e])
        have hram2 : ra ∉ m2.addrs := fun e => hramr (by simp [e])
        have hpall : pa ∉ ll.addrs := fun e => hdl pa e (by simp)
        obtain ⟨v1, v2, hX, hvals⟩ := drot_vals_neg (bIn σ.limits pa)
        rw [hX] at hb'
        simp only at hb'
        have hB : ∀ x, bIn st'.limits x =
            Function.update (Function.update (Function.update (bIn σ.limits) sa v1) ra v2)
              pa 0 x :=
          fun x => by rw [hbw, hb']
        have hBsa : bIn st'.limits sa = v1 := by
          rw [hB, upd_ne (fun e => hsal (by simp [e])), upd_ne (fun e => hsal (by simp [e])),
            upd_eq]
        have hBra : bIn st'.limits ra = v2 := by
          rw [hB, upd_ne (fun e => hramr (by simp [e])), upd_eq]
        have hBpa : bIn st'.limits pa = 0 := by rw [hB, upd_eq]
        have hBo : ∀ x, x ≠ sa → x ≠ ra → x ≠ pa → bIn st'.limits x = bIn σ.limits x :=
          fun x h1 h2 h3 => by rw [hB, upd_ne h3, upd_ne h2, upd_ne h1]
        have fr : ∀ {t : PTree}, sa ∉ t.addrs → ra ∉ t.addrs → pa ∉ t.addrs →
            Balanced (bIn σ.limits) t → Balanced (bIn st'.limits) t := fun h1 h2 h3 hbt =>
          balanced_congr (fun x hx =>
            hBo x (ne_of_mem_of_not_mem hx h1) (ne_of_mem_of_not_mem hx h2)
              (ne_of_mem_of_not_mem hx h3)) hbt
        obtain ⟨hbal, hht, -⟩ := balanced_drot_neg (fr hsall hrall hpall hbll)
          (fr hsam1 hram1 hpam1 hbm1) (fr hsam2 hram2 hpam2 hbm2) (fr hsar hratr hpatr hbr)
          hone hb hr5 hc1 hra0 hr6 hr7 hp5 hp6 hp7 hvals hBsa hBra hBpa
        refine ⟨_, _, rb, it, hbal, ?_, hsz, ?_, ?_⟩
        · intro x hx
          simp only [PTree.addrs, List.mem_append, List.mem_cons, not_or] at hx
          exact hBo x hx.2.1 hx.1.2.1 hx.1.2.2.2.1
        · intro hf; cases hf
        · intro _; exact hht

/-- `removeFix(1, qp)` after the left subtree of the node in the slot has
lost one level: the slot then holds a balanced tree; its height is one less
than the height the node had before exactly when `removeFix` returns `true`. -/
theorem removeFix_bal_pos {σ st' : TreeState} {Q : Slot} {p : Ptr} {l r : PTree} {sa : Nat}
    {fix : Bool}
    (hp : slotPtr (coreHeap σ.limits) σ.tree.root Q = some p)
    (ht : IsTree (coreHeap σ.limits) (.node l sa r) p)
    (hnd : (PTree.node l sa r).addrs.Nodup)
    (hown : ∀ q, Q.owner = some q → q ∉ (PTree.node l sa r).addrs)
    (hbl : Balanced (bIn σ.limits) l) (hbr : Balanced (bIn σ.limits) r)
    (hb : bIn σ.limits sa = (r.height : Int) - ((l.height : Int) + 1))
    (hb1 : -1 ≤ bIn σ.limits sa) (hb2 : bIn σ.limits sa ≤ 1)
    (h : removeFix σ 1 Q = .ok (st', fix)) :
    ∃ p' t', slotPtr (coreHeap st'.limits) st'.tree.root Q = some p' ∧
      IsTree (coreHeap st'.limits) t' p' ∧ Balanced (bIn st'.limits) t' ∧
      (∀ x, x ∉ (PTree.node l sa r).addrs → bIn st'.limits x = bIn σ.limits x) ∧
      st'.tree.size = σ.tree.size ∧
      (fix = true → t'.height + 1 = max (l.height + 1) r.height + 1) ∧
      (fix = false → t'.height = max (l.height + 1) r.height + 1) := by
  unfold removeFix at h
  simp only [dirIndex_pos] at h
  obtain ⟨s, hs, h⟩ := bind_ok h
  have hps := readSlot_core hs
  rw [hp] at hps
  cases hps
  obtain ⟨⟨sa0, sn⟩, hsn, h⟩ := bind_ok h
  simp only at h
  have hnd0 := hnd
  have ht0 := ht
  obtain ⟨hpp, cs, hcs, hl, hr⟩ := ht
  subst hpp
  obtain ⟨hsp, hsl, hsc⟩ := deref_core hsn
  cases hsp
  rw [hcs] at hsc
  have hcsn : cs = sn.core := by simpa using hsc
  have hsb : sn.b = bIn σ.limits sa := (bIn_of_getElem hsl).symm
  simp only [PTree.addrs] at hnd
  obtain ⟨hndl, hndr, hsal, hsar, hd⟩ := nodup_mid hnd
  have hframe1 : ∀ (v : Int) (x : Nat), x ∉ (PTree.node l sa r).addrs →
      Function.update (bIn σ.limits) sa v x = bIn σ.limits x := by
    intro v x hx
    exact upd_ne (fun e => hx (by simp [PTree.addrs, e]))
  split at h
  · -- the node was even: it now leans to the right
    rename_i hz
    rw [hsb] at hz
    obtain ⟨rb, it, hb'⟩ := fix_b_bal (v := 1) hp ht0 hsn
    have hst : st' = { σ with limits := store σ.limits sa { sn with b := 1 } } := by
      cases h; rfl
    have hfix : fix = false := by cases h; rfl
    subst hst hfix
    have hBsa : Function.update (bIn σ.limits) sa (1) sa = 1 := upd_eq
    refine ⟨_, _, rb, it, ?_, ?_, rfl, ?_, ?_⟩
    · show Balanced (bIn (store σ.limits sa { sn with b := 1 })) _
      rw [hb']
      exact balanced_node (balanced_upd hsal hbl) (balanced_upd hsar hbr)
        (by rw [hBsa]; omega) (by rw [hBsa]; omega) (by rw [hBsa])
    · intro x hx
      show bIn (store σ.limits sa { sn with b := 1 }) x = _
      rw [hb']; exact hframe1 _ x hx
    · intro hf; cases hf
    · intro _
      simp only [PTree.height]; omega
  · split at h
    · -- the node leaned to the left: it is now even
      rename_i hnz hm
      rw [hsb] at hm
      obtain ⟨rb, it, hb'⟩ := fix_b_bal (v := 0) hp ht0 hsn
      have hst : st' = { σ with limits := store σ.limits sa { sn with b := 0 } } := by
        cases h; rfl
      have hfix : fix = true := by cases h; rfl
      subst hst hfix
      have hBsa : Function.update (bIn σ.limits) sa 0 sa = 0 := upd_eq
      refine ⟨_, _, rb, it, ?_, ?_, rfl, ?_, ?_⟩
      · show Balanced (bIn (store σ.limits sa { sn with b := 0 })) _
        rw [hb']
        exact balanced_node (balanced_upd hsal hbl) (balanced_upd hsar hbr)
          (by rw [hBsa]; omega) (by rw [hBsa]; omega) (by rw [hBsa]; omega)
      · intro x hx
        show bIn (store σ.limits sa { sn with b := 0 }) x = _
        rw [hb']; exact hframe1 _ x hx
      · intro _
        simp only [PTree.height]; omega
      · intro hf; cases hf
    · -- the node leaned to the right already: rotate
      rename_i hnz hnm
      rw [hsb] at hnz hnm
      have hone : bIn σ.limits sa = 1 := by omega
      clear hnz hnm
      obtain ⟨⟨ca, cn⟩, hcn, h⟩ := bind_ok h
      simp only at h hcn
      rw [children_core, ← hcsn] at hcn
      obtain ⟨hcp, hcl, -⟩ := deref_core hcn
      have hcb : cn.b = bIn σ.limits ca := (bIn_of_getElem hcl).symm
      split at h
      · -- the right child is even: one rotation, and the height stays
        rename_i hc0
        rw [hcb] at hc0
        obtain ⟨⟨limits1, s1⟩, hrot, h⟩ := bind_ok h
        obtain ⟨⟨sa1, sn1⟩, hs1, h⟩ := bind_ok h
        obtain ⟨st1, hw, h⟩ := bind_ok h
        have hst : st' = st1 := by cases h; rfl
        have hfix : fix = false := by cases h; rfl
        subst hst hfix
        simp only at hrot hw hs1
        have hw0 := rotate_tree (Or.inl rfl) ht0 hnd0 hrot
        rw [← store_b_core (v := -1) hs1] at hw0
        obtain ⟨l', sa', m, ra, rr, heq, -, rfl, it2, -⟩ := rotate_shape_pos ht0 hnd0 hrot
        cases heq
        rw [← store_b_core (v := -1) hs1] at it2
        obtain ⟨rb, it, hbw, hsz⟩ := fix_rotation_bal hp hown hw0 it2 hw
        have hb' := store_b_bIn (v := -1) hs1
        rw [rotate_bIn hrot] at hb'
        have hs1p := (deref_core hs1).1
        have hsa1 := Option.some.inj hs1p
        subst hsa1
        obtain ⟨hrp, -⟩ := hr
        have hrp' : cs.child 1 = some ra := hrp
        rw [hrp'] at hcp
        have hca := Option.some.inj hcp
        subst hca
        obtain ⟨hbm, hbrr, hr3, hr4, hr5, hr6, hr7⟩ := hbr
        simp only [PTree.addrs] at hndr hsar hd
        obtain ⟨-, -, hram, harr, -⟩ := nodup_mid hndr
        have hsam : sa ∉ m.addrs := fun e => hsar (by simp [e])
        have hsarr : sa ∉ rr.addrs := fun e => hsar (by simp [e])
        have hral : ra ∉ l.addrs := fun e => hd ra e (by simp)
        have hsra : sa ≠ ra := fun e => hsar (by simp [e])
        have hB : ∀ x, bIn st'.limits x = Function.update (bIn σ.limits) ra (-1) x :=
          fun x => by rw [hbw, hb']
        have hBsa : bIn st'.limits sa = 1 := by rw [hB, upd_ne hsra, hone]
        have hBra : bIn st'.limits ra = -1 := by rw [hB, upd_eq]
        have hBo : ∀ x, x ≠ sa → x ≠ ra → bIn st'.limits x = bIn σ.limits x :=
          fun x _ h2 => by rw [hB, upd_ne h2]
        have fr : ∀ {t : PTree}, sa ∉ t.addrs → ra ∉ t.addrs → Balanced (bIn σ.limits) t →
            Balanced (bIn st'.limits) t := fun h1 h2 hbt =>
          balanced_congr (fun x hx =>
            hBo x (ne_of_mem_of_not_mem hx h1) (ne_of_mem_of_not_mem hx h2)) hbt
        obtain ⟨hbal, hht⟩ := balanced_rot_pos (fr hsal hral hbl) (fr hsam hram hbm)
          (fr hsarr harr hbrr) hone hb hr5 hc0 hBsa hBra
        refine ⟨_, _, rb, it, hbal, ?_, hsz, ?_, ?_⟩
        · intro x hx
          simp only [PTree.addrs, List.mem_append, List.mem_cons, not_or] at hx
          exact hBo x hx.2.1 hx.2.2.2.1
        · intro hf; cases hf
        · intro _; exact hht
      · rename_i hc0
        rw [hcb] at hc0
        obtain ⟨⟨limits1, s1⟩, hrot, h⟩ := bind_ok h
        obtain ⟨st1, hw, h⟩ := bind_ok h
        have hst : st' = st1 := by cases h; rfl
        have hfix : fix = true := by cases h; rfl
        subst hst hfix
        simp only at hrot hw
        split at hrot
        · -- the right child leans to the right: one rotation
          rename_i hc1
          rw [hcb] at hc1
          have hw0 := singlerot_tree (Or.inl rfl) ht0 hnd0 hrot
          obtain ⟨l', sa', m, ra, rr, heq, rfl, it2, hb'⟩ := singlerot_shape_pos ht0 hnd0 hrot
          cases heq
          obtain ⟨rb, it, hbw, hsz⟩ := fix_rotation_bal hp hown hw0 it2 hw
          obtain ⟨hrp, -⟩ := hr
          have hrp' : cs.child 1 = some ra := hrp
          rw [hrp'] at hcp
          have hca := Option.some.inj hcp
          subst hca
          obtain ⟨hbm, hbrr, hr3, hr4, hr5, hr6, hr7⟩ := hbr
          simp only [PTree.addrs] at hndr hsar hd
          obtain ⟨-, -, hram, harr, -⟩ := nodup_mid hndr
          have hsam : sa ∉ m.addrs := fun e => hsar (by simp [e])
          have hsarr : sa ∉ rr.addrs := fun e => hsar (by simp [e])
          have hral : ra ∉ l.addrs := fun e => hd ra e (by simp)
          have hsra : sa ≠ ra := fun e => hsar (by simp [e])
          have hB : ∀ x, bIn st'.limits x =
              Function.update (Function.update (bIn σ.limits) sa 0) ra 0 x :=
            fun x => by rw [hbw, hb']
          have hBsa : bIn st'.limits sa = 0 := by rw [hB, upd_ne hsra, upd_eq]
          have hBra : bIn st'.limits ra = 0 := by rw [hB, upd_eq]
          have hBo : ∀ x, x ≠ sa → x ≠ ra → bIn st'.limits x = bIn σ.limits x :=
            fun x h1 h2 => by rw [hB, upd_ne h2, upd_ne h1]
          have fr : ∀ {t : PTree}, sa ∉ t.addrs → ra ∉ t.addrs → Balanced (bIn σ.limits) t →
              Balanced (bIn st'.limits) t := fun h1 h2 hbt =>
            balanced_congr (fun x hx =>
              hBo x (ne_of_mem_of_not_mem hx h1) (ne_of_mem_of_not_mem hx h2)) hbt
          have hbc : bIn σ.limits sa = ((PTree.node m ra rr).height : Int) - 1 - (l.height : Int) := by
            omega
          obtain ⟨hbal, -, hht⟩ := balanced_srot_pos (fr hsal hral hbl) (fr hsam hram hbm)
            (fr hsarr harr hbrr)
            hone hbc hr5 hc1 hBsa hBra
          refine ⟨_, _, rb, it, hbal, ?_, hsz, ?_, ?_⟩
          · intro x hx
            simp only [PTree.addrs, List.mem_append, List.mem_cons, not_or] at hx
            exact hBo x hx.2.1 hx.2.2.2.1
          · intro _; exact hht
          · intro hf; cases hf
        · -- the right child leans to the left: two rotations
          rename_i hc1
          rw [hcb] at hc1
          have hw0 := doublerot_tree (Or.inl rfl) ht0 hnd0 hrot
          obtain ⟨l', sa', m1, pa, m2, ra, rr, heq, rfl, it2, hb'⟩ :=
            doublerot_shape_pos ht0 hnd0 hrot
          cases heq
          obtain ⟨rb, it, hbw, hsz⟩ := fix_rotation_bal hp hown hw0 it2 hw
          obtain ⟨hrp, -⟩ := hr
          have hrp' : cs.child 1 = some ra := hrp
          rw [hrp'] at hcp
          have hca := Option.some.inj hcp
          subst hca
          obtain ⟨hbml, hbrr, hr3, hr4, hr5, hr6, hr7⟩ := hbr
          obtain ⟨hbm1, hbm2, hp3, hp4, hp5, hp6, hp7⟩ := hbml
          simp only [PTree.addrs] at hndr hsar hd
          obtain ⟨hndml, -, hraml, harr, hdr⟩ := nodup_mid hndr
          obtain ⟨-, -, hpam1, hpam2, -⟩ := nodup_mid hndml
          have hsam1 : sa ∉ m1.addrs := fun e => hsar (by simp [e])
          have hsam2 : sa ∉ m2.addrs := fun e => hsar (by simp [e])
          have hsarr : sa ∉ rr.addrs := fun e => hsar (by simp [e])
          have hral : ra ∉ l.addrs := fun e => hd ra e (by simp)
          have hpal : pa ∉ l.addrs := fun e => hd pa e (by simp)
          have hram1 : ra ∉ m1.addrs := fun e => hraml (by simp [e])
          have hram2 : ra ∉ m2.addrs := fun e => hraml (by simp [e])
          have hparr : pa ∉ rr.addrs := fun e => hdr pa (by simp) e
          have hsra : sa ≠ ra := fun e => hsar (by simp [e])
          have hspa : sa ≠ pa := fun e => hsar (by simp [e])
          have hrpa : ra ≠ pa := fun e => hraml (by simp [e])
          obtain ⟨v1, v2, hX, hvals⟩ := drot_vals_pos (bIn σ.limits pa)
          rw [hX] at hb'
          simp only at hb'
          have hB : ∀ x, bIn st'.limits x =
              Function.update (Function.update (Function.update (bIn σ.limits) sa v1) ra v2)
                pa 0 x :=
            fun x => by rw [hbw, hb']
          have hBsa : bIn st'.limits sa = v1 := by rw [hB, upd_ne hspa, upd_ne hsra, upd_eq]
          have hBra : bIn st'.limits ra = v2 := by rw [hB, upd_ne hrpa, upd_eq]
          have hBpa : bIn st'.limits pa = 0 := by rw [hB, upd_eq]
          have hBo : ∀ x, x ≠ sa → x ≠ ra → x ≠ pa → bIn st'.limits x = bIn σ.limits x :=
            fun x h1 h2 h3 => by rw [hB, upd_ne h3, upd_ne h2, upd_ne h1]
          have fr : ∀ {t : PTree}, sa ∉ t.addrs → ra ∉ t.addrs → pa ∉ t.addrs →
              Balanced (bIn σ.limits) t → Balanced (bIn st'.limits) t := fun h1 h2 h3 hbt =>
            balanced_congr (fun x hx =>
              hBo x (ne_of_mem_of_not_mem hx h1) (ne_of_mem_of_not_mem hx h2)
                (ne_of_mem_of_not_mem hx h3)) hbt
          have hbc : bIn σ.limits sa = ((PTree.node (.node m1 pa m2) ra rr).height : Int) - 1 - (l.height : Int) := by
            omega
          obtain ⟨hbal, -, hht⟩ := balanced_drot_pos (fr hsal hral hpal hbl)
            (fr hsam1 hram1 hpam1 hbm1) (fr hsam2 hram2 hpam2 hbm2) (fr hsarr harr hparr hbrr)
            hone hbc hr5 hc1 hc0 hr6 hr7 hp5 hp6 hp7 hvals hBsa hBra hBpa
          refine ⟨_, _, rb, it, hbal, ?_, hsz, ?_, ?_⟩
          · intro x hx
            simp only [PTree.addrs, List.mem_append, List.mem_cons, not_or] at hx
            exact hBo x hx.2.1 hx.2.2.2.1 hx.2.2.1.2.1
          · intro _; exact hht
          · intro hf; cases hf

/-- `removeFix(-1, qp)` after the right subtree of the node in the slot has
lost one level: the slot then holds a balanced tree; its height is one less
than the height the node had before exactly when `removeFix` returns `true`. -/
theorem removeFix_bal_neg {σ st' : TreeState} {Q : Slot} {p : Ptr} {l r : PTree} {sa : Nat}
    {fix : Bool}
    (hp : slotPtr (coreHeap σ.limits) σ.tree.root Q = some p)
    (ht : IsTree (coreHeap σ.limits) (.node l sa r) p)
    (hnd : (PTree.node l sa r).addrs.Nodup)
    (hown : ∀ q, Q.owner = some q → q ∉ (PTree.node l sa r).addrs)
    (hbl : Balanced (bIn σ.limits) l) (hbr : Balanced (bIn σ.limits) r)
    (hb : bIn σ.limits sa = ((r.height : Int) + 1) - (l.height : Int))
    (hb1 : -1 ≤ bIn σ.limits sa) (hb2 : bIn σ.limits sa ≤ 1)
    (h : removeFix σ (-1) Q = .ok (st', fix)) :
    ∃ p' t', slotPtr (coreHeap st'.limits) st'.tree.root Q = some p' ∧
      IsTree (coreHeap st'.limits) t' p' ∧ Balanced (bIn st'.limits) t' ∧
      (∀ x, x ∉ (PTree.node l sa r).addrs → bIn st'.limits x = bIn σ.limits x) ∧
      st'.tree.size = σ.tree.size ∧
      (fix = true → t'.height + 1 = max l.height (r.height + 1) + 1) ∧
      (fix = false → t'.height = max l.height (r.height + 1) + 1) := by
  unfold removeFix at h
  simp only [dirIndex_neg, neg_neg_one] at h
  obtain ⟨s, hs, h⟩ := bind_ok h
  have hps := readSlot_core hs
  rw [hp] at hps
  cases hps
  obtain ⟨⟨sa0, sn⟩, hsn, h⟩ := bind_ok h
  simp only at h
  have hnd0 := hnd
  have ht0 := ht
  obtain ⟨hpp, cs, hcs, hl, hr⟩ := ht
  subst hpp
  obtain ⟨hsp, hsl, hsc⟩ := deref_core hsn
  cases hsp
  rw [hcs] at hsc
  have hcsn : cs = sn.core := by simpa using hsc
  have hsb : sn.b = bIn σ.limits sa := (bIn_of_getElem hsl).symm
  simp only [PTree.addrs] at hnd
  obtain ⟨hndl, hndr, hsal, hsar, hd⟩ := nodup_mid hnd
  have hframe1 : ∀ (v : Int) (x : Nat), x ∉ (PTree.node l sa r).addrs →
      Function.update (bIn σ.limits) sa v x = bIn σ.limits x := by
    intro v x hx
    exact upd_ne (fun e => hx (by simp [PTree.addrs, e]))
  split at h
  · -- the node was even: it now leans to the left
    rename_i hz
    rw [hsb] at hz
    obtain ⟨rb, it, hb'⟩ := fix_b_bal (v := -1) hp ht0 hsn
    have hst : st' = { σ with limits := store σ.limits sa { sn with b := -1 } } := by
      cases h; rfl
    have hfix : fix = false := by cases h; rfl
    subst hst hfix
    have hBsa : Function.update (bIn σ.limits) sa (-1) sa = -1 := upd_eq
    refine ⟨_, _, rb, it, ?_, ?_, rfl, ?_, ?_⟩
    · show Balanced (bIn (store σ.limits sa { sn with b := -1 })) _
      rw [hb']
      exact balanced_node (balanced_upd hsal hbl) (balanced_upd hsar hbr)
        (by rw [hBsa]; omega) (by rw [hBsa]) (by rw [hBsa]; omega)
    · intro x hx
      show bIn (store σ.limits sa { sn with b := -1 }) x = _
      rw [hb']; exact hframe1 _ x hx
    · intro hf; cases hf
    · intro _
      simp only [PTree.height]; omega
  · split at h
    · -- the node leaned to the right: it is now even
      rename_i hnz hm
      rw [hsb] at hm
      obtain ⟨rb, it, hb'⟩ := fix_b_bal (v := 0) hp ht0 hsn
      have hst : st' = { σ with limits := store σ.limits sa { sn with b := 0 } } := by
        cases h; rfl
      have hfix : fix = true := by cases h; rfl
      subst hst hfix
      have hBsa : Function.update (bIn σ.limits) sa 0 sa = 0 := upd_eq
      refine ⟨_, _, rb, it, ?_, ?_, rfl, ?_, ?_⟩
      · show Balanced (bIn (store σ.limits sa { sn with b := 0 })) _
        rw [hb']
        exact balanced_node (balanced_upd hsal hbl) (balanced_upd hsar hbr)
          (by rw [hBsa]; omega) (by rw [hBsa]; omega) (by rw [hBsa]; omega)
      · intro x hx
        show bIn (store σ.limits sa { sn with b := 0 }) x = _
        rw [hb']; exact hframe1 _ x hx
      · intro _
        simp only [PTree.height]; omega
      · intro hf; cases hf
    · -- the node leaned to the left already: rotate
      rename_i hnz hnm
      rw [hsb] at hnz hnm
      have hone : bIn σ.limits sa = -1 := by omega
      clear hnz hnm
      obtain ⟨⟨ca, cn⟩, hcn, h⟩ := bind_ok h
      simp only at h hcn
      rw [children_core, ← hcsn] at hcn
      obtain ⟨hcp, hcl, -⟩ := deref_core hcn
      have hcb : cn.b = bIn σ.limits ca := (bIn_of_getElem hcl).symm
      split at h
      · -- the left child is even: one rotation, and the height stays
        rename_i hc0
        rw [hcb] at hc0
        obtain ⟨⟨limits1, s1⟩, hrot, h⟩ := bind_ok h
        obtain ⟨⟨sa1, sn1⟩, hs1, h⟩ := bind_ok h
        obtain ⟨st1, hw, h⟩ := bind_ok h
        have hst : st' = st1 := by cases h; rfl
        have hfix : fix = false := by cases h; rfl
        subst hst hfix
        simp only at hrot hw hs1
        have hw0 := rotate_tree (Or.inr rfl) ht0 hnd0 hrot
        rw [← store_b_core (v := 1) hs1] at hw0
        obtain ⟨ll, ra, m, sa', tr, heq, -, rfl, it2, -⟩ := rotate_shape_neg ht0 hnd0 hrot
        cases heq
        rw [← store_b_core (v := 1) hs1] at it2
        obtain ⟨rb, it, hbw, hsz⟩ := fix_rotation_bal hp hown hw0 it2 hw
        have hb' := store_b_bIn (v := 1) hs1
        rw [rotate_bIn hrot] at hb'
        have hs1p := (deref_core hs1).1
        have hsa1 := Option.some.inj hs1p
        subst hsa1
        obtain ⟨hrp, -⟩ := hl
        have hrp' : cs.child 0 = some ra := hrp
        rw [hrp'] at hcp
        have hca := Option.some.inj hcp
        subst hca
        obtain ⟨hbll, hbm, hr3, hr4, hr5, hr6, hr7⟩ := hbl
        simp only [PTree.addrs] at hndl hsal hd
        obtain ⟨-, -, hrall, hram, -⟩ := nodup_mid hndl
        have hsall : sa ∉ ll.addrs := fun e => hsal (by simp [e])
        have hsam : sa ∉ m.addrs := fun e => hsal (by simp [e])
        have hratr : ra ∉ r.addrs := fun e => hd ra (by simp) e
        have hsra : sa ≠ ra := fun e => hsal (by simp [e])
        have hB : ∀ x, bIn st'.limits x = Function.update (bIn σ.limits) ra (1) x :=
          fun x => by rw [hbw, hb']
        have hBsa : bIn st'.limits sa = -1 := by rw [hB, upd_ne hsra, hone]
        have hBra : bIn st'.limits ra = 1 := by rw [hB, upd_eq]
        have hBo : ∀ x, x ≠ sa → x ≠ ra → bIn st'.limits x = bIn σ.limits x :=
          fun x _ h2 => by rw [hB, upd_ne h2]
        have fr : ∀ {t : PTree}, sa ∉ t.addrs → ra ∉ t.addrs → Balanced (bIn σ.limits) t →
            Balanced (bIn st'.limits) t := fun h1 h2 hbt =>
          balanced_congr (fun x hx =>
            hBo x (ne_of_mem_of_not_mem hx h1) (ne_of_mem_of_not_mem hx h2)) hbt
        obtain ⟨hbal, hht⟩ := balanced_rot_neg (fr hsall hrall hbll) (fr hsam hram hbm)
          (fr hsar hratr hbr) hone hb hr5 hc0 hBsa hBra
        refine ⟨_, _, rb, it, hbal, ?_, hsz, ?_, ?_⟩
        · intro x hx
          simp only [PTree.addrs, List.mem_append, List.mem_cons, not_or] at hx
          exact hBo x hx.2.1 hx.1.2.1
        · intro hf; cases hf
        · intro _; exact hht
      · rename_i hc0
        rw [hcb] at hc0
        obtain ⟨⟨limits1, s1⟩, hrot, h⟩ := bind_ok h
        obtain ⟨st1, hw, h⟩ := bind_ok h
        have hst : st' = st1 := by cases h; rfl
        have hfix : fix = true := by cases h; rfl
        subst hst hfix
        simp only at hrot hw
        split at hrot
        · -- the left child leans to the left: one rotation
          rename_i hc1
          rw [hcb] at hc1
          have hw0 := singlerot_tree (Or.inr rfl) ht0 hnd0 hrot
          obtain ⟨ll, ra, m, sa', tr, heq, rfl, it2, hb'⟩ := singlerot_shape_neg ht0 hnd0 hrot
          cases heq
          obtain ⟨rb, it, hbw, hsz⟩ := fix_rotation_bal hp hown hw0 it2 hw
          obtain ⟨hrp, -⟩ := hl
          have hrp' : cs.child 0 = some ra := hrp
          rw [hrp'] at hcp
          have hca := Option.some.inj hcp
          subst hca
          obtain ⟨hbll, hbm, hr3, hr4, hr5, hr6, hr7⟩ := hbl
          simp only [PTree.addrs] at hndl hsal hd
          obtain ⟨-, -, hrall, hram, -⟩ := nodup_mid hndl
          have hsall : sa ∉ ll.addrs := fun e => hsal (by simp [e])
          have hsam : sa ∉ m.addrs := fun e => hsal (by simp [e])
          have hratr : ra ∉ r.addrs := fun e => hd ra (by simp) e
          have hsra : sa ≠ ra := fun e => hsal (by simp [e])
          have hB : ∀ x, bIn st'.limits x =
              Function.update (Function.update (bIn σ.limits) sa 0) ra 0 x :=
            fun x => by rw [hbw, hb']
          have hBsa : bIn st'.limits sa = 0 := by rw [hB, upd_ne hsra, upd_eq]
          have hBra : bIn st'.limits ra = 0 := by rw [hB, upd_eq]
          have hBo : ∀ x, x ≠ sa → x ≠ ra → bIn st'.limits x = bIn σ.limits x :=
            fun x h1 h2 => by rw [hB, upd_ne h2, upd_ne h1]
          have fr : ∀ {t : PTree}, sa ∉ t.addrs → ra ∉ t.addrs → Balanced (bIn σ.limits) t →
              Balanced (bIn st'.limits) t := fun h1 h2 hbt =>
            balanced_congr (fun x hx =>
              hBo x (ne_of_mem_of_not_mem hx h1) (ne_of_mem_of_not_mem hx h2)) hbt
          have hbc : bIn σ.limits sa = (r.height : Int) - (((PTree.node ll ra m).height : Int) - 1) := by
            omega
          obtain ⟨hbal, -, hht⟩ := balanced_srot_neg (fr hsall hrall hbll) (fr hsam hram hbm)
            (fr hsar hratr hbr)
            hone hbc hr5 hc1 hBsa hBra
          refine ⟨_, _, rb, it, hbal, ?_, hsz, ?_, ?_⟩
          · intro x hx
            simp only [PTree.addrs, List.mem_append, List.mem_cons, not_or] at hx
            exact hBo x hx.2.1 hx.1.2.1
          · intro _; exact hht
          · intro hf; cases hf
        · -- the left child leans to the right: two rotations
          rename_i hc1
          rw [hcb] at hc1
          have hw0 := doublerot_tree (Or.inr rfl) ht0 hnd0 hrot
          obtain ⟨ll, ra, m1, pa, m2, sa', tr, heq, rfl, it2, hb'⟩ :=
            doublerot_shape_neg ht0 hnd0 hrot
          cases heq
          obtain ⟨rb, it, hbw, hsz⟩ := fix_rotation_bal hp hown hw0 it2 hw
          obtain ⟨hrp, -⟩ := hl
          have hrp' : cs.child 0 = some ra := hrp
          rw [hrp'] at hcp
          have hca := Option.some.inj hcp
          subst hca
          obtain ⟨hbll, hbmr, hr3, hr4, hr5, hr6, hr7⟩ := hbl
          obtain ⟨hbm1, hbm2, hp3, hp4, hp5, hp6, hp7⟩ := hbmr
          simp only [PTree.addrs] at hndl hsal hd
          obtain ⟨-, hndmr, hrall, hramr, hdl⟩ := nodup_mid hndl
          obtain ⟨-, -, hpam1, hpam2, -⟩ := nodup_mid hndmr
          have hsall : sa ∉ ll.addrs := fun e => hsal (by simp [e])
          have hsam1 : sa ∉ m1.addrs := fun e => hsal (by simp [e])
          have hsam2 : sa ∉ m2.addrs := fun e => hsal (by simp [e])
          have hratr : ra ∉ r.addrs := fun e => hd ra (by simp) e
          have hpatr : pa ∉ r.addrs := fun e => hd pa (by simp) e
          have hram1 : ra ∉ m1.addrs := fun e => hramr (by simp [e])
          have hram2 : ra ∉ m2.addrs := fun e => hramr (by simp [e])
          have hpall : pa ∉ ll.addrs := fun e => hdl pa e (by simp)
          have hsra : sa ≠ ra := fun e => hsal (by simp [e])
          have hspa : sa ≠ pa := fun e => hsal (by simp [e])
          have hrpa : ra ≠ pa := fun e => hramr (by simp [e])
          obtain ⟨v1, v2, hX, hvals⟩ := drot_vals_neg (bIn σ.limits pa)
          rw [hX] at hb'
          simp only at hb'
          have hB : ∀ x, bIn st'.limits x =
              Function.update (Function.update (Function.update (bIn σ.limits) sa v1) ra v2)
                pa 0 x :=
            fun x => by rw [hbw, hb']
          have hBsa : bIn st'.limits sa = v1 := by rw [hB, upd_ne hspa, upd_ne hsra, upd_eq]
          have hBra : bIn st'.limits ra = v2 := by rw [hB, upd_ne hrpa, upd_eq]
          have hBpa : bIn st'.limits pa = 0 := by rw [hB, upd_eq]
          have hBo : ∀ x, x ≠ sa → x ≠ ra → x ≠ pa → bIn st'.limits x = bIn σ.limits x :=
            fun x h1 h2 h3 => by rw [hB, upd_ne h3, upd_ne h2, upd_ne h1]
          have fr : ∀ {t : PTree}, sa ∉ t.addrs → ra ∉ t.addrs → pa ∉ t.addrs →
              Balanced (bIn σ.limits) t → Balanced (bIn st'.limits) t := fun h1 h2 h3 hbt =>
            balanced_congr (fun x hx =>
              hBo x (ne_of_mem_of_not_mem hx h1) (ne_of_mem_of_not_mem hx h2)
                (ne_of_mem_of_not_mem hx h3)) hbt
          have hbc : bIn σ.limits sa = (r.height : Int) - (((PTree.node ll ra (.node m1 pa m2)).height : Int) - 1) := by
            omega
          obtain ⟨hbal, -, hht⟩ := balanced_drot_neg (fr hsall hrall hpall hbll)
            (fr hsam1 hram1 hpam1 hbm1) (fr hsam2 hram2 hpam2 hbm2) (fr hsar hratr hpatr hbr)
            hone hbc hr5 hc1 hc0 hr6 hr7 hp5 hp6 hp7 hvals hBsa hBra hBpa
          refine ⟨_, _, rb, it, hbal, ?_, hsz, ?_, ?_⟩
          · intro x hx
            simp only [PTree.addrs, List.mem_append, List.mem_cons, not_or] at hx
            exact hBo x hx.2.1 hx.1.2.1 hx.1.2.2.2.1
          · intro _; exact hht
          · intro hf; cases hf

/-! ## Balance along `put` -/

theorem nodup_join {l1 l2 : List Nat} {a : Nat} (h1 : l1.Nodup) (h2 : l2.Nodup)
    (ha1 : a ∉ l1) (ha2 : a ∉ l2) (hd : ∀ x ∈ l1, x ∉ l2) : (l1 ++ a :: l2).Nodup := by
  rw [List.nodup_append]
  refine ⟨h1, List.nodup_cons.mpr ⟨ha2, h2⟩, ?_⟩
  intro x hx1 hx2
  rcases List.mem_cons.mp hx2 with e | e
  · exact ha1 (e ▸ hx1)
  · exact hd x hx1 e

/-- The tree a fix function leaves in the slot has the walk of the tree it
found there. -/
theorem fix_addrs {f : TreeState → Int → Slot → Except Fault (TreeState × Bool)}
    (hf : FixSpec f) {σ st' : TreeState} {c : Int} {Q : Slot} {p p' : Ptr} {t t' : PTree}
    {fix : Bool} (hc : c = 1 ∨ c = -1)
    (hp : slotPtr (coreHeap σ.limits) σ.tree.root Q = some p)
    (ht : IsTree (coreHeap σ.limits) t p) (hnd : t.addrs.Nodup)
    (hown : ∀ q, Q.owner = some q → q ∉ t.addrs)
    (h : f σ c Q = .ok (st', fix))
    (hp' : slotPtr (coreHeap st'.limits) st'.tree.root Q = some p')
    (ht' : IsTree (coreHeap st'.limits) t' p') : t'.addrs = t.addrs := by
  obtain ⟨p2, t2, i2, e2, o2, r2, -⟩ := hf σ st' c Q p t fix hc hp ht hnd hown h
  have hrb := slot_readback hp hown o2 r2
  rw [hp'] at hrb
  cases hrb
  rw [isTree_unique ht' i2, e2]

/-- The walk of the tree `put` leaves in the slot. -/
theorem putPost_addrs {H H' : Nat → Option Core} {root root' : Ptr} {Q : Slot} {t t' : PTree}
    {la price : Nat} {p p' : Ptr}
    (hpost : PutPost H H' root root' Q t la price)
    (hp : slotPtr H root Q = some p) (hown : ∀ q, Q.owner = some q → q ∉ la :: t.addrs)
    (hnd : t.addrs.Nodup) (hlat : la ∉ t.addrs)
    (hp' : slotPtr H' root' Q = some p') (ht' : IsTree H' t' p') :
    OutsideEq (la :: t.addrs) (slotSet H Q p') H' ∧ root' = slotRoot root Q p' ∧
    t'.addrs.Nodup ∧ (∀ x ∈ t'.addrs, x ∈ la :: t.addrs) ∧
    (∀ x ∈ t.addrs, x ∈ t'.addrs) ∧
    (t'.addrs.length = t.addrs.length ∨ t'.addrs.length = t.addrs.length + 1) := by
  obtain ⟨p2, t2, i2, o2, r2, -, d2⟩ := hpost
  have hrb := slot_readback hp hown o2 r2
  rw [hp'] at hrb
  cases hrb
  have e := isTree_unique ht' i2
  subst e
  refine ⟨o2, r2, ?_⟩
  rcases d2 with ⟨e, -⟩ | ⟨pre, post, e1, e2, -, -⟩
  · rw [e]
    exact ⟨hnd, fun x hx => List.mem_cons_of_mem _ hx, fun x hx => hx, Or.inl rfl⟩
  · have hperm : t'.addrs.Perm (la :: t.addrs) := by
      rw [e1, e2]; exact List.perm_middle
    refine ⟨hperm.nodup_iff.mpr (List.nodup_cons.mpr ⟨hlat, hnd⟩),
      fun x hx => hperm.subset hx, fun x hx => hperm.symm.subset (List.mem_cons_of_mem _ hx),
      Or.inr ?_⟩
    rw [hperm.length_eq]; rfl

/-- The node of `put` after the call on its left subtree. -/
theorem put_mid_left {σ st1 : TreeState} {la qa : Nat} {Q : Slot} {l r : PTree} {cq : Core}
    {price : Nat} {fix1 : Bool}
    (hp : slotPtr (coreHeap σ.limits) σ.tree.root Q = some (some qa))
    (hqc : coreHeap σ.limits qa = some cq)
    (hr : IsTree (coreHeap σ.limits) r cq.c1)
    (hnd : (PTree.node l qa r).addrs.Nodup) (hlat : la ∉ (PTree.node l qa r).addrs)
    (hown : ∀ q, Q.owner = some q → q ∉ (PTree.node l qa r).addrs ∧ q ≠ la)
    (hbal : Balanced (bIn σ.limits) (.node l qa r))
    (hpost : PutPost (coreHeap σ.limits) (coreHeap st1.limits) σ.tree.root st1.tree.root
      (.child qa 0) l la price)
    (hrec : PutBal σ st1 (.child qa 0) l la price fix1) :
    ∃ l', slotPtr (coreHeap st1.limits) st1.tree.root Q = some (some qa) ∧
      IsTree (coreHeap st1.limits) (.node l' qa r) (some qa) ∧
      (PTree.node l' qa r).addrs.Nodup ∧
      (∀ x ∈ (PTree.node l' qa r).addrs, x ∈ la :: (PTree.node l qa r).addrs) ∧
      Balanced (bIn st1.limits) l' ∧ Balanced (bIn st1.limits) r ∧
      bIn st1.limits qa = (r.height : Int) - (l.height : Int) ∧
      -1 ≤ bIn st1.limits qa ∧ bIn st1.limits qa ≤ 1 ∧
      (∀ x, x ∉ la :: (PTree.node l qa r).addrs → bIn st1.limits x = bIn σ.limits x) ∧
      st1.tree.size + ((PTree.node l qa r).addrs.length : Int) =
        σ.tree.size + ((PTree.node l' qa r).addrs.length : Int) ∧
      (fix1 = true → l'.height = l.height + 1 ∧
        (l'.height = 1 ∨ rootB (bIn st1.limits) l' ≠ 0)) ∧
      (fix1 = false → l'.height = l.height) ∧
      ((∀ x ∈ l.addrs, priceIn (coreHeap σ.limits) x ≠ price) → la ∈ l'.addrs) := by
  obtain ⟨P, l', hPs, il', hbl', hfr, hsz, hfix1, hfix0, hmem⟩ := hrec
  simp only [PTree.addrs] at hnd hlat
  obtain ⟨hndl, hndr, hql, hqr, hd⟩ := nodup_mid hnd
  have hqla : qa ≠ la := fun e => hlat (by simp [e])
  have hlal : la ∉ l.addrs := fun hx => hlat (by simp [hx])
  have hlar : la ∉ r.addrs := fun hx => hlat (by simp [hx])
  have hslot : slotPtr (coreHeap σ.limits) σ.tree.root (.child qa 0) = some cq.c0 := by
    simp [slotPtr, hqc, Core.child]
  have hqG : qa ∉ la :: l.addrs := by
    simp only [List.mem_cons, not_or]; exact ⟨hqla, hql⟩
  obtain ⟨ol, rl, hndl', hsub, -, -⟩ := putPost_addrs hpost hslot
    (fun q hq => by
      simp only [Slot.owner, Option.some.injEq] at hq
      subst hq
      exact hqG) hndl hlal hPs il'
  rw [slotRoot_child] at rl
  obtain ⟨imid, omid⟩ := assemble_left (G := la :: l.addrs) hqc hr il' ol hqG
    (by
      intro x hx
      simp only [List.mem_cons, not_or]
      exact ⟨fun e => hlar (e ▸ hx), fun hx' => hd x hx' hx⟩)
    hqr
  have hBq : bIn st1.limits qa = bIn σ.limits qa := hfr qa hqG
  obtain ⟨-, hbr, -, -, hb3, hb4, hb5⟩ := hbal
  refine ⟨l', ?_, imid, ?_, ?_, hbl', ?_, by rw [hBq]; exact hb3, by rw [hBq]; exact hb4,
    by rw [hBq]; exact hb5, ?_, ?_, hfix1, hfix0, hmem⟩
  · rw [rl, ← hp]
    refine slotPtr_congr (fun q hq => omid q ?_)
    obtain ⟨h1, h2⟩ := hown q hq
    simp only [PTree.addrs, List.mem_append, List.mem_cons, not_or] at h1 ⊢
    exact ⟨h1.2.1, h2, h1.1⟩
  · simp only [PTree.addrs]
    refine nodup_join hndl' hndr ?_ hqr ?_
    · intro hx
      rcases List.mem_cons.mp (hsub qa hx) with e | e
      · exact hqla e
      · exact hql e
    · intro x hx hxr
      rcases List.mem_cons.mp (hsub x hx) with e | e
      · exact hlar (e ▸ hxr)
      · exact hd x e hxr
  · intro x hx
    simp only [PTree.addrs, List.mem_append, List.mem_cons] at hx ⊢
    rcases hx with hx | hx | hx
    · rcases List.mem_cons.mp (hsub x hx) with e | e
      · exact Or.inl e
      · exact Or.inr (Or.inl e)
    · exact Or.inr (Or.inr (Or.inl hx))
    · exact Or.inr (Or.inr (Or.inr hx))
  · refine balanced_congr (fun x hx => hfr x ?_) hbr
    simp only [List.mem_cons, not_or]
    exact ⟨fun e => hlar (e ▸ hx), fun hx' => hd x hx' hx⟩
  · intro x hx
    refine hfr x ?_
    simp only [PTree.addrs, List.mem_append, List.mem_cons, not_or] at hx ⊢
    exact ⟨hx.1, hx.2.1⟩
  · simp only [PTree.addrs, List.length_append, List.length_cons]
    push_cast
    omega

/-- The node of `put` after the call on its right subtree. -/
theorem put_mid_right {σ st1 : TreeState} {la qa : Nat} {Q : Slot} {l r : PTree} {cq : Core}
    {price : Nat} {fix1 : Bool}
    (hp : slotPtr (coreHeap σ.limits) σ.tree.root Q = some (some qa))
    (hqc : coreHeap σ.limits qa = some cq)
    (hl : IsTree (coreHeap σ.limits) l cq.c0)
    (hnd : (PTree.node l qa r).addrs.Nodup) (hlat : la ∉ (PTree.node l qa r).addrs)
    (hown : ∀ q, Q.owner = some q → q ∉ (PTree.node l qa r).addrs ∧ q ≠ la)
    (hbal : Balanced (bIn σ.limits) (.node l qa r))
    (hpost : PutPost (coreHeap σ.limits) (coreHeap st1.limits) σ.tree.root st1.tree.root
      (.child qa 1) r la price)
    (hrec : PutBal σ st1 (.child qa 1) r la price fix1) :
    ∃ r', slotPtr (coreHeap st1.limits) st1.tree.root Q = some (some qa) ∧
      IsTree (coreHeap st1.limits) (.node l qa r') (some qa) ∧
      (PTree.node l qa r').addrs.Nodup ∧
      (∀ x ∈ (PTree.node l qa r').addrs, x ∈ la :: (PTree.node l qa r).addrs) ∧
      Balanced (bIn st1.limits) l ∧ Balanced (bIn st1.limits) r' ∧
      bIn st1.limits qa = (r.height : Int) - (l.height : Int) ∧
      -1 ≤ bIn st1.limits qa ∧ bIn st1.limits qa ≤ 1 ∧
      (∀ x, x ∉ la :: (PTree.node l qa r).addrs → bIn st1.limits x = bIn σ.limits x) ∧
      st1.tree.size + ((PTree.node l qa r).addrs.length : Int) =
        σ.tree.size + ((PTree.node l qa r').addrs.length : Int) ∧
      (fix1 = true → r'.height = r.height + 1 ∧
        (r'.height = 1 ∨ rootB (bIn st1.limits) r' ≠ 0)) ∧
      (fix1 = false → r'.height = r.height) ∧
      ((∀ x ∈ r.addrs, priceIn (coreHeap σ.limits) x ≠ price) → la ∈ r'.addrs) := by
  obtain ⟨P, r', hPs, ir', hbr', hfr, hsz, hfix1, hfix0, hmem⟩ := hrec
  simp only [PTree.addrs] at hnd hlat
  obtain ⟨hndl, hndr, hql, hqr, hd⟩ := nodup_mid hnd
  have hqla : qa ≠ la := fun e => hlat (by simp [e])
  have hlal : la ∉ l.addrs := fun hx => hlat (by simp [hx])
  have hlar : la ∉ r.addrs := fun hx => hlat (by simp [hx])
  have hslot : slotPtr (coreHeap σ.limits) σ.tree.root (.child qa 1) = some cq.c1 := by
    simp [slotPtr, hqc, Core.child]
  have hqG : qa ∉ la :: r.addrs := by
    simp only [List.mem_cons, not_or]; exact ⟨hqla, hqr⟩
  obtain ⟨or1, rr, hndr', hsub, -, -⟩ := putPost_addrs hpost hslot
    (fun q hq => by
      simp only [Slot.owner, Option.some.injEq] at hq
      subst hq
      exact hqG) hndr hlar hPs ir'
  rw [slotRoot_child] at rr
  obtain ⟨imid, omid⟩ := assemble_right (G := la :: r.addrs) hqc hl ir' or1 hqG
    (by
      intro x hx
      simp only [List.mem_cons, not_or]
      exact ⟨fun e => hlal (e ▸ hx), fun hx' => hd x hx hx'⟩)
    hql
  have hBq : bIn st1.limits qa = bIn σ.limits qa := hfr qa hqG
  obtain ⟨hbl, -, -, -, hb3, hb4, hb5⟩ := hbal
  refine ⟨r', ?_, imid, ?_, ?_, ?_, hbr', by rw [hBq]; exact hb3, by rw [hBq]; exact hb4,
    by rw [hBq]; exact hb5, ?_, ?_, hfix1, hfix0, hmem⟩
  · rw [rr, ← hp]
    refine slotPtr_congr (fun q hq => omid q ?_)
    obtain ⟨h1, h2⟩ := hown q hq
    simp only [PTree.addrs, List.mem_append, List.mem_cons, not_or] at h1 ⊢
    exact ⟨h1.2.1, h2, h1.2.2⟩
  · simp only [PTree.addrs]
    refine nodup_join hndl hndr' hql ?_ ?_
    · intro hx
      rcases List.mem_cons.mp (hsub qa hx) with e | e
      · exact hqla e
      · exact hqr e
    · intro x hx hxr
      rcases List.mem_cons.mp (hsub x hxr) with e | e
      · exact hlal (e ▸ hx)
      · exact hd x hx e
  · intro x hx
    simp only [PTree.addrs, List.mem_append, List.mem_cons] at hx ⊢
    rcases hx with hx | hx | hx
    · exact Or.inr (Or.inl hx)
    · exact Or.inr (Or.inr (Or.inl hx))
    · rcases List.mem_cons.mp (hsub x hx) with e | e
      · exact Or.inl e
      · exact Or.inr (Or.inr (Or.inr e))
  · refine balanced_congr (fun x hx => hfr x ?_) hbl
    simp only [List.mem_cons, not_or]
    exact ⟨fun e => hlal (e ▸ hx), fun hx' => hd x hx hx'⟩
  · intro x hx
    refine hfr x ?_
    simp only [PTree.addrs, List.mem_append, List.mem_cons, not_or] at hx ⊢
    exact ⟨hx.1, hx.2.2.2⟩
  · simp only [PTree.addrs, List.length_append, List.length_cons]
    push_cast
    omega

/-- The balance along `put`: see `PutBal`. -/
theorem put_bal : ∀ (fuel : Nat) {σ st' : TreeState} {la : Nat} {K : Core} {p0 : Ptr}
    {Q : Slot} {p : Ptr} {t : PTree} {fix : Bool},
    coreHeap σ.limits la = some K → K.c0 = none → K.c1 = none →
    slotPtr (coreHeap σ.limits) σ.tree.root Q = some p →
    IsTree (coreHeap σ.limits) t p → t.addrs.Nodup → Ordered (coreHeap σ.limits) t →
    la ∉ t.addrs → (∀ q, Q.owner = some q → q ∉ t.addrs ∧ q ≠ la) →
    Balanced (bIn σ.limits) t → bIn σ.limits la = 0 →
    limitPriceTree.put fuel σ (some la) p0 Q = .ok (st', fix) →
    PutBal σ st' Q t la K.price fix := by
  intro fuel
  induction fuel with
  | zero =>
    intro σ st' la K p0 Q p t fix _ _ _ _ _ _ _ _ _ _ _ h
    simp [limitPriceTree.put] at h
  | succ n ih =>
    intro σ st' la K p0 Q p t fix hla hc0 hc1 hp ht hnd hord hlat hown hbal hbla h
    unfold limitPriceTree.put at h
    obtain ⟨q, hq, h⟩ := bind_ok h
    have hqs := readSlot_core hq
    rw [hp] at hqs
    cases hqs
    split at h
    · -- empty slot: link the new limit
      rename_i hnone
      subst hnone
      have htl := isTree_none ht
      subst htl
      obtain ⟨⟨la', ln⟩, hln, h⟩ := bind_ok h
      obtain ⟨st2, hw, h⟩ := bind_ok h
      cases h
      simp only at hln hw
      obtain ⟨hH, hroot⟩ := writeSlot_core hw
      have hsz := writeSlot_size hw
      have hbw := writeSlot_bIn hw
      simp only at hH hroot hsz hbw
      rw [store_parent_core hln] at hH
      rw [store_parent_bIn hln] at hbw
      have hlown : Q.owner ≠ some la := fun e => (hown la e).2 rfl
      refine ⟨some la, .node .leaf la .leaf, ?_, ?_, ?_, ?_, ?_, ?_, ?_, ?_⟩
      · rw [hH, hroot]; exact slotPtr_slotSet hp
      · refine ⟨rfl, K, ?_, ?_, ?_⟩
        · rw [hH, slotSet_other _ _ _ hlown]; exact hla
        · rw [hc0]; rfl
        · rw [hc1]; rfl
      · rw [hbw]
        exact balanced_node trivial trivial (by rw [hbla]; simp [PTree.height]) (by rw [hbla]; omega)
          (by rw [hbla]; omega)
      · intro x _; rw [hbw]
      · rw [hsz]; simp [PTree.addrs]
      · intro _; simp [PTree.height]
      · intro hf; cases hf
      · intro _; simp [PTree.addrs]
    · rename_i hsome
      obtain ⟨⟨la', ln⟩, hln, h⟩ := bind_ok h
      obtain ⟨hlp, hll, hlc⟩ := deref_core hln
      cases hlp
      obtain ⟨⟨qa, qn⟩, hqn, h⟩ := bind_ok h
      obtain ⟨hqp, hql, hqc⟩ := deref_core hqn
      subst hqp
      simp only at h
      rw [hla] at hlc
      have hlcore : ln.core = K := by simpa using hlc.symm
      have hlprice : ln.price = K.price := by rw [← hlcore]; rfl
      obtain ⟨l, r, cq, rfl, hcq, hl, hr⟩ := isTree_some ht
      have hqprice : priceIn (coreHeap σ.limits) qa = qn.price := by
        rw [priceIn_of_some hqc]; rfl
      have hnd0 := hnd
      have hlat0 := hlat
      have hbal0 := hbal
      simp only [PTree.addrs] at hnd hlat
      obtain ⟨hndl, hndr, hql', hqr, hd⟩ := nodup_mid hnd
      obtain ⟨hordl, hordr, hlq, hrq, hlr⟩ := ordered_node hord
      obtain ⟨hbl, hbr, hb1, hb2, hb3, hb4, hb5⟩ := hbal
      split at h
      · -- the price is in the tree already
        rename_i hcmp
        cases h
        refine ⟨some qa, .node l qa r, hp, ht, hbal0, fun _ _ => rfl, rfl, ?_, fun _ => rfl, ?_⟩
        · intro hf; cases hf
        · intro hne
          exfalso
          refine hne qa (by simp [PTree.addrs]) ?_
          rw [hqprice, ← hlprice]
          exact (compare_eq_zero.mp hcmp).symm
      · rename_i hcmp
        obtain ⟨⟨st1, fix1⟩, hrec, h⟩ := bind_ok h
        simp only at hrec h
        have hqla : qa ≠ la := fun e => hlat (by simp [e])
        by_cases hlt : compare ln.price qn.price < 0
        · -- go left
          rw [if_pos hlt, dirIndex_neg] at hrec
          rw [if_pos hlt] at h
          have hslot : slotPtr (coreHeap σ.limits) σ.tree.root (.child qa 0) = some cq.c0 := by
            simp [slotPtr, hcq, Core.child]
          have hownl : ∀ q, (Slot.child qa 0).owner = some q → q ∉ l.addrs ∧ q ≠ la := by
            intro q hq
            simp only [Slot.owner, Option.some.injEq] at hq
            subst hq
            exact ⟨hql', hqla⟩
          have hlal : la ∉ l.addrs := fun hx => hlat (by simp [hx])
          have hpost := put_tree n hla hc0 hc1 hslot hl hndl hordl hlal hownl hrec
          have hrb := ih hla hc0 hc1 hslot hl hndl hordl hlal hownl hbl hbla hrec
          obtain ⟨l', hp1, imid, hndm, hsubm, hbl', hbr', hB3, hB4, hB5, hfr, hsz, hfix1, hfix0,
            hmem⟩ := put_mid_left hp hcq hr hnd0 hlat0 hown hbal0 hpost hrb
          have hownm : ∀ q, Q.owner = some q → q ∉ (PTree.node l' qa r).addrs := by
            intro q hq hx
            obtain ⟨h1, h2⟩ := hown q hq
            rcases List.mem_cons.mp (hsubm q hx) with e | e
            · exact h2 e
            · exact h1 e
          split at h
          · -- the left subtree grew
            rename_i hf1
            obtain ⟨e1, e2⟩ := hfix1 hf1
            obtain ⟨p', t', hps', it', hbt', hfr', hsz', hT, hF⟩ :=
              putFix_bal_neg hp1 imid hndm hownm hbl' hbr' (by rw [hB3, e1]; push_cast; ring)
                hB4 hB5 (by omega) e2 h
            have hadd := fix_addrs putFix_tree (Or.inr rfl) hp1 imid hndm hownm h hps' it'
            refine ⟨p', t', hps', it', hbt', ?_, ?_, ?_, ?_, ?_⟩
            · intro x hx
              rw [hfr' x (fun hx' => hx (hsubm x hx')), hfr x hx]
            · rw [hsz', hadd]; exact hsz
            · intro hf
              obtain ⟨h1, h2⟩ := hT hf
              refine ⟨?_, Or.inr h2⟩
              rw [h1]; simp only [PTree.height]; omega
            · intro hf
              rw [hF hf]; simp only [PTree.height]; omega
            · intro hne
              rw [hadd]
              have := hmem (fun x hx => hne x (by simp [PTree.addrs, hx]))
              simp [PTree.addrs, this]
          · -- the left subtree kept its height
            rename_i hf1
            have hf0 : fix1 = false := by simpa using hf1
            have e1 := hfix0 hf0
            cases h
            refine ⟨some qa, .node l' qa r, hp1, imid, ?_, hfr, hsz, ?_, ?_, ?_⟩
            · exact balanced_node hbl' hbr' (by rw [hB3, e1]) hB4 hB5
            · intro hf; cases hf
            · intro _; simp only [PTree.height, e1]
            · intro hne
              have := hmem (fun x hx => hne x (by simp [PTree.addrs, hx]))
              simp [PTree.addrs, this]
        · -- go right
          rw [if_neg hlt, dirIndex_pos] at hrec
          rw [if_neg hlt] at h
          have hslot : slotPtr (coreHeap σ.limits) σ.tree.root (.child qa 1) = some cq.c1 := by
            simp [slotPtr, hcq, Core.child]
          have hownr : ∀ q, (Slot.child qa 1).owner = some q → q ∉ r.addrs ∧ q ≠ la := by
            intro q hq
            simp only [Slot.owner, Option.some.injEq] at hq
            subst hq
            exact ⟨hqr, hqla⟩
          have hlar : la ∉ r.addrs := fun hx => hlat (by simp [hx])
          have hpost := put_tree n hla hc0 hc1 hslot hr hndr hordr hlar hownr hrec
          have hrb := ih hla hc0 hc1 hslot hr hndr hordr hlar hownr hbr hbla hrec
          obtain ⟨r', hp1, imid, hndm, hsubm, hbl', hbr', hB3, hB4, hB5, hfr, hsz, hfix1, hfix0,
            hmem⟩ := put_mid_right hp hcq hl hnd0 hlat0 hown hbal0 hpost hrb
          have hownm : ∀ q, Q.owner = some q → q ∉ (PTree.node l qa r').addrs := by
            intro q hq hx
            obtain ⟨h1, h2⟩ := hown q hq
            rcases List.mem_cons.mp (hsubm q hx) with e | e
            · exact h2 e
            · exact h1 e
          split at h
          · -- the right subtree grew
            rename_i hf1
            obtain ⟨e1, e2⟩ := hfix1 hf1
            obtain ⟨p', t', hps', it', hbt', hfr', hsz', hT, hF⟩ :=
              putFix_bal_pos hp1 imid hndm hownm hbl' hbr' (by rw [hB3, e1]; push_cast; ring)
                hB4 hB5 (by omega) e2 h
            have hadd := fix_addrs putFix_tree (Or.inl rfl) hp1 imid hndm hownm h hps' it'
            refine ⟨p', t', hps', it', hbt', ?_, ?_, ?_, ?_, ?_⟩
            · intro x hx
              rw [hfr' x (fun hx' => hx (hsubm x hx')), hfr x hx]
            · rw [hsz', hadd]; exact hsz
            · intro hf
              obtain ⟨h1, h2⟩ := hT hf
              refine ⟨?_, Or.inr h2⟩
              rw [h1]; simp only [PTree.height]; omega
            · intro hf
              rw [hF hf]; simp only [PTree.height]; omega
            · intro hne
              rw [hadd]
              have := hmem (fun x hx => hne x (by simp [PTree.addrs, hx]))
              simp [PTree.addrs, this]
          · -- the right subtree kept its height
            rename_i hf1
            have hf0 : fix1 = false := by simpa using hf1
            have e1 := hfix0 hf0
            cases h
            refine ⟨some qa, .node l qa r', hp1, imid, ?_, hfr, hsz, ?_, ?_, ?_⟩
            · exact balanced_node hbl' hbr' (by rw [hB3, e1]) hB4 hB5
            · intro hf; cases hf
            · intro _; simp only [PTree.height, e1]
            · intro hne
              have := hmem (fun x hx => hne x (by simp [PTree.addrs, hx]))
              simp [PTree.addrs, this]

/-! ## Balance along `removeMin` and `remove` -/

theorem setPrice_priceIn (H : Nat → Option Core) (m : Nat) : setPrice H m (priceIn H m) = H := by
  funext x
  by_cases hx : x = m
  · subst hx
    rw [setPrice_self_core]
    unfold priceIn
    cases h : H x <;> simp
  · exact setPrice_other H _ hx

theorem outsideEq_mono {F G : List Nat} {H H' : Nat → Option Core}
    (hsub : ∀ x ∈ F, x ∈ G) (h : OutsideEq F H H') : OutsideEq G H H' :=
  fun x hx => h x (fun hx' => hx (hsub x hx'))

/-- The walk of the tree `removeMin` leaves in the slot. -/
theorem remMinPost_addrs {H H' : Nat → Option Core} {root root' : Ptr} {Q : Slot}
    {t t' : PTree} {minKey : Nat} {p p' : Ptr}
    (hpost : RemMinPost H H' root root' Q t minKey)
    (hp : slotPtr H root Q = some p) (hown : ∀ q, Q.owner = some q → q ∉ t.addrs)
    (hnd : t.addrs.Nodup)
    (hp' : slotPtr H' root' Q = some p') (ht' : IsTree H' t' p') :
    ∃ v, OutsideEq t.addrs (slotSet (setPrice H minKey v) Q p') H' ∧
      root' = slotRoot root Q p' ∧ t'.addrs.Nodup ∧ (∀ x ∈ t'.addrs, x ∈ t.addrs) ∧
      t'.addrs.length + 1 = t.addrs.length := by
  obtain ⟨p2, t2, u, rest, e1, e2, i2, o2, r2, -⟩ := hpost
  have hsub : ∀ x ∈ rest, x ∈ t.addrs := by
    intro x hx; rw [e1]; exact List.mem_cons_of_mem _ hx
  have hrb := slot_readback (H := setPrice H minKey (priceIn H u))
    (by rw [slotPtr_setPrice]; exact hp) (fun q hq hx => hown q hq (hsub q hx)) o2 r2
  rw [hp'] at hrb
  cases hrb
  have e := isTree_unique ht' i2
  subst e
  refine ⟨priceIn H u, outsideEq_mono hsub o2, r2, ?_, ?_, ?_⟩
  · rw [e2]; rw [e1] at hnd; exact (List.nodup_cons.mp hnd).2
  · rw [e2]; exact hsub
  · rw [e2, e1]; rfl

/-- The walk of the tree `remove` leaves in the slot. -/
theorem removePost_addrs {H H' : Nat → Option Core} {root root' : Ptr} {Q : Slot}
    {t t' : PTree} {key : Nat} {p p' : Ptr}
    (hpost : RemovePost H H' root root' Q t key)
    (hp : slotPtr H root Q = some p) (hown : ∀ q, Q.owner = some q → q ∉ t.addrs)
    (hnd : t.addrs.Nodup)
    (hp' : slotPtr H' root' Q = some p') (ht' : IsTree H' t' p') :
    ∃ m v, OutsideEq t.addrs (slotSet (setPrice H m v) Q p') H' ∧
      root' = slotRoot root Q p' ∧ t'.addrs.Nodup ∧ (∀ x ∈ t'.addrs, x ∈ t.addrs) ∧
      (t'.addrs.length = t.addrs.length ∨ t'.addrs.length + 1 = t.addrs.length) := by
  obtain ⟨p2, t2, i2, r2, d2⟩ := hpost
  rcases d2 with ⟨e, o2, -⟩ | ⟨pre, u, post, m, e1, e2, o2, -, -, -, -⟩
  · have hrb := slot_readback hp hown o2 r2
    rw [hp'] at hrb
    cases hrb
    have e' := isTree_unique ht' i2
    subst e'
    refine ⟨0, priceIn H 0, ?_, r2, by rw [e]; exact hnd, fun x hx => by rw [← e]; exact hx,
      Or.inl (by rw [e])⟩
    rw [setPrice_priceIn]; exact o2
  · have hsub : ∀ x ∈ pre ++ post, x ∈ t.addrs := by
      intro x hx
      rw [e1]
      simp only [List.mem_append, List.mem_cons] at hx ⊢
      tauto
    have hrb := slot_readback (H := setPrice H m (priceIn H u))
      (by rw [slotPtr_setPrice]; exact hp) (fun q hq hx => hown q hq (hsub q hx)) o2 r2
    rw [hp'] at hrb
    cases hrb
    have e' := isTree_unique ht' i2
    subst e'
    refine ⟨m, priceIn H u, outsideEq_mono hsub o2, r2, ?_, by rw [e2]; exact hsub, Or.inr ?_⟩
    · rw [e2]
      rw [e1] at hnd
      exact (nodup_mid hnd).1.append (nodup_mid hnd).2.1
        (fun x h1 h2 => (nodup_mid hnd).2.2.2.2 x h1 h2)
    · rw [e2, e1]; simp only [List.length_append, List.length_cons]; omega

/-- The node of `remove` or `removeMin` after the call on its left subtree. -/
theorem rem_mid_left {σ st1 : TreeState} {m v qa : Nat} {Q : Slot} {l l' r : PTree}
    {cq : Core} {p P : Ptr}
    (hp : slotPtr (coreHeap σ.limits) σ.tree.root Q = some p)
    (hqc : coreHeap σ.limits qa = some cq) (hr : IsTree (coreHeap σ.limits) r cq.c1)
    (hnd : (PTree.node l qa r).addrs.Nodup)
    (hown : ∀ q, Q.owner = some q → q ∉ (PTree.node l qa r).addrs)
    (hbal : Balanced (bIn σ.limits) (.node l qa r))
    (il' : IsTree (coreHeap st1.limits) l' P)
    (ol : OutsideEq l.addrs (slotSet (setPrice (coreHeap σ.limits) m v) (.child qa 0) P)
      (coreHeap st1.limits))
    (hroot : st1.tree.root = σ.tree.root)
    (hndl' : l'.addrs.Nodup) (hsub : ∀ x ∈ l'.addrs, x ∈ l.addrs)
    (hfr : ∀ x, x ∉ l.addrs → bIn st1.limits x = bIn σ.limits x) :
    slotPtr (coreHeap st1.limits) st1.tree.root Q = some p ∧
    IsTree (coreHeap st1.limits) (.node l' qa r) (some qa) ∧
    (PTree.node l' qa r).addrs.Nodup ∧
    (∀ x ∈ (PTree.node l' qa r).addrs, x ∈ (PTree.node l qa r).addrs) ∧
    Balanced (bIn st1.limits) r ∧
    bIn st1.limits qa = (r.height : Int) - (l.height : Int) ∧
    -1 ≤ bIn st1.limits qa ∧ bIn st1.limits qa ≤ 1 ∧
    (∀ x, x ∉ (PTree.node l qa r).addrs → bIn st1.limits x = bIn σ.limits x) := by
  simp only [PTree.addrs] at hnd
  obtain ⟨hndl, hndr, hql, hqr, hd⟩ := nodup_mid hnd
  have hHbq : ∃ cq', setPrice (coreHeap σ.limits) m v qa = some cq' ∧ cq'.c1 = cq.c1 := by
    by_cases hqm : qa = m
    · subst hqm
      exact ⟨{ cq with price := v }, by rw [setPrice_self_core, hqc]; rfl, rfl⟩
    · exact ⟨cq, by rw [setPrice_other _ _ hqm]; exact hqc, rfl⟩
  obtain ⟨cq', hq', hc1'⟩ := hHbq
  obtain ⟨imid, omid⟩ := assemble_left (G := l.addrs) hq'
    (by rw [hc1']; exact isTree_setPrice _ _ hr) il' ol hql
    (fun x hx hx' => hd x hx' hx) hqr
  have hBq : bIn st1.limits qa = bIn σ.limits qa := hfr qa hql
  obtain ⟨-, hbr, -, -, hb3, hb4, hb5⟩ := hbal
  refine ⟨?_, imid, ?_, ?_, ?_, by rw [hBq]; exact hb3, by rw [hBq]; exact hb4,
    by rw [hBq]; exact hb5, ?_⟩
  · rw [hroot, ← hp, ← slotPtr_setPrice (coreHeap σ.limits) m v]
    refine slotPtr_congr (fun q hq => omid q ?_)
    have h1 := hown q hq
    simp only [PTree.addrs, List.mem_append, List.mem_cons, not_or] at h1 ⊢
    exact ⟨h1.2.1, h1.1⟩
  · simp only [PTree.addrs]
    exact nodup_join hndl' hndr (fun hx => hql (hsub qa hx)) hqr
      (fun x hx hxr => hd x (hsub x hx) hxr)
  · intro x hx
    simp only [PTree.addrs, List.mem_append, List.mem_cons] at hx ⊢
    rcases hx with hx | hx | hx
    · exact Or.inl (hsub x hx)
    · exact Or.inr (Or.inl hx)
    · exact Or.inr (Or.inr hx)
  · exact balanced_congr (fun x hx => hfr x (fun hx' => hd x hx' hx)) hbr
  · intro x hx
    refine hfr x ?_
    simp only [PTree.addrs, List.mem_append, List.mem_cons, not_or] at hx
    exact hx.1

/-- The node of `remove` after the call on its right subtree. -/
theorem rem_mid_right {σ st1 : TreeState} {m v qa : Nat} {Q : Slot} {l r r' : PTree}
    {cq : Core} {p P : Ptr}
    (hp : slotPtr (coreHeap σ.limits) σ.tree.root Q = some p)
    (hqc : coreHeap σ.limits qa = some cq) (hl : IsTree (coreHeap σ.limits) l cq.c0)
    (hnd : (PTree.node l qa r).addrs.Nodup)
    (hown : ∀ q, Q.owner = some q → q ∉ (PTree.node l qa r).addrs)
    (hbal : Balanced (bIn σ.limits) (.node l qa r))
    (ir' : IsTree (coreHeap st1.limits) r' P)
    (or1 : OutsideEq r.addrs (slotSet (setPrice (coreHeap σ.limits) m v) (.child qa 1) P)
      (coreHeap st1.limits))
    (hroot : st1.tree.root = σ.tree.root)
    (hndr' : r'.addrs.Nodup) (hsub : ∀ x ∈ r'.addrs, x ∈ r.addrs)
    (hfr : ∀ x, x ∉ r.addrs → bIn st1.limits x = bIn σ.limits x) :
    slotPtr (coreHeap st1.limits) st1.tree.root Q = some p ∧
    IsTree (coreHeap st1.limits) (.node l qa r') (some qa) ∧
    (PTree.node l qa r').addrs.Nodup ∧
    (∀ x ∈ (PTree.node l qa r').addrs, x ∈ (PTree.node l qa r).addrs) ∧
    Balanced (bIn st1.limits) l ∧
    bIn st1.limits qa = (r.height : Int) - (l.height : Int) ∧
    -1 ≤ bIn st1.limits qa ∧ bIn st1.limits qa ≤ 1 ∧
    (∀ x, x ∉ (PTree.node l qa r).addrs → bIn st1.limits x = bIn σ.limits x) := by
  simp only [PTree.addrs] at hnd
  obtain ⟨hndl, hndr, hql, hqr, hd⟩ := nodup_mid hnd
  have hHbq : ∃ cq', setPrice (coreHeap σ.limits) m v qa = some cq' ∧ cq'.c0 = cq.c0 := by
    by_cases hqm : qa = m
    · subst hqm
      exact ⟨{ cq with price := v }, by rw [setPrice_self_core, hqc]; rfl, rfl⟩
    · exact ⟨cq, by rw [setPrice_other _ _ hqm]; exact hqc, rfl⟩
  obtain ⟨cq', hq', hc0'⟩ := hHbq
  obtain ⟨imid, omid⟩ := assemble_right (G := r.addrs) hq'
    (by rw [hc0']; exact isTree_setPrice _ _ hl) ir' or1 hqr
    (fun x hx hx' => hd x hx hx') hql
  have hBq : bIn st1.limits qa = bIn σ.limits qa := hfr qa hqr
  obtain ⟨hbl, -, -, -, hb3, hb4, hb5⟩ := hbal
  refine ⟨?_, imid, ?_, ?_, ?_, by rw [hBq]; exact hb3, by rw [hBq]; exact hb4,
    by rw [hBq]; exact hb5, ?_⟩
  · rw [hroot, ← hp, ← slotPtr_setPrice (coreHeap σ.limits) m v]
    refine slotPtr_congr (fun q hq => omid q ?_)
    have h1 := hown q hq
    simp only [PTree.addrs, List.mem_append, List.mem_cons, not_or] at h1 ⊢
    exact ⟨h1.2.1, h1.2.2⟩
  · simp only [PTree.addrs]
    exact nodup_join hndl hndr' hql (fun hx => hqr (hsub qa hx))
      (fun x hx hxr => hd x hx (hsub x hxr))
  · intro x hx
    simp only [PTree.addrs, List.mem_append, List.mem_cons] at hx ⊢
    rcases hx with hx | hx | hx
    · exact Or.inl hx
    · exact Or.inr (Or.inl hx)
    · exact Or.inr (Or.inr (hsub x hx))
  · exact balanced_congr (fun x hx => hfr x (fun hx' => hd x hx hx')) hbl
  · intro x hx
    refine hfr x ?_
    simp only [PTree.addrs, List.mem_append, List.mem_cons, not_or] at hx
    exact hx.2.2

/-- The balance along `removeMin`: see `RemMinBal`. -/
theorem removeMin_bal : ∀ (fuel : Nat) {σ st' : TreeState} {Q : Slot} {p : Ptr}
    {t : PTree} {minKey : Nat} {fix : Bool},
    slotPtr (coreHeap σ.limits) σ.tree.root Q = some p →
    IsTree (coreHeap σ.limits) t p → t.addrs.Nodup → minKey ∉ t.addrs →
    (∀ q, Q.owner = some q → q ∉ t.addrs) →
    Balanced (bIn σ.limits) t →
    removeMin fuel σ Q minKey = .ok (st', fix) →
    RemMinBal σ st' Q t fix := by
  intro fuel
  induction fuel with
  | zero => intro σ st' Q p t minKey fix _ _ _ _ _ _ h; simp [removeMin] at h
  | succ n ih =>
    intro σ st' Q p t minKey fix hp ht hnd hmk hown hbal h
    unfold removeMin at h
    obtain ⟨q, hq, h⟩ := bind_ok h
    have hqs := readSlot_core hq
    rw [hp] at hqs
    cases hqs
    obtain ⟨⟨qa, qn⟩, hqn, h⟩ := bind_ok h
    obtain ⟨hqp, hql, hqc⟩ := deref_core hqn
    subst hqp
    simp only at h
    obtain ⟨l, r, cq, rfl, hcq, hl, hr⟩ := isTree_some ht
    rw [hqc] at hcq
    have hqcore : qn.core = cq := by simpa using hcq
    subst hqcore
    have hnd0 := hnd
    have hbal0 := hbal
    simp only [PTree.addrs] at hnd hmk
    obtain ⟨hndl, hndr, hql', hqr, hd⟩ := nodup_mid hnd
    obtain ⟨hbl, hbr, hb1, hb2, hb3, hb4, hb5⟩ := hbal
    have hqmk : qa ≠ minKey := fun e => hmk (by simp [e])
    split at h
    · -- no left child: this is the minimum
      rename_i hnol
      rw [children_core] at hnol
      have hc0 : qn.core.c0 = none := hnol
      rw [hc0] at hl
      have hleaf := isTree_none hl
      subst hleaf
      obtain ⟨⟨ka, kn⟩, hkn, h⟩ := bind_ok h
      obtain ⟨hkp, hkl, hkc⟩ := deref_core hkn
      cases hkp
      obtain ⟨⟨qa1, qn1⟩, hqn1, h⟩ := bind_ok h
      obtain ⟨hq1p, hq1l, hq1c⟩ := deref_core hqn1
      cases hq1p
      obtain ⟨limits2, h2, h⟩ := bind_ok h
      obtain ⟨⟨qa2, qn2⟩, hqn2, h⟩ := bind_ok h
      obtain ⟨hq2p, hq2l, hq2c⟩ := deref_core hqn2
      cases hq2p
      obtain ⟨st2, hw, h⟩ := bind_ok h
      cases h
      simp only at hqn1 hq1l hq1c h2 hqn2 hq2l hq2c hw
      have e1 := coreHeap_store_price (v := qn.price) hkl
      have b1 := store_price_bIn (v := qn.price) hkn
      have e2 : coreHeap limits2 = setPrice (coreHeap σ.limits) minKey qn.price ∧
          bIn limits2 = bIn σ.limits := by
        rw [← e1, ← b1]
        split at h2
        · obtain ⟨⟨ca, cn⟩, hc, h2⟩ := bind_ok h2
          cases h2
          exact ⟨store_parent_core hc, store_parent_bIn hc⟩
        · cases h2; exact ⟨rfl, rfl⟩
      obtain ⟨e2, b2⟩ := e2
      have hqn2core : qn2.core = qn.core := by
        rw [e2, setPrice_other _ _ hqmk, hqc] at hq2c
        simpa using hq2c.symm
      obtain ⟨hH, hroot⟩ := writeSlot_core hw
      have hsz := writeSlot_size hw
      have hbw := writeSlot_bIn hw
      simp only at hH hroot hsz hbw
      rw [e2, children_core, hqn2core] at hH
      rw [children_core, hqn2core] at hroot
      rw [b2] at hbw
      refine ⟨qn.core.child 1, r, ?_, ?_, ?_, ?_, hsz, ?_, ?_, ?_⟩
      · rw [hH, hroot]
        have hp2 : slotPtr (setPrice (coreHeap σ.limits) minKey qn.price) σ.tree.root Q =
            some (some qa) := by rw [slotPtr_setPrice]; exact hp
        exact slotPtr_slotSet hp2
      · rw [hH]
        refine isTree_slotSet (fun q hq hx => hown q hq (by simp [PTree.addrs, hx])) ?_
        exact isTree_setPrice _ _ hr
      · rw [hbw]; exact hbr
      · intro x _; rw [hbw]
      · simp [PTree.addrs]
      · intro _; simp only [PTree.height]; omega
      · intro hf; cases hf
    · -- descend to the left
      obtain ⟨⟨st1, fix1⟩, hrec, h⟩ := bind_ok h
      simp only at hrec h
      have hslot : slotPtr (coreHeap σ.limits) σ.tree.root (.child qa 0) = some qn.core.c0 := by
        simp [slotPtr, hqc, Core.child]
      have hownl : ∀ q, (Slot.child qa 0).owner = some q → q ∉ l.addrs := by
        intro q hq
        simp only [Slot.owner, Option.some.injEq] at hq
        subst hq
        exact hql'
      have hmkl : minKey ∉ l.addrs := fun hx => hmk (by simp [hx])
      have hpost := removeMin_tree n hslot hl hndl hmkl hownl hrec
      obtain ⟨P, l', hPs, il', hbl', hfr, hsz, hlen, hfix1, hfix0⟩ :=
        ih hslot hl hndl hmkl hownl hbl hrec
      obtain ⟨v, ol, rl, hndl', hsub, -⟩ := remMinPost_addrs hpost hslot hownl hndl hPs il'
      rw [slotRoot_child] at rl
      obtain ⟨hp1, imid, hndm, hsubm, hbr', hB3, hB4, hB5, hfrm⟩ :=
        rem_mid_left hp hqc hr hnd0 hown hbal0 il' ol rl hndl' hsub hfr
      have hownm : ∀ q, Q.owner = some q → q ∉ (PTree.node l' qa r).addrs :=
        fun q hq hx => hown q hq (hsubm q hx)
      have hlenm : (PTree.node l' qa r).addrs.length + 1 =
          (PTree.node l qa r).addrs.length := by
        simp only [PTree.addrs, List.length_append, List.length_cons]; omega
      split at h
      · -- the left subtree lost a level
        rename_i hf1
        have e1 := hfix1 hf1
        obtain ⟨p', t', hps', it', hbt', hfr', hsz', hT, hF⟩ :=
          removeFix_bal_pos hp1 imid hndm hownm hbl' hbr'
            (by rw [hB3, ← e1]; push_cast; ring) hB4 hB5 h
        have hadd := fix_addrs removeFix_tree (Or.inl rfl) hp1 imid hndm hownm h hps' it'
        refine ⟨p', t', hps', it', hbt', ?_, by rw [hsz', hsz], by rw [hadd]; exact hlenm,
          ?_, ?_⟩
        · intro x hx
          rw [hfr' x (fun hx' => hx (hsubm x hx')), hfrm x hx]
        · intro hf
          have := hT hf
          simp only [PTree.height]; omega
        · intro hf
          have := hF hf
          simp only [PTree.height]; omega
      · -- the left subtree kept its height
        rename_i hf1
        have hf0 : fix1 = false := by simpa using hf1
        have e1 := hfix0 hf0
        cases h
        refine ⟨some qa, .node l' qa r, hp1, imid, ?_, hfrm, hsz, hlenm, ?_, ?_⟩
        · exact balanced_node hbl' hbr' (by rw [hB3, e1]) hB4 hB5
        · intro hf; cases hf
        · intro _; simp only [PTree.height, e1]

/-- The balance along `remove`: see `RemoveBal`. -/
theorem remove_bal : ∀ (fuel : Nat) {σ st' : TreeState} {Q : Slot} {p : Ptr}
    {t : PTree} {key : Nat} {fix : Bool},
    slotPtr (coreHeap σ.limits) σ.tree.root Q = some p →
    IsTree (coreHeap σ.limits) t p → t.addrs.Nodup → Ordered (coreHeap σ.limits) t →
    (∀ q, Q.owner = some q → q ∉ t.addrs) →
    Balanced (bIn σ.limits) t →
    limitPriceTree.remove fuel σ key Q = .ok (st', fix) →
    RemoveBal σ st' Q t key fix := by
  intro fuel
  induction fuel with
  | zero => intro σ st' Q p t key fix _ _ _ _ _ _ h; simp [limitPriceTree.remove] at h
  | succ n ih =>
    intro σ st' Q p t key fix hp ht hnd hord hown hbal h
    unfold limitPriceTree.remove at h
    obtain ⟨q, hq, h⟩ := bind_ok h
    have hqs := readSlot_core hq
    rw [hp] at hqs
    cases hqs
    split at h
    · -- empty slot
      rename_i hnone
      subst hnone
      cases h
      have htl := isTree_none ht
      subst htl
      refine ⟨none, .leaf, hp, ht, trivial, fun _ _ => rfl, rfl, ?_, fun _ => rfl, ?_⟩
      · intro hf; cases hf
      · rintro ⟨x, hx, -⟩
        simp [PTree.addrs] at hx
    · obtain ⟨⟨qa, qn⟩, hqn, h⟩ := bind_ok h
      obtain ⟨hqp, hql, hqc⟩ := deref_core hqn
      subst hqp
      simp only at h
      obtain ⟨l, r, cq, rfl, hcq, hl, hr⟩ := isTree_some ht
      rw [hqc] at hcq
      have hqcore : qn.core = cq := by simpa using hcq
      subst hqcore
      have hnd0 := hnd
      have hbal0 := hbal
      simp only [PTree.addrs] at hnd
      obtain ⟨hndl, hndr, hql', hqr, hd⟩ := nodup_mid hnd
      obtain ⟨hordl, hordr, hlq, hrq, hlr⟩ := ordered_node hord
      obtain ⟨hbl, hbr, hb1, hb2, hb3, hb4, hb5⟩ := hbal
      have hqprice : priceIn (coreHeap σ.limits) qa = qn.price := by
        rw [priceIn_of_some hqc]; rfl
      split at h
      · -- the key is here
        rename_i hcmp
        split at h
        · -- no right child: the left child takes the place
          rename_i hnor
          rw [children_core] at hnor
          have hc1 : qn.core.c1 = none := hnor
          rw [hc1] at hr
          have hleaf := isTree_none hr
          subst hleaf
          obtain ⟨limits1, h1, h⟩ := bind_ok h
          obtain ⟨⟨qa1, qn1⟩, hqn1, h⟩ := bind_ok h
          obtain ⟨hq1p, hq1l, hq1c⟩ := deref_core hqn1
          cases hq1p
          obtain ⟨st2, hw, h⟩ := bind_ok h
          cases h
          simp only at h1 hqn1 hq1l hq1c hw
          have e1 : coreHeap limits1 = coreHeap σ.limits ∧ bIn limits1 = bIn σ.limits := by
            split at h1
            · obtain ⟨⟨ca, cn⟩, hc, h1⟩ := bind_ok h1
              cases h1
              exact ⟨store_parent_core hc, store_parent_bIn hc⟩
            · cases h1; exact ⟨rfl, rfl⟩
          obtain ⟨e1, b1⟩ := e1
          have hqn1core : qn1.core = qn.core := by
            rw [e1, hqc] at hq1c
            simpa using hq1c.symm
          obtain ⟨hH, hroot⟩ := writeSlot_core hw
          have hsz := writeSlot_size hw
          have hbw := writeSlot_bIn hw
          simp only at hH hroot hsz hbw
          rw [e1, children_core, hqn1core] at hH
          rw [children_core, hqn1core] at hroot
          rw [b1] at hbw
          refine ⟨qn.core.child 0, l, ?_, ?_, ?_, ?_, ?_, ?_, ?_, ?_⟩
          · rw [hH, hroot]; exact slotPtr_slotSet hp
          · rw [hH]
            exact isTree_slotSet (fun q hq hx => hown q hq (by simp [PTree.addrs, hx])) hl
          · rw [hbw]; exact hbl
          · intro x _; rw [hbw]
          · rw [hsz]
            simp only [PTree.addrs, List.length_append, List.length_cons, List.length_nil]
            push_cast
            ring
          · intro _; simp only [PTree.height]; omega
          · intro hf; cases hf
          · intro _; simp [PTree.addrs]
        · -- a right child: its minimum is moved here
          obtain ⟨⟨st1, fix1⟩, hrec, h⟩ := bind_ok h
          simp only at hrec h
          have hslot : slotPtr (coreHeap σ.limits) σ.tree.root (.child qa 1) =
              some qn.core.c1 := by
            simp [slotPtr, hqc, Core.child]
          have hownr : ∀ q, (Slot.child qa 1).owner = some q → q ∉ r.addrs := by
            intro q hq
            simp only [Slot.owner, Option.some.injEq] at hq
            subst hq
            exact hqr
          have hpost := removeMin_tree n
            (σ := { σ with tree := { σ.tree with size := σ.tree.size - 1 } })
            hslot hr hndr hqr hownr hrec
          obtain ⟨P, r', hPs, ir', hbr', hfr, hsz, hlen, hfix1, hfix0⟩ :=
            removeMin_bal n (σ := { σ with tree := { σ.tree with size := σ.tree.size - 1 } })
              hslot hr hndr hqr hownr hbr hrec
          simp only at hpost hfr hsz
          obtain ⟨v, or1, rr, hndr', hsub, -⟩ := remMinPost_addrs hpost hslot hownr hndr hPs ir'
          rw [slotRoot_child] at rr
          obtain ⟨hp1, imid, hndm, hsubm, hbl', hB3, hB4, hB5, hfrm⟩ :=
            rem_mid_right hp hqc hl hnd0 hown hbal0 ir' or1 rr hndr' hsub hfr
          have hownm : ∀ q, Q.owner = some q → q ∉ (PTree.node l qa r').addrs :=
            fun q hq hx => hown q hq (hsubm q hx)
          have hlenm : (PTree.node l qa r').addrs.length + 1 =
              (PTree.node l qa r).addrs.length := by
            simp only [PTree.addrs, List.length_append, List.length_cons]; omega
          split at h
          · -- the right subtree lost a level
            rename_i hf1
            have e1 := hfix1 hf1
            obtain ⟨p', t', hps', it', hbt', hfr', hsz', hT, hF⟩ :=
              removeFix_bal_neg hp1 imid hndm hownm hbl' hbr'
                (by rw [hB3, ← e1]; push_cast; ring) hB4 hB5 h
            have hadd := fix_addrs removeFix_tree (Or.inr rfl) hp1 imid hndm hownm h hps' it'
            refine ⟨p', t', hps', it', hbt', ?_, ?_, ?_, ?_, ?_⟩
            · intro x hx
              rw [hfr' x (fun hx' => hx (hsubm x hx')), hfrm x hx]
            · rw [hsz', hsz, hadd]; omega
            · intro hf
              have := hT hf
              simp only [PTree.height]; omega
            · intro hf
              have := hF hf
              simp only [PTree.height]; omega
            · intro _; rw [hadd]; exact hlenm
          · -- the right subtree kept its height
            rename_i hf1
            have hf0 : fix1 = false := by simpa using hf1
            have e1 := hfix0 hf0
            cases h
            refine ⟨some qa, .node l qa r', hp1, imid, ?_, hfrm, ?_, ?_, ?_, fun _ => hlenm⟩
            · exact balanced_node hbl' hbr' (by rw [hB3, e1]) hB4 hB5
            · rw [hsz]; omega
            · intro hf; cases hf
            · intro _; simp only [PTree.height, e1]
      · -- the key is in a subtree
        rename_i hcmp
        obtain ⟨⟨st1, fix1⟩, hrec, h⟩ := bind_ok h
        simp only at hrec h
        have hne : key ≠ qn.price := fun e => hcmp (compare_eq_zero.mpr e)
        by_cases hlt : compare key qn.price < 0
        · -- left
          rw [if_pos hlt, dirIndex_neg] at hrec
          rw [if_pos hlt, neg_neg_one] at h
          have hlt' : key < qn.price := compare_neg.mp hlt
          have hslot : slotPtr (coreHeap σ.limits) σ.tree.root (.child qa 0) =
              some qn.core.c0 := by
            simp [slotPtr, hqc, Core.child]
          have hownl : ∀ q, (Slot.child qa 0).owner = some q → q ∉ l.addrs := by
            intro q hq
            simp only [Slot.owner, Option.some.injEq] at hq
            subst hq
            exact hql'
          have hpost := remove_tree n hslot hl hndl hownl hrec
          obtain ⟨P, l', hPs, il', hbl', hfr, hsz, hfix1, hfix0, hfound⟩ :=
            ih hslot hl hndl hordl hownl hbl hrec
          obtain ⟨m, v, ol, rl, hndl', hsub, -⟩ :=
            removePost_addrs hpost hslot hownl hndl hPs il'
          rw [slotRoot_child] at rl
          obtain ⟨hp1, imid, hndm, hsubm, hbr', hB3, hB4, hB5, hfrm⟩ :=
            rem_mid_left hp hqc hr hnd0 hown hbal0 il' ol rl hndl' hsub hfr
          have hownm : ∀ q, Q.owner = some q → q ∉ (PTree.node l' qa r).addrs :=
            fun q hq hx => hown q hq (hsubm q hx)
          have hszm : st1.tree.size + ((PTree.node l qa r).addrs.length : Int) =
              σ.tree.size + ((PTree.node l' qa r).addrs.length : Int) := by
            simp only [PTree.addrs, List.length_append, List.length_cons]
            push_cast
            omega
          have hfoundm : (∃ x ∈ (PTree.node l qa r).addrs,
              priceIn (coreHeap σ.limits) x = key) →
              (PTree.node l' qa r).addrs.length + 1 = (PTree.node l qa r).addrs.length := by
            rintro ⟨x, hx, e⟩
            simp only [PTree.addrs, List.mem_append, List.mem_cons] at hx
            have hxl : x ∈ l.addrs := by
              rcases hx with hx | hx | hx
              · exact hx
              · subst hx; rw [hqprice] at e; exact absurd e.symm hne
              · have := hrq x hx
                rw [hqprice, e] at this
                omega
            have := hfound ⟨x, hxl, e⟩
            simp only [PTree.addrs, List.length_append, List.length_cons]; omega
          split at h
          · -- the left subtree lost a level
            rename_i hf1
            have e1 := hfix1 hf1
            obtain ⟨p', t', hps', it', hbt', hfr', hsz', hT, hF⟩ :=
              removeFix_bal_pos hp1 imid hndm hownm hbl' hbr'
                (by rw [hB3, ← e1]; push_cast; ring) hB4 hB5 h
            have hadd := fix_addrs removeFix_tree (Or.inl rfl) hp1 imid hndm hownm h hps' it'
            refine ⟨p', t', hps', it', hbt', ?_, by rw [hsz', hadd]; exact hszm, ?_, ?_,
              by rw [hadd]; exact hfoundm⟩
            · intro x hx
              rw [hfr' x (fun hx' => hx (hsubm x hx')), hfrm x hx]
            · intro hf
              have := hT hf
              simp only [PTree.height]; omega
            · intro hf
              have := hF hf
              simp only [PTree.height]; omega
          · -- the left subtree kept its height
            rename_i hf1
            have hf0 : fix1 = false := by simpa using hf1
            have e1 := hfix0 hf0
            cases h
            refine ⟨some qa, .node l' qa r, hp1, imid, ?_, hfrm, hszm, ?_, ?_, hfoundm⟩
            · exact balanced_node hbl' hbr' (by rw [hB3, e1]) hB4 hB5
            · intro hf; cases hf
            · intro _; simp only [PTree.height, e1]
        · -- right
          rw [if_neg hlt, dirIndex_pos] at hrec
          rw [if_neg hlt] at h
          have hgt' : qn.price < key := by
            have h1 : ¬ key < qn.price := fun e => hlt (compare_neg.mpr e)
            omega
          have hslot : slotPtr (coreHeap σ.limits) σ.tree.root (.child qa 1) =
              some qn.core.c1 := by
            simp [slotPtr, hqc, Core.child]
          have hownr : ∀ q, (Slot.child qa 1).owner = some q → q ∉ r.addrs := by
            intro q hq
            simp only [Slot.owner, Option.some.injEq] at hq
            subst hq
            exact hqr
          have hpost := remove_tree n hslot hr hndr hownr hrec
          obtain ⟨P, r', hPs, ir', hbr', hfr, hsz, hfix1, hfix0, hfound⟩ :=
            ih hslot hr hndr hordr hownr hbr hrec
          obtain ⟨m, v, or1, rr, hndr', hsub, -⟩ :=
            removePost_addrs hpost hslot hownr hndr hPs ir'
          rw [slotRoot_child] at rr
          obtain ⟨hp1, imid, hndm, hsubm, hbl', hB3, hB4, hB5, hfrm⟩ :=
            rem_mid_right hp hqc hl hnd0 hown hbal0 ir' or1 rr hndr' hsub hfr
          have hownm : ∀ q, Q.owner = some q → q ∉ (PTree.node l qa r').addrs :=
            fun q hq hx => hown q hq (hsubm q hx)
          have hszm : st1.tree.size + ((PTree.node l qa r).addrs.length : Int) =
              σ.tree.size + ((PTree.node l qa r').addrs.length : Int) := by
            simp only [PTree.addrs, List.length_append, List.length_cons]
            push_cast
            omega
          have hfoundm : (∃ x ∈ (PTree.node l qa r).addrs,
              priceIn (coreHeap σ.limits) x = key) →
              (PTree.node l qa r').addrs.length + 1 = (PTree.node l qa r).addrs.length := by
            rintro ⟨x, hx, e⟩
            simp only [PTree.addrs, List.mem_append, List.mem_cons] at hx
            have hxr : x ∈ r.addrs := by
              rcases hx with hx | hx | hx
              · have := hlq x hx
                rw [hqprice, e] at this
                omega
              · subst hx; rw [hqprice] at e; exact absurd e.symm hne
              · exact hx
            have := hfound ⟨x, hxr, e⟩
            simp only [PTree.addrs, List.length_append, List.length_cons]; omega
          split at h
          · -- the right subtree lost a level
            rename_i hf1
            have e1 := hfix1 hf1
            obtain ⟨p', t', hps', it', hbt', hfr', hsz', hT, hF⟩ :=
              removeFix_bal_neg hp1 imid hndm hownm hbl' hbr'
                (by rw [hB3, ← e1]; push_cast; ring) hB4 hB5 h
            have hadd := fix_addrs removeFix_tree (Or.inr rfl) hp1 imid hndm hownm h hps' it'
            refine ⟨p', t', hps', it', hbt', ?_, by rw [hsz', hadd]; exact hszm, ?_, ?_,
              by rw [hadd]; exact hfoundm⟩
            · intro x hx
              rw [hfr' x (fun hx' => hx (hsubm x hx')), hfrm x hx]
            · intro hf
              have := hT hf
              simp only [PTree.height]; omega
            · intro hf
              have := hF hf
              simp only [PTree.height]; omega
          · -- the right subtree kept its height
            rename_i hf1
            have hf0 : fix1 = false := by simpa using hf1
            have e1 := hfix0 hf0
            cases h
            refine ⟨some qa, .node l qa r', hp1, imid, ?_, hfrm, hszm, ?_, ?_, hfoundm⟩
            · exact balanced_node hbl' hbr' (by rw [hB3, e1]) hB4 hB5
            · intro hf; cases hf
            · intro _; simp only [PTree.height, e1]

/-! ## The invariant of the trees built by `addLimit` and `removeLimit` -/

theorem bIn_append (limits : List limitPrice) (node : limitPrice) (x : Nat) :
    bIn (limits ++ [node]) x = if x = limits.length then node.b else bIn limits x := by
  unfold bIn
  by_cases hx : x = limits.length
  · subst hx; simp
  · rw [if_neg hx]
    by_cases hlt : x < limits.length
    · rw [List.getElem?_append_left hlt]
    · have h1 : (limits ++ [node])[x]? = none := by
        apply List.getElem?_eq_none
        simp; omega
      have h2 : limits[x]? = none := by
        apply List.getElem?_eq_none
        omega
      rw [h1, h2]

theorem mem_pricesOf {H : Nat → Option Core} {t : PTree} {x : Nat} :
    x ∈ pricesOf H t ↔ ∃ a ∈ t.addrs, priceIn H a = x := by
  unfold pricesOf
  exact List.mem_map

theorem filter_ne_mid {A B : List Nat} {k : Nat} (hA : ∀ x ∈ A, x ≠ k) (hB : ∀ x ∈ B, x ≠ k) :
    (A ++ k :: B).filter (fun x => decide (x ≠ k)) = A ++ B := by
  rw [List.filter_append, List.filter_cons]
  have hk : decide (k ≠ k) = false := by simp
  rw [hk]
  simp only [Bool.false_eq_true, if_false]
  rw [List.filter_eq_self.mpr (fun x hx => by simpa using hA x hx),
    List.filter_eq_self.mpr (fun x hx => by simpa using hB x hx)]

/-- The invariant holds of the empty tree. -/
theorem treeInv_empty : TreeInv emptyTree .leaf :=
  ⟨rfl, List.nodup_nil, List.Pairwise.nil, trivial, rfl⟩

/-- The invariant survives `addLimit`, and the prices of the tree are then
those it had, with the new one. -/
theorem addLimit_inv {fuel : Nat} {orders orders' : List order} {σ st' : TreeState}
    {t : PTree} {price : Nat} {o lim : Ptr} (hI : TreeInv σ t)
    (h : limitPriceTree.addLimit fuel orders σ price o = .ok (orders', st', lim)) :
    ∃ t', TreeInv st' t' ∧
      ∀ x, x ∈ pricesOf (coreHeap st'.limits) t' ↔
        (x ∈ pricesOf (coreHeap σ.limits) t ∨ x = price) := by
  obtain ⟨ht, hnd, hord, hbal, hsize⟩ := hI
  obtain ⟨-, t', i', nd', ord', hsub1, hsub2, -, hprice, hpla, -⟩ :=
    addLimit_spec ht hnd hord h
  unfold limitPriceTree.addLimit at h
  obtain ⟨⟨os, list⟩, _, h⟩ := bind_ok h
  obtain ⟨⟨st1, fix⟩, hput, h⟩ := bind_ok h
  cases h
  generalize hnode : (limitPrice.mk price list none none none 0) = node at hput
  have hncore : node.core = { price := price, c0 := none, c1 := none } := by
    rw [← hnode]; rfl
  have hnb : node.b = 0 := by rw [← hnode]
  have hH1 : ∀ x, x ≠ σ.limits.length →
      coreHeap (σ.limits ++ [node]) x = coreHeap σ.limits x := by
    intro x hx; rw [coreHeap_append, if_neg hx]
  have hH1la : coreHeap (σ.limits ++ [node]) σ.limits.length =
      some { price := price, c0 := none, c1 := none } := by
    rw [coreHeap_append, if_pos rfl, hncore]
  have hlat : σ.limits.length ∉ t.addrs := by
    intro hx
    obtain ⟨c, hc⟩ := isTree_mem ht _ hx
    rw [coreHeap_length] at hc
    cases hc
  have hne : ∀ x ∈ t.addrs, x ≠ σ.limits.length := fun x hx e => hlat (e ▸ hx)
  have hp1 : ∀ x, x ≠ σ.limits.length →
      priceIn (coreHeap (σ.limits ++ [node])) x = priceIn (coreHeap σ.limits) x := by
    intro x hx; unfold priceIn; rw [hH1 x hx]
  have ht1 : IsTree (coreHeap (σ.limits ++ [node])) t σ.tree.root :=
    isTree_congr (fun x hx => hH1 x (hne x hx)) ht
  have hord1 : Ordered (coreHeap (σ.limits ++ [node])) t :=
    ordered_congr (fun x hx => hp1 x (hne x hx)) hord
  have hbal1 : Balanced (bIn (σ.limits ++ [node])) t :=
    balanced_congr (fun x hx => by rw [bIn_append, if_neg (hne x hx)]) hbal
  have hbla : bIn (σ.limits ++ [node]) σ.limits.length = 0 := by
    rw [bIn_append, if_pos rfl, hnb]
  obtain ⟨p', t2, hps, it2, hb2, -, hsz, -, -, hmem⟩ :=
    put_bal fuel (σ := { σ with limits := σ.limits ++ [node] }) (Q := .root)
      (p := σ.tree.root) (K := { price := price, c0 := none, c1 := none })
      hH1la rfl rfl rfl ht1 hnd hord1 hlat (fun q hq => by simp [Slot.owner] at hq)
      hbal1 hbla hput
  simp only [slotPtr, Option.some.injEq] at hps
  subst hps
  have e := isTree_unique i' it2
  subst e
  simp only at hsz hmem
  refine ⟨t', ⟨i', nd', ord', hb2, by omega⟩, ?_⟩
  intro x
  rw [mem_pricesOf, mem_pricesOf]
  constructor
  · rintro ⟨a, ha, rfl⟩
    rcases hsub2 a ha with hat | hal
    · exact Or.inl ⟨a, hat, (hprice a (hne a hat)).symm⟩
    · subst hal; exact Or.inr hpla
  · rintro (⟨a, ha, rfl⟩ | rfl)
    · exact ⟨a, hsub1 a ha, hprice a (hne a ha)⟩
    · by_cases hin : ∃ a ∈ t.addrs, priceIn (coreHeap σ.limits) a = priceIn (coreHeap st'.limits) σ.limits.length
      · obtain ⟨a, ha, e⟩ := hin
        rw [← hpla]
        exact ⟨a, hsub1 a ha, by rw [hprice a (hne a ha)]; exact e⟩
      · refine ⟨σ.limits.length, hmem ?_, hpla⟩
        intro a ha e
        refine hin ⟨a, ha, ?_⟩
        rw [hpla, ← hp1 a (hne a ha)]
        exact e

/-- The invariant survives `removeLimit`, and the prices of the tree are then
those it had, without the removed one. -/
theorem removeLimit_inv {fuel : Nat} {σ st' : TreeState} {t : PTree} {key : Nat}
    (hI : TreeInv σ t) (h : limitPriceTree.removeLimit fuel σ key = .ok st') :
    ∃ t', TreeInv st' t' ∧
      pricesOf (coreHeap st'.limits) t' =
        (pricesOf (coreHeap σ.limits) t).filter (fun x => decide (x ≠ key)) := by
  obtain ⟨ht, hnd, hord, hbal, hsize⟩ := hI
  obtain ⟨t', i', nd', ord', -⟩ := removeLimit_spec ht hnd hord h
  unfold limitPriceTree.removeLimit at h
  obtain ⟨⟨st1, fix⟩, hrem, h⟩ := bind_ok h
  cases h
  have hown : ∀ q, Slot.root.owner = some q → q ∉ t.addrs := fun q hq => by
    simp [Slot.owner] at hq
  obtain ⟨p2, t2, i2, r2, hcase⟩ :=
    remove_tree fuel (Q := .root) (p := σ.tree.root) rfl ht hnd hown hrem
  simp only [slotRoot] at r2
  subst r2
  have e := isTree_unique i' i2
  subst e
  obtain ⟨p3, t3, hps, i3, hb3, -, hsz, -, -, hfound⟩ :=
    remove_bal fuel (Q := .root) (p := σ.tree.root) rfl ht hnd hord hown hbal hrem
  simp only [slotPtr, Option.some.injEq] at hps
  subst hps
  have e := isTree_unique i' i3
  subst e
  refine ⟨t', ⟨i', nd', ord', hb3, by omega⟩, ?_⟩
  unfold pricesOf
  rcases hcase with ⟨e, -, q⟩ | ⟨pre, u, post, m, e1, e2, -, hk, hm, q, qm⟩
  · have hnot : ∀ x ∈ t.addrs, priceIn (coreHeap σ.limits) x ≠ key := by
      intro x hx hxk
      have := hfound ⟨x, hx, hxk⟩
      rw [e] at this
      omega
    rw [e, List.map_congr_left (fun x _ => q x)]
    symm
    refine List.filter_eq_self.mpr ?_
    intro x hx
    obtain ⟨a, ha, rfl⟩ := List.mem_map.mp hx
    simpa using hnot a ha
  · have hord' := hord
    unfold Ordered at hord'
    rw [e1] at hord' hnd
    obtain ⟨hndpre, hndupost, hupre, hupost, hdis⟩ := nodup_mid hnd
    rw [e1, e2]
    by_cases hmu : m = u
    · subst hmu
      simp only [List.map_append, List.map_cons, List.pairwise_append, List.pairwise_cons,
        List.mem_map, List.mem_cons, forall_exists_index, and_imp,
        forall_apply_eq_imp_iff₂] at hord'
      obtain ⟨-, ⟨h2, -⟩, h3⟩ := hord'
      have hsame : (pre ++ post).map (priceIn (coreHeap st'.limits)) =
          pre.map (priceIn (coreHeap σ.limits)) ++ post.map (priceIn (coreHeap σ.limits)) := by
        rw [← List.map_append]
        refine List.map_congr_left ?_
        intro x hx
        refine q x ?_
        rintro rfl
        simp only [List.mem_append] at hx
        rcases hx with hx | hx
        · exact hupre hx
        · exact hupost hx
      rw [hsame, List.map_append, List.map_cons, hk]
      symm
      refine filter_ne_mid ?_ ?_
      · intro x hx
        obtain ⟨a, ha, rfl⟩ := List.mem_map.mp hx
        have := h3 a ha _ (Or.inl rfl)
        omega
      · intro x hx
        obtain ⟨a, ha, rfl⟩ := List.mem_map.mp hx
        have := h2 a ha
        omega
    · rcases hm with rfl | ⟨pre', rfl⟩
      · exact absurd rfl hmu
      · have hmpre' : m ∉ pre' := by
          intro hx
          have := hndpre
          rw [List.nodup_append] at this
          exact this.2.2 hx (by simp)
        have hmpost : m ∉ post := fun hx => hdis m (by simp) (by simp [hx])
        have hnew : (pre' ++ [m] ++ post).map (priceIn (coreHeap st'.limits)) =
            pre'.map (priceIn (coreHeap σ.limits)) ++
              (priceIn (coreHeap σ.limits) u :: post.map (priceIn (coreHeap σ.limits))) := by
          simp only [List.map_append, List.map_cons, List.map_nil, List.append_assoc,
            List.cons_append, List.nil_append, qm hmu]
          congr 1
          · exact List.map_congr_left (fun x hx => q x (by rintro rfl; exact hmpre' hx))
          · congr 1
            exact List.map_congr_left (fun x hx => q x (by rintro rfl; exact hmpost hx))
        rw [hnew]
        simp only [List.map_append, List.map_cons, List.map_nil, List.append_assoc,
          List.cons_append, List.nil_append, List.pairwise_append, List.pairwise_cons,
          List.mem_map, List.mem_cons, forall_exists_index, and_imp,
          forall_apply_eq_imp_iff₂, forall_eq_or_imp] at hord' ⊢
        rw [hk] at hord' ⊢
        obtain ⟨-, ⟨⟨h1, h2⟩, -⟩, h4⟩ := hord'
        symm
        refine filter_ne_mid (B := priceIn (coreHeap σ.limits) u ::
          post.map (priceIn (coreHeap σ.limits))) ?_ ?_
        · intro x hx
          obtain ⟨a, ha, rfl⟩ := List.mem_map.mp hx
          have := (h4 a ha).1
          omega
        · intro x hx
          rcases List.mem_cons.mp hx with rfl | hx
          · omega
          · obtain ⟨a, ha, rfl⟩ := List.mem_map.mp hx
            have := h2 a ha
            omega

/-- Every tree built by `addLimit` and `removeLimit` satisfies the invariant. -/
theorem treeBuilt_inv {st : TreeState} (h : TreeBuilt st) : ∃ t, TreeInv st t := by
  induction h with
  | empty => exact ⟨.leaf, treeInv_empty⟩
  | add fuel price o _ hadd ih =>
    obtain ⟨t, hI⟩ := ih
    obtain ⟨t', hI', -⟩ := addLimit_inv hI hadd
    exact ⟨t', hI'⟩
  | remove fuel price _ hrem ih =>
    obtain ⟨t, hI⟩ := ih
    obtain ⟨t', hI', -⟩ := removeLimit_inv hI hrem
    exact ⟨t', hI'⟩

/-- Prices that increase along the walk are ordered node by node. -/
theorem ordered_searchTree {H : Nat → Option Core} : ∀ {t : PTree},
    Ordered H t → SearchTree H t := by
  intro t
  induction t with
  | leaf => intro _; trivial
  | node l a r ihl ihr =>
    intro h
    obtain ⟨hl, hr, hla, har, -⟩ := ordered_node h
    exact ⟨hla, har, ihl hl, ihr hr⟩

/-- Prices that increase along the walk are pairwise distinct. -/
theorem ordered_prices_nodup {H : Nat → Option Core} {t : PTree} (h : Ordered H t) :
    (pricesOf H t).Nodup := by
  unfold Ordered at h
  unfold pricesOf
  exact h.imp (fun hxy => Nat.ne_of_lt hxy)

/-! ## Balance and ordering of the trees that `addLimit` and `removeLimit` build -/

/-- C15: in every tree built from the empty tree by calls of `addLimit` and
`removeLimit`, the root points to a tree `t` of distinct limits in which, at
every node, the heights of the two subtrees differ by at most one and the
stored indicator `b` of the node is the height of its right subtree minus the
height of its left one, hence one of -1, 0 and 1 (this is `Balanced`, read with
the stored indicators `bIn st.limits`). -/
theorem built_tree_balanced (st : TreeState) (h : TreeBuilt st) :
    ∃ t, IsTree (coreHeap st.limits) t st.tree.root ∧ t.addrs.Nodup ∧
      Balanced (bIn st.limits) t := by
  obtain ⟨t, hI⟩ := treeBuilt_inv h
  exact ⟨t, hI.tree, hI.nodup, hI.balanced⟩

/-- C15 on the tree built by `addLimit` at the prices 100, 50, 150 and 120. -/
theorem built_tree_balanced_witness :
    TreeBuilt treeFour ∧
    ∃ t, IsTree (coreHeap treeFour.limits) t treeFour.tree.root ∧ t.addrs.Nodup ∧
      Balanced (bIn treeFour.limits) t :=
  ⟨treeFour_built, built_tree_balanced treeFour treeFour_built⟩

/-- C19: in every tree built from the empty tree by calls of `addLimit` and
`removeLimit`, the root points to a tree `t` of distinct limits whose prices are
pairwise distinct and in which, at every node, all prices of the left subtree
are strictly smaller and all prices of the right subtree strictly greater than
the price of the node (`SearchTree`). -/
theorem built_tree_search_order (st : TreeState) (h : TreeBuilt st) :
    ∃ t, IsTree (coreHeap st.limits) t st.tree.root ∧ t.addrs.Nodup ∧
      (pricesOf (coreHeap st.limits) t).Nodup ∧ SearchTree (coreHeap st.limits) t := by
  obtain ⟨t, hI⟩ := treeBuilt_inv h
  exact ⟨t, hI.tree, hI.nodup, ordered_prices_nodup hI.ordered, ordered_searchTree hI.ordered⟩

/-- C19 on the tree left by `addLimit(100, A)`, `addLimit(101, B)`. -/
theorem built_tree_search_order_witness :
    TreeBuilt treeAB ∧
    ∃ t, IsTree (coreHeap treeAB.limits) t treeAB.tree.root ∧ t.addrs.Nodup ∧
      (pricesOf (coreHeap treeAB.limits) t).Nodup ∧ SearchTree (coreHeap treeAB.limits) t :=
  ⟨treeAB_built, built_tree_search_order treeAB treeAB_built⟩

/-! ## The tree functions return -/

theorem returns_ok {α : Type} (a : α) : Returns (Except.ok a : Except Fault α) :=
  ⟨a, rfl⟩

theorem returns_bind {α β : Type} {x : Except Fault α} {f : α → Except Fault β} {a : α}
    (hx : x = .ok a) (hf : Returns (f a)) : Returns (x >>= f) := by
  obtain ⟨b, hb⟩ := hf
  exact ⟨b, by rw [hx]; exact hb⟩

theorem ok_bind {α β : Type} (a : α) (f : α → Except Fault β) :
    (Except.ok a >>= f) = f a := rfl

theorem pure_ok {α : Type} (a : α) : (pure a : Except Fault α) = .ok a := rfl

theorem returns_bind_all {α β : Type} {x : Except Fault α} {f : α → Except Fault β}
    (hx : Returns x) (hf : ∀ a, Returns (f a)) : Returns (x >>= f) := by
  obtain ⟨a, ha⟩ := hx
  exact returns_bind ha (hf a)

theorem coreHeap_lt {limits : List limitPrice} {a : Nat} {c : Core}
    (h : coreHeap limits a = some c) : a < limits.length := by
  unfold coreHeap at h
  obtain ⟨n, hn, -⟩ := Option.map_eq_some'.mp h
  exact (List.getElem?_eq_some_iff.mp hn).1

theorem coreHeap_of_lt {limits : List limitPrice} {a : Nat} (h : a < limits.length) :
    ∃ c, coreHeap limits a = some c := by
  unfold coreHeap
  rw [List.getElem?_eq_getElem h]
  exact ⟨_, rfl⟩

theorem store_length {α : Type} (heap : List α) (a : Nat) (x : α) :
    (store heap a x).length = heap.length := by
  unfold store
  exact List.length_set _ _ _

/-- Reading an allocated address does not panic. -/
theorem returns_deref {α β : Type} {heap : List α} {a : Nat} {f : Nat × α → Except Fault β}
    (h : a < heap.length) (hf : ∀ x, heap[a]? = some x → Returns (f (a, x))) :
    Returns (deref heap (some a) >>= f) := by
  have hx : heap[a]? = some heap[a] := List.getElem?_eq_getElem h
  exact returns_bind (deref_some hx) (hf _ hx)

theorem children_setChildren (n : limitPrice) (a : Nat) (p : Ptr) :
    (n.setChildren a p).children a = p := by
  unfold limitPrice.setChildren limitPrice.children
  split <;> simp_all

theorem getElem_store_self {α : Type} {heap : List α} {a : Nat} {x y : α}
    (h : a < heap.length) (hy : (store heap a x)[a]? = some y) : y = x := by
  unfold store at hy
  rw [List.getElem?_set_self h] at hy
  exact (Option.some.inj hy).symm

/-- `rotate(c, s)` returns when `s`, its child `r` in the direction of `c`, and
the inner child of `r`, if there is one, are limits. -/
theorem rotate_returns {limits : List limitPrice} {c : Int} {sa ra : Nat} {cs cr : Core}
    (hs : coreHeap limits sa = some cs) (hr : cs.child (dirIndex c) = some ra)
    (hcr : coreHeap limits ra = some cr)
    (hin : ∀ y, cr.child (dirIndex c ^^^ 1) = some y → y < limits.length) :
    Returns (rotate limits c (some sa)) := by
  have hsl := coreHeap_lt hs
  have hrl := coreHeap_lt hcr
  unfold rotate
  simp only
  refine returns_deref hsl (fun sn hsn => ?_)
  have hsncore : sn.core = cs := by
    have : coreHeap limits sa = some sn.core := by simp [coreHeap, hsn]
    rw [hs] at this
    exact (Option.some.inj this).symm
  have hchild : sn.children (dirIndex c) = some ra := by
    rw [children_core, hsncore]; exact hr
  simp only [hchild]
  refine returns_deref hrl (fun rn hrn => ?_)
  have hrncore : rn.core = cr := by
    have : coreHeap limits ra = some rn.core := by simp [coreHeap, hrn]
    rw [hcr] at this
    exact (Option.some.inj this).symm
  simp only
  refine returns_deref (by rw [store_length]; exact hsl) (fun sn1 hsn1 => ?_)
  have hsn1 := getElem_store_self hsl hsn1
  subst hsn1
  simp only [children_setChildren]
  split
  · rename_i hne
    obtain ⟨ya, hya⟩ := Option.ne_none_iff_exists'.mp hne
    have hyc : cr.child (dirIndex c ^^^ 1) = some ya := by
      rw [← hrncore, ← children_core]; exact hya
    have hyl := hin ya hyc
    simp only [hya]
    have hyl1 : ya < (store limits sa (sn.setChildren (dirIndex c) (some ya))).length := by
      rw [store_length]; exact hyl
    have hx := List.getElem?_eq_getElem hyl1
    rw [deref_some hx]
    simp only [ok_bind, pure_ok]
    refine returns_deref (by simp only [store_length]; exact hrl) (fun rn2 _ => ?_)
    simp only
    refine returns_deref (by simp only [store_length]; exact hsl) (fun sn3 _ => ?_)
    refine returns_deref (by simp only [store_length]; exact hrl) (fun rn3 _ => ?_)
    simp only
    refine returns_deref (by simp only [store_length]; exact hsl) (fun sn4 _ => ?_)
    exact returns_ok _
  · simp only [ok_bind, pure_ok]
    refine returns_deref (by simp only [store_length]; exact hrl) (fun rn2 _ => ?_)
    simp only
    refine returns_deref (by simp only [store_length]; exact hsl) (fun sn3 _ => ?_)
    refine returns_deref (by simp only [store_length]; exact hrl) (fun rn3 _ => ?_)
    simp only
    refine returns_deref (by simp only [store_length]; exact hsl) (fun sn4 _ => ?_)
    exact returns_ok _

/-- A rotation allocates nothing and frees nothing. -/
theorem rotate_length {limits limits' : List limitPrice} {c : Int} {s r' : Ptr}
    (h : rotate limits c s = .ok (limits', r')) : limits'.length = limits.length := by
  unfold rotate at h
  simp only at h
  obtain ⟨⟨sa, sn⟩, hs, h⟩ := bind_ok h
  obtain ⟨⟨ra, rn⟩, hr, h⟩ := bind_ok h
  simp only at h
  obtain ⟨⟨sa1, sn1⟩, hs1, h⟩ := bind_ok h
  obtain ⟨limits2, h2, h⟩ := bind_ok h
  obtain ⟨⟨ra2, rn2⟩, hr2, h⟩ := bind_ok h
  simp only at h
  obtain ⟨⟨sa3, sn3⟩, hs3, h⟩ := bind_ok h
  obtain ⟨⟨ra3, rn3⟩, hr3, h⟩ := bind_ok h
  simp only at h
  obtain ⟨⟨sa4, sn4⟩, hs4, h⟩ := bind_ok h
  simp only at h
  have e2 : limits2.length = limits.length := by
    simp only at h2
    split at h2
    · obtain ⟨⟨ca, cn⟩, hc, h2⟩ := bind_ok h2
      cases h2
      simp only [store_length]
    · cases h2
      simp only [store_length]
  cases h
  simp only [store_length, e2]

/-- `singlerot(c, s)` returns when `rotate(c, s)` does. -/
theorem singlerot_returns {limits : List limitPrice} {c : Int} {sa ra : Nat} {cs cr : Core}
    (hs : coreHeap limits sa = some cs) (hr : cs.child (dirIndex c) = some ra)
    (hcr : coreHeap limits ra = some cr)
    (hin : ∀ y, cr.child (dirIndex c ^^^ 1) = some y → y < limits.length) :
    Returns (singlerot limits c (some sa)) := by
  have hsl := coreHeap_lt hs
  have hrl := coreHeap_lt hcr
  unfold singlerot
  refine returns_deref hsl (fun sn hsn => ?_)
  simp only
  have e0 := store_b_core (v := 0) (deref_some hsn)
  have h1 : coreHeap (store limits sa { sn with b := 0 }) sa = some cs := by
    rw [e0]; exact hs
  have h3 : coreHeap (store limits sa { sn with b := 0 }) ra = some cr := by
    rw [e0]; exact hcr
  obtain ⟨⟨limits1, s1⟩, hrot⟩ := rotate_returns (c := c) h1 hr h3
    (fun y hy => by rw [store_length]; exact hin y hy)
  refine returns_bind hrot ?_
  simp only
  obtain ⟨sa', cs', ra', cr', hsp, rfl, hcs', hchild', -, -⟩ := rotate_core hrot
  cases hsp
  rw [e0, hs] at hcs'
  cases hcs'
  rw [hr] at hchild'
  cases hchild'
  have hlen := rotate_length hrot
  rw [store_length] at hlen
  refine returns_deref (by rw [hlen]; exact hrl) (fun rn _ => ?_)
  exact returns_ok _

theorem isTree_ptr_lt {limits : List limitPrice} {t : PTree} {y : Nat}
    (h : IsTree (coreHeap limits) t (some y)) : y < limits.length := by
  obtain ⟨l, r, c, -, hc, -, -⟩ := isTree_some h
  exact coreHeap_lt hc

theorem core_of_getElem {limits : List limitPrice} {a : Nat} {n : limitPrice} {c : Core}
    (hn : limits[a]? = some n) (hc : coreHeap limits a = some c) : n.core = c := by
  have : coreHeap limits a = some n.core := by simp [coreHeap, hn]
  rw [hc] at this
  exact (Option.some.inj this).symm

/-- `doublerot(1, s)` returns when `s` has a right child and that child a left
child. -/
theorem doublerot_returns_pos {limits : List limitPrice} {s : Ptr} {l m1 m2 rr : PTree}
    {sa pa ra : Nat}
    (ht : IsTree (coreHeap limits) (.node l sa (.node (.node m1 pa m2) ra rr)) s)
    (hnd : (PTree.node l sa (.node (.node m1 pa m2) ra rr)).addrs.Nodup) :
    Returns (doublerot limits 1 s) := by
  obtain ⟨rfl, cs, hcs, hl, hr⟩ := ht
  have hr0 := hr
  obtain ⟨hc1, cr, hcr, hml, hrr⟩ := hr
  obtain ⟨hc0, cp, hcp, hm1, hm2⟩ := hml
  have hsl := coreHeap_lt hcs
  have hrl := coreHeap_lt hcr
  have hpl := coreHeap_lt hcp
  simp only [PTree.addrs] at hnd
  obtain ⟨-, hndr, -, hsar, -⟩ := nodup_mid hnd
  have hspa : sa ≠ pa := fun e => hsar (by simp [e])
  unfold doublerot
  simp only [dirIndex_pos]
  refine returns_deref hsl (fun sn hsn => ?_)
  have hsncore := core_of_getElem hsn hcs
  have hchild : sn.children 1 = some ra := by
    rw [children_core, hsncore]; exact hc1
  simp only [hchild]
  obtain ⟨⟨limits1, r1⟩, hrot1⟩ := rotate_returns (c := -1) hcr
    (by rw [dirIndex_neg]; exact hc0) hcp
    (fun y hy => by
      rw [dirIndex_neg] at hy
      have hy' : cp.c1 = some y := hy
      rw [hy'] at hm2
      exact isTree_ptr_lt hm2)
  refine returns_bind hrot1 ?_
  simp only
  rw [hc1] at hr0
  obtain ⟨m1', pa', m2', ra', rr', heq, hrap, rfl, itr', otr'⟩ :=
    rotate_shape_neg hr0 hndr hrot1
  cases heq
  have hlen1 := rotate_length hrot1
  refine returns_deref (by rw [hlen1]; exact hsl) (fun sn1 hsn1 => ?_)
  simp only
  have e2 : coreHeap (store limits1 sa (sn1.setChildren 1 (some pa))) =
      Function.update (coreHeap limits1) sa (some (sn1.core.setChild 1 (some pa))) := by
    rw [coreHeap_store hsn1, setChildren_core]
  obtain ⟨-, cp1, hcp1, hm1', -⟩ := itr'
  have h1 : coreHeap (store limits1 sa (sn1.setChildren 1 (some pa))) sa =
      some (sn1.core.setChild 1 (some pa)) := by
    rw [e2]; simp [Function.update]
  have h2 : (sn1.core.setChild 1 (some pa)).child (dirIndex 1) = some pa := by
    rw [dirIndex_pos]; rfl
  have h3 : coreHeap (store limits1 sa (sn1.setChildren 1 (some pa))) pa = some cp1 := by
    rw [e2]; simp only [Function.update, hspa.symm, dite_false]; exact hcp1
  obtain ⟨⟨limits3, p⟩, hrot2⟩ := rotate_returns (c := 1) h1 h2 h3
    (fun y hy => by
      rw [dirIndex_pos] at hy
      have hy' : cp1.c0 = some y := hy
      rw [hy'] at hm1'
      rw [store_length]
      exact isTree_ptr_lt hm1')
  refine returns_bind hrot2 ?_
  simp only
  obtain ⟨sa', cs', ra', cr', hsp, rfl, hcs', hchild', -, -⟩ := rotate_core hrot2
  cases hsp
  rw [e2] at hcs'
  simp only [Function.update, dite_true] at hcs'
  cases hcs'
  rw [dirIndex_pos] at hchild'
  have hra' : some pa = some ra' := hchild'
  cases hra'
  have hlen3 := rotate_length hrot2
  rw [store_length, hlen1] at hlen3
  refine returns_deref (by rw [hlen3]; exact hpl) (fun pn _ => ?_)
  simp only
  refine returns_deref (by rw [hlen3]; exact hsl) (fun sn4 _ => ?_)
  refine returns_deref (by simp only [store_length]; rw [hlen3]; exact hrl) (fun rn5 _ => ?_)
  refine returns_deref (by simp only [store_length]; rw [hlen3]; exact hpl) (fun pn6 _ => ?_)
  exact returns_ok _

/-- `doublerot(-1, s)` returns when `s` has a left child and that child a right
child. -/
theorem doublerot_returns_neg {limits : List limitPrice} {s : Ptr} {ll m1 m2 tr : PTree}
    {sa pa ra : Nat}
    (ht : IsTree (coreHeap limits) (.node (.node ll ra (.node m1 pa m2)) sa tr) s)
    (hnd : (PTree.node (.node ll ra (.node m1 pa m2)) sa tr).addrs.Nodup) :
    Returns (doublerot limits (-1) s) := by
  obtain ⟨rfl, cs, hcs, hl, hr⟩ := ht
  have hl0 := hl
  obtain ⟨hc0, cr, hcr, hll, hmr⟩ := hl
  obtain ⟨hc1, cp, hcp, hm1, hm2⟩ := hmr
  have hsl := coreHeap_lt hcs
  have hrl := coreHeap_lt hcr
  have hpl := coreHeap_lt hcp
  simp only [PTree.addrs] at hnd
  obtain ⟨hndl, -, hsal, -, -⟩ := nodup_mid hnd
  have hspa : sa ≠ pa := fun e => hsal (by simp [e])
  unfold doublerot
  simp only [dirIndex_neg, neg_neg_one]
  refine returns_deref hsl (fun sn hsn => ?_)
  have hsncore := core_of_getElem hsn hcs
  have hchild : sn.children 0 = some ra := by
    rw [children_core, hsncore]; exact hc0
  simp only [hchild]
  obtain ⟨⟨limits1, r1⟩, hrot1⟩ := rotate_returns (c := 1) hcr
    (by rw [dirIndex_pos]; exact hc1) hcp
    (fun y hy => by
      rw [dirIndex_pos] at hy
      have hy' : cp.c0 = some y := hy
      rw [hy'] at hm1
      exact isTree_ptr_lt hm1)
  refine returns_bind hrot1 ?_
  simp only
  rw [hc0] at hl0
  obtain ⟨ll', ra', m1', pa', m2', heq, hrap, rfl, itr', otr'⟩ :=
    rotate_shape_pos hl0 hndl hrot1
  cases heq
  have hlen1 := rotate_length hrot1
  refine returns_deref (by rw [hlen1]; exact hsl) (fun sn1 hsn1 => ?_)
  simp only
  have e2 : coreHeap (store limits1 sa (sn1.setChildren 0 (some pa))) =
      Function.update (coreHeap limits1) sa (some (sn1.core.setChild 0 (some pa))) := by
    rw [coreHeap_store hsn1, setChildren_core]
  obtain ⟨-, cp1, hcp1, -, hm2'⟩ := itr'
  have h1 : coreHeap (store limits1 sa (sn1.setChildren 0 (some pa))) sa =
      some (sn1.core.setChild 0 (some pa)) := by
    rw [e2]; simp [Function.update]
  have h2 : (sn1.core.setChild 0 (some pa)).child (dirIndex (-1)) = some pa := by
    rw [dirIndex_neg]; rfl
  have h3 : coreHeap (store limits1 sa (sn1.setChildren 0 (some pa))) pa = some cp1 := by
    rw [e2]; simp only [Function.update, hspa.symm, dite_false]; exact hcp1
  obtain ⟨⟨limits3, p⟩, hrot2⟩ := rotate_returns (c := -1) h1 h2 h3
    (fun y hy => by
      rw [dirIndex_neg] at hy
      have hy' : cp1.c1 = some y := hy
      rw [hy'] at hm2'
      rw [store_length]
      exact isTree_ptr_lt hm2')
  refine returns_bind hrot2 ?_
  simp only
  obtain ⟨sa', cs', ra', cr', hsp, rfl, hcs', hchild', -, -⟩ := rotate_core hrot2
  cases hsp
  rw [e2] at hcs'
  simp only [Function.update, dite_true] at hcs'
  cases hcs'
  rw [dirIndex_neg] at hchild'
  have hra' : some pa = some ra' := hchild'
  cases hra'
  have hlen3 := rotate_length hrot2
  rw [store_length, hlen1] at hlen3
  refine returns_deref (by rw [hlen3]; exact hpl) (fun pn _ => ?_)
  simp only
  refine returns_deref (by rw [hlen3]; exact hsl) (fun sn4 _ => ?_)
  refine returns_deref (by simp only [store_length]; rw [hlen3]; exact hrl) (fun rn5 _ => ?_)
  refine returns_deref (by simp only [store_length]; rw [hlen3]; exact hpl) (fun pn6 _ => ?_)
  exact returns_ok _

/-- Reading a slot returns the pointer it holds. -/
theorem readSlot_ok {σ : TreeState} {Q : Slot} {p : Ptr}
    (h : slotPtr (coreHeap σ.limits) σ.tree.root Q = some p) : readSlot σ Q = .ok p := by
  cases Q with
  | root =>
    simp only [slotPtr, Option.some.injEq] at h
    subst h; rfl
  | child q a =>
    simp only [slotPtr] at h
    obtain ⟨c, hc, rfl⟩ := Option.map_eq_some'.mp h
    have hlt := coreHeap_lt hc
    have hx : σ.limits[q]? = some σ.limits[q] := List.getElem?_eq_getElem hlt
    simp only [readSlot, deref_some hx, ok_bind]
    rw [children_core, core_of_getElem hx hc]

theorem slot_owner_lt {limits : List limitPrice} {root : Ptr} {Q : Slot} {p : Ptr}
    (h : slotPtr (coreHeap limits) root Q = some p) :
    ∀ q, Q.owner = some q → q < limits.length := by
  intro q hq
  cases Q with
  | root => simp [Slot.owner] at hq
  | child q' a =>
    simp only [Slot.owner, Option.some.injEq] at hq
    subst hq
    simp only [slotPtr] at h
    obtain ⟨c, hc, -⟩ := Option.map_eq_some'.mp h
    exact coreHeap_lt hc

/-- Writing a slot whose owner is a limit returns. -/
theorem writeSlot_returns {σ : TreeState} {Q : Slot} (p : Ptr)
    (h : ∀ q, Q.owner = some q → q < σ.limits.length) : Returns (writeSlot σ Q p) := by
  cases Q with
  | root => exact returns_ok _
  | child q a =>
    simp only [writeSlot]
    exact returns_deref (h q rfl) (fun n _ => returns_ok _)

/-- The owner of a slot is still a limit after a rotation of the tree in the
slot. -/
theorem sameWalk_owner_lt {σ : TreeState} {limits1 : List limitPrice} {Q : Slot} {p s1 : Ptr}
    {t : PTree} (hp : slotPtr (coreHeap σ.limits) σ.tree.root Q = some p)
    (hown : ∀ q, Q.owner = some q → q ∉ t.addrs)
    (hw : SameWalk (coreHeap σ.limits) (coreHeap limits1) t s1) :
    ∀ q, Q.owner = some q → q < limits1.length := by
  intro q hq
  obtain ⟨-, -, -, o1, -⟩ := hw
  obtain ⟨c, hc⟩ := coreHeap_of_lt (slot_owner_lt hp q hq)
  exact coreHeap_lt (c := c) (by rw [o1 q (hown q hq)]; exact hc)

theorem height_pos_node {t : PTree} (h : 1 ≤ t.height) : ∃ l a r, t = .node l a r := by
  cases t with
  | leaf => simp [PTree.height] at h
  | node l a r => exact ⟨l, a, r, rfl⟩

/-- `putFix(1, qp)` returns after the right subtree of the node in the slot has
grown by one level. -/
theorem putFix_returns_pos {σ : TreeState} {Q : Slot} {p : Ptr} {l r : PTree} {sa : Nat}
    (hp : slotPtr (coreHeap σ.limits) σ.tree.root Q = some p)
    (ht : IsTree (coreHeap σ.limits) (.node l sa r) p)
    (hnd : (PTree.node l sa r).addrs.Nodup)
    (hown : ∀ q, Q.owner = some q → q ∉ (PTree.node l sa r).addrs)
    (hbr : Balanced (bIn σ.limits) r)
    (hb : bIn σ.limits sa = (r.height : Int) - 1 - (l.height : Int))
    (hb1 : -1 ≤ bIn σ.limits sa) (hb2 : bIn σ.limits sa ≤ 1)
    (hrb : r.height = 1 ∨ rootB (bIn σ.limits) r ≠ 0) :
    Returns (putFix σ 1 Q) := by
  unfold putFix
  simp only [dirIndex_pos]
  refine returns_bind (readSlot_ok hp) ?_
  have ht0 := ht
  obtain ⟨rfl, cs, hcs, hl, hr⟩ := ht
  refine returns_deref (coreHeap_lt hcs) (fun sn hsn => ?_)
  have hsb : sn.b = bIn σ.limits sa := (bIn_of_getElem hsn).symm
  have hsncore := core_of_getElem hsn hcs
  simp only
  split
  · exact returns_ok _
  · split
    · exact returns_ok _
    · rename_i hnz hnm
      rw [hsb] at hnz hnm
      have hone : bIn σ.limits sa = 1 := by omega
      have hr2 : 2 ≤ r.height := by omega
      obtain ⟨m, ra, rr, rfl⟩ := height_pos_node (t := r) (by omega)
      obtain ⟨hc1, cr, hcr, hm, hrr⟩ := hr
      have hchild : sn.children 1 = some ra := by
        rw [children_core, hsncore]; exact hc1
      simp only [hchild]
      refine returns_deref (coreHeap_lt hcr) (fun cn hcn => ?_)
      have hcb : cn.b = bIn σ.limits ra := (bIn_of_getElem hcn).symm
      simp only
      have hrotR : ∃ res, (if cn.b = 1 then singlerot σ.limits 1 (some sa)
          else doublerot σ.limits 1 (some sa)) = .ok res ∧
          SameWalk (coreHeap σ.limits) (coreHeap res.1) (.node l sa (.node m ra rr)) res.2 := by
        split
        · obtain ⟨res, hres⟩ := singlerot_returns (c := 1) hcs (by rw [dirIndex_pos]; exact hc1)
            hcr (fun y hy => by
              rw [dirIndex_pos] at hy
              have hy' : cr.c0 = some y := hy
              rw [hy'] at hm
              exact isTree_ptr_lt hm)
          exact ⟨res, hres, singlerot_tree (Or.inl rfl) ht0 hnd hres⟩
        · rename_i hc
          rw [hcb] at hc
          obtain ⟨-, -, -, -, hra, hra1, hra2⟩ := hbr
          have hrn : bIn σ.limits ra ≠ 0 := by
            rcases hrb with h1 | h1
            · omega
            · exact h1
          have hm1 : 1 ≤ m.height := by omega
          obtain ⟨m1, pa, m2, rfl⟩ := height_pos_node hm1
          obtain ⟨res, hres⟩ := doublerot_returns_pos ht0 hnd
          exact ⟨res, hres, doublerot_tree (Or.inl rfl) ht0 hnd hres⟩
      obtain ⟨⟨limits1, s1⟩, hrot, hw⟩ := hrotR
      refine returns_bind hrot ?_
      simp only
      obtain ⟨st2, hst2⟩ := writeSlot_returns (σ := { σ with limits := limits1 }) (Q := Q) s1
        (sameWalk_owner_lt hp hown hw)
      exact returns_bind hst2 (returns_ok _)

/-- `putFix(-1, qp)` returns after the left subtree of the node in the slot has
grown by one level. -/
theorem putFix_returns_neg {σ : TreeState} {Q : Slot} {p : Ptr} {l r : PTree} {sa : Nat}
    (hp : slotPtr (coreHeap σ.limits) σ.tree.root Q = some p)
    (ht : IsTree (coreHeap σ.limits) (.node l sa r) p)
    (hnd : (PTree.node l sa r).addrs.Nodup)
    (hown : ∀ q, Q.owner = some q → q ∉ (PTree.node l sa r).addrs)
    (hbl : Balanced (bIn σ.limits) l)
    (hb : bIn σ.limits sa = (r.height : Int) - ((l.height : Int) - 1))
    (hb1 : -1 ≤ bIn σ.limits sa) (hb2 : bIn σ.limits sa ≤ 1)
    (hlb : l.height = 1 ∨ rootB (bIn σ.limits) l ≠ 0) :
    Returns (putFix σ (-1) Q) := by
  unfold putFix
  simp only [dirIndex_neg, neg_neg_one]
  refine returns_bind (readSlot_ok hp) ?_
  have ht0 := ht
  obtain ⟨rfl, cs, hcs, hl, hr⟩ := ht
  refine returns_deref (coreHeap_lt hcs) (fun sn hsn => ?_)
  have hsb : sn.b = bIn σ.limits sa := (bIn_of_getElem hsn).symm
  have hsncore := core_of_getElem hsn hcs
  simp only
  split
  · exact returns_ok _
  · split
    · exact returns_ok _
    · rename_i hnz hnm
      rw [hsb] at hnz hnm
      have hone : bIn σ.limits sa = -1 := by omega
      have hl2 : 2 ≤ l.height := by omega
      obtain ⟨ll, ra, m, rfl⟩ := height_pos_node (t := l) (by omega)
      obtain ⟨hc0, cr, hcr, hll, hm⟩ := hl
      have hchild : sn.children 0 = some ra := by
        rw [children_core, hsncore]; exact hc0
      simp only [hchild]
      refine returns_deref (coreHeap_lt hcr) (fun cn hcn => ?_)
      have hcb : cn.b = bIn σ.limits ra := (bIn_of_getElem hcn).symm
      simp only
      have hrotR : ∃ res, (if cn.b = -1 then singlerot σ.limits (-1) (some sa)
          else doublerot σ.limits (-1) (some sa)) = .ok res ∧
          SameWalk (coreHeap σ.limits) (coreHeap res.1) (.node (.node ll ra m) sa r) res.2 := by
        split
        · obtain ⟨res, hres⟩ := singlerot_returns (c := -1) hcs (by rw [dirIndex_neg]; exact hc0)
            hcr (fun y hy => by
              rw [dirIndex_neg] at hy
              have hy' : cr.c1 = some y := hy
              rw [hy'] at hm
              exact isTree_ptr_lt hm)
          exact ⟨res, hres, singlerot_tree (Or.inr rfl) ht0 hnd hres⟩
        · rename_i hc
          rw [hcb] at hc
          obtain ⟨-, -, -, -, hra, hra1, hra2⟩ := hbl
          have hrn : bIn σ.limits ra ≠ 0 := by
            rcases hlb with h1 | h1
            · omega
            · exact h1
          have hm1 : 1 ≤ m.height := by omega
          obtain ⟨m1, pa, m2, rfl⟩ := height_pos_node hm1
          obtain ⟨res, hres⟩ := doublerot_returns_neg ht0 hnd
          exact ⟨res, hres, doublerot_tree (Or.inr rfl) ht0 hnd hres⟩
      obtain ⟨⟨limits1, s1⟩, hrot, hw⟩ := hrotR
      refine returns_bind hrot ?_
      simp only
      obtain ⟨st2, hst2⟩ := writeSlot_returns (σ := { σ with limits := limits1 }) (Q := Q) s1
        (sameWalk_owner_lt hp hown hw)
      exact returns_bind hst2 (returns_ok _)

/-- `removeFix(1, qp)` returns after the left subtree of the node in the slot
has lost one level. -/
theorem removeFix_returns_pos {σ : TreeState} {Q : Slot} {p : Ptr} {l r : PTree} {sa : Nat}
    (hp : slotPtr (coreHeap σ.limits) σ.tree.root Q = some p)
    (ht : IsTree (coreHeap σ.limits) (.node l sa r) p)
    (hnd : (PTree.node l sa r).addrs.Nodup)
    (hown : ∀ q, Q.owner = some q → q ∉ (PTree.node l sa r).addrs)
    (hbr : Balanced (bIn σ.limits) r)
    (hb : bIn σ.limits sa = (r.height : Int) - ((l.height : Int) + 1))
    (hb1 : -1 ≤ bIn σ.limits sa) (hb2 : bIn σ.limits sa ≤ 1) :
    Returns (removeFix σ 1 Q) := by
  unfold removeFix
  simp only [dirIndex_pos]
  refine returns_bind (readSlot_ok hp) ?_
  have ht0 := ht
  obtain ⟨rfl, cs, hcs, hl, hr⟩ := ht
  refine returns_deref (coreHeap_lt hcs) (fun sn hsn => ?_)
  have hsb : sn.b = bIn σ.limits sa := (bIn_of_getElem hsn).symm
  have hsncore := core_of_getElem hsn hcs
  simp only
  split
  · exact returns_ok _
  · split
    · exact returns_ok _
    · rename_i hnz hnm
      rw [hsb] at hnz hnm
      have hone : bIn σ.limits sa = 1 := by omega
      have hr2 : 2 ≤ r.height := by omega
      obtain ⟨m, ra, rr, rfl⟩ := height_pos_node (t := r) (by omega)
      obtain ⟨hc1, cr, hcr, hm, hrr⟩ := hr
      have hchild : sn.children 1 = some ra := by
        rw [children_core, hsncore]; exact hc1
      simp only [hchild]
      refine returns_deref (coreHeap_lt hcr) (fun cn hcn => ?_)
      have hcb : cn.b = bIn σ.limits ra := (bIn_of_getElem hcn).symm
      simp only
      have hin : ∀ y, cr.child (dirIndex 1 ^^^ 1) = some y → y < σ.limits.length := by
        intro y hy
        rw [dirIndex_pos] at hy
        have hy' : cr.c0 = some y := hy
        rw [hy'] at hm
        exact isTree_ptr_lt hm
      split
      · -- the right child is even: one rotation
        obtain ⟨⟨limits1, s1⟩, hrot⟩ := rotate_returns (c := 1) hcs
          (by rw [dirIndex_pos]; exact hc1) hcr hin
        have hw := rotate_tree (Or.inl rfl) ht0 hnd hrot
        refine returns_bind hrot ?_
        simp only
        obtain ⟨sa', cs', ra', cr', hsp, rfl, hcs', hchild', -, -⟩ := rotate_core hrot
        cases hsp
        rw [hcs] at hcs'
        cases hcs'
        rw [dirIndex_pos] at hchild'
        have hra' : cs.c1 = some ra' := hchild'
        rw [hc1] at hra'
        cases hra'
        have hlen := rotate_length hrot
        refine returns_deref (by rw [hlen]; exact coreHeap_lt hcr) (fun rn _ => ?_)
        simp only
        obtain ⟨st2, hst2⟩ := writeSlot_returns
          (σ := { σ with limits := store limits1 ra { rn with b := -1 } }) (Q := Q) (some ra)
          (fun q hq => by
            simp only [store_length]
            exact sameWalk_owner_lt hp hown hw q hq)
        exact returns_bind hst2 (returns_ok _)
      · rename_i hc0
        rw [hcb] at hc0
        have hrotR : ∃ res, (if cn.b = 1 then singlerot σ.limits 1 (some sa)
            else doublerot σ.limits 1 (some sa)) = .ok res ∧
            SameWalk (coreHeap σ.limits) (coreHeap res.1) (.node l sa (.node m ra rr)) res.2 := by
          split
          · obtain ⟨res, hres⟩ := singlerot_returns (c := 1) hcs
              (by rw [dirIndex_pos]; exact hc1) hcr hin
            exact ⟨res, hres, singlerot_tree (Or.inl rfl) ht0 hnd hres⟩
          · rename_i hc
            rw [hcb] at hc
            obtain ⟨-, -, -, -, hra, hra1, hra2⟩ := hbr
            have hm1 : 1 ≤ m.height := by omega
            obtain ⟨m1, pa, m2, rfl⟩ := height_pos_node hm1
            obtain ⟨res, hres⟩ := doublerot_returns_pos ht0 hnd
            exact ⟨res, hres, doublerot_tree (Or.inl rfl) ht0 hnd hres⟩
        obtain ⟨⟨limits1, s1⟩, hrot, hw⟩ := hrotR
        refine returns_bind hrot ?_
        simp only
        obtain ⟨st2, hst2⟩ := writeSlot_returns (σ := { σ with limits := limits1 }) (Q := Q) s1
          (sameWalk_owner_lt hp hown hw)
        exact returns_bind hst2 (returns_ok _)

/-- `removeFix(-1, qp)` returns after the right subtree of the node in the slot
has lost one level. -/
theorem removeFix_returns_neg {σ : TreeState} {Q : Slot} {p : Ptr} {l r : PTree} {sa : Nat}
    (hp : slotPtr (coreHeap σ.limits) σ.tree.root Q = some p)
    (ht : IsTree (coreHeap σ.limits) (.node l sa r) p)
    (hnd : (PTree.node l sa r).addrs.Nodup)
    (hown : ∀ q, Q.owner = some q → q ∉ (PTree.node l sa r).addrs)
    (hbl : Balanced (bIn σ.limits) l)
    (hb : bIn σ.limits sa = ((r.height : Int) + 1) - (l.height : Int))
    (hb1 : -1 ≤ bIn σ.limits sa) (hb2 : bIn σ.limits sa ≤ 1) :
    Returns (removeFix σ (-1) Q) := by
  unfold removeFix
  simp only [dirIndex_neg, neg_neg_one]
  refine returns_bind (readSlot_ok hp) ?_
  have ht0 := ht
  obtain ⟨rfl, cs, hcs, hl, hr⟩ := ht
  refine returns_deref (coreHeap_lt hcs) (fun sn hsn => ?_)
  have hsb : sn.b = bIn σ.limits sa := (bIn_of_getElem hsn).symm
  have hsncore := core_of_getElem hsn hcs
  simp only
  split
  · exact returns_ok _
  · split
    · exact returns_ok _
    · rename_i hnz hnm
      rw [hsb] at hnz hnm
      have hone : bIn σ.limits sa = -1 := by omega
      have hl2 : 2 ≤ l.height := by omega
      obtain ⟨ll, ra, m, rfl⟩ := height_pos_node (t := l) (by omega)
      obtain ⟨hc0, cr, hcr, hll, hm⟩ := hl
      have hchild : sn.children 0 = some ra := by
        rw [children_core, hsncore]; exact hc0
      simp only [hchild]
      refine returns_deref (coreHeap_lt hcr) (fun cn hcn => ?_)
      have hcb : cn.b = bIn σ.limits ra := (bIn_of_getElem hcn).symm
      simp only
      have hin : ∀ y, cr.child (dirIndex (-1) ^^^ 1) = some y → y < σ.limits.length := by
        intro y hy
        rw [dirIndex_neg] at hy
        have hy' : cr.c1 = some y := hy
        rw [hy'] at hm
        exact isTree_ptr_lt hm
      split
      · -- the left child is even: one rotation
        obtain ⟨⟨limits1, s1⟩, hrot⟩ := rotate_returns (c := -1) hcs
          (by rw [dirIndex_neg]; exact hc0) hcr hin
        have hw := rotate_tree (Or.inr rfl) ht0 hnd hrot
        refine returns_bind hrot ?_
        simp only
        obtain ⟨sa', cs', ra', cr', hsp, rfl, hcs', hchild', -, -⟩ := rotate_core hrot
        cases hsp
        rw [hcs] at hcs'
        cases hcs'
        rw [dirIndex_neg] at hchild'
        have hra' : cs.c0 = some ra' := hchild'
        rw [hc0] at hra'
        cases hra'
        have hlen := rotate_length hrot
        refine returns_deref (by rw [hlen]; exact coreHeap_lt hcr) (fun rn _ => ?_)
        simp only
        obtain ⟨st2, hst2⟩ := writeSlot_returns
          (σ := { σ with limits := store limits1 ra { rn with b := 1 } }) (Q := Q) (some ra)
          (fun q hq => by
            simp only [store_length]
            exact sameWalk_owner_lt hp hown hw q hq)
        exact returns_bind hst2 (returns_ok _)
      · rename_i hc0'
        rw [hcb] at hc0'
        have hrotR : ∃ res, (if cn.b = -1 then singlerot σ.limits (-1) (some sa)
            else doublerot σ.limits (-1) (some sa)) = .ok res ∧
            SameWalk (coreHeap σ.limits) (coreHeap res.1) (.node (.node ll ra m) sa r)
              res.2 := by
          split
          · obtain ⟨res, hres⟩ := singlerot_returns (c := -1) hcs
              (by rw [dirIndex_neg]; exact hc0) hcr hin
            exact ⟨res, hres, singlerot_tree (Or.inr rfl) ht0 hnd hres⟩
          · rename_i hc
            rw [hcb] at hc
            obtain ⟨-, -, -, -, hra, hra1, hra2⟩ := hbl
            have hm1 : 1 ≤ m.height := by omega
            obtain ⟨m1, pa, m2, rfl⟩ := height_pos_node hm1
            obtain ⟨res, hres⟩ := doublerot_returns_neg ht0 hnd
            exact ⟨res, hres, doublerot_tree (Or.inr rfl) ht0 hnd hres⟩
        obtain ⟨⟨limits1, s1⟩, hrot, hw⟩ := hrotR
        refine returns_bind hrot ?_
        simp only
        obtain ⟨st2, hst2⟩ := writeSlot_returns (σ := { σ with limits := limits1 }) (Q := Q) s1
          (sameWalk_owner_lt hp hown hw)
        exact returns_bind hst2 (returns_ok _)

/-- With more fuel than the tree in the slot is high, `put` returns. -/
theorem put_returns : ∀ (fuel : Nat) {σ : TreeState} {la : Nat} {K : Core} (p0 : Ptr)
    {Q : Slot} {p : Ptr} {t : PTree},
    coreHeap σ.limits la = some K → K.c0 = none → K.c1 = none →
    slotPtr (coreHeap σ.limits) σ.tree.root Q = some p →
    IsTree (coreHeap σ.limits) t p → t.addrs.Nodup → Ordered (coreHeap σ.limits) t →
    la ∉ t.addrs → (∀ q, Q.owner = some q → q ∉ t.addrs ∧ q ≠ la) →
    Balanced (bIn σ.limits) t → bIn σ.limits la = 0 →
    t.height < fuel →
    Returns (limitPriceTree.put fuel σ (some la) p0 Q) := by
  intro fuel
  induction fuel with
  | zero => intro σ la K p0 Q p t _ _ _ _ _ _ _ _ _ _ _ h; omega
  | succ n ih =>
    intro σ la K p0 Q p t hla hc0 hc1 hp ht hnd hord hlat hown hbal hbla hfuel
    unfold limitPriceTree.put
    refine returns_bind (readSlot_ok hp) ?_
    have hlal := coreHeap_lt hla
    split
    · -- empty slot: link the new limit
      simp only
      refine returns_deref hlal (fun ln _ => ?_)
      simp only
      obtain ⟨st2, hst2⟩ := writeSlot_returns
        (σ := { limits := store σ.limits la { ln with parent := p0 },
                tree := { σ.tree with size := σ.tree.size + 1 } }) (Q := Q) (some la)
        (fun q hq => by
          simp only [store_length]
          exact slot_owner_lt hp q hq)
      exact returns_bind hst2 (returns_ok _)
    · rename_i hsome
      obtain ⟨qa, rfl⟩ := Option.ne_none_iff_exists'.mp hsome
      obtain ⟨l, r, cq, rfl, hcq, hl, hr⟩ := isTree_some ht
      refine returns_deref hlal (fun ln hln => ?_)
      refine returns_deref (coreHeap_lt hcq) (fun qn hqn => ?_)
      simp only
      have hnd0 := hnd
      have hlat0 := hlat
      have hbal0 := hbal
      simp only [PTree.addrs] at hnd hlat
      obtain ⟨hndl, hndr, hql', hqr, hd⟩ := nodup_mid hnd
      obtain ⟨hordl, hordr, hlq, hrq, hlr⟩ := ordered_node hord
      obtain ⟨hbl, hbr, hb1, hb2, hb3, hb4, hb5⟩ := hbal
      have hqla : qa ≠ la := fun e => hlat (by simp [e])
      have hh : (PTree.node l qa r).height = max l.height r.height + 1 := rfl
      split
      · exact returns_ok _
      · by_cases hlt : compare ln.price qn.price < 0
        · -- go left
          simp only [if_pos hlt, dirIndex_neg]
          have hslot : slotPtr (coreHeap σ.limits) σ.tree.root (.child qa 0) = some cq.c0 := by
            simp [slotPtr, hcq, Core.child]
          have hownl : ∀ q, (Slot.child qa 0).owner = some q → q ∉ l.addrs ∧ q ≠ la := by
            intro q hq
            simp only [Slot.owner, Option.some.injEq] at hq
            subst hq
            exact ⟨hql', hqla⟩
          have hlal' : la ∉ l.addrs := fun hx => hlat (by simp [hx])
          obtain ⟨⟨st1, fix1⟩, hrec⟩ := ih (some qa) hla hc0 hc1 hslot hl hndl hordl hlal'
            hownl hbl hbla (by omega)
          refine returns_bind hrec ?_
          simp only
          split
          · rename_i hf1
            have hpost := put_tree n hla hc0 hc1 hslot hl hndl hordl hlal' hownl hrec
            have hrb := put_bal n hla hc0 hc1 hslot hl hndl hordl hlal' hownl hbl hbla hrec
            obtain ⟨l', hp1, imid, hndm, hsubm, hbl', hbr', hB3, hB4, hB5, hfr, hsz, hfix1,
              hfix0, hmem⟩ := put_mid_left hp hcq hr hnd0 hlat0 hown hbal0 hpost hrb
            have hownm : ∀ q, Q.owner = some q → q ∉ (PTree.node l' qa r).addrs := by
              intro q hq hx
              obtain ⟨h1, h2⟩ := hown q hq
              rcases List.mem_cons.mp (hsubm q hx) with e | e
              · exact h2 e
              · exact h1 e
            obtain ⟨e1, e2⟩ := hfix1 hf1
            exact putFix_returns_neg hp1 imid hndm hownm hbl'
              (by rw [hB3, e1]; push_cast; ring) hB4 hB5 e2
          · exact returns_ok _
        · -- go right
          simp only [if_neg hlt, dirIndex_pos]
          have hslot : slotPtr (coreHeap σ.limits) σ.tree.root (.child qa 1) = some cq.c1 := by
            simp [slotPtr, hcq, Core.child]
          have hownr : ∀ q, (Slot.child qa 1).owner = some q → q ∉ r.addrs ∧ q ≠ la := by
            intro q hq
            simp only [Slot.owner, Option.some.injEq] at hq
            subst hq
            exact ⟨hqr, hqla⟩
          have hlar : la ∉ r.addrs := fun hx => hlat (by simp [hx])
          obtain ⟨⟨st1, fix1⟩, hrec⟩ := ih (some qa) hla hc0 hc1 hslot hr hndr hordr hlar
            hownr hbr hbla (by omega)
          refine returns_bind hrec ?_
          simp only
          split
          · rename_i hf1
            have hpost := put_tree n hla hc0 hc1 hslot hr hndr hordr hlar hownr hrec
            have hrb := put_bal n hla hc0 hc1 hslot hr hndr hordr hlar hownr hbr hbla hrec
            obtain ⟨r', hp1, imid, hndm, hsubm, hbl', hbr', hB3, hB4, hB5, hfr, hsz, hfix1,
              hfix0, hmem⟩ := put_mid_right hp hcq hl hnd0 hlat0 hown hbal0 hpost hrb
            have hownm : ∀ q, Q.owner = some q → q ∉ (PTree.node l qa r').addrs := by
              intro q hq hx
              obtain ⟨h1, h2⟩ := hown q hq
              rcases List.mem_cons.mp (hsubm q hx) with e | e
              · exact h2 e
              · exact h1 e
            obtain ⟨e1, e2⟩ := hfix1 hf1
            exact putFix_returns_pos hp1 imid hndm hownm hbr'
              (by rw [hB3, e1]; push_cast; ring) hB4 hB5 e2
          · exact returns_ok _

/-- With as much fuel as the tree in the slot is high, `removeMin` returns on a
tree that is not empty. -/
theorem removeMin_returns : ∀ (fuel : Nat) {σ : TreeState} {Q : Slot} {p : Ptr}
    {t : PTree} {minKey : Nat},
    slotPtr (coreHeap σ.limits) σ.tree.root Q = some p →
    IsTree (coreHeap σ.limits) t p → t.addrs.Nodup → minKey ∉ t.addrs →
    (∀ q, Q.owner = some q → q ∉ t.addrs) →
    Balanced (bIn σ.limits) t →
    1 ≤ t.height → minKey < σ.limits.length → t.height ≤ fuel →
    Returns (removeMin fuel σ Q minKey) := by
  intro fuel
  induction fuel with
  | zero => intro σ Q p t minKey _ _ _ _ _ _ h1 _ h2; omega
  | succ n ih =>
    intro σ Q p t minKey hp ht hnd hmk hown hbal hpos hmkl hfuel
    unfold removeMin
    refine returns_bind (readSlot_ok hp) ?_
    obtain ⟨l, qa, r, rfl⟩ := height_pos_node hpos
    have ht0 := ht
    obtain ⟨rfl, cq, hcq, hl, hr⟩ := ht
    have hqal := coreHeap_lt hcq
    refine returns_deref hqal (fun qn hqn => ?_)
    have hqncore := core_of_getElem hqn hcq
    simp only
    have hnd0 := hnd
    have hbal0 := hbal
    simp only [PTree.addrs] at hnd hmk
    obtain ⟨hndl, hndr, hql', hqr, hd⟩ := nodup_mid hnd
    obtain ⟨hbl, hbr, hb1, hb2, hb3, hb4, hb5⟩ := hbal
    have hqmk : qa ≠ minKey := fun e => hmk (by simp [e])
    have hh : (PTree.node l qa r).height = max l.height r.height + 1 := rfl
    split
    · -- no left child: this is the minimum
      refine returns_deref hmkl (fun kn hkn => ?_)
      simp only
      refine returns_deref (by rw [store_length]; exact hqal) (fun qn1 hqn1 => ?_)
      simp only
      have e1 := coreHeap_store_price (v := qn.price) hkn
      have ht1 : IsTree (coreHeap (store σ.limits minKey { kn with price := qn.price }))
          (.node l qa r) (some qa) := by
        rw [e1]; exact isTree_setPrice _ _ ht0
      obtain ⟨-, cq1, hcq1, -, hr1⟩ := ht1
      have hqn1core := core_of_getElem hqn1 hcq1
      split
      · rename_i hne
        obtain ⟨ya, hya⟩ := Option.ne_none_iff_exists'.mp hne
        have hyc : cq1.c1 = some ya := by
          rw [← hqn1core]; rw [children_core] at hya; exact hya
        rw [hyc] at hr1
        have hyl := isTree_ptr_lt hr1
        simp only [hya]
        rw [deref_some (List.getElem?_eq_getElem hyl)]
        simp only [ok_bind, pure_ok]
        refine returns_deref (by simp only [store_length]; exact hqal) (fun qn2 _ => ?_)
        simp only
        refine returns_bind_all (writeSlot_returns _ (fun q hq => ?_)) (fun _ => returns_ok _)
        simp only [store_length]
        exact slot_owner_lt hp q hq
      · simp only [ok_bind, pure_ok]
        refine returns_deref (by simp only [store_length]; exact hqal) (fun qn2 _ => ?_)
        simp only
        refine returns_bind_all (writeSlot_returns _ (fun q hq => ?_)) (fun _ => returns_ok _)
        simp only [store_length]
        exact slot_owner_lt hp q hq
    · -- descend to the left
      rename_i hne
      obtain ⟨ya, hya⟩ := Option.ne_none_iff_exists'.mp hne
      have hyc : cq.c0 = some ya := by
        rw [← hqncore]; rw [children_core] at hya; exact hya
      have hl0 := hl
      rw [hyc] at hl0
      obtain ⟨l1, l2, cy, rfl, -, -, -⟩ := isTree_some hl0
      have hlh : (PTree.node l1 ya l2).height = max l1.height l2.height + 1 := rfl
      have hslot : slotPtr (coreHeap σ.limits) σ.tree.root (.child qa 0) = some cq.c0 := by
        simp [slotPtr, hcq, Core.child]
      have hownl : ∀ q, (Slot.child qa 0).owner = some q → q ∉ (PTree.node l1 ya l2).addrs := by
        intro q hq
        simp only [Slot.owner, Option.some.injEq] at hq
        subst hq
        exact hql'
      have hmkl' : minKey ∉ (PTree.node l1 ya l2).addrs := fun hx => hmk (by simp [hx])
      obtain ⟨⟨st1, fix1⟩, hrec⟩ := ih hslot hl hndl hmkl' hownl hbl (by omega) hmkl (by omega)
      refine returns_bind hrec ?_
      simp only
      split
      · rename_i hf1
        have hpost := removeMin_tree n hslot hl hndl hmkl' hownl hrec
        obtain ⟨P, l', hPs, il', hbl', hfr, hsz, hlen, hfix1, hfix0⟩ :=
          removeMin_bal n hslot hl hndl hmkl' hownl hbl hrec
        obtain ⟨v, ol, rl, hndl', hsub, -⟩ := remMinPost_addrs hpost hslot hownl hndl hPs il'
        rw [slotRoot_child] at rl
        obtain ⟨hp1, imid, hndm, hsubm, hbr', hB3, hB4, hB5, hfrm⟩ :=
          rem_mid_left hp hcq hr hnd0 hown hbal0 il' ol rl hndl' hsub hfr
        have hownm : ∀ q, Q.owner = some q → q ∉ (PTree.node l' qa r).addrs :=
          fun q hq hx => hown q hq (hsubm q hx)
        have e1 := hfix1 hf1
        exact removeFix_returns_pos hp1 imid hndm hownm hbr'
          (by rw [hB3, ← e1]; push_cast; ring) hB4 hB5
      · exact returns_ok _

/-- With more fuel than the tree in the slot is high, `remove` returns. -/
theorem remove_returns : ∀ (fuel : Nat) {σ : TreeState} {Q : Slot} {p : Ptr}
    {t : PTree} (key : Nat),
    slotPtr (coreHeap σ.limits) σ.tree.root Q = some p →
    IsTree (coreHeap σ.limits) t p → t.addrs.Nodup → Ordered (coreHeap σ.limits) t →
    (∀ q, Q.owner = some q → q ∉ t.addrs) →
    Balanced (bIn σ.limits) t →
    t.height < fuel →
    Returns (limitPriceTree.remove fuel σ key Q) := by
  intro fuel
  induction fuel with
  | zero => intro σ Q p t key _ _ _ _ _ _ h; omega
  | succ n ih =>
    intro σ Q p t key hp ht hnd hord hown hbal hfuel
    unfold limitPriceTree.remove
    refine returns_bind (readSlot_ok hp) ?_
    split
    · exact returns_ok _
    · rename_i hsome
      obtain ⟨qa, rfl⟩ := Option.ne_none_iff_exists'.mp hsome
      have ht0 := ht
      obtain ⟨l, r, cq, rfl, hcq, hl, hr⟩ := isTree_some ht
      have hqal := coreHeap_lt hcq
      refine returns_deref hqal (fun qn hqn => ?_)
      have hqncore := core_of_getElem hqn hcq
      simp only
      have hnd0 := hnd
      have hbal0 := hbal
      simp only [PTree.addrs] at hnd
      obtain ⟨hndl, hndr, hql', hqr, hd⟩ := nodup_mid hnd
      obtain ⟨hordl, hordr, hlq, hrq, hlr⟩ := ordered_node hord
      obtain ⟨hbl, hbr, hb1, hb2, hb3, hb4, hb5⟩ := hbal
      have hh : (PTree.node l qa r).height = max l.height r.height + 1 := rfl
      split
      · -- the key is here
        split
        · -- no right child: the left child takes the place
          split
          · rename_i hne
            obtain ⟨ya, hya⟩ := Option.ne_none_iff_exists'.mp hne
            have hyc : cq.c0 = some ya := by
              rw [← hqncore]; rw [children_core] at hya; exact hya
            rw [hyc] at hl
            have hyl := isTree_ptr_lt hl
            simp only [hya]
            rw [deref_some (List.getElem?_eq_getElem hyl)]
            simp only [ok_bind, pure_ok]
            refine returns_deref (by simp only [store_length]; exact hqal) (fun qn2 _ => ?_)
            simp only
            refine returns_bind_all (writeSlot_returns _ (fun q hq => ?_))
              (fun _ => returns_ok _)
            simp only [store_length]
            exact slot_owner_lt hp q hq
          · simp only [ok_bind, pure_ok]
            refine returns_deref hqal (fun qn2 _ => ?_)
            simp only
            refine returns_bind_all (writeSlot_returns _ (fun q hq => ?_))
              (fun _ => returns_ok _)
            exact slot_owner_lt hp q hq
        · -- a right child: its minimum is moved here
          rename_i hne
          obtain ⟨ya, hya⟩ := Option.ne_none_iff_exists'.mp hne
          have hyc : cq.c1 = some ya := by
            rw [← hqncore]; rw [children_core] at hya; exact hya
          have hr0 := hr
          rw [hyc] at hr0
          obtain ⟨r1, r2, cy, rfl, -, -, -⟩ := isTree_some hr0
          have hrh : (PTree.node r1 ya r2).height = max r1.height r2.height + 1 := rfl
          have hslot : slotPtr (coreHeap σ.limits) σ.tree.root (.child qa 1) = some cq.c1 := by
            simp [slotPtr, hcq, Core.child]
          have hownr : ∀ q, (Slot.child qa 1).owner = some q →
              q ∉ (PTree.node r1 ya r2).addrs := by
            intro q hq
            simp only [Slot.owner, Option.some.injEq] at hq
            subst hq
            exact hqr
          obtain ⟨⟨st1, fix1⟩, hrec⟩ := removeMin_returns n
            (σ := { σ with tree := { σ.tree with size := σ.tree.size - 1 } })
            hslot hr hndr hqr hownr hbr (by omega) hqal (by omega)
          refine returns_bind hrec ?_
          simp only
          split
          · rename_i hf1
            have hpost := removeMin_tree n
              (σ := { σ with tree := { σ.tree with size := σ.tree.size - 1 } })
              hslot hr hndr hqr hownr hrec
            obtain ⟨P, r', hPs, ir', hbr', hfr, hsz, hlen, hfix1, hfix0⟩ :=
              removeMin_bal n (σ := { σ with tree := { σ.tree with size := σ.tree.size - 1 } })
                hslot hr hndr hqr hownr hbr hrec
            simp only at hpost hfr hsz
            obtain ⟨v, or1, rr, hndr', hsub, -⟩ :=
              remMinPost_addrs hpost hslot hownr hndr hPs ir'
            rw [slotRoot_child] at rr
            obtain ⟨hp1, imid, hndm, hsubm, hbl', hB3, hB4, hB5, hfrm⟩ :=
              rem_mid_right hp hcq hl hnd0 hown hbal0 ir' or1 rr hndr' hsub hfr
            have hownm : ∀ q, Q.owner = some q → q ∉ (PTree.node l qa r').addrs :=
              fun q hq hx => hown q hq (hsubm q hx)
            have e1 := hfix1 hf1
            exact removeFix_returns_neg hp1 imid hndm hownm hbl'
              (by rw [hB3, ← e1]; push_cast; ring) hB4 hB5
          · exact returns_ok _
      · -- the key is in a subtree
        by_cases hlt : compare key qn.price < 0
        · -- left
          simp only [if_pos hlt, dirIndex_neg, neg_neg_one]
          have hslot : slotPtr (coreHeap σ.limits) σ.tree.root (.child qa 0) = some cq.c0 := by
            simp [slotPtr, hcq, Core.child]
          have hownl : ∀ q, (Slot.child qa 0).owner = some q → q ∉ l.addrs := by
            intro q hq
            simp only [Slot.owner, Option.some.injEq] at hq
            subst hq
            exact hql'
          obtain ⟨⟨st1, fix1⟩, hrec⟩ := ih key hslot hl hndl hordl hownl hbl (by omega)
          refine returns_bind hrec ?_
          simp only
          split
          · rename_i hf1
            have hpost := remove_tree n hslot hl hndl hownl hrec
            obtain ⟨P, l', hPs, il', hbl', hfr, hsz, hfix1, hfix0, hfound⟩ :=
              remove_bal n hslot hl hndl hordl hownl hbl hrec
            obtain ⟨m, v, ol, rl, hndl', hsub, -⟩ :=
              removePost_addrs hpost hslot hownl hndl hPs il'
            rw [slotRoot_child] at rl
            obtain ⟨hp1, imid, hndm, hsubm, hbr', hB3, hB4, hB5, hfrm⟩ :=
              rem_mid_left hp hcq hr hnd0 hown hbal0 il' ol rl hndl' hsub hfr
            have hownm : ∀ q, Q.owner = some q → q ∉ (PTree.node l' qa r).addrs :=
              fun q hq hx => hown q hq (hsubm q hx)
            have e1 := hfix1 hf1
            exact removeFix_returns_pos hp1 imid hndm hownm hbr'
              (by rw [hB3, ← e1]; push_cast; ring) hB4 hB5
          · exact returns_ok _
        · -- right
          simp only [if_neg hlt, dirIndex_pos]
          have hslot : slotPtr (coreHeap σ.limits) σ.tree.root (.child qa 1) = some cq.c1 := by
            simp [slotPtr, hcq, Core.child]
          have hownr : ∀ q, (Slot.child qa 1).owner = some q → q ∉ r.addrs := by
            intro q hq
            simp only [Slot.owner, Option.some.injEq] at hq
            subst hq
            exact hqr
          obtain ⟨⟨st1, fix1⟩, hrec⟩ := ih key hslot hr hndr hordr hownr hbr (by omega)
          refine returns_bind hrec ?_
          simp only
          split
          · rename_i hf1
            have hpost := remove_tree n hslot hr hndr hownr hrec
            obtain ⟨P, r', hPs, ir', hbr', hfr, hsz, hfix1, hfix0, hfound⟩ :=
              remove_bal n hslot hr hndr hordr hownr hbr hrec
            obtain ⟨m, v, or1, rr, hndr', hsub, -⟩ :=
              removePost_addrs hpost hslot hownr hndr hPs ir'
            rw [slotRoot_child] at rr
            obtain ⟨hp1, imid, hndm, hsubm, hbl', hB3, hB4, hB5, hfrm⟩ :=
              rem_mid_right hp hcq hl hnd0 hown hbal0 ir' or1 rr hndr' hsub hfr
            have hownm : ∀ q, Q.owner = some q → q ∉ (PTree.node l qa r').addrs :=
              fun q hq hx => hown q hq (hsubm q hx)
            have e1 := hfix1 hf1
            exact removeFix_returns_neg hp1 imid hndm hownm hbl'
              (by rw [hB3, ← e1]; push_cast; ring) hB4 hB5
          · exact returns_ok _

/-! ## The tree as a set of prices -/

theorem height_le_length : ∀ t : PTree, t.height ≤ t.addrs.length := by
  intro t
  induction t with
  | leaf => simp [PTree.height]
  | node l a r ihl ihr =>
    simp only [PTree.height, PTree.addrs, List.length_append, List.length_cons]
    omega

/-- With more fuel than the tree is high, `addLimit` returns. -/
theorem addLimit_returns {fuel : Nat} {σ : TreeState} {t : PTree} (orders : List order)
    (price : Nat) (o : Ptr) (hI : TreeInv σ t) (hfuel : t.height < fuel) :
    Returns (limitPriceTree.addLimit fuel orders σ price o) := by
  obtain ⟨ht, hnd, hord, hbal, hsize⟩ := hI
  unfold limitPriceTree.addLimit
  have hnew : newOrderList orders o = .ok (orders, { first := o, last := o, size := 1 }) := by
    simp [newOrderList, orderList.add]
  refine returns_bind hnew ?_
  simp only
  refine returns_bind_all ?_ (fun _ => returns_ok _)
  generalize hnode : (limitPrice.mk price { first := o, last := o, size := 1 } none none none 0) =
    node
  have hncore : node.core = { price := price, c0 := none, c1 := none } := by
    rw [← hnode]; rfl
  have hnb : node.b = 0 := by rw [← hnode]
  have hH1 : ∀ x, x ≠ σ.limits.length →
      coreHeap (σ.limits ++ [node]) x = coreHeap σ.limits x := by
    intro x hx; rw [coreHeap_append, if_neg hx]
  have hH1la : coreHeap (σ.limits ++ [node]) σ.limits.length =
      some { price := price, c0 := none, c1 := none } := by
    rw [coreHeap_append, if_pos rfl, hncore]
  have hlat : σ.limits.length ∉ t.addrs := by
    intro hx
    obtain ⟨c, hc⟩ := isTree_mem ht _ hx
    rw [coreHeap_length] at hc
    cases hc
  have hne : ∀ x ∈ t.addrs, x ≠ σ.limits.length := fun x hx e => hlat (e ▸ hx)
  have hp1 : ∀ x, x ≠ σ.limits.length →
      priceIn (coreHeap (σ.limits ++ [node])) x = priceIn (coreHeap σ.limits) x := by
    intro x hx; unfold priceIn; rw [hH1 x hx]
  have ht1 : IsTree (coreHeap (σ.limits ++ [node])) t σ.tree.root :=
    isTree_congr (fun x hx => hH1 x (hne x hx)) ht
  have hord1 : Ordered (coreHeap (σ.limits ++ [node])) t :=
    ordered_congr (fun x hx => hp1 x (hne x hx)) hord
  have hbal1 : Balanced (bIn (σ.limits ++ [node])) t :=
    balanced_congr (fun x hx => by rw [bIn_append, if_neg (hne x hx)]) hbal
  have hbla : bIn (σ.limits ++ [node]) σ.limits.length = 0 := by
    rw [bIn_append, if_pos rfl, hnb]
  exact put_returns fuel none (σ := { σ with limits := σ.limits ++ [node] }) (Q := .root)
    (p := σ.tree.root) (K := { price := price, c0 := none, c1 := none })
    hH1la rfl rfl rfl ht1 hnd hord1 hlat (fun q hq => by simp [Slot.owner] at hq)
    hbal1 hbla hfuel

/-- With more fuel than the tree is high, `removeLimit` returns. -/
theorem removeLimit_returns {fuel : Nat} {σ : TreeState} {t : PTree} (key : Nat)
    (hI : TreeInv σ t) (hfuel : t.height < fuel) :
    Returns (limitPriceTree.removeLimit fuel σ key) := by
  obtain ⟨ht, hnd, hord, hbal, hsize⟩ := hI
  unfold limitPriceTree.removeLimit
  refine returns_bind_all ?_ (fun _ => returns_ok _)
  exact remove_returns fuel key (Q := .root) (p := σ.tree.root) rfl ht hnd hord
    (fun q hq => by simp [Slot.owner] at hq) hbal hfuel

/-- C18: every tree built from the empty tree by calls of `addLimit` and
`removeLimit` holds a set of prices.  The root points to a tree `t` whose prices
are pairwise distinct, and the `size` field is the number of its nodes (which
bounds its height).  With more fuel than `t` is high, `addLimit(price, o)`
returns, and the prices of the tree it leaves are those of `t` and `price`;
`removeLimit(price)` returns, and the prices of the tree it leaves are those of
`t` without `price` (all of them when `price` is not among them); after either
call the `size` field is again the number of nodes of the tree. -/
theorem tree_is_price_set (st : TreeState) (h : TreeBuilt st) :
    ∃ t, IsTree (coreHeap st.limits) t st.tree.root ∧
      (pricesOf (coreHeap st.limits) t).Nodup ∧
      st.tree.size = (t.addrs.length : Int) ∧ (t.height : Int) ≤ st.tree.size ∧
      (∀ (fuel : Nat) (orders : List order) (price : Nat) (o : Ptr), t.height < fuel →
        ∃ orders' st' lim t',
          limitPriceTree.addLimit fuel orders st price o = .ok (orders', st', lim) ∧
          IsTree (coreHeap st'.limits) t' st'.tree.root ∧
          (∀ x, x ∈ pricesOf (coreHeap st'.limits) t' ↔
            (x ∈ pricesOf (coreHeap st.limits) t ∨ x = price)) ∧
          st'.tree.size = (t'.addrs.length : Int)) ∧
      (∀ (fuel : Nat) (price : Nat), t.height < fuel →
        ∃ st' t', limitPriceTree.removeLimit fuel st price = .ok st' ∧
          IsTree (coreHeap st'.limits) t' st'.tree.root ∧
          pricesOf (coreHeap st'.limits) t' =
            (pricesOf (coreHeap st.limits) t).filter (fun x => decide (x ≠ price)) ∧
          st'.tree.size = (t'.addrs.length : Int)) := by
  obtain ⟨t, hI⟩ := treeBuilt_inv h
  refine ⟨t, hI.tree, ordered_prices_nodup hI.ordered, hI.size, ?_, ?_, ?_⟩
  · rw [hI.size]
    exact_mod_cast height_le_length t
  · intro fuel orders price o hfuel
    obtain ⟨⟨orders', st', lim⟩, hadd⟩ := addLimit_returns orders price o hI hfuel
    obtain ⟨t', hI', hprices⟩ := addLimit_inv hI hadd
    exact ⟨orders', st', lim, t', hadd, hI'.tree, hprices, hI'.size⟩
  · intro fuel price hfuel
    obtain ⟨st', hrem⟩ := removeLimit_returns price hI hfuel
    obtain ⟨t', hI', hprices⟩ := removeLimit_inv hI hrem
    exact ⟨st', t', hrem, hI'.tree, hprices, hI'.size⟩

/-- C18 on the tree built by `addLimit` at the prices 100, 50, 150 and 120. -/
theorem tree_is_price_set_witness :
    TreeBuilt treeFour ∧
    ∃ t, IsTree (coreHeap treeFour.limits) t treeFour.tree.root ∧
      (pricesOf (coreHeap treeFour.limits) t).Nodup ∧
      treeFour.tree.size = (t.addrs.length : Int) ∧ (t.height : Int) ≤ treeFour.tree.size ∧
      (∀ (fuel : Nat) (orders : List order) (price : Nat) (o : Ptr), t.height < fuel →
        ∃ orders' st' lim t',
          limitPriceTree.addLimit fuel orders treeFour price o = .ok (orders', st', lim) ∧
          IsTree (coreHeap st'.limits) t' st'.tree.root ∧
          (∀ x, x ∈ pricesOf (coreHeap st'.limits) t' ↔
            (x ∈ pricesOf (coreHeap treeFour.limits) t ∨ x = price)) ∧
          st'.tree.size = (t'.addrs.length : Int)) ∧
      (∀ (fuel : Nat) (price : Nat), t.height < fuel →
        ∃ st' t', limitPriceTree.removeLimit fuel treeFour price = .ok st' ∧
          IsTree (coreHeap st'.limits) t' st'.tree.root ∧
          pricesOf (coreHeap st'.limits) t' =
            (pricesOf (coreHeap treeFour.limits) t).filter (fun x => decide (x ≠ price)) ∧
          st'.tree.size = (t'.addrs.length : Int)) :=
  ⟨treeFour_built, tree_is_price_set treeFour treeFour_built⟩

/-! ## A level outlives its last order -/

theorem bookFilled_submit :
    bookA.Submit 5 10000002 Bid 100 10 =
      .ok { book := bookFilled, id := 10000002,
            executions := [⟨10000001, 10, 0⟩, ⟨10000002, 10, 0⟩], err := false } := by
  rfl

theorem bookFilled_reachable : Reachable bookFilled :=
  Reachable.submit 5 10000002 Bid 100 10 bookA_reachable (by decide) bookFilled_submit

/-- C22 fails on the code: after `Submit(Sell, 100, 10)` and
`Submit(Buy, 100, 10)` on the empty book the sell is filled in full and is gone
from the registry, but its level is still there: the ask tree still holds the
price 100, `bestAsk` still points to that limit, and the queue of the limit is
empty.  `matchBid` removes an emptied level only when its loop comes round
again, which it does only while some quantity remains; here nothing remains.
The next `Submit(Buy, 100, 5)` finds the empty level, removes it and rests;
a `Submit(Buy, 99, 1)` instead leaves it, and `Top` then gives 100 as the best
ask although no sell order rests. -/
theorem filled_level_stays_in_tree :
    Reachable bookA ∧
    bookA.Submit 5 10000002 Bid 100 10 =
      .ok { book := bookFilled, id := 10000002,
            executions := [⟨10000001, 10, 0⟩, ⟨10000002, 10, 0⟩], err := false } ∧
    Reachable bookFilled ∧ bookFilled.orderMap = [] ∧
    treePrices bookFilled.limitHeap 5 bookFilled.askTree.root = [100] ∧
    bookFilled.bestAsk = some 0 ∧
    bookFilled.limitHeap[0]? = some ⟨100, ⟨none, none, 0⟩, none, none, none, 0⟩ ∧
    orderList.Empty ⟨none, none, 0⟩ = true ∧ queueOf bookFilled 5 0 = [] ∧
    bookFilled.Submit 5 10000003 Bid 100 5 =
      .ok { book := bookFilledBought, id := 10000003, executions := [], err := false } ∧
    treePrices bookFilledBought.limitHeap 5 bookFilledBought.askTree.root = [] ∧
    bookFilledBought.bestAsk = none ∧
    (bookFilled.Submit 5 10000003 Bid 99 1 >>= fun r => r.book.Top) = .ok (99, 100) :=
  ⟨bookA_reachable, bookFilled_submit, bookFilled_reachable, rfl, by decide, rfl, rfl,
    by decide, by decide, by rfl, by decide, rfl, by rfl⟩

/-! ## The queue is first-in first-out -/

theorem store_same {α : Type} {heap : List α} {a : Nat} {x : α} (h : heap[a]? = some x) :
    store heap a x = heap := by
  unfold store
  apply List.ext_getElem?
  intro i
  rw [List.getElem?_set]
  split
  · rename_i hi
    subst hi
    split
    · exact h.symm
    · rename_i hlt
      exact (List.getElem?_eq_none (by omega)).symm
  · rfl

theorem getElem_store_ne {α : Type} (heap : List α) {a i : Nat} (x : α) (h : i ≠ a) :
    (store heap a x)[i]? = heap[i]? := by
  unfold store
  rw [List.getElem?_set]
  rw [if_neg (fun e => h e.symm)]

theorem getElem_store_eq {α : Type} {heap : List α} {a : Nat} {x y : α}
    (h : heap[a]? = some x) : (store heap a y)[a]? = some y := by
  have hlt : a < heap.length := (List.getElem?_eq_some_iff.mp h).1
  unfold store
  rw [List.getElem?_set_self hlt]

theorem linked_tail {heap : List order} {a : Nat} {rest : List Nat}
    (h : Linked heap (a :: rest)) : Linked heap rest := by
  cases rest with
  | nil => trivial
  | cons b rest => exact h.2

theorem linked_head {heap : List order} {a : Nat} {rest : List Nat}
    (h : Linked heap (a :: rest)) :
    ∃ x, heap[a]? = some x ∧ x.next = rest.head? ∧ x.prev = none := by
  cases rest with
  | nil => exact h
  | cons b rest => exact h.1

/-- Linking a fresh order behind the last order of a chain. -/
theorem linked_snoc {heap : List order} {o : Nat} : ∀ (c : List Nat) {la : Nat} {l : order},
    c.getLast? = some la → heap[la]? = some l → Linked heap c → c.Nodup → o ∉ c →
    (heap[o]?).map (fun x => (x.next, x.prev)) = some (none, none) →
    Linked (store heap la { l with next := some o }) (c ++ [o]) := by
  intro c
  induction c with
  | nil => intro la l h; simp at h
  | cons a rest ih =>
    intro la l hla hl hc hnd ho hfresh
    have hoa : o ≠ a := fun e => ho (by simp [e])
    cases rest with
    | nil =>
      simp only [List.getLast?_singleton, Option.some.injEq] at hla
      subst hla
      obtain ⟨x, hx, hxn, hxp⟩ := hc
      rw [hl] at hx
      cases hx
      refine ⟨⟨_, getElem_store_eq hl, rfl, hxp⟩, ?_⟩
      obtain ⟨y, hy, hyv⟩ := Option.map_eq_some'.mp hfresh
      simp only [Prod.mk.injEq] at hyv
      exact ⟨y, by rw [getElem_store_ne _ _ hoa]; exact hy, hyv.1, hyv.2⟩
    | cons b rest =>
      obtain ⟨⟨x, hx, hxn, hxp⟩, hc'⟩ := hc
      have hla' : (b :: rest).getLast? = some la := by
        rw [List.getLast?_cons_cons] at hla; exact hla
      have hlamem : la ∈ b :: rest := List.mem_of_getLast?_eq_some hla'
      have hnd' := List.nodup_cons.mp hnd
      have hala : a ≠ la := fun e => hnd'.1 (e ▸ hlamem)
      refine ⟨⟨x, by rw [getElem_store_ne _ _ hala]; exact hx, hxn, hxp⟩, ?_⟩
      exact ih hla' hl hc' hnd'.2 (fun h => ho (List.mem_cons_of_mem _ h)) hfresh

theorem queueList_snoc (c : List Nat) (o : Nat) (hne : c ≠ []) :
    ({ queueList c with last := some o, size := (queueList c).size + 1 } : orderList) =
      queueList (c ++ [o]) := by
  cases c with
  | nil => exact absurd rfl hne
  | cons a rest =>
    have hl : (a :: (rest ++ [o])).getLast? = some o := by
      rw [← List.cons_append, List.getLast?_append]
      simp
    simp [queueList, hl]

/-- One `add` of a fresh order to the queue of a chain. -/
theorem add_linked {heap : List order} {c : List Nat} {o : Nat} (hc : Linked heap c)
    (hnd : c.Nodup) (ho : o ∉ c)
    (hfresh : (heap[o]?).map (fun x => (x.next, x.prev)) = some (none, none)) :
    ∃ heap', orderList.add heap (queueList c) (some o) = .ok (heap', queueList (c ++ [o])) ∧
      Linked heap' (c ++ [o]) ∧ ∀ a, a ∉ c → heap'[a]? = heap[a]? := by
  cases hcs : c with
  | nil =>
    subst hcs
    refine ⟨heap, by simp [orderList.add, queueList], ?_, fun _ _ => rfl⟩
    obtain ⟨y, hy, hyv⟩ := Option.map_eq_some'.mp hfresh
    simp only [Prod.mk.injEq] at hyv
    exact ⟨y, hy, hyv.1, hyv.2⟩
  | cons a rest =>
    rw [← hcs]
    have hne : c ≠ [] := by rw [hcs]; simp
    obtain ⟨la, hla⟩ : ∃ la, c.getLast? = some la := by
      rw [hcs]; exact ⟨_, List.getLast?_eq_getLast _ (by simp)⟩
    have hlamem : la ∈ c := List.mem_of_getLast?_eq_some hla
    obtain ⟨l, hl⟩ : ∃ l, heap[la]? = some l := by
      clear hne hla hcs ho hnd
      induction c with
      | nil => simp at hlamem
      | cons a' rest' ih =>
        rcases List.mem_cons.mp hlamem with e | e
        · subst e
          obtain ⟨x, hx, -⟩ := linked_head hc
          exact ⟨x, hx⟩
        · exact ih (linked_tail hc) e
    refine ⟨store heap la { l with next := some o }, ?_, linked_snoc c hla hl hc hnd ho hfresh,
      ?_⟩
    · have hsz : (queueList c).size ≠ 0 := by
        rw [hcs]; simp only [queueList, List.length_cons]; omega
      unfold orderList.add
      rw [if_neg hsz]
      have hlast : (queueList c).last = some la := hla
      rw [hlast, deref_some hl]
      simp only [ok_bind]
      rw [queueList_snoc c o hne]
    · intro x hx
      exact getElem_store_ne _ _ (fun e => hx (e ▸ hlamem))

/-- The calls of `add` for fresh orders, behind a chain. -/
theorem addAll_linked : ∀ (os c : List Nat) (heap : List order), Linked heap c →
    (c ++ os).Nodup →
    (∀ a ∈ os, (heap[a]?).map (fun x => (x.next, x.prev)) = some (none, none)) →
    ∃ heap', addAll heap (queueList c) (os.map some) = .ok (heap', queueList (c ++ os)) ∧
      Linked heap' (c ++ os) := by
  intro os
  induction os with
  | nil =>
    intro c heap hc _ _
    exact ⟨heap, by simp [addAll], by simpa using hc⟩
  | cons o rest ih =>
    intro c heap hc hnd hfresh
    have hnd1 : (c ++ [o] ++ rest).Nodup := by simpa using hnd
    have hcnd : (c ++ [o]).Nodup := (List.nodup_append.mp hnd1).1
    have hoc : o ∉ c := by
      intro h
      have := (List.nodup_append.mp hcnd).2.2 h (by simp)
      exact this
    obtain ⟨heap1, hadd, hl1, hframe⟩ := add_linked hc (List.nodup_append.mp hcnd).1 hoc
      (hfresh o (by simp))
    obtain ⟨heap', hall, hl'⟩ := ih (c ++ [o]) heap1 hl1 hnd1 (fun a ha => by
      have hac : a ∉ c := by
        intro h
        exact (List.nodup_append.mp hnd).2.2 h (List.mem_cons_of_mem _ ha)
      rw [hframe a hac]
      exact hfresh a (List.mem_cons_of_mem _ ha))
    refine ⟨heap', ?_, by simpa using hl'⟩
    simp only [List.map_cons, addAll]
    rw [hadd]
    simp only [ok_bind]
    rw [hall]
    simp

/-- The loop of `Values` along a chain. -/
theorem valuesLoop_linked {heap : List order} : ∀ (c : List Nat) (pre : List Ptr) (fuel : Nat),
    Linked heap c → c.length < fuel →
    valuesLoop heap fuel (pre ++ List.replicate c.length none) pre.length c.head? =
      .ok (pre ++ c.map some) := by
  intro c
  induction c with
  | nil =>
    intro pre fuel _ hfuel
    obtain ⟨f, rfl⟩ : ∃ f, fuel = f + 1 := ⟨fuel - 1, by simp at hfuel; omega⟩
    simp [valuesLoop]
  | cons a rest ih =>
    intro pre fuel hc hfuel
    obtain ⟨f, rfl⟩ : ∃ f, fuel = f + 1 := ⟨fuel - 1, by omega⟩
    obtain ⟨x, hx, hxn, -⟩ := linked_head hc
    have hlen : pre.length < (pre ++ List.replicate (a :: rest).length none).length := by
      simp
    unfold valuesLoop
    simp only [List.head?_cons, reduceCtorEq, if_false]
    rw [if_pos hlen, deref_some hx]
    simp only [ok_bind]
    have hset : (pre ++ List.replicate (a :: rest).length (none : Ptr)).set pre.length (some a) =
        (pre ++ [some a]) ++ List.replicate rest.length none := by
      simp [List.replicate_succ, List.set_append]
    rw [hset, hxn]
    have := ih (pre ++ [some a]) f (linked_tail hc) (by simp at hfuel; omega)
    simp only [List.length_append, List.length_singleton] at this
    rw [this]
    simp

/-- `Values` of the queue of a chain. -/
theorem values_linked {heap : List order} {c : List Nat} {fuel : Nat} (hc : Linked heap c)
    (hfuel : c.length < fuel) : (queueList c).Values fuel heap = .ok (c.map some) := by
  unfold orderList.Values
  have hsz : ¬ (queueList c).size < 0 := by simp [queueList]
  rw [if_neg hsz]
  have := valuesLoop_linked c [] fuel hc hfuel
  simpa [queueList] using this

/-- `remove(0)` takes the first order off the queue of a chain, and leaves every
order as it is. -/
theorem remove_linked {heap : List order} {c : List Nat} (hc : Linked heap c) (hnd : c.Nodup) :
    orderList.remove heap (queueList c) 0 = .ok (heap, queueList c.tail) := by
  cases c with
  | nil => rfl
  | cons a rest =>
    cases rest with
    | nil => rfl
    | cons b rest =>
      obtain ⟨⟨x, hx, hxn, hxp⟩, hc'⟩ := hc
      obtain ⟨y, hy, -, hyp⟩ := linked_head hc'
      obtain ⟨la, hla⟩ : ∃ la, (b :: rest).getLast? = some la :=
        ⟨_, List.getLast?_eq_getLast _ (by simp)⟩
      have hlamem : la ∈ b :: rest := List.mem_of_getLast?_eq_some hla
      have hala : a ≠ la := fun e => (List.nodup_cons.mp hnd).1 (e ▸ hlamem)
      have hlast : (a :: b :: rest).getLast? = some la := by
        rw [List.getLast?_cons_cons]; exact hla
      have hwr : (queueList (a :: b :: rest)).withinRange 0 = true := by
        simp [orderList.withinRange, queueList]
        omega
      have hs1 : (queueList (a :: b :: rest)).size ≠ 1 := by
        simp [queueList]
        omega
      have hdir : ¬ ((queueList (a :: b :: rest)).size - 0 < 0) := by
        simp [queueList]
        omega
      unfold orderList.remove
      rw [hwr]
      simp only [Bool.not_true, Bool.false_eq_true, if_false]
      rw [if_neg hs1, if_neg hdir]
      simp only [Int.toNat_zero, walkNext, ok_bind]
      have hy' : ({ y with prev := none } : order) = y := by
        cases y; simp only at hyp; subst hyp; rfl
      simp only [orderList.unlink, queueList, List.head?_cons, if_true, deref_some hx, ok_bind,
        pure_ok, hxn, hlast, Option.some.injEq, hala, if_false, hxp, ne_eq, not_true_eq_false,
        reduceCtorEq, not_false_eq_true, deref_some hy, hy', store_same hy, List.tail_cons,
        List.length_cons, List.getLast?_cons_cons, hla]
      congr 2
      push_cast
      rw [add_sub_cancel_right]

/-- Calls of `remove(0)` on the queue of a chain. -/
theorem removeFront_linked {heap : List order} : ∀ (k : Nat) (c : List Nat),
    Linked heap c → c.Nodup →
    removeFront k heap (queueList c) = .ok (heap, queueList (c.drop k)) := by
  intro k
  induction k with
  | zero => intro c _ _; rfl
  | succ k ih =>
    intro c hc hnd
    simp only [removeFront]
    rw [remove_linked hc hnd]
    simp only [ok_bind]
    have hct : Linked heap c.tail := by
      cases c with
      | nil => trivial
      | cons a rest => exact linked_tail hc
    have hndt : c.tail.Nodup := by
      cases c with
      | nil => exact List.nodup_nil
      | cons a rest => exact (List.nodup_cons.mp hnd).2
    rw [ih c.tail hct hndt]
    cases c with
    | nil => simp
    | cons a rest => rfl

/-- `remove(0)` on an empty list changes nothing. -/
theorem remove_empty (heap : List order) (list : orderList) (h : list.Empty = true) :
    orderList.remove heap list 0 = .ok (heap, list) := by
  have hs : list.size = 0 := by simpa [orderList.Empty] using h
  simp [orderList.remove, orderList.withinRange, hs]

/-- C21: the queue is first-in first-out.  For fresh orders at the addresses
`os`, appended by `add` in this order to an empty list, `Values()` returns
these orders in this order and `Size()` is their number; after `k` calls of
`remove(0)`, `Values()` returns the orders from the `k`-th on and `Size()` is
the number of those that are left, for every `k` (so also for `k` up to the
number of orders); and `remove(0)` on an empty list changes neither the list
nor any order.  `Values` returns with any fuel above the length of the
queue. -/
theorem queue_is_fifo (heap : List order) (os : List Nat) (hf : FreshOrders heap os) :
    ∃ heap' list', addAll heap ⟨none, none, 0⟩ (os.map some) = .ok (heap', list') ∧
      (∀ fuel, os.length < fuel → list'.Values fuel heap' = .ok (os.map some)) ∧
      list'.Size = (os.length : Int) ∧
      (∀ k, ∃ heap'' list'', removeFront k heap' list' = .ok (heap'', list'') ∧
        (∀ fuel, os.length - k < fuel →
          list''.Values fuel heap'' = .ok ((os.drop k).map some)) ∧
        list''.Size = ((os.length - k : Nat) : Int)) ∧
      ∀ (h : List order) (l : orderList), l.Empty = true →
        orderList.remove h l 0 = .ok (h, l) := by
  obtain ⟨hnd, hfresh⟩ := hf
  obtain ⟨heap', hall, hl⟩ := addAll_linked os [] heap trivial (by simpa using hnd) hfresh
  simp only [List.nil_append] at hall hl
  refine ⟨heap', queueList os, hall, fun fuel hfuel => values_linked hl hfuel, rfl, ?_,
    remove_empty⟩
  intro k
  refine ⟨heap', queueList (os.drop k), removeFront_linked k os hl hnd, ?_, ?_⟩
  · intro fuel hfuel
    exact values_linked
      (by
        clear hall hfuel
        induction k generalizing os with
        | zero => simpa using hl
        | succ k ih =>
          cases os with
          | nil => trivial
          | cons a rest =>
            exact ih rest (List.nodup_cons.mp hnd).2
              (fun x hx => hfresh x (List.mem_cons_of_mem _ hx)) (linked_tail hl))
      (by rw [List.length_drop]; exact hfuel)
  · simp [orderList.Size, queueList, List.length_drop]

/-- C21 on three fresh orders, at the addresses 0, 1 and 2. -/
theorem queue_is_fifo_witness :
    FreshOrders ordersABC [0, 1, 2] ∧
    ∃ heap' list', addAll ordersABC ⟨none, none, 0⟩ ([0, 1, 2].map some) = .ok (heap', list') ∧
      (∀ fuel, [0, 1, 2].length < fuel →
        list'.Values fuel heap' = .ok ([0, 1, 2].map some)) ∧
      list'.Size = (([0, 1, 2] : List Nat).length : Int) ∧
      (∀ k, ∃ heap'' list'', removeFront k heap' list' = .ok (heap'', list'') ∧
        (∀ fuel, [0, 1, 2].length - k < fuel →
          list''.Values fuel heap'' = .ok (([0, 1, 2].drop k).map some)) ∧
        list''.Size = (([0, 1, 2].length - k : Nat) : Int)) ∧
      ∀ (h : List order) (l : orderList), l.Empty = true →
        orderList.remove h l 0 = .ok (h, l) :=
  ⟨by decide, queue_is_fifo ordersABC [0, 1, 2] (by decide)⟩

end Orderbook
